import Mathlib

/-!
# Verification development for the OS exercises repository

Shallow embedding of

* `Exercises/ex4/PhysicalMemory.cpp`, `Exercises/ex4/VirtualMemory.cpp`,
  `ex4/MemoryConstants.h` (namespace `VM`), and
* `Exercises/ex2/uthreads.cpp`, `Exercises/ex2/Uthread.h` (namespace `UThreads`).

Conventions of the embedding.

* `word_t` (C `int`) is `Int`; `uint64_t` is `Nat`; the conversion of a signed
  value to `uint64_t` is `toU64` (reduction modulo `2 ^ 64`).
* A C `assert` that fails, or an access outside a container, aborts the run:
  the physical-memory operations live in `PM = StateT PhysMem Option`, where
  `none` is the aborted run.
* The recursive searches of the page-table tree count the levels that are
  left (`rem`) instead of the levels already descended (`depth`):
  `rem = bound - depth`, so the source test `depth == bound` is `rem = 0`.
-/

namespace VM

/-- The three compile-time constants of `MemoryConstants.h`. -/
structure Config where
  OFFSET_WIDTH : Nat
  PHYSICAL_ADDRESS_WIDTH : Nat
  VIRTUAL_ADDRESS_WIDTH : Nat
deriving DecidableEq, Repr

/-- `#ifdef TEST_CONSTANTS` block. -/
def TEST_CONSTANTS : Config := ⟨1, 4, 5⟩

/-- `#elif NORMAL_CONSTANTS` block. -/
def NORMAL_CONSTANTS : Config := ⟨4, 10, 20⟩

/-- `#elif OFFSET_DIFFERENT_FROM_INDEX` block. -/
def OFFSET_DIFFERENT_FROM_INDEX : Config := ⟨2, 5, 7⟩

/-- `#elif SINGLE_TABLE_CONSTANTS` block. -/
def SINGLE_TABLE_CONSTANTS : Config := ⟨5, 6, 10⟩

/-- `#elif UNREACHABLE_FRAMES_CONSTANTS` block. -/
def UNREACHABLE_FRAMES_CONSTANTS : Config := ⟨3, 9, 6⟩

/-- `#elif NO_EVICTION_CONSTANTS` block. -/
def NO_EVICTION_CONSTANTS : Config := ⟨5, 5, 5⟩

/-- `#define PAGE_SIZE (1LL << OFFSET_WIDTH)`. -/
def PAGE_SIZE (c : Config) : Nat := 1 <<< c.OFFSET_WIDTH

/-- `#define RAM_SIZE (1LL << PHYSICAL_ADDRESS_WIDTH)`. -/
def RAM_SIZE (c : Config) : Nat := 1 <<< c.PHYSICAL_ADDRESS_WIDTH

/-- `#define VIRTUAL_MEMORY_SIZE (1LL << VIRTUAL_ADDRESS_WIDTH)`. -/
def VIRTUAL_MEMORY_SIZE (c : Config) : Nat := 1 <<< c.VIRTUAL_ADDRESS_WIDTH

/-- `#define NUM_FRAMES (RAM_SIZE / PAGE_SIZE)`. -/
def NUM_FRAMES (c : Config) : Nat := RAM_SIZE c / PAGE_SIZE c

/-- `#define NUM_PAGES (VIRTUAL_MEMORY_SIZE / PAGE_SIZE)`. -/
def NUM_PAGES (c : Config) : Nat := VIRTUAL_MEMORY_SIZE c / PAGE_SIZE c

/-- `#define TABLES_DEPTH CEIL((VIRTUAL_ADDRESS_WIDTH - OFFSET_WIDTH) / (double)OFFSET_WIDTH)`
with `CEIL(x) = (x - (int)x == 0 ? (int)x : (int)x + 1)`; the quotient is
taken for `0 < OFFSET_WIDTH ≤ VIRTUAL_ADDRESS_WIDTH`, as in every block of the
header. -/
def TABLES_DEPTH (c : Config) : Nat :=
  let q := c.VIRTUAL_ADDRESS_WIDTH - c.OFFSET_WIDTH
  if q % c.OFFSET_WIDTH = 0 then q / c.OFFSET_WIDTH else q / c.OFFSET_WIDTH + 1

/-- Conversion of a signed integer to `uint64_t`. -/
def toU64 (x : Int) : Nat := (x % (2 : Int) ^ 64).toNat

/-- `typedef std::vector<word_t> page_t;` -/
abbrev page_t := List Int

/-- The two globals of `PhysicalMemory.cpp`: `RAM` and `swapFile` (the
unordered map is an association list with at most one entry per key). -/
structure PhysMem where
  RAM : List page_t
  swapFile : List (Nat × page_t)
deriving DecidableEq, Repr

/-- The state of the program before any call: both globals empty. -/
def PhysMem.start : PhysMem := ⟨[], []⟩

/-- Computations over the physical memory that may abort. -/
abbrev PM := StateT PhysMem Option

/-- `swapFile.find(key)`. -/
def swapFind (sw : List (Nat × page_t)) (key : Nat) : Option page_t :=
  (sw.find? (fun e => e.1 == key)).map Prod.snd

/-- `swapFile.erase(key)`. -/
def swapErase (sw : List (Nat × page_t)) (key : Nat) : List (Nat × page_t) :=
  sw.filter (fun e => !(e.1 == key))

/-- `swapFile[key] = page`. -/
def swapInsert (sw : List (Nat × page_t)) (key : Nat) (page : page_t) : List (Nat × page_t) :=
  (key, page) :: swapErase sw key

/-- The function `initialize()` of `PhysicalMemory.cpp`:
`RAM.resize(NUM_FRAMES, page_t(PAGE_SIZE))`, called on an empty `RAM` only. -/
def ramInit (c : Config) (m : PhysMem) : PhysMem :=
  { m with RAM := List.replicate (NUM_FRAMES c) (List.replicate (PAGE_SIZE c) 0) }

/-- The lazy set-up `if (RAM.empty()) ...` that opens every operation. -/
def ensureInit (c : Config) (m : PhysMem) : PhysMem :=
  if m.RAM.isEmpty then ramInit c m else m

/-- `RAM[physicalAddress / PAGE_SIZE][physicalAddress % PAGE_SIZE]`. -/
def ramGet (c : Config) (ram : List page_t) (physicalAddress : Nat) : Option Int :=
  match ram[physicalAddress / PAGE_SIZE c]? with
  | some page => page[physicalAddress % PAGE_SIZE c]?
  | none => none

/-- `RAM[physicalAddress / PAGE_SIZE][physicalAddress % PAGE_SIZE] = value`. -/
def ramSet (c : Config) (ram : List page_t) (physicalAddress : Nat) (value : Int) :
    Option (List page_t) :=
  match ram[physicalAddress / PAGE_SIZE c]? with
  | some page =>
    if physicalAddress % PAGE_SIZE c < page.length then
      some (ram.set (physicalAddress / PAGE_SIZE c) (page.set (physicalAddress % PAGE_SIZE c) value))
    else none
  | none => none

/-- `void PMread(uint64_t physicalAddress, word_t* value)`: the result is the
word stored in `*value`. -/
def PMread (c : Config) (physicalAddress : Nat) : PM Int := fun m =>
  let m := ensureInit c m
  if physicalAddress < RAM_SIZE c then
    match ramGet c m.RAM physicalAddress with
    | some v => some (v, m)
    | none => none
  else none

/-- `void PMwrite(uint64_t physicalAddress, word_t value)`. -/
def PMwrite (c : Config) (physicalAddress : Nat) (value : Int) : PM Unit := fun m =>
  let m := ensureInit c m
  if physicalAddress < RAM_SIZE c then
    match ramSet c m.RAM physicalAddress value with
    | some ram => some ((), { m with RAM := ram })
    | none => none
  else none

/-- `void PMevict(uint64_t frameIndex, uint64_t evictedPageIndex)`. -/
def PMevict (c : Config) (frameIndex evictedPageIndex : Nat) : PM Unit := fun m =>
  let m := ensureInit c m
  if (swapFind m.swapFile evictedPageIndex).isNone ∧ frameIndex < NUM_FRAMES c
      ∧ evictedPageIndex < NUM_PAGES c then
    match m.RAM[frameIndex]? with
    | some page => some ((), { m with swapFile := swapInsert m.swapFile evictedPageIndex page })
    | none => none
  else none

/-- `void PMrestore(uint64_t frameIndex, uint64_t restoredPageIndex)`. -/
def PMrestore (c : Config) (frameIndex restoredPageIndex : Nat) : PM Unit := fun m =>
  let m := ensureInit c m
  if frameIndex < NUM_FRAMES c then
    match swapFind m.swapFile restoredPageIndex with
    | none => some ((), m)
    | some page =>
      if frameIndex < m.RAM.length then
        some ((), { RAM := m.RAM.set frameIndex page,
                    swapFile := swapErase m.swapFile restoredPageIndex })
      else none
  else none

/-- `void clearFrame(word_t frameIndex)`: the loop from index `i`, with `n`
iterations left. -/
def clearFrameLoop (c : Config) (frameIndex : Int) : Nat → Nat → PM Unit
  | 0, _ => pure ()
  | n + 1, i => do
    PMwrite c (toU64 (frameIndex * (PAGE_SIZE c : Int) + (i : Int))) 0
    clearFrameLoop c frameIndex n (i + 1)

/-- `void clearFrame(word_t frameIndex)`. -/
def clearFrame (c : Config) (frameIndex : Int) : PM Unit :=
  clearFrameLoop c frameIndex (PAGE_SIZE c) 0

/-- The out-parameters `*emptyFrame` and `*emptyFrameParentPointer` of
`find_empty_frame_dfs`. -/
structure EmptySearch where
  emptyFrame : Int
  emptyFrameParentPointer : Nat
deriving DecidableEq, Repr

/-- The `for` loop of `find_empty_frame_dfs` from index `i` with `n` iterations
left, followed by the assignment after the loop; `recurse` is the recursive
call one level down. -/
def find_empty_frame_loop (c : Config) (recurse : Int → EmptySearch → PM EmptySearch)
    (currFrame currPathFrame : Int) : Nat → Nat → Bool → EmptySearch → PM EmptySearch
  | 0, _, doNotChange, st =>
    if !doNotChange && currFrame != currPathFrame then
      pure { st with emptyFrame := currFrame }
    else pure st
  | n + 1, i, doNotChange, st => do
    let frame ← PMread c (toU64 (currFrame * (PAGE_SIZE c : Int) + (i : Int)))
    let (doNotChange, st) ←
      if frame != 0 then do
        let st ← recurse frame
          { st with emptyFrameParentPointer := toU64 (currFrame * (PAGE_SIZE c : Int) + (i : Int)) }
        pure (true, st)
      else pure (doNotChange, st)
    if st.emptyFrame != 0 && st.emptyFrame != currPathFrame then pure st
    else find_empty_frame_loop c recurse currFrame currPathFrame n (i + 1) doNotChange st

/-- `void find_empty_frame_dfs(currFrame, emptyFrame, currPathFrame,
emptyFrameParentPointer, depth)` with `rem = TABLES_DEPTH - depth`. -/
def find_empty_frame_dfs (c : Config) (currPathFrame : Int) :
    Nat → Int → EmptySearch → PM EmptySearch
  | 0, _, st => pure st
  | rem + 1, currFrame, st =>
    if st.emptyFrame != 0 || currFrame ≥ (NUM_FRAMES c : Int) then pure st
    else
      find_empty_frame_loop c (find_empty_frame_dfs c currPathFrame rem)
        currFrame currPathFrame (PAGE_SIZE c) 0 false st

/-- The `for` loop of `findMaxFrameNum` from index `i` with `n` iterations
left. -/
def findMaxFrameNumLoop (c : Config) (recurse : Int → Int → PM Int) (currFrame : Int) :
    Nat → Nat → Int → PM Int
  | 0, _, maxFrameNum => pure maxFrameNum
  | n + 1, i, maxFrameNum => do
    let frame ← PMread c (toU64 (currFrame * (PAGE_SIZE c : Int) + (i : Int)))
    let maxFrameNum ← if frame != 0 then recurse frame maxFrameNum else pure maxFrameNum
    findMaxFrameNumLoop c recurse currFrame n (i + 1) maxFrameNum

/-- `void findMaxFrameNum(currFrame, maxFrameNum, depth)` with
`rem = TABLES_DEPTH + 1 - depth`; the result is the final `*maxFrameNum`. -/
def findMaxFrameNum (c : Config) : Nat → Int → Int → PM Int
  | 0, _, maxFrameNum => pure maxFrameNum
  | rem + 1, currFrame, maxFrameNum =>
    if currFrame ≥ (NUM_FRAMES c : Int) || maxFrameNum + 1 == (NUM_FRAMES c : Int) then
      pure maxFrameNum
    else
      findMaxFrameNumLoop c (findMaxFrameNum c rem) currFrame (PAGE_SIZE c) 0
        (if currFrame > maxFrameNum then currFrame else maxFrameNum)

/-- The out-parameters `*maxFrame`, `*maxFrameParentPointer`, `*maxVal` and
`*evictedPage` of `findAndEvictFrame`. -/
structure EvictSearch where
  maxFrame : Int
  maxFrameParentPointer : Nat
  maxVal : Nat
  evictedPage : Nat
deriving DecidableEq, Repr

/-- The block `if (depth + 1 == TABLES_DEPTH) { ... }` of `findAndEvictFrame`
up to its `return`: the distance is taken between `pageSwappedIn` and
`(uint64_t) frame`, in `uint64_t` arithmetic. -/
def evictCandidate (c : Config) (pageSwappedIn : Nat) (currFrame frame evicted : Int) (i : Nat)
    (st : EvictSearch) : EvictSearch :=
  let diff := if pageSwappedIn < toU64 frame then toU64 frame - pageSwappedIn
              else pageSwappedIn - toU64 frame
  let other := (NUM_PAGES c + 2 ^ 64 - diff) % 2 ^ 64
  let min := if diff < other then diff else other
  if st.maxVal < min then
    { maxVal := min, maxFrame := frame,
      maxFrameParentPointer := toU64 (currFrame * (PAGE_SIZE c : Int) + (i : Int)),
      evictedPage := toU64 evicted }
  else st

/-- The `for` loop of `findAndEvictFrame` from index `i` with `n` iterations
left; `leaf` is the test `depth + 1 == TABLES_DEPTH` and `recurse` the
recursive call one level down. -/
def findAndEvictFrameLoop (c : Config) (pageSwappedIn : Nat) (leaf : Bool)
    (recurse : Int → Int → EvictSearch → PM EvictSearch) (currFrame : Int) :
    Nat → Nat → Int → EvictSearch → PM EvictSearch
  | 0, _, _, st => pure st
  | n + 1, i, evicted, st => do
    let frame ← PMread c (toU64 (currFrame * (PAGE_SIZE c : Int) + (i : Int)))
    if frame != 0 then
      let evicted := evicted * (2 : Int) ^ c.OFFSET_WIDTH + (i : Int)
      if leaf then
        pure (evictCandidate c pageSwappedIn currFrame frame evicted i st)
      else do
        let st ← recurse frame evicted st
        let evicted := evicted / (2 : Int) ^ c.OFFSET_WIDTH
        findAndEvictFrameLoop c pageSwappedIn leaf recurse currFrame n (i + 1) evicted st
    else
      findAndEvictFrameLoop c pageSwappedIn leaf recurse currFrame n (i + 1) evicted st

/-- `void findAndEvictFrame(currFrame, pageSwappedIn, maxFrame,
maxFrameParentPointer, maxVal, depth, evictedPage, evicted)` with
`rem = TABLES_DEPTH - depth`. The source has no exit for `depth ≥ TABLES_DEPTH`
(`rem = 0`), which no call from `find_unused_frame` under
`getPhysicalAddress` reaches since there `TABLES_DEPTH ≥ 1`; that case is
the aborted run. -/
def findAndEvictFrame (c : Config) (pageSwappedIn : Nat) :
    Nat → Int → Int → EvictSearch → PM EvictSearch
  | 0, _, _, _ => failure
  | rem + 1, currFrame, evicted, st =>
    findAndEvictFrameLoop c pageSwappedIn (rem == 0)
      (findAndEvictFrame c pageSwappedIn rem) currFrame (PAGE_SIZE c) 0 evicted st

/-- `word_t find_unused_frame(uint64_t virtualAddress, word_t untouchableFrame)`. -/
def find_unused_frame (c : Config) (virtualAddress : Nat) (untouchableFrame : Int) : PM Int := do
  let es ← find_empty_frame_dfs c untouchableFrame (TABLES_DEPTH c) 0 ⟨0, 0⟩
  if es.emptyFrame != 0 then
    PMwrite c es.emptyFrameParentPointer 0
    pure es.emptyFrame
  else
    let maxFrameNum ← findMaxFrameNum c (TABLES_DEPTH c + 1) 0 0
    if maxFrameNum + 1 < (NUM_FRAMES c : Int) then
      pure (maxFrameNum + 1)
    else
      let pageSwappedIn := virtualAddress >>> c.OFFSET_WIDTH
      let ev ← findAndEvictFrame c pageSwappedIn (TABLES_DEPTH c) 0 0 ⟨0, 0, 0, 0⟩
      PMevict c (toU64 ev.maxFrame) ev.evictedPage
      PMwrite c ev.maxFrameParentPointer 0
      pure ev.maxFrame

/-- The `for` loop of `getPhysicalAddress` from level `i` with `n` iterations
left; the result is the final `(currFrame, useNewFrame)`. -/
def getPhysicalAddressLoop (c : Config) (virtualAddress : Nat) :
    Nat → Nat → Int → Bool → PM (Int × Bool)
  | 0, _, currFrame, useNewFrame => pure (currFrame, useNewFrame)
  | n + 1, i, currFrame, useNewFrame => do
    let shiftAddressBy := c.OFFSET_WIDTH * (TABLES_DEPTH c - i)
    let address := (virtualAddress >>> shiftAddressBy) &&& (PAGE_SIZE c - 1)
    let nextFrame ← PMread c (toU64 (currFrame * (PAGE_SIZE c : Int) + (address : Int)))
    if nextFrame == 0 then
      let nextFrame ← find_unused_frame c virtualAddress currFrame
      if i + 1 < TABLES_DEPTH c then clearFrame c nextFrame
      PMwrite c (toU64 (currFrame * (PAGE_SIZE c : Int) + (address : Int))) nextFrame
      getPhysicalAddressLoop c virtualAddress n (i + 1) nextFrame true
    else
      getPhysicalAddressLoop c virtualAddress n (i + 1) nextFrame useNewFrame

/-- `uint64_t getPhysicalAddress(uint64_t virtualAddress)`. -/
def getPhysicalAddress (c : Config) (virtualAddress : Nat) : PM Nat := do
  let (currFrame, useNewFrame) ← getPhysicalAddressLoop c virtualAddress (TABLES_DEPTH c) 0 0 false
  if useNewFrame then
    PMrestore c (toU64 currFrame) (virtualAddress >>> c.OFFSET_WIDTH)
  pure (toU64 (currFrame * (PAGE_SIZE c : Int) + ((virtualAddress &&& (PAGE_SIZE c - 1) : Nat) : Int)))

/-- `void VMinitialize()`. -/
def VMinitialize (c : Config) : PM Unit := clearFrame c 0

/-- `int VMread(uint64_t virtualAddress, word_t *value)`: `value` is the
content of `*value` before the call, the result is the returned `int` and the
content of `*value` after the call. -/
def VMread (c : Config) (virtualAddress : Nat) (value : Int) : PM (Int × Int) :=
  if virtualAddress ≥ VIRTUAL_MEMORY_SIZE c then pure (0, value)
  else do
    let address ← getPhysicalAddress c virtualAddress
    let value ← PMread c address
    pure (1, value)

/-- `int VMwrite(uint64_t virtualAddress, word_t value)`. -/
def VMwrite (c : Config) (virtualAddress : Nat) (value : Int) : PM Int :=
  if virtualAddress ≥ VIRTUAL_MEMORY_SIZE c then pure 0
  else do
    let address ← getPhysicalAddress c virtualAddress
    PMwrite c address value
    pure 1

/-! ### Notions used to state the properties of the virtual memory -/

/-- The read-only part of the walk of `getPhysicalAddress`: the frame that the
page-table tree maps `page` to, following `n` more levels from level `i` and
frame `currFrame`; `none` when an entry on the way is zero (or unreadable). -/
def pageFrame (c : Config) (ram : List page_t) (page : Nat) : Nat → Nat → Int → Option Int
  | 0, _, currFrame => some currFrame
  | n + 1, i, currFrame =>
    let address := (page >>> (c.OFFSET_WIDTH * (TABLES_DEPTH c - 1 - i))) &&& (PAGE_SIZE c - 1)
    match ramGet c ram (toU64 (currFrame * (PAGE_SIZE c : Int) + (address : Int))) with
    | some nextFrame => if nextFrame == 0 then none else pageFrame c ram page n (i + 1) nextFrame
    | none => none

/-- The pages that the page-table tree rooted at frame 0 maps to a frame, in
increasing order, which is the left-to-right depth-first order of the tree. -/
def residentPages (c : Config) (m : PhysMem) : List Nat :=
  (List.range (NUM_PAGES c)).filter
    (fun page => (pageFrame c m.RAM page (TABLES_DEPTH c) 0 0).isSome)

/-- The keys of the swap store. -/
def swappedPages (m : PhysMem) : List Nat := m.swapFile.map Prod.fst

/-- Cyclic distance between two page indices, `min(|p-q|, NUM_PAGES - |p-q|)`. -/
def cyclicDistance (c : Config) (p q : Nat) : Nat :=
  let d := if p < q then q - p else p - q
  min d (NUM_PAGES c - d)

/-- The bundled test `SimpleTest.cpp`: the write loop from index `i` with `n`
iterations left; the result lists the values returned by `VMwrite`. -/
def simpleTestWrites (c : Config) : Nat → Nat → PM (List Int)
  | 0, _ => pure []
  | n + 1, i => do
    let r ← VMwrite c (5 * i * PAGE_SIZE c) (i : Int)
    let rs ← simpleTestWrites c n (i + 1)
    pure (r :: rs)

/-- The bundled test `SimpleTest.cpp`: the read loop from index `i` with `n`
iterations left; `garbage` is the content of the uninitialised local `value`,
the result lists what `VMread` returned and the content of `value` that the
`assert` then inspects. -/
def simpleTestReads (c : Config) (garbage : Int) : Nat → Nat → PM (List (Int × Int))
  | 0, _ => pure []
  | n + 1, i => do
    let r ← VMread c (5 * i * PAGE_SIZE c) garbage
    let rs ← simpleTestReads c garbage n (i + 1)
    pure (r :: rs)

/-- The function `main` of `SimpleTest.cpp` without its `assert`. -/
def simpleTest (c : Config) (garbage : Int) : PM (List Int × List (Int × Int)) := do
  VMinitialize c
  let ws ← simpleTestWrites c (2 * NUM_FRAMES c) 0
  let rs ← simpleTestReads c garbage (2 * NUM_FRAMES c) 0
  pure (ws, rs)

/-- What a caller of `VMread` whose output word held `garbage` before the call
sees, given what a caller whose output word held 0 sees: the two differ only
when the call returned 0 and left the word alone. -/
def outputAfter (garbage : Int) (r : Int × Int) : Int × Int :=
  if r.1 = 0 then (0, garbage) else r

/-- The walk of the page-table tree as the specification describes it: the
frame reached from `frame` by following `n` table entries from level `i`, the
entry at level `i` being indexed by
`(va >> OFFSET_WIDTH * (TABLES_DEPTH - i)) mod PAGE_SIZE`; `none` when an
entry of the path is absent (zero, or not a word of the RAM). -/
def frameReached (c : Config) (ram : List page_t) (va : Nat) : Nat → Nat → Int → Option Int
  | 0, _, frame => some frame
  | n + 1, i, frame =>
    let index := (va >>> (c.OFFSET_WIDTH * (TABLES_DEPTH c - i))) % PAGE_SIZE c
    match ramGet c ram (toU64 (frame * (PAGE_SIZE c : Int) + (index : Int))) with
    | some entry => if entry = 0 then none else frameReached c ram va n (i + 1) entry
    | none => none

/-- The memory of the small configuration after `VMinitialize(); VMwrite(13, 7);`:
the path of page 6 goes through the frames 1, 2, 3 to frame 4. -/
def mappedOnce : PhysMem :=
  ⟨[[1, 0], [0, 2], [0, 3], [4, 0], [0, 7], [0, 0], [0, 0], [0, 0]], []⟩

/-- The value of `*emptyFrame` is sound for the RAM `ram` and the untouchable
frame `u`: it is 0, or a frame other than `u` whose words are all 0. -/
def SoundEmpty (c : Config) (ram : List page_t) (u : Int) (st : EmptySearch) : Prop :=
  st.emptyFrame = 0 ∨
    (st.emptyFrame ≠ u ∧
      ∀ i, i < PAGE_SIZE c →
        ramGet c ram (toU64 (st.emptyFrame * (PAGE_SIZE c : Int) + (i : Int))) = some 0)

/-- The memory of the small configuration after
`VMinitialize(); VMwrite(24, 100); VMwrite(0, 55);`: the second write has
evicted page 12 from frame 4, and the table in frame 3 that pointed to it is
left with all entries zero. -/
def emptyTableLeft : PhysMem :=
  ⟨[[5, 1], [0, 2], [3, 0], [0, 0], [55, 0], [6, 0], [7, 0], [4, 0]], [(12, [100, 0])]⟩

/-! ### The page-table tree as lists in depth-first order -/

end VM

namespace UThreads

/-!
## The user-level thread library (`uthreads.cpp`, `Uthread.h`)

A `Uthread*` is represented by the index of the slot of `uthreads_array` that
holds the record it points to; following a pointer whose slot is empty (a
null or dangling pointer) is undefined behaviour, `Halt.undefined`. The saved
execution context, the stack, the signal mask and the interval timer are not
part of the state: an operation is a transition of the library's globals, made
by the thread that is running when it is called, and `scheduler` is the
transition up to its `siglongjmp`. The calls of `block_unblock`, which only
change the signal mask, are left out, and `sigprocmask`, `sigaction` and
`setitimer` are taken to succeed. `MAX_THREAD_NUM` comes from `uthreads.h` and
is a parameter. C `int` counters are `Int`.
-/

/-- `enum state { READY, RUNNING, BLOCKED, SLEEP }`. -/
inductive state
  | READY
  | RUNNING
  | BLOCKED
  | SLEEP
deriving DecidableEq, Repr

/-- The data members of `class Uthread` (without stack and `env`). -/
structure Uthread where
  tid : Int
  quantum : Int
  uthread_state : state
  is_sleeping : Bool
  num_q_to_sleep : Int
deriving DecidableEq, Repr

/-- The constructor `Uthread(int tid, thread_entry_point entry_point)`. -/
def Uthread.new (tid : Int) : Uthread :=
  { tid := tid, quantum := 0, uthread_state := state.READY, is_sleeping := false,
    num_q_to_sleep := 0 }

/-- The globals of `uthreads.cpp`. -/
structure Lib where
  ready_vector : List Nat
  uthreads_array : List (Option Uthread)
  index_free : List Bool
  uthread_quantum_usecs : Int
  num_of_uthread : Int
  running_thread : Option Nat
  quantums : Int
deriving DecidableEq, Repr

/-- The globals at program start: `index_free[MAX_THREAD_NUM] = {true}` sets
the first element only, the other globals are zero-initialised. -/
def Lib.start (MAX_THREAD_NUM : Nat) : Lib :=
  { ready_vector := [],
    uthreads_array := List.replicate MAX_THREAD_NUM none,
    index_free := (List.range MAX_THREAD_NUM).map (fun i => i == 0),
    uthread_quantum_usecs := -1,
    num_of_uthread := 0,
    running_thread := none,
    quantums := 0 }

/-- How a run of the process ends before an operation completes. -/
inductive Halt
  | exit (code : Int)
  | undefined
deriving DecidableEq, Repr

/-- Transitions of the globals that may end the process. -/
abbrev UT := StateT Lib (Except Halt)

/-- Reading the globals. -/
def getLib : UT Lib := fun s => .ok (s, s)

/-- An assignment to globals. -/
def modifyLib (f : Lib → Lib) : UT Unit := fun s => .ok ((), f s)

/-- The end of the process. -/
def halt {α : Type} (h : Halt) : UT α := fun _ => .error h

/-- Following a `Uthread*`. -/
def deref (p : Nat) : UT Uthread := fun s =>
  match s.uthreads_array[p]? with
  | some (some th) => .ok (th, s)
  | _ => .error Halt.undefined

/-- Assignment through a `Uthread*` (a setter of the record). -/
def modifyThread (p : Nat) (f : Uthread → Uthread) : UT Unit := fun s =>
  match s.uthreads_array[p]? with
  | some (some th) => .ok ((), { s with uthreads_array := s.uthreads_array.set p (some (f th)) })
  | _ => .error Halt.undefined

/-- Reading `index_free[i]`. -/
def getIndexFree (i : Nat) : UT Bool := fun s =>
  match s.index_free[i]? with
  | some b => .ok (b, s)
  | none => .error Halt.undefined

/-- `index_free[i] = b`. -/
def setIndexFree (i : Nat) (b : Bool) : UT Unit := fun s =>
  if i < s.index_free.length then .ok ((), { s with index_free := s.index_free.set i b })
  else .error Halt.undefined

/-- `uthreads_array[i] = t` (`none` is `nullptr`). -/
def setSlot (i : Nat) (t : Option Uthread) : UT Unit := fun s =>
  if i < s.uthreads_array.length then
    .ok ((), { s with uthreads_array := s.uthreads_array.set i t })
  else .error Halt.undefined

/-- `bool invalid_tid(int tid)`. -/
def invalid_tid (MAX_THREAD_NUM : Nat) (tid : Int) : UT Bool :=
  if tid < 0 || tid ≥ (MAX_THREAD_NUM : Int) then pure true
  else getIndexFree tid.toNat

/-- `void set_clock()`: it re-arms the interval timer, which is outside the
state. -/
def set_clock : UT Unit := pure ()

/-- `int uthread_resume(int tid)`. -/
def uthread_resume (MAX_THREAD_NUM : Nat) (tid : Int) : UT Int := do
  if ← invalid_tid MAX_THREAD_NUM tid then
    pure (-1)
  else
    let thread ← deref tid.toNat
    if !thread.is_sleeping then
      if thread.uthread_state == state.BLOCKED || thread.uthread_state == state.SLEEP then
        modifyLib (fun s => { s with ready_vector := s.ready_vector ++ [tid.toNat] })
        modifyThread tid.toNat (fun th => { th with uthread_state := state.READY })
    pure 0

/-- The body of the loop of `update_sleeping_threads` for index `i`. -/
def update_sleeping_thread (MAX_THREAD_NUM : Nat) (i : Nat) : UT Unit := do
  if !(← getIndexFree i) then
    if (← deref i).is_sleeping then
      modifyThread i (fun th => { th with num_q_to_sleep := th.num_q_to_sleep - 1 })
      if (← deref i).num_q_to_sleep == 0 then
        modifyThread i (fun th => { th with is_sleeping := false })
        if (← deref i).uthread_state != state.BLOCKED then
          let _ ← uthread_resume MAX_THREAD_NUM (i : Int)

/-- The loop of `update_sleeping_threads` from index `i` with `n` iterations
left. -/
def update_sleeping_threads_loop (MAX_THREAD_NUM : Nat) : Nat → Nat → UT Unit
  | 0, _ => pure ()
  | n + 1, i => do
    update_sleeping_thread MAX_THREAD_NUM i
    update_sleeping_threads_loop MAX_THREAD_NUM n (i + 1)

/-- `void update_sleeping_threads()`. -/
def update_sleeping_threads (MAX_THREAD_NUM : Nat) : UT Unit :=
  update_sleeping_threads_loop MAX_THREAD_NUM MAX_THREAD_NUM 0

/-- `void scheduler(int)`, entered directly (`sigsetjmp` returns 0), up to the
`siglongjmp` into the dispatched thread. -/
def scheduler (MAX_THREAD_NUM : Nat) : UT Unit := do
  modifyLib (fun s => { s with quantums := s.quantums + 1 })
  update_sleeping_threads MAX_THREAD_NUM
  match (← getLib).running_thread with
  | some p =>
    let st := (← deref p).uthread_state
    if st != state.BLOCKED && st != state.SLEEP then
      modifyThread p (fun th => { th with uthread_state := state.READY })
      modifyLib (fun s => { s with ready_vector := s.ready_vector ++ [p] })
  | none => pure ()
  match (← getLib).ready_vector with
  | [] => halt Halt.undefined
  | p :: rest =>
    modifyLib (fun s => { s with running_thread := some p, ready_vector := rest })
    modifyThread p (fun th => { th with uthread_state := state.RUNNING })
    modifyThread p (fun th => { th with quantum := th.quantum + 1 })

/-- The loop of `uthread_init` that sets `index_free[i] = true`, from index
`i` with `n` iterations left. -/
def index_free_loop : Nat → Nat → UT Unit
  | 0, _ => pure ()
  | n + 1, i => do
    setIndexFree i true
    index_free_loop n (i + 1)

/-- `int uthread_init(int quantum_usecs)` (`sigaction` and `setitimer`
succeed). -/
def uthread_init (MAX_THREAD_NUM : Nat) (quantum_usecs : Int) : UT Int := do
  modifyLib (fun s => { s with quantums := 1 })
  if quantum_usecs ≤ 0 then
    pure (-1)
  else
    let running := Uthread.new 0
    let running := { running with uthread_state := state.RUNNING }
    let running := { running with quantum := running.quantum + 1 }
    modifyLib (fun s => { s with running_thread := some 0 })
    setSlot 0 (some running)
    modifyLib (fun s => { s with uthread_quantum_usecs := quantum_usecs })
    set_clock
    index_free_loop MAX_THREAD_NUM 0
    setIndexFree 0 false
    pure 0

/-- The loop of `min_free_id` from index `i` with `n` iterations left. -/
def min_free_id_loop : Nat → Nat → UT Int
  | 0, _ => pure (-1)
  | n + 1, i => do
    if ← getIndexFree i then
      setIndexFree i false
      pure (i : Int)
    else min_free_id_loop n (i + 1)

/-- `int min_free_id()`. -/
def min_free_id (MAX_THREAD_NUM : Nat) : UT Int :=
  min_free_id_loop (MAX_THREAD_NUM - 1) 1

/-- `int uthread_spawn(thread_entry_point entry_point)`; `entry_point` is
`none` for `nullptr`. -/
def uthread_spawn (MAX_THREAD_NUM : Nat) (entry_point : Option Nat) : UT Int := do
  if entry_point.isNone then
    pure (-1)
  else
    let free_tid ← min_free_id MAX_THREAD_NUM
    if free_tid == -1 then
      pure (-1)
    else
      let new_thread := Uthread.new free_tid
      let tid := new_thread.tid
      setSlot tid.toNat (some new_thread)
      modifyLib (fun s => { s with ready_vector := s.ready_vector ++ [tid.toNat] })
      modifyLib (fun s => { s with num_of_uthread := s.num_of_uthread + 1 })
      pure tid

/-- The loop of `erase_from_ready` over the part of `ready_vector` from the
current index on: after `erase(begin() + i)` the loop goes on with `++i`, so
the element that moved into position `i` is not inspected. `tidOf` follows a
pointer to the `tid` of its record. -/
def erase_from_ready_loop (tidOf : Nat → Option Int) (tid : Int) : List Nat → Option (List Nat)
  | [] => some []
  | p :: rest =>
    match tidOf p with
    | none => none
    | some t =>
      if t == tid then
        match rest with
        | [] => some []
        | q :: rest' => (erase_from_ready_loop tidOf tid rest').map (fun l => q :: l)
      else (erase_from_ready_loop tidOf tid rest).map (fun l => p :: l)

/-- `void erase_from_ready(int tid)`. -/
def erase_from_ready (tid : Int) : UT Unit := fun s =>
  match erase_from_ready_loop
      (fun p => match s.uthreads_array[p]? with
        | some (some th) => some th.tid
        | _ => none) tid s.ready_vector with
  | some l => .ok ((), { s with ready_vector := l })
  | none => .error Halt.undefined

/-- `int uthread_terminate(int tid)`; the result is `none` when the call does
not return to its caller (a thread that terminates itself). -/
def uthread_terminate (MAX_THREAD_NUM : Nat) (tid : Int) : UT (Option Int) := do
  if tid == 0 then
    halt (Halt.exit 0)
  else if ← invalid_tid MAX_THREAD_NUM tid then
    pure (some (-1))
  else
    match (← getLib).running_thread with
    | none => halt Halt.undefined
    | some p =>
      let running_thread_tid := (← deref p).tid
      if running_thread_tid == tid then
        modifyLib (fun s => { s with running_thread := none })
        set_clock
        scheduler MAX_THREAD_NUM
        pure none
      else
        erase_from_ready tid
        setSlot tid.toNat none
        setIndexFree tid.toNat true
        modifyLib (fun s => { s with num_of_uthread := s.num_of_uthread - 1 })
        pure (some 0)

/-- `int uthread_block(int tid)`; when the caller blocks itself the value 0 is
returned once the thread is dispatched again. -/
def uthread_block (MAX_THREAD_NUM : Nat) (tid : Int) : UT Int := do
  if tid == 0 then
    pure (-1)
  else if ← invalid_tid MAX_THREAD_NUM tid then
    pure (-1)
  else
    modifyThread tid.toNat (fun th => { th with uthread_state := state.BLOCKED })
    erase_from_ready tid
    match (← getLib).running_thread with
    | none => halt Halt.undefined
    | some p =>
      if (← deref p).tid == tid then
        set_clock
        scheduler MAX_THREAD_NUM
      pure 0

/-- `int uthread_sleep(int num_quantums)`; the value 0 is returned once the
thread is dispatched again. -/
def uthread_sleep (MAX_THREAD_NUM : Nat) (num_quantums : Int) : UT Int := do
  match (← getLib).running_thread with
  | none => halt Halt.undefined
  | some p =>
    if (← deref p).tid == 0 then
      pure (-1)
    else
      modifyThread p (fun th => { th with uthread_state := state.SLEEP })
      modifyThread p (fun th => { th with is_sleeping := true })
      modifyThread p (fun th => { th with num_q_to_sleep := num_quantums + 1 })
      set_clock
      scheduler MAX_THREAD_NUM
      pure 0

/-- `int uthread_get_tid()`. -/
def uthread_get_tid : UT Int := do
  match (← getLib).running_thread with
  | none => halt Halt.undefined
  | some p => pure (← deref p).tid

/-- `int uthread_get_quantums(int tid)`. -/
def uthread_get_quantums (MAX_THREAD_NUM : Nat) (tid : Int) : UT Int := do
  if ← invalid_tid MAX_THREAD_NUM tid then
    pure (-1)
  else
    pure (← deref tid.toNat).quantum

/-! ### Traces of the library -/

/-- What can happen after `uthread_init`: a call of a public operation by the
running thread, or the expiry of the quantum timer (`SIGVTALRM`). -/
inductive Event
  | spawn (entry_point : Option Nat)
  | terminate (tid : Int)
  | block (tid : Int)
  | resume (tid : Int)
  | sleep (num_quantums : Int)
  | timer
deriving DecidableEq, Repr

/-- The transition of one event. -/
def step (MAX_THREAD_NUM : Nat) : Event → UT Unit
  | Event.spawn entry_point => do let _ ← uthread_spawn MAX_THREAD_NUM entry_point
  | Event.terminate tid => do let _ ← uthread_terminate MAX_THREAD_NUM tid
  | Event.block tid => do let _ ← uthread_block MAX_THREAD_NUM tid
  | Event.resume tid => do let _ ← uthread_resume MAX_THREAD_NUM tid
  | Event.sleep num_quantums => do let _ ← uthread_sleep MAX_THREAD_NUM num_quantums
  | Event.timer => scheduler MAX_THREAD_NUM

/-- The transitions of a list of events, in order. -/
def steps (MAX_THREAD_NUM : Nat) : List Event → UT Unit
  | [] => pure ()
  | e :: es => do
    step MAX_THREAD_NUM e
    steps MAX_THREAD_NUM es

/-- The state after `uthread_init(quantum_usecs)` at program start; `none`
when the call fails or the process ends. -/
def afterInit (MAX_THREAD_NUM : Nat) (quantum_usecs : Int) : Option Lib :=
  match (uthread_init MAX_THREAD_NUM quantum_usecs).run (Lib.start MAX_THREAD_NUM) with
  | .ok (r, s) => if r = 0 then some s else none
  | .error _ => none

/-- The state reached from program start by a successful
`uthread_init(quantum_usecs)` followed by `events`; `none` when the process
ends on the way. -/
def reach (MAX_THREAD_NUM : Nat) (quantum_usecs : Int) (events : List Event) : Option Lib :=
  match afterInit MAX_THREAD_NUM quantum_usecs with
  | some s =>
    match (steps MAX_THREAD_NUM events).run s with
    | .ok (_, s') => some s'
    | .error _ => none
  | none => none

/-- The quanta-run counter of the record in each slot of `uthreads_array`
(`none` for an empty slot). -/
def slotQuanta (s : Lib) : List (Option Int) :=
  s.uthreads_array.map (Option.map Uthread.quantum)

/-- The sum of the quanta-run counters of all existing threads. -/
def sumQuanta (s : Lib) : Int := ((slotQuanta s).map (fun q => q.getD 0)).sum

/-- The IDs of the existing thread records whose state is `st`. -/
def tidsInState (s : Lib) (st : state) : List Int :=
  s.uthreads_array.filterMap
    (fun t => match t with
      | some th => if th.uthread_state == st then some th.tid else none
      | none => none)

/-- The quanta-run counter of the thread that event `e` releases in state `s`:
the counter of thread `tid` when `e` is a call `uthread_terminate(tid)` that
returns 0, and 0 for every other event. -/
def released (MAX_THREAD_NUM : Nat) (s : Lib) : Event → Int
  | Event.terminate tid =>
    match (uthread_terminate MAX_THREAD_NUM tid).run s with
    | .ok (some r, _) => if r = 0 then ((slotQuanta s).getD tid.toNat none).getD 0 else 0
    | _ => 0
  | _ => 0

/-- The sum of the counters released by the events of a run from state `s`. -/
def releasedAlong (MAX_THREAD_NUM : Nat) : List Event → Lib → Int
  | [], _ => 0
  | e :: es, s =>
    match (step MAX_THREAD_NUM e).run s with
    | .ok (_, s') => released MAX_THREAD_NUM s e + releasedAlong MAX_THREAD_NUM es s'
    | .error _ => 0

/-- The sum of the counters released by `events` after a successful
`uthread_init(quantum_usecs)` at program start. -/
def releasedIn (MAX_THREAD_NUM : Nat) (quantum_usecs : Int) (events : List Event) : Int :=
  match afterInit MAX_THREAD_NUM quantum_usecs with
  | some s => releasedAlong MAX_THREAD_NUM events s
  | none => 0

/-! ### The part of the state that the quanta accounting depends on -/

/-- The counters in the slots, the free map and the total-quanta counter. -/
structure View where
  slots : List (Option Int)
  index_free : List Bool
  quantums : Int

/-- The view of a state. -/
def view (s : Lib) : View := ⟨slotQuanta s, s.index_free, s.quantums⟩

/-- A transition that leaves the view unchanged. -/
def Pres {α : Type} (x : UT α) : Prop :=
  ∀ s a s', x s = .ok (a, s') → view s' = view s

/-- The effect of a dispatch: one existing thread and the total gain a quantum. -/
def SchedEffect (v v' : View) : Prop :=
  ∃ (p : Nat) (q : Int), v.slots[p]? = some (some q) ∧
    v' = ⟨v.slots.set p (some (q + 1)), v.index_free, v.quantums + 1⟩

/-- The effect of a successful spawn: a free ID gets a record with counter 0. -/
def SpawnEffect (v v' : View) : Prop :=
  ∃ i : Nat, v.index_free[i]? = some true ∧ i < v.slots.length ∧
    v' = ⟨v.slots.set i (some 0), v.index_free.set i false, v.quantums⟩

/-- The effect of releasing thread `t`. -/
def TermEffect (t : Nat) (v v' : View) : Prop :=
  t < v.slots.length ∧ v' = ⟨v.slots.set t none, v.index_free.set t true, v.quantums⟩

/-- The accounting invariant: the counters of the existing threads and the
released amount `g` add up to the total, no counter is negative, and a free ID
has an empty slot. -/
def Inv (v : View) (g : Int) : Prop :=
  (v.slots.map (fun q => q.getD 0)).sum + g = v.quantums ∧
  (∀ q, some q ∈ v.slots → 0 ≤ q) ∧
  (∀ (i : Nat) (q : Int), v.index_free[i]? = some true → v.slots[i]? ≠ some (some q))

/-- A transition that shifts the amount to add to the counters of the existing
threads by `d`: the invariant goes from `g` to `g + d`. -/
def Shift {α : Type} (x : UT α) (d : Int) : Prop :=
  ∀ s a s' g, x s = .ok (a, s') → Inv (view s) g → Inv (view s') (g + d)

/-- The state with `MAX_THREAD_NUM = 3` in which thread 0 alone exists, runs,
has quanta-run counter 2, and the total-quanta counter is 3. -/
def mainAloneAfterThreeQuanta : Lib :=
  { ready_vector := [],
    uthreads_array := [some { tid := 0, quantum := 2, uthread_state := state.RUNNING,
                              is_sleeping := false, num_q_to_sleep := 0 }, none, none],
    index_free := [false, true, true],
    uthread_quantum_usecs := 1,
    num_of_uthread := 0,
    running_thread := some 0,
    quantums := 3 }

/-! ### Notions used to state the properties of the single operations -/

/-- The record of the main thread right after `uthread_init`. -/
def mainThread : Uthread :=
  { tid := 0, quantum := 1, uthread_state := state.RUNNING, is_sleeping := false,
    num_q_to_sleep := 0 }

/-- The globals right after a successful `uthread_init(quantum_usecs)` at
program start. -/
def initialized (MAX_THREAD_NUM : Nat) (quantum_usecs : Int) : Lib :=
  { ready_vector := [],
    uthreads_array := (List.replicate MAX_THREAD_NUM none).set 0 (some mainThread),
    index_free := (List.replicate MAX_THREAD_NUM true).set 0 false,
    uthread_quantum_usecs := quantum_usecs,
    num_of_uthread := 0,
    running_thread := some 0,
    quantums := 1 }

/-- The list that the loop `index_free[i] = true` of `uthread_init` leaves,
from index `i` with `n` iterations left. -/
def fillTrue : Nat → Nat → List Bool → List Bool
  | 0, _, l => l
  | n + 1, i, l => fillTrue n (i + 1) (l.set i true)

/-- The globals after a successful `uthread_spawn` that took the free ID `i`. -/
def spawned (s : Lib) (i : Nat) : Lib :=
  { s with
    index_free := s.index_free.set i false,
    uthreads_array := s.uthreads_array.set i (some (Uthread.new (i : Int))),
    ready_vector := s.ready_vector ++ [i],
    num_of_uthread := s.num_of_uthread + 1 }

/-- No ID in `[1, MAX_THREAD_NUM)` is free. -/
def noFreeId (MAX_THREAD_NUM : Nat) (s : Lib) : Prop :=
  ∀ i : Nat, 1 ≤ i → i < MAX_THREAD_NUM → s.index_free[i]? = some false

/-- `i` is the smallest ID in `[1, MAX_THREAD_NUM)` that is free. -/
def smallestFreeId (MAX_THREAD_NUM : Nat) (s : Lib) (i : Nat) : Prop :=
  1 ≤ i ∧ i < MAX_THREAD_NUM ∧ s.index_free[i]? = some true ∧
    ∀ j : Nat, 1 ≤ j → j < i → s.index_free[j]? = some false

/-- The globals after `uthread_resume` has moved thread `tid` to `READY`. -/
def resumed (s : Lib) (tid : Nat) (th : Uthread) : Lib :=
  { s with
    ready_vector := s.ready_vector ++ [tid],
    uthreads_array := s.uthreads_array.set tid (some { th with uthread_state := state.READY }) }

/-- A state with `MAX_THREAD_NUM = 3` in which thread 0 runs, thread 1 is
blocked and not sleeping, and ID 2 is free. -/
def oneBlocked : Lib :=
  { ready_vector := [],
    uthreads_array := [some mainThread,
                       some { tid := 1, quantum := 1, uthread_state := state.BLOCKED,
                              is_sleeping := false, num_q_to_sleep := 0 }, none],
    index_free := [false, false, true],
    uthread_quantum_usecs := 1,
    num_of_uthread := 1,
    running_thread := some 0,
    quantums := 3 }

/-- The sleep scenario: after `uthread_init`, thread 1 is spawned with the code
`uthread_sleep(2); flag = 42;`, the first timer expiry dispatches it, it calls
`uthread_sleep(2)` at once, and `expiries` further timer expiries follow. -/
def sleepScenario (expiries : Nat) : List Event :=
  [Event.spawn (some 0), Event.timer, Event.sleep 2] ++ List.replicate expiries Event.timer

/-- The flag of the sleep scenario, initially 0: the assignment `flag = 42`
follows the return of `uthread_sleep(2)`, so it has been executed exactly when
thread 1 has been dispatched a second time. -/
def sleepScenarioFlag (s : Lib) : Int :=
  match s.uthreads_array[1]? with
  | some (some th) => if 2 ≤ th.quantum then 42 else 0
  | _ => 0

/-- The state and the sleeping flag of the record in slot `tid`. -/
def threadStatus (s : Lib) (tid : Nat) : Option (state × Bool) :=
  match s.uthreads_array[tid]? with
  | some (some th) => some (th.uthread_state, th.is_sleeping)
  | _ => none

/-! ### The invariant of the main thread -/

/-- Every record sits in the slot of its own ID, and thread 0 exists with state
`READY` or `RUNNING`. -/
def MainOk (s : Lib) : Prop :=
  (∀ (i : Nat) (th : Uthread), s.uthreads_array[i]? = some (some th) → th.tid = (i : Int)) ∧
  ∃ th : Uthread, s.uthreads_array[0]? = some (some th) ∧
    (th.uthread_state = state.READY ∨ th.uthread_state = state.RUNNING)

/-- A transition that keeps the property `I` of the globals. -/
def Keeps {α : Type} (I : Lib → Prop) (x : UT α) : Prop :=
  ∀ s a s', x s = .ok (a, s') → I s → I s'

/-- The state with `MAX_THREAD_NUM = 3` after init, a spawn and two timer
expiries: thread 0 runs again with quanta-run counter 2, thread 1 waits in the
ready FIFO. -/
def mainRunsAgain : Lib :=
  { ready_vector := [1],
    uthreads_array := [some { tid := 0, quantum := 2, uthread_state := state.RUNNING,
                              is_sleeping := false, num_q_to_sleep := 0 },
                       some { tid := 1, quantum := 1, uthread_state := state.READY,
                              is_sleeping := false, num_q_to_sleep := 0 }, none],
    index_free := [false, false, true],
    uthread_quantum_usecs := 1,
    num_of_uthread := 1,
    running_thread := some 0,
    quantums := 3 }

/-! ### Notions used for the scheduler (claim C19) -/

/-- What a wake-up may do to a record: the ID and the quanta-run counter stay,
and the state stays or goes from `BLOCKED` or `SLEEP` to `READY`. -/
def RecWoke (th th' : Uthread) : Prop :=
  th'.tid = th.tid ∧ th'.quantum = th.quantum ∧
  (th'.uthread_state = th.uthread_state ∨
    ((th.uthread_state = state.BLOCKED ∨ th.uthread_state = state.SLEEP) ∧
      th'.uthread_state = state.READY))

/-- What a wake-up may do to a slot of `uthreads_array`: nothing, or `RecWoke`
on the record it holds. -/
def SlotWoke (a b : Option (Option Uthread)) : Prop :=
  a = b ∨ ∃ th th', a = some (some th) ∧ b = some (some th') ∧ RecWoke th th'

/-- The effect of `update_sleeping_threads` on the globals: the counters, the
running thread and the free map stay, every slot is `SlotWoke`, and the ready
FIFO grows at its tail by threads that were `BLOCKED` or `SLEEP`. -/
def Woke (s s' : Lib) : Prop :=
  s'.quantums = s.quantums ∧ s'.running_thread = s.running_thread ∧
  s'.index_free = s.index_free ∧
  (∀ i : Nat, SlotWoke (s.uthreads_array[i]?) (s'.uthreads_array[i]?)) ∧
  ∃ woken : List Nat, s'.ready_vector = s.ready_vector ++ woken ∧
    ∀ w ∈ woken, ∃ th : Uthread, s.uthreads_array[w]? = some (some th) ∧
      (th.uthread_state = state.BLOCKED ∨ th.uthread_state = state.SLEEP)

/-- Every ID below `MAX_THREAD_NUM` has an entry in the free map, and every
taken one has a record in its slot. -/
def Readable (MAX_THREAD_NUM : Nat) (s : Lib) : Prop :=
  ∀ i : Nat, i < MAX_THREAD_NUM →
    s.index_free[i]? = some true ∨
    (s.index_free[i]? = some false ∧ ∃ th : Uthread, s.uthreads_array[i]? = some (some th))

/-- Total correctness: from a state with `P` the transition `x` returns, and
its result and final state satisfy `Q`. -/
def Tot {α : Type} (P : Lib → Prop) (x : UT α) (Q : α → Lib → Prop) : Prop :=
  ∀ s, P s → ∃ a s', x s = .ok (a, s') ∧ Q a s'

/-- While the wake-up loop handles the taken ID `i`. -/
def WokeAt (s0 : Lib) (i : Nat) (s : Lib) : Prop :=
  Woke s0 s ∧ s.index_free[i]? = some false

/-- The state with `MAX_THREAD_NUM = 3` after init and two spawns: thread 0
runs, the threads 1 and 2 wait in the ready FIFO. -/
def twoSpawned : Lib :=
  { ready_vector := [1, 2],
    uthreads_array := [some mainThread, some (Uthread.new 1), some (Uthread.new 2)],
    index_free := [false, false, false],
    uthread_quantum_usecs := 1,
    num_of_uthread := 2,
    running_thread := some 0,
    quantums := 1 }

/-! ### Notions used for `uthread_terminate` and `uthread_block` (claims C13, C15) -/

/-- The `tid` of the record that the pointer `p` refers to. -/
def tidOf (s : Lib) (p : Nat) : Option Int :=
  match s.uthreads_array[p]? with
  | some (some th) => some th.tid
  | _ => none

/-- Every entry of the ready FIFO points to a record, and at most one entry
points to thread `tid`. -/
def ReadyOnce (s : Lib) (tid : Int) : Prop :=
  (∀ p ∈ s.ready_vector, ∃ t, tidOf s p = some t) ∧
  (s.ready_vector.filter (fun p => tidOf s p == some tid)).length ≤ 1

/-- The ready FIFO without the entries of thread `tid`, in the same order. -/
def readyWithout (s : Lib) (tid : Int) : List Nat :=
  s.ready_vector.filter (fun p => !(tidOf s p == some tid))

/-- The globals after `uthread_terminate(tid)` of a thread that is not the
caller has done all its steps. -/
def terminated (s : Lib) (tid : Int) : Lib :=
  { s with
    ready_vector := readyWithout s tid,
    uthreads_array := s.uthreads_array.set tid.toNat none,
    index_free := s.index_free.set tid.toNat true,
    num_of_uthread := s.num_of_uthread - 1 }

/-- The globals after `uthread_block(tid)` of a thread with record `th` that
is not the caller. -/
def blocked (s : Lib) (tid : Int) (th : Uthread) : Lib :=
  { s with
    uthreads_array :=
      s.uthreads_array.set tid.toNat (some { th with uthread_state := state.BLOCKED }),
    ready_vector := readyWithout s tid }

/-! ### Notions used for the dispatch from the ready FIFO (claim C38) -/

/-- The statements of `scheduler` in front of `ready_vector.front()`: the
total-quanta counter is raised, `update_sleeping_threads` runs, and the
preempted thread goes to the tail of the ready FIFO. -/
def scheduler_enqueue (MAX_THREAD_NUM : Nat) : UT Unit := do
  modifyLib (fun s => { s with quantums := s.quantums + 1 })
  update_sleeping_threads MAX_THREAD_NUM
  match (← getLib).running_thread with
  | some p =>
    let st := (← deref p).uthread_state
    if st != state.BLOCKED && st != state.SLEEP then
      modifyThread p (fun th => { th with uthread_state := state.READY })
      modifyLib (fun s => { s with ready_vector := s.ready_vector ++ [p] })
  | none => pure ()

/-- The statements of `scheduler` from `ready_vector.front()` on: the thread at
the head of the ready FIFO is taken out and dispatched. -/
def scheduler_dispatch : UT Unit := do
  match (← getLib).ready_vector with
  | [] => halt Halt.undefined
  | p :: rest =>
    modifyLib (fun s => { s with running_thread := some p, ready_vector := rest })
    modifyThread p (fun th => { th with uthread_state := state.RUNNING })
    modifyThread p (fun th => { th with quantum := th.quantum + 1 })

/-- Thread 0 is running or queued. -/
def MainQueued (s : Lib) : Prop :=
  s.running_thread = some 0 ∨ 0 ∈ s.ready_vector

/-- The four places where `scheduler` is entered: `SchedulerEntry n s e s1`
says that event `e`, happening in state `s`, calls `scheduler` with the globals
`s1`. A timer expiry enters it in `s` itself. `uthread_sleep` enters it when
the caller is not thread 0, after the three setters on the caller's record.
`uthread_block(tid)` enters it when `tid` is a taken ID other than 0 and the
caller's own, after the state of the thread is `BLOCKED` and
`erase_from_ready(tid)` has left the ready FIFO `l`. `uthread_terminate(tid)`
enters it when `tid` is a taken ID other than 0 and the caller's own, after
`running_thread = nullptr`. -/
inductive SchedulerEntry (MAX_THREAD_NUM : Nat) (s : Lib) : Event → Lib → Prop
  | timer : SchedulerEntry MAX_THREAD_NUM s Event.timer s
  | sleep (num_quantums : Int) (p : Nat) (th : Uthread) :
    s.running_thread = some p → s.uthreads_array[p]? = some (some th) → th.tid ≠ 0 →
    SchedulerEntry MAX_THREAD_NUM s (Event.sleep num_quantums)
      { s with
        uthreads_array :=
          s.uthreads_array.set p
            (some { th with uthread_state := state.SLEEP, is_sleeping := true,
                            num_q_to_sleep := num_quantums + 1 }) }
  | block (tid : Int) (th : Uthread) (l : List Nat) (p : Nat) (thp : Uthread) :
    tid ≠ 0 → 0 ≤ tid → tid < (MAX_THREAD_NUM : Int) →
    s.index_free[tid.toNat]? = some false →
    s.uthreads_array[tid.toNat]? = some (some th) →
    erase_from_ready_loop
      (tidOf { s with uthreads_array :=
        s.uthreads_array.set tid.toNat (some { th with uthread_state := state.BLOCKED }) })
      tid s.ready_vector = some l →
    s.running_thread = some p →
    (s.uthreads_array.set tid.toNat (some { th with uthread_state := state.BLOCKED }))[p]? =
      some (some thp) →
    thp.tid = tid →
    SchedulerEntry MAX_THREAD_NUM s (Event.block tid)
      { s with
        uthreads_array :=
          s.uthreads_array.set tid.toNat (some { th with uthread_state := state.BLOCKED }),
        ready_vector := l }
  | terminate (tid : Int) (p : Nat) (th : Uthread) :
    tid ≠ 0 → 0 ≤ tid → tid < (MAX_THREAD_NUM : Int) →
    s.index_free[tid.toNat]? = some false →
    s.running_thread = some p → s.uthreads_array[p]? = some (some th) → th.tid = tid →
    SchedulerEntry MAX_THREAD_NUM s (Event.terminate tid) { s with running_thread := none }

/-- Every taken ID has a record, and `running_thread`, when it is not null,
points to a record. -/
def RunningOk (MAX_THREAD_NUM : Nat) (s : Lib) : Prop :=
  Readable MAX_THREAD_NUM s ∧
  ∀ p : Nat, s.running_thread = some p → ∃ th : Uthread, s.uthreads_array[p]? = some (some th)

/-- The state with `MAX_THREAD_NUM = 3` after init, a spawn and one timer
expiry: thread 1 runs, thread 0 waits in the ready FIFO. -/
def spawnedRuns : Lib :=
  { ready_vector := [0],
    uthreads_array := [some { tid := 0, quantum := 1, uthread_state := state.READY,
                              is_sleeping := false, num_q_to_sleep := 0 },
                       some { tid := 1, quantum := 1, uthread_state := state.RUNNING,
                              is_sleeping := false, num_q_to_sleep := 0 }, none],
    index_free := [false, false, true],
    uthread_quantum_usecs := 1,
    num_of_uthread := 1,
    running_thread := some 1,
    quantums := 2 }

/-- The state `spawnedRuns` after the running thread 1 has called
`uthread_sleep(2)` and the call has reached `scheduler`. -/
def spawnedSleeps : Lib :=
  { spawnedRuns with
    uthreads_array := [some { tid := 0, quantum := 1, uthread_state := state.READY,
                              is_sleeping := false, num_q_to_sleep := 0 },
                       some { tid := 1, quantum := 1, uthread_state := state.SLEEP,
                              is_sleeping := true, num_q_to_sleep := 3 }, none] }

end UThreads

namespace MapReduce

/-! ## The packed progress word (`std::atomic<uint64_t> *atomic_counter`)

The value of the atomic is a natural number below `2 ^ 64`; every update is
one atomic read-modify-write (`operator+=` of `std::atomic`), so it is a
function on that value. An `int` argument is an integer. -/

/-- The conversion `static_cast<unsigned long>(value)` of an `int`. -/
def toUL (value : Int) : Nat := (value % 2 ^ 64).toNat

/-- `void set_atomic_stage(void *arg, int value)`:
`atomic_counter += static_cast<unsigned long>(value % 4) << 62`. -/
def set_atomic_stage (atomic_counter : Nat) (value : Int) : Nat :=
  (atomic_counter + toUL (Int.tmod value 4) * 2 ^ 62 % 2 ^ 64) % 2 ^ 64

/-- `void set_atomic_processed_pairs(void *arg, int value)`:
`atomic_counter += static_cast<unsigned long>(value) << 31`. -/
def set_atomic_processed_pairs (atomic_counter : Nat) (value : Int) : Nat :=
  (atomic_counter + toUL value * 2 ^ 31 % 2 ^ 64) % 2 ^ 64

/-- `void set_atomic_total_number_of_pairs(void *arg, int value)`:
`atomic_counter += static_cast<unsigned long>(value)`. -/
def set_atomic_total_number_of_pairs (atomic_counter : Nat) (value : Int) : Nat :=
  (atomic_counter + toUL value) % 2 ^ 64

/-- `int get_atomic_stage(void *arg)`: `load() >> 62`. -/
def get_atomic_stage (atomic_counter : Nat) : Int :=
  ((atomic_counter / 2 ^ 62 : Nat) : Int)

/-- `int get_atomic_processed_pairs(void *arg)`: `load() >> 31 & (0xfffffffU)`;
the mask has seven hexadecimal digits, so it keeps 28 bits. -/
def get_atomic_processed_pairs (atomic_counter : Nat) : Int :=
  ((atomic_counter / 2 ^ 31 % 2 ^ 28 : Nat) : Int)

/-- `int get_atomic_total_num_of_pairs(void *arg)`: `load() & (0xfffffffU)`. -/
def get_atomic_total_num_of_pairs (atomic_counter : Nat) : Int :=
  ((atomic_counter % 2 ^ 28 : Nat) : Int)

/-- One call of a setter of the progress word. -/
inductive Update
  | stage (value : Int)
  | processed (value : Int)
  | total (value : Int)
  deriving DecidableEq, Repr

/-- The progress word after one setter call. -/
def applyUpdate (atomic_counter : Nat) : Update → Nat
  | Update.stage value => set_atomic_stage atomic_counter value
  | Update.processed value => set_atomic_processed_pairs atomic_counter value
  | Update.total value => set_atomic_total_number_of_pairs atomic_counter value

/-- The progress word after a sequence of setter calls. -/
def applyUpdates (atomic_counter : Nat) (calls : List Update) : Nat :=
  calls.foldl applyUpdate atomic_counter

/-- The amount a setter call adds to the word, before the reduction modulo
`2 ^ 64`. -/
def contribution : Update → Nat
  | Update.stage value => toUL (Int.tmod value 4) * 2 ^ 62
  | Update.processed value => toUL value * 2 ^ 31
  | Update.total value => toUL value

/-- The 31-bit field of the processed count (bits 31 to 61 of the word). -/
def processedField (atomic_counter : Nat) : Nat := atomic_counter / 2 ^ 31 % 2 ^ 31

/-- The 31-bit field of the total count (bits 0 to 30 of the word). -/
def totalField (atomic_counter : Nat) : Nat := atomic_counter % 2 ^ 31

/-- The progress word that holds the stage `s`, the processed count `p` and the
total count `t` in its three fields. -/
def wordOf (s p t : Nat) : Nat := s * 2 ^ 62 + p * 2 ^ 31 + t

attribute [irreducible] toUL set_atomic_stage set_atomic_processed_pairs
  set_atomic_total_number_of_pairs get_atomic_stage get_atomic_processed_pairs
  get_atomic_total_num_of_pairs processedField totalField wordOf

/-! ## The job state reported to the caller -/

/-- A value of type `float`: a real number (the rounding to the 24-bit
significand is left out), an infinity, or NaN. -/
inductive FloatVal
  | num (q : ℚ)
  | inf
  | nan
  deriving DecidableEq

/-- The conversion `float(x)` of an `int`. -/
def FloatVal.ofInt (x : Int) : FloatVal := FloatVal.num (x : ℚ)

/-- The product of two `float` values (IEEE 754; the operands here are never
negative, so the sign of an infinity is left out). -/
def FloatVal.mul : FloatVal → FloatVal → FloatVal
  | FloatVal.num a, FloatVal.num b => FloatVal.num (a * b)
  | FloatVal.nan, _ => FloatVal.nan
  | _, FloatVal.nan => FloatVal.nan
  | FloatVal.inf, FloatVal.num b => if b = 0 then FloatVal.nan else FloatVal.inf
  | FloatVal.num a, FloatVal.inf => if a = 0 then FloatVal.nan else FloatVal.inf
  | FloatVal.inf, FloatVal.inf => FloatVal.inf

/-- The quotient of two `float` values (IEEE 754): a non-zero number divided
by zero is an infinity, and zero divided by zero is NaN. -/
def FloatVal.div : FloatVal → FloatVal → FloatVal
  | FloatVal.num a, FloatVal.num b =>
    if b = 0 then (if a = 0 then FloatVal.nan else FloatVal.inf) else FloatVal.num (a / b)
  | FloatVal.nan, _ => FloatVal.nan
  | _, FloatVal.nan => FloatVal.nan
  | FloatVal.inf, FloatVal.num _ => FloatVal.inf
  | FloatVal.num _, FloatVal.inf => FloatVal.num 0
  | FloatVal.inf, FloatVal.inf => FloatVal.nan

/-- Modelled from the spec: the values of `stage_t` (MapReduceFramework.h is
not among the sources); the stages are UNDEFINED, MAP, SHUFFLE, REDUCE in this
order, and the two stage bits of the progress word hold them as 0 to 3. -/
def UNDEFINED_STAGE : Int := 0

/-- Modelled from the spec: the stage MAP of `stage_t`. -/
def MAP_STAGE : Int := 1

/-- Modelled from the spec: the stage SHUFFLE of `stage_t`. -/
def SHUFFLE_STAGE : Int := 2

/-- Modelled from the spec: the stage REDUCE of `stage_t`. -/
def REDUCE_STAGE : Int := 3

/-- Modelled from the spec: `JobState` of MapReduceFramework.h, a stage and a
percentage. -/
structure JobState where
  stage : Int
  percentage : FloatVal
  deriving DecidableEq

/-- The client of a job (`MapReduceClient`), for input pairs of type `I`,
intermediate pairs `K × V` and output pairs of type `O`. `map` gives the pairs
that `client.map` passes to `emit2`, in order; `reduce` gives the pairs that
`client.reduce` passes to `emit3`, in order; `lt` is `operator<` of `K2`. -/
structure Client (I K V O : Type) where
  map : I → List (K × V)
  reduce : List (K × V) → List O
  lt : K → K → Bool

/-- The test `!(*curr_max_key < *key) && !(*key < *curr_max_key)` of
`getMaxKeyFromAllVectors`. -/
def equivKeys {K : Type} (lt : K → K → Bool) (curr_max_key key : K) : Bool :=
  !(lt curr_max_key key) && !(lt key curr_max_key)

/-- Where a worker thread stands in `operate` / `main_tread_operate`. Every
value names the next statement that touches shared data; a region under a
mutex is one such statement. -/
inductive Pc (K V : Type)
  /-- `map_sort`: at the top of the loop, before `lock_mutex(mutex)`. -/
  | mapLoop
  /-- `map_sort`: after `unlock_mutex`, before `update_stage`. -/
  | mapUpdate
  /-- `map_sort`: the loop is left, before `sort(context)`. -/
  | sort
  /-- `map_sort`: inside `barrier->barrier()`. -/
  | barrier
  /-- `main_tread_operate`: before `shuffle(context)`. -/
  | shuffle
  /-- `shuffle`: before `set_atomic_stage(context, SHUFFLE_STAGE)`. -/
  | shuffleSetStage (pairs_num : Nat)
  /-- `shuffle`: before `set_atomic_total_number_of_pairs(context, pairs_num)`. -/
  | shuffleSetTotal (pairs_num : Nat)
  /-- `shuffle`: before the `update_stage` in front of the loop. -/
  | shuffleFirstUpdate
  /-- `shuffle`: at the top of the loop. -/
  | shuffleLoop
  /-- `shuffle`: before `set_atomic_processed_pairs(context, int(temp_vector.size()))`. -/
  | shuffleAdd (size : Nat)
  /-- `shuffle`: before the `update_stage` of the loop. -/
  | shuffleUpdate
  /-- `getReadyToReduce`: before `*context->atomic_counter = 0`. -/
  | readyReset
  /-- `getReadyToReduce`: before `set_atomic_stage(context, REDUCE_STAGE)`. -/
  | readySetStage
  /-- `getReadyToReduce`: before `set_atomic_total_number_of_pairs`. -/
  | readySetTotal
  /-- `getReadyToReduce`: before `update_stage`. -/
  | readyUpdate
  /-- `getReadyToReduce`: in the loop of `sem_post`, with loop variable `i`. -/
  | readyPost (i : Nat)
  /-- `operate`: at `sem_wait`. -/
  | semWait
  /-- `reduce`: at the top of the loop, before `lock_mutex(mutex_2)`. -/
  | reduceLoop
  /-- `reduce`: a group is popped, before `lock_mutex(mutex)` and `client.reduce`. -/
  | reduceCall (pairs_vector : List (K × V))
  /-- `reduce`: before `set_atomic_processed_pairs(context, 1)`. -/
  | reduceAdd
  /-- `reduce`: before `update_stage`. -/
  | reduceUpdate
  /-- `main_tread_operate`: in the loop of `pthread_join`, with loop variable `i`. -/
  | join (i : Nat)
  /-- The thread function has returned. -/
  | done
  deriving DecidableEq

/-- The data of a job that its threads share (`JobContext`), with the local
intermediate vector and the position of every worker. `mapCalls`,
`reduceCalls` and `posts` record, in order, the calls of `client.map` (worker
and input index), the groups given to `client.reduce`, and the number of calls
of `sem_post`; the code does not read them. -/
structure Job (I K V O : Type) where
  threads_num : Nat
  context_input_vec : List I
  atomic_counter : Nat
  state : JobState
  context_intermediate_vec : Nat → List (K × V)
  all_intermediate_vec : List (List (K × V))
  shuffled_vector : List (List (K × V))
  context_output_vec : List O
  sem : Nat
  pc : Nat → Pc K V
  mapCalls : List (Nat × Nat)
  reduceCalls : List (List (K × V))
  posts : Nat

section Framework

variable {I K V O : Type}

/-- `void update_stage(JobContext *context)`. -/
def update_stage (c : Job I K V O) : Job I K V O :=
  let processed_pairs := get_atomic_processed_pairs c.atomic_counter
  let total_pairs := get_atomic_total_num_of_pairs c.atomic_counter
  { c with state :=
      { stage := get_atomic_stage c.atomic_counter,
        percentage := FloatVal.div
          (FloatVal.mul (FloatVal.ofInt 100) (FloatVal.ofInt processed_pairs))
          (FloatVal.ofInt total_pairs) } }

/-- `void getJobState(JobHandle job, JobState *state)`: the value written to
`*state`. -/
def getJobState (c : Job I K V O) : JobState :=
  { stage := c.state.stage, percentage := c.state.percentage }

/-- In `startMapReduceJob`, the job after the initialization of the fields and
contexts, before the first `set_atomic_stage`; no thread exists yet. -/
def allocated (inputVec : List I) (multiThreadLevel : Nat) : Job I K V O :=
  { threads_num := multiThreadLevel,
    context_input_vec := inputVec,
    atomic_counter := 0,
    state := { stage := UNDEFINED_STAGE, percentage := FloatVal.ofInt 0 },
    context_intermediate_vec := fun _ => [],
    all_intermediate_vec := [],
    shuffled_vector := [],
    context_output_vec := [],
    sem := 0,
    pc := fun _ => Pc.mapLoop,
    mapCalls := [],
    reduceCalls := [],
    posts := 0 }

/-- The statements of `startMapReduceJob` between the initialization and the
creation of the threads, in order. -/
def startStatements : List (Job I K V O → Job I K V O) :=
  [fun c => { c with atomic_counter := set_atomic_stage c.atomic_counter MAP_STAGE },
   fun c => { c with atomic_counter :=
      set_atomic_total_number_of_pairs c.atomic_counter (c.context_input_vec.length : Int) },
   update_stage]

/-- `JobHandle startMapReduceJob(client, inputVec, outputVec, multiThreadLevel)`:
the job when the threads have been created (`sem_init` and `pthread_create`
succeed); every worker is at the top of the loop of `map_sort`. -/
def startMapReduceJob (inputVec : List I) (multiThreadLevel : Nat) : Job I K V O :=
  startStatements.foldl (fun c f => f c) (allocated inputVec multiThreadLevel)

/-- `K2 *findMaxKey(const JobContext *context, K2 *curr_max_key)`, as a loop
over the vectors still to visit; `none` is `nullptr`. -/
def findMaxKey (lt : K → K → Bool) : List (List (K × V)) → Option K → Option K
  | [], curr_max_key => curr_max_key
  | vec :: rest, curr_max_key =>
    match vec.getLast? with
    | none => findMaxKey lt rest curr_max_key
    | some back =>
      match curr_max_key with
      | none => findMaxKey lt rest (some back.1)
      | some m =>
        if lt m back.1 then findMaxKey lt rest (some back.1)
        else findMaxKey lt rest (some m)

/-- The inner `while (!vec.empty())` loop of `getMaxKeyFromAllVectors` on one
vector, with `n` iterations left (the loop pops one pair in every iteration
that does not leave it, so `vec.size()` iterations are enough): the vector and
`temp_vector` afterwards. -/
def popEquivalent (lt : K → K → Bool) (curr_max_key : K) :
    Nat → List (K × V) → List (K × V) → List (K × V) × List (K × V)
  | 0, vec, temp_vector => (vec, temp_vector)
  | n + 1, vec, temp_vector =>
    match vec.getLast? with
    | none => (vec, temp_vector)
    | some back =>
      if equivKeys lt curr_max_key back.1 then
        popEquivalent lt curr_max_key n vec.dropLast (temp_vector ++ [back])
      else (vec, temp_vector)

/-- `void getMaxKeyFromAllVectors(context, curr_max_key, temp_vector)`, as a
loop over the vectors still to visit: these vectors and `temp_vector`
afterwards. -/
def getMaxKeyFromAllVectors (lt : K → K → Bool) (curr_max_key : K) :
    List (List (K × V)) → List (K × V) → List (List (K × V)) × List (K × V)
  | [], temp_vector => ([], temp_vector)
  | vec :: rest, temp_vector =>
    let r := popEquivalent lt curr_max_key vec.length vec temp_vector
    let r' := getMaxKeyFromAllVectors lt curr_max_key rest r.2
    (r.1 :: r'.1, r'.2)

/-- Modelled from the spec: the barrier (Barrier/Barrier.cpp is not among the
sources) is an all-hands rendezvous, no worker proceeds past it until all
arrive. A worker has arrived when it is no longer in the loop of `map_sort`
and has done its `sort`. -/
def arrived : Pc K V → Bool
  | Pc.mapLoop => false
  | Pc.mapUpdate => false
  | Pc.sort => false
  | _ => true

/-- Modelled from the spec: every worker of the job has arrived at the
barrier. -/
def allArrived (c : Job I K V O) : Bool :=
  (List.range c.threads_num).all (fun tid => arrived (c.pc tid))

/-- Worker `tid` goes on to the statement `next`. -/
def goto (c : Job I K V O) (tid : Nat) (next : Pc K V) : Job I K V O :=
  { c with pc := Function.update c.pc tid next }

/-- The thread function of a worker has returned. -/
def returned : Pc K V → Bool
  | Pc.done => true
  | _ => false

/-- One step of worker `tid` (worker 0 runs `main_tread_operate`, the others
`operate`): the statement at its position is executed as a whole. The result
is `none` when the worker cannot take a step now: it waits at the barrier, at
`sem_wait` or at `pthread_join`, its thread function has returned, or `tid` is
not a worker of the job. `std_sort` is `std::sort` with `compare_keys`. -/
def step (client : Client I K V O) (std_sort : List (K × V) → List (K × V)) (tid : Nat)
    (c : Job I K V O) : Option (Job I K V O) :=
  if tid < c.threads_num then
    match c.pc tid with
    | Pc.mapLoop =>
      let old_value := get_atomic_processed_pairs c.atomic_counter
      if old_value < (c.context_input_vec.length : Int) then
        match c.context_input_vec[old_value.toNat]? with
        | some pair =>
          some (goto
            { c with
              atomic_counter := set_atomic_processed_pairs c.atomic_counter 1,
              context_intermediate_vec :=
                Function.update c.context_intermediate_vec tid
                  (c.context_intermediate_vec tid ++ client.map pair),
              mapCalls := c.mapCalls ++ [(tid, old_value.toNat)] }
            tid Pc.mapUpdate)
        | none => none
      else some (goto c tid Pc.sort)
    | Pc.mapUpdate => some (goto (update_stage c) tid Pc.mapLoop)
    | Pc.sort =>
      if (c.context_intermediate_vec tid).isEmpty then some (goto c tid Pc.barrier)
      else
        some (goto
          { c with
            context_intermediate_vec :=
              Function.update c.context_intermediate_vec tid
                (std_sort (c.context_intermediate_vec tid)),
            all_intermediate_vec :=
              c.all_intermediate_vec ++ [std_sort (c.context_intermediate_vec tid)] }
          tid Pc.barrier)
    | Pc.barrier =>
      if allArrived c then some (goto c tid (if tid = 0 then Pc.shuffle else Pc.semWait))
      else none
    | Pc.shuffle =>
      let pairs_num := (c.all_intermediate_vec.map List.length).sum
      if pairs_num = 0 then some (goto c tid Pc.reduceLoop)
      else some (goto { c with atomic_counter := 0 } tid (Pc.shuffleSetStage pairs_num))
    | Pc.shuffleSetStage pairs_num =>
      some (goto { c with atomic_counter := set_atomic_stage c.atomic_counter SHUFFLE_STAGE }
        tid (Pc.shuffleSetTotal pairs_num))
    | Pc.shuffleSetTotal pairs_num =>
      some (goto
        { c with atomic_counter :=
            set_atomic_total_number_of_pairs c.atomic_counter (pairs_num : Int) }
        tid Pc.shuffleFirstUpdate)
    | Pc.shuffleFirstUpdate => some (goto (update_stage c) tid Pc.shuffleLoop)
    | Pc.shuffleLoop =>
      match findMaxKey client.lt c.all_intermediate_vec none with
      | none => some (goto c tid Pc.readyReset)
      | some curr_max_key =>
        let r := getMaxKeyFromAllVectors client.lt curr_max_key c.all_intermediate_vec []
        some (goto
          { c with
            all_intermediate_vec := r.1,
            shuffled_vector := c.shuffled_vector ++ [r.2] }
          tid (Pc.shuffleAdd r.2.length))
    | Pc.shuffleAdd size =>
      some (goto
        { c with atomic_counter := set_atomic_processed_pairs c.atomic_counter (size : Int) }
        tid Pc.shuffleUpdate)
    | Pc.shuffleUpdate => some (goto (update_stage c) tid Pc.shuffleLoop)
    | Pc.readyReset => some (goto { c with atomic_counter := 0 } tid Pc.readySetStage)
    | Pc.readySetStage =>
      some (goto { c with atomic_counter := set_atomic_stage c.atomic_counter REDUCE_STAGE }
        tid Pc.readySetTotal)
    | Pc.readySetTotal =>
      some (goto
        { c with atomic_counter :=
            set_atomic_total_number_of_pairs c.atomic_counter (c.shuffled_vector.length : Int) }
        tid Pc.readyUpdate)
    | Pc.readyUpdate => some (goto (update_stage c) tid (Pc.readyPost 0))
    | Pc.readyPost i =>
      if i < c.threads_num then
        some (goto { c with sem := c.sem + 1, posts := c.posts + 1 } tid (Pc.readyPost (i + 1)))
      else some (goto c tid Pc.reduceLoop)
    | Pc.semWait =>
      if 0 < c.sem then some (goto { c with sem := c.sem - 1 } tid Pc.reduceLoop)
      else none
    | Pc.reduceLoop =>
      match c.shuffled_vector.getLast? with
      | some pairs_vector =>
        some (goto { c with shuffled_vector := c.shuffled_vector.dropLast }
          tid (Pc.reduceCall pairs_vector))
      | none => some (goto c tid (if tid = 0 then Pc.join 1 else Pc.done))
    | Pc.reduceCall pairs_vector =>
      some (goto
        { c with
          context_output_vec := c.context_output_vec ++ client.reduce pairs_vector,
          reduceCalls := c.reduceCalls ++ [pairs_vector] }
        tid Pc.reduceAdd)
    | Pc.reduceAdd =>
      some (goto { c with atomic_counter := set_atomic_processed_pairs c.atomic_counter 1 }
        tid Pc.reduceUpdate)
    | Pc.reduceUpdate => some (goto (update_stage c) tid Pc.reduceLoop)
    | Pc.join i =>
      if i < c.threads_num then
        if returned (c.pc i) then some (goto c tid (Pc.join (i + 1))) else none
      else some (goto c tid Pc.done)
    | Pc.done => none
  else none

/-- The job after the workers have taken their steps in the order of
`schedule`, a list of worker numbers; a worker that cannot take a step when
its turn comes is passed over. -/
def run (client : Client I K V O) (std_sort : List (K × V) → List (K × V)) :
    List Nat → Job I K V O → Job I K V O
  | [], c => c
  | tid :: schedule, c =>
    match step client std_sort tid c with
    | some c' => run client std_sort schedule c'
    | none => run client std_sort schedule c

/-- The job is finished: the thread function of every worker has returned
(`waitForJob` joins worker 0, which has joined the others). -/
def finished (c : Job I K V O) : Bool :=
  (List.range c.threads_num).all (fun tid => returned (c.pc tid))

/-- The graph of `step`, one case for every statement and branch: `Step client
std_sort tid c c'` says that worker `tid`, at its position in `c`, can take its
step and that `c'` is the job afterwards. A new value of the progress word is
named `w` and a new reported state `st`, each with the equation that gives it. -/
inductive Step (client : Client I K V O) (std_sort : List (K × V) → List (K × V)) (tid : Nat)
    (c : Job I K V O) : Job I K V O → Prop
  | mapClaim (pair : I) (w : Nat) (hpc : c.pc tid = Pc.mapLoop)
      (hlt : get_atomic_processed_pairs c.atomic_counter < (c.context_input_vec.length : Int))
      (hpair : c.context_input_vec[(get_atomic_processed_pairs c.atomic_counter).toNat]?
        = some pair)
      (hw : w = set_atomic_processed_pairs c.atomic_counter 1) :
      Step client std_sort tid c
        (goto
          { c with
            atomic_counter := w,
            context_intermediate_vec :=
              Function.update c.context_intermediate_vec tid
                (c.context_intermediate_vec tid ++ client.map pair),
            mapCalls := c.mapCalls
              ++ [(tid, (get_atomic_processed_pairs c.atomic_counter).toNat)] }
          tid Pc.mapUpdate)
  | mapLeave (hpc : c.pc tid = Pc.mapLoop)
      (hge : ¬ get_atomic_processed_pairs c.atomic_counter < (c.context_input_vec.length : Int)) :
      Step client std_sort tid c (goto c tid Pc.sort)
  | mapUpdate (st : JobState) (hpc : c.pc tid = Pc.mapUpdate) (hst : st = (update_stage c).state) :
      Step client std_sort tid c (goto { c with state := st } tid Pc.mapLoop)
  | sortEmpty (hpc : c.pc tid = Pc.sort) (hvec : (c.context_intermediate_vec tid).isEmpty = true) :
      Step client std_sort tid c (goto c tid Pc.barrier)
  | sortPush (hpc : c.pc tid = Pc.sort) (hvec : (c.context_intermediate_vec tid).isEmpty = false) :
      Step client std_sort tid c
        (goto
          { c with
            context_intermediate_vec :=
              Function.update c.context_intermediate_vec tid
                (std_sort (c.context_intermediate_vec tid)),
            all_intermediate_vec :=
              c.all_intermediate_vec ++ [std_sort (c.context_intermediate_vec tid)] }
          tid Pc.barrier)
  | barrier (hpc : c.pc tid = Pc.barrier) (hall : allArrived c = true) :
      Step client std_sort tid c (goto c tid (if tid = 0 then Pc.shuffle else Pc.semWait))
  | shuffleSkip (hpc : c.pc tid = Pc.shuffle)
      (hzero : (c.all_intermediate_vec.map List.length).sum = 0) :
      Step client std_sort tid c (goto c tid Pc.reduceLoop)
  | shuffleReset (hpc : c.pc tid = Pc.shuffle)
      (hpos : (c.all_intermediate_vec.map List.length).sum ≠ 0) :
      Step client std_sort tid c
        (goto { c with atomic_counter := 0 } tid
          (Pc.shuffleSetStage (c.all_intermediate_vec.map List.length).sum))
  | shuffleSetStage (pairs_num w : Nat) (hpc : c.pc tid = Pc.shuffleSetStage pairs_num)
      (hw : w = set_atomic_stage c.atomic_counter SHUFFLE_STAGE) :
      Step client std_sort tid c
        (goto { c with atomic_counter := w } tid (Pc.shuffleSetTotal pairs_num))
  | shuffleSetTotal (pairs_num w : Nat) (hpc : c.pc tid = Pc.shuffleSetTotal pairs_num)
      (hw : w = set_atomic_total_number_of_pairs c.atomic_counter (pairs_num : Int)) :
      Step client std_sort tid c (goto { c with atomic_counter := w } tid Pc.shuffleFirstUpdate)
  | shuffleFirstUpdate (st : JobState) (hpc : c.pc tid = Pc.shuffleFirstUpdate)
      (hst : st = (update_stage c).state) :
      Step client std_sort tid c (goto { c with state := st } tid Pc.shuffleLoop)
  | shuffleExit (hpc : c.pc tid = Pc.shuffleLoop)
      (hmax : findMaxKey client.lt c.all_intermediate_vec none = none) :
      Step client std_sort tid c (goto c tid Pc.readyReset)
  | shuffleGroup (curr_max_key : K) (hpc : c.pc tid = Pc.shuffleLoop)
      (hmax : findMaxKey client.lt c.all_intermediate_vec none = some curr_max_key) :
      Step client std_sort tid c
        (goto
          { c with
            all_intermediate_vec :=
              (getMaxKeyFromAllVectors client.lt curr_max_key c.all_intermediate_vec []).1,
            shuffled_vector := c.shuffled_vector
              ++ [(getMaxKeyFromAllVectors client.lt curr_max_key c.all_intermediate_vec []).2] }
          tid
          (Pc.shuffleAdd
            (getMaxKeyFromAllVectors client.lt curr_max_key c.all_intermediate_vec []).2.length))
  | shuffleAdd (size w : Nat) (hpc : c.pc tid = Pc.shuffleAdd size)
      (hw : w = set_atomic_processed_pairs c.atomic_counter (size : Int)) :
      Step client std_sort tid c (goto { c with atomic_counter := w } tid Pc.shuffleUpdate)
  | shuffleUpdate (st : JobState) (hpc : c.pc tid = Pc.shuffleUpdate)
      (hst : st = (update_stage c).state) :
      Step client std_sort tid c (goto { c with state := st } tid Pc.shuffleLoop)
  | readyReset (hpc : c.pc tid = Pc.readyReset) :
      Step client std_sort tid c (goto { c with atomic_counter := 0 } tid Pc.readySetStage)
  | readySetStage (w : Nat) (hpc : c.pc tid = Pc.readySetStage)
      (hw : w = set_atomic_stage c.atomic_counter REDUCE_STAGE) :
      Step client std_sort tid c (goto { c with atomic_counter := w } tid Pc.readySetTotal)
  | readySetTotal (w : Nat) (hpc : c.pc tid = Pc.readySetTotal)
      (hw : w = set_atomic_total_number_of_pairs c.atomic_counter
        (c.shuffled_vector.length : Int)) :
      Step client std_sort tid c (goto { c with atomic_counter := w } tid Pc.readyUpdate)
  | readyUpdate (st : JobState) (hpc : c.pc tid = Pc.readyUpdate)
      (hst : st = (update_stage c).state) :
      Step client std_sort tid c (goto { c with state := st } tid (Pc.readyPost 0))
  | post (i : Nat) (hpc : c.pc tid = Pc.readyPost i) (hi : i < c.threads_num) :
      Step client std_sort tid c
        (goto { c with sem := c.sem + 1, posts := c.posts + 1 } tid (Pc.readyPost (i + 1)))
  | postDone (i : Nat) (hpc : c.pc tid = Pc.readyPost i) (hi : ¬ i < c.threads_num) :
      Step client std_sort tid c (goto c tid Pc.reduceLoop)
  | semWait (hpc : c.pc tid = Pc.semWait) (hsem : 0 < c.sem) :
      Step client std_sort tid c (goto { c with sem := c.sem - 1 } tid Pc.reduceLoop)
  | reducePop (pairs_vector : List (K × V)) (hpc : c.pc tid = Pc.reduceLoop)
      (hback : c.shuffled_vector.getLast? = some pairs_vector) :
      Step client std_sort tid c
        (goto { c with shuffled_vector := c.shuffled_vector.dropLast }
          tid (Pc.reduceCall pairs_vector))
  | reduceLeave (hpc : c.pc tid = Pc.reduceLoop) (hback : c.shuffled_vector.getLast? = none) :
      Step client std_sort tid c (goto c tid (if tid = 0 then Pc.join 1 else Pc.done))
  | reduceCall (pairs_vector : List (K × V)) (hpc : c.pc tid = Pc.reduceCall pairs_vector) :
      Step client std_sort tid c
        (goto
          { c with
            context_output_vec := c.context_output_vec ++ client.reduce pairs_vector,
            reduceCalls := c.reduceCalls ++ [pairs_vector] }
          tid Pc.reduceAdd)
  | reduceAdd (w : Nat) (hpc : c.pc tid = Pc.reduceAdd)
      (hw : w = set_atomic_processed_pairs c.atomic_counter 1) :
      Step client std_sort tid c (goto { c with atomic_counter := w } tid Pc.reduceUpdate)
  | reduceUpdate (st : JobState) (hpc : c.pc tid = Pc.reduceUpdate)
      (hst : st = (update_stage c).state) :
      Step client std_sort tid c (goto { c with state := st } tid Pc.reduceLoop)
  | joinNext (i : Nat) (hpc : c.pc tid = Pc.join i) (hi : i < c.threads_num)
      (hret : returned (c.pc i) = true) :
      Step client std_sort tid c (goto c tid (Pc.join (i + 1)))
  | joinDone (i : Nat) (hpc : c.pc tid = Pc.join i) (hi : ¬ i < c.threads_num) :
      Step client std_sort tid c (goto c tid Pc.done)

/-! ## Notions used to state the properties -/

/-- The key ordering `lt` is a strict weak ordering: irreflexive, transitive,
and with a transitive equivalence `equivKeys`. -/
def StrictWeak (lt : K → K → Bool) : Prop :=
  (∀ a, lt a a = false) ∧
  (∀ a b c, lt a b = true → lt b c = true → lt a c = true) ∧
  (∀ a b c, equivKeys lt a b = true → equivKeys lt b c = true → equivKeys lt a c = true)

/-- An intermediate vector is sorted ascending: no pair is smaller than a pair
in front of it (what `std::sort` with `compare_keys` establishes). -/
def SortedVec (lt : K → K → Bool) (vec : List (K × V)) : Prop :=
  vec.Pairwise (fun a b => lt b.1 a.1 = false)

/-- The groups of a shuffle-output queue are well formed: every group is
non-empty and holds only pairs with equivalent keys, and pairs of two
different groups never have equivalent keys. -/
def GroupsOk (lt : K → K → Bool) (groups : List (List (K × V))) : Prop :=
  (∀ g ∈ groups, g ≠ [] ∧ ∀ a ∈ g, ∀ b ∈ g, equivKeys lt a.1 b.1 = true) ∧
  groups.Pairwise (fun g g' => ∀ a ∈ g, ∀ b ∈ g', equivKeys lt a.1 b.1 = false)

/-- The positions of worker 0 inside `shuffle` and `getReadyToReduce`, up to
the first `sem_post`. -/
def inShuffle : Pc K V → Bool
  | Pc.shuffleSetStage _ => true
  | Pc.shuffleSetTotal _ => true
  | Pc.shuffleFirstUpdate => true
  | Pc.shuffleLoop => true
  | Pc.shuffleAdd _ => true
  | Pc.shuffleUpdate => true
  | Pc.readyReset => true
  | Pc.readySetStage => true
  | Pc.readySetTotal => true
  | Pc.readyUpdate => true
  | Pc.readyPost i => i == 0
  | _ => false

/-- The positions of worker 0 after the loop of `shuffle`, up to the first
`sem_post`. -/
def loopLeft : Pc K V → Bool
  | Pc.readyReset => true
  | Pc.readySetStage => true
  | Pc.readySetTotal => true
  | Pc.readyUpdate => true
  | Pc.readyPost i => i == 0
  | _ => false

/-- The positions at which a worker other than worker 0 waits for worker 0:
inside the barrier or at `sem_wait`. -/
def waiting : Pc K V → Bool
  | Pc.barrier => true
  | Pc.semWait => true
  | _ => false

/-- What holds while worker 0 is inside `shuffle` or `getReadyToReduce` and has
not posted yet, for the intermediate pairs `P` that `shuffle` found: the other
workers wait, nothing is reduced, the vectors are sorted, the groups pushed so
far are well formed and apart from the pairs still in the vectors, and the
groups and the vectors together hold the pairs `P`. -/
structure ShuffleInv (lt : K → K → Bool) (P : List (K × V)) (c : Job I K V O) : Prop where
  leader : inShuffle (c.pc 0) = true
  others : ∀ tid, 0 < tid → tid < c.threads_num → waiting (c.pc tid) = true
  sem : c.sem = 0
  posts : c.posts = 0
  out : c.context_output_vec = []
  calls : c.reduceCalls = []
  sorted : ∀ vec ∈ c.all_intermediate_vec, SortedVec lt vec
  groups : GroupsOk lt c.shuffled_vector
  apart : ∀ g ∈ c.shuffled_vector, ∀ a ∈ g, ∀ x ∈ c.all_intermediate_vec.flatten,
    equivKeys lt a.1 x.1 = false
  perm : (c.shuffled_vector.flatten ++ c.all_intermediate_vec.flatten).Perm P
  left : loopLeft (c.pc 0) = true → c.all_intermediate_vec.flatten = []

/-- The progress word and the reported stage while worker 0 is inside `shuffle`
or `getReadyToReduce` and has not posted yet, for `n` intermediate pairs found
by `shuffle`, `flat` pairs in the groups pushed so far and `groups` groups: the
word `w` and the reported stage at every position of worker 0. -/
def ShuffleWordAt (n flat groups w : Nat) (stage : Int) : Pc K V → Prop
  | Pc.shuffleSetStage pairs_num => w = 0 ∧ pairs_num = n ∧ flat = 0 ∧ stage ≤ 2
  | Pc.shuffleSetTotal pairs_num => w = wordOf 2 0 0 ∧ pairs_num = n ∧ flat = 0 ∧ stage ≤ 2
  | Pc.shuffleFirstUpdate => w = wordOf 2 0 n ∧ flat = 0 ∧ stage ≤ 2
  | Pc.shuffleLoop => w = wordOf 2 flat n ∧ stage = 2
  | Pc.shuffleAdd size => ∃ before, w = wordOf 2 before n ∧ before + size = flat ∧ stage = 2
  | Pc.shuffleUpdate => w = wordOf 2 flat n ∧ stage = 2
  | Pc.readyReset => w = wordOf 2 flat n ∧ stage = 2
  | Pc.readySetStage => w = 0 ∧ stage = 2
  | Pc.readySetTotal => w = wordOf 3 0 0 ∧ stage = 2
  | Pc.readyUpdate => w = wordOf 3 0 groups ∧ stage = 2
  | Pc.readyPost _ => w = wordOf 3 0 groups ∧ stage = 3
  | _ => True

/-- The progress word and the reported stage of a job while worker 0 is inside
`shuffle` or `getReadyToReduce` and has not posted yet, for the intermediate
pairs `P` that `shuffle` found: the processed field counts the pairs in the
groups pushed so far. -/
def ShuffleWord (P : List (K × V)) (c : Job I K V O) : Prop :=
  ShuffleWordAt P.length c.shuffled_vector.flatten.length c.shuffled_vector.length
    c.atomic_counter c.state.stage (c.pc 0)

/-- The list `std_sort vec` is `vec` sorted ascending (what `std::sort` with
`compare_keys` returns for a strict weak ordering). -/
def Sorts (lt : K → K → Bool) (std_sort : List (K × V) → List (K × V)) : Prop :=
  ∀ vec, SortedVec lt (std_sort vec) ∧ (std_sort vec).Perm vec

/-- The lists `f 0`, ..., `f (W - 1)` of the workers of a job, one after the
other. -/
def gather {α : Type} (W : Nat) (f : Nat → List α) : List α :=
  (List.range W).flatMap f

/-- The pairs that the calls of `client.map` recorded in `calls` have emitted,
in the order of the calls. -/
def mapped (client : Client I K V O) (input : List I) (calls : List (Nat × Nat)) :
    List (K × V) :=
  calls.flatMap (fun call =>
    match input[call.2]? with
    | some pair => client.map pair
    | none => [])

/-- The positions of a worker inside the loop of `map_sort`. -/
def inLoop : Pc K V → Bool
  | Pc.mapLoop => true
  | Pc.mapUpdate => true
  | _ => false

/-- The positions of a worker that has passed the barrier and has not started
`shuffle` or taken the semaphore. -/
def beyond : Pc K V → Bool
  | Pc.shuffle => true
  | Pc.semWait => true
  | _ => false

/-- The positions of worker `tid` up to the call of `shuffle` by worker 0. -/
def mapPc (tid : Nat) : Pc K V → Bool
  | Pc.mapLoop => true
  | Pc.mapUpdate => true
  | Pc.sort => true
  | Pc.barrier => true
  | Pc.shuffle => tid == 0
  | Pc.semWait => tid != 0
  | _ => false

/-- The intermediate pairs that a worker at position `p` still keeps for
itself in its vector `vec`: all of them until its `sort` has pushed the vector
to the shared list. -/
def pendingAt (p : Pc K V) (vec : List (K × V)) : List (K × V) :=
  if arrived p then [] else vec

/-- What holds from `startMapReduceJob` until worker 0 calls `shuffle`: the
workers are in `map_sort` or wait behind it, nobody has passed the barrier
before all arrived, nothing is shuffled or reduced, the progress word holds
stage MAP, the number of calls of `client.map` and the input size, the calls
took the input indices in order, and the shared list and the vectors of the
workers that have not pushed yet hold the pairs emitted so far. -/
structure MapInv (client : Client I K V O) (c : Job I K V O) : Prop where
  pcs : ∀ tid, tid < c.threads_num → mapPc tid (c.pc tid) = true
  passed : ∀ tid, tid < c.threads_num → beyond (c.pc tid) = true →
    ∀ t, t < c.threads_num → arrived (c.pc t) = true
  sem : c.sem = 0
  posts : c.posts = 0
  queue : c.shuffled_vector = []
  out : c.context_output_vec = []
  calls : c.reduceCalls = []
  word : c.atomic_counter = wordOf 1 c.mapCalls.length c.context_input_vec.length
  bound : c.mapCalls.length ≤ c.context_input_vec.length
  indices : c.mapCalls.map Prod.snd = List.range c.mapCalls.length
  left : ∀ tid, tid < c.threads_num → inLoop (c.pc tid) = false →
    c.mapCalls.length = c.context_input_vec.length
  stage : c.state.stage = 1
  sorted : ∀ vec ∈ c.all_intermediate_vec, SortedVec client.lt vec
  pairs : (c.all_intermediate_vec.flatten
      ++ gather c.threads_num (fun tid => pendingAt (c.pc tid) (c.context_intermediate_vec tid))).Perm
    (mapped client c.context_input_vec c.mapCalls)

/-- The job at the call of `shuffle` by worker 0: the other workers wait, the
semaphore is 0, nothing is shuffled or reduced, the vectors of the shared
list are sorted, and the reported stage is not REDUCE. -/
structure ShuffleEntry (lt : K → K → Bool) (c : Job I K V O) : Prop where
  leader : c.pc 0 = Pc.shuffle
  others : ∀ tid, 0 < tid → tid < c.threads_num → waiting (c.pc tid) = true
  sem : c.sem = 0
  posts : c.posts = 0
  queue : c.shuffled_vector = []
  out : c.context_output_vec = []
  calls : c.reduceCalls = []
  sorted : ∀ vec ∈ c.all_intermediate_vec, SortedVec lt vec
  stage : c.state.stage ≤ 2

/-- The positions of worker `tid` from the first `sem_post` of worker 0 on. -/
def reducePc (tid : Nat) : Pc K V → Bool
  | Pc.readyPost i => tid == 0 && i != 0
  | Pc.join i => tid == 0 && i != 0
  | Pc.barrier => tid != 0
  | Pc.semWait => tid != 0
  | Pc.reduceLoop => true
  | Pc.reduceCall _ => true
  | Pc.reduceAdd => true
  | Pc.reduceUpdate => true
  | Pc.done => true
  | _ => false

/-- The number of calls of `sem_post` that worker 0 has made when it is at
position `p`, in a job of `W` workers. -/
def postsAt (W : Nat) : Pc K V → Nat
  | Pc.readyPost i => i
  | _ => W

/-- The group that a worker at position `p` has popped and not yet given to
`client.reduce`. -/
def heldAt : Pc K V → List (List (K × V))
  | Pc.reduceCall pairs_vector => [pairs_vector]
  | _ => []

/-- Marks a worker that has called `client.reduce` and not yet added 1 to the
processed count. -/
def addingAt : Pc K V → List Unit
  | Pc.reduceAdd => [()]
  | _ => []

/-- The positions of a worker that has left the loop of `reduce`. -/
def leftReduce : Pc K V → Bool
  | Pc.join _ => true
  | Pc.done => true
  | _ => false

/-- What holds from the first `sem_post` of worker 0 on, for the queue `gs`
that `shuffle` has built: the queue is a front part of `gs`; the groups in the
queue, the groups popped and the groups given to `client.reduce` are together
the groups of `gs`; the progress word holds stage REDUCE, the number of
completed additions and the number of groups; the output is what the calls of
`client.reduce` have emitted; and the queue is empty once a worker has left the
loop of `reduce`. -/
structure ReduceInv (client : Client I K V O) (gs : List (List (K × V)))
    (c : Job I K V O) : Prop where
  pcs : ∀ tid, tid < c.threads_num → reducePc tid (c.pc tid) = true
  posts : c.posts = postsAt c.threads_num (c.pc 0)
  postBound : ∀ i, c.pc 0 = Pc.readyPost i → i ≤ c.threads_num
  front : ∃ rest, gs = c.shuffled_vector ++ rest
  groups : (c.shuffled_vector ++ gather c.threads_num (fun tid => heldAt (c.pc tid))
      ++ c.reduceCalls).Perm gs
  word : ∃ r, c.atomic_counter = wordOf 3 r gs.length ∧
    r + (gather c.threads_num (fun tid => addingAt (c.pc tid))).length = c.reduceCalls.length
  stage : c.state.stage = 3
  output : c.context_output_vec = (c.reduceCalls.map client.reduce).flatten
  drained : ∀ tid, tid < c.threads_num → leftReduce (c.pc tid) = true → c.shuffled_vector = []

/-- The positions of worker 0 after a `shuffle` that found no intermediate
pair and returned at once. -/
def skipPc : Pc K V → Bool
  | Pc.reduceLoop => true
  | Pc.join i => i != 0
  | Pc.done => true
  | _ => false

/-- What holds after a `shuffle` that found no intermediate pair: worker 0 is
in `reduce` or behind it, the other workers wait, no `sem_post` was made, and
nothing is shuffled or reduced. -/
structure SkipInv (c : Job I K V O) : Prop where
  leader : skipPc (c.pc 0) = true
  others : ∀ tid, 0 < tid → tid < c.threads_num → waiting (c.pc tid) = true
  sem : c.sem = 0
  posts : c.posts = 0
  queue : c.shuffled_vector = []
  out : c.context_output_vec = []
  calls : c.reduceCalls = []

/-- What holds from the call of `shuffle` by worker 0 on, for the intermediate
pairs `P` in the shared list at that call: the job is inside `shuffle` and
`getReadyToReduce`, or behind the first `sem_post` with a queue of well-formed
groups that hold the pairs `P`, or behind a `shuffle` that found no pair. -/
def LaterInv (client : Client I K V O) (P : List (K × V)) (c : Job I K V O) : Prop :=
  (ShuffleInv client.lt P c ∧ ShuffleWord P c) ∨
  (∃ gs, GroupsOk client.lt gs ∧ gs.flatten.Perm P ∧ ReduceInv client gs c) ∨
  (P = [] ∧ SkipInv c)

/-- What holds from the call of `shuffle` by worker 0 on, the call included,
for the intermediate pairs `P` in the shared list at that call. -/
def FromShuffle (client : Client I K V O) (P : List (K × V)) (c : Job I K V O) : Prop :=
  (ShuffleEntry client.lt c ∧ c.all_intermediate_vec.flatten = P) ∨ LaterInv client P c

/-- The number of distinct keys of the pairs of a list, up to the equivalence
`equivKeys`: a pair counts when no pair behind it has an equivalent key. -/
def distinctKeys (lt : K → K → Bool) : List (K × V) → Nat
  | [] => 0
  | x :: xs =>
    (if xs.any (fun y => equivKeys lt x.1 y.1) then 0 else 1) + distinctKeys lt xs

/-- A bound on the number of steps that worker 0 needs from position `p` to
the end of the loop of `shuffle` when `n` pairs are still in the vectors:
three steps for every pair, and up to five more. -/
def rankAt : Pc K V → Nat → Nat
  | Pc.shuffle, n => 3 * n + 5
  | Pc.shuffleSetStage _, n => 3 * n + 4
  | Pc.shuffleSetTotal _, n => 3 * n + 3
  | Pc.shuffleFirstUpdate, n => 3 * n + 2
  | Pc.shuffleLoop, n => 3 * n + 1
  | Pc.shuffleAdd _, n => 3 * n + 3
  | Pc.shuffleUpdate, n => 3 * n + 2
  | _, _ => 0

/-- The bound `rankAt` for a job. -/
def shuffleRank (c : Job I K V O) : Nat :=
  rankAt (c.pc 0) c.all_intermediate_vec.flatten.length

/-- What the calls of `client.map` have recorded when the map phase is over,
for the intermediate pairs `P` that `shuffle` found: the calls took the input
indices in order, each once, and `P` holds the pairs emitted for the input. -/
structure MapDone (client : Client I K V O) (P : List (K × V)) (c : Job I K V O) : Prop where
  indices : c.mapCalls.map Prod.snd = List.range c.context_input_vec.length
  pairs : P.Perm (c.context_input_vec.flatMap client.map)

/-- What holds in every job state that the workers reach from
`startMapReduceJob`: the job is in its map phase, or behind it with the pairs
`P` found by `shuffle`. -/
def JobInv (client : Client I K V O) (c : Job I K V O) : Prop :=
  MapInv client c ∨ ∃ P, MapDone client P c ∧ LaterInv client P c

/-- The positions of worker 0 behind its call of `shuffle`. -/
def pastShuffle : Pc K V → Bool
  | Pc.reduceLoop => true
  | Pc.reduceCall _ => true
  | Pc.reduceAdd => true
  | Pc.reduceUpdate => true
  | Pc.join _ => true
  | Pc.done => true
  | _ => false

/-- The groups of the pairs of a list by key equivalence, with `n` pairs
still to place: the first pair together with the later pairs of an equivalent
key, then the groups of the other pairs. -/
def groupByKeyAux (lt : K → K → Bool) : Nat → List (K × V) → List (List (K × V))
  | 0, _ => []
  | _ + 1, [] => []
  | n + 1, x :: xs =>
    (x :: xs.filter (fun y => equivKeys lt x.1 y.1))
      :: groupByKeyAux lt n (xs.filter (fun y => !equivKeys lt x.1 y.1))

/-- The groups of the pairs of a list by key equivalence. -/
def groupByKey (lt : K → K → Bool) (pairs : List (K × V)) : List (List (K × V)) :=
  groupByKeyAux lt pairs.length pairs

/-- The single-threaded reference run of the specification: map every input
pair, group the intermediate pairs by key equivalence, reduce each group
once. -/
def referenceRun (client : Client I K V O) (input : List I) : List O :=
  (groupByKey client.lt (input.flatMap client.map)).flatMap client.reduce

/-- The output of `client.reduce` on a group does not depend on the order of
the pairs in the group, up to the order of the output pairs. -/
def OrderBlind (client : Client I K V O) : Prop :=
  ∀ g g' : List (K × V), g.Perm g' →
    (∀ a ∈ g, ∀ b ∈ g, equivKeys client.lt a.1 b.1 = true) →
    (client.reduce g).Perm (client.reduce g')

/-- The groups of a list are in strictly descending key order: every pair of a
group has a key above the key of every pair of every group behind it. -/
def Descending (lt : K → K → Bool) (groups : List (List (K × V))) : Prop :=
  groups.Pairwise (fun g g' => ∀ a ∈ g, ∀ b ∈ g', lt b.1 a.1 = true)

/-- The groups of a list are in strictly ascending key order. -/
def Ascending (lt : K → K → Bool) (groups : List (List (K × V))) : Prop :=
  groups.Pairwise (fun g g' => ∀ a ∈ g, ∀ b ∈ g', lt a.1 b.1 = true)

/-- In a job with a single worker, the groups that the worker has popped from
the shuffle-output queue, the last popped first: the group it holds and the
groups it has given to `client.reduce`. With more workers the order of the
calls of `client.reduce` is not the order of the pops, and the list is left
empty. -/
def poppedBy (c : Job I K V O) : List (List (K × V)) :=
  if c.threads_num = 1 then heldAt (c.pc 0) ++ c.reduceCalls.reverse else []

/-- The order of the keys in a job: the groups of the shuffle-output queue,
followed by the groups popped by a single worker, are in strictly descending
key order, and every pair still in the intermediate vectors has a key below
the keys of all these groups. -/
structure KeyOrder (lt : K → K → Bool) (c : Job I K V O) : Prop where
  queue : Descending lt (c.shuffled_vector ++ poppedBy c)
  below : ∀ g ∈ c.shuffled_vector ++ poppedBy c, ∀ a ∈ g,
    ∀ x ∈ c.all_intermediate_vec.flatten, lt x.1 a.1 = true

/-- Insertion of a pair into a vector sorted by key, behind the pairs that are
not greater. -/
def insertByKey (lt : K → K → Bool) (x : K × V) : List (K × V) → List (K × V)
  | [] => [x]
  | y :: ys => if lt x.1 y.1 then x :: y :: ys else y :: insertByKey lt x ys

/-- A sorting function for the places where a concrete `std_sort` is needed:
insertion sort by key. -/
def insertionSort (lt : K → K → Bool) : List (K × V) → List (K × V)
  | [] => []
  | x :: xs => insertByKey lt x (insertionSort lt xs)

end Framework

/-! ## Concrete clients and schedules -/

/-- The ordering `<` of natural-number keys. -/
def natLt (a b : Nat) : Bool := decide (a < b)

/-- A client on natural numbers: `map` emits the number under the key
`x % 3`, and `reduce` emits the key with the sum of the values of the group. -/
def sumClient : Client Nat Nat Nat (Nat × Nat) where
  map x := [(x % 3, x)]
  reduce g :=
    match g with
    | [] => []
    | p :: _ => [(p.1, (g.map Prod.snd).sum)]
  lt := natLt

/-- A client whose `reduce` depends on the order of the pairs in the group: it
emits the first pair of the group. -/
def firstClient : Client Nat Nat Nat (Nat × Nat) where
  map x := [(x % 3, x)]
  reduce g :=
    match g with
    | [] => []
    | p :: _ => [p]
  lt := natLt

/-- A client whose `map` emits no pair. -/
def silentClient : Client Nat Nat Nat (Nat × Nat) where
  map _ := []
  reduce g :=
    match g with
    | [] => []
    | p :: _ => [(p.1, (g.map Prod.snd).sum)]
  lt := natLt

/-- The schedule that gives every one of `W` workers a turn, `rounds` times. -/
def roundRobin (W rounds : Nat) : List Nat :=
  (List.replicate rounds (List.range W)).flatten

/-- The job of `sumClient` on the input `[1, 2, 4]` with two workers at the
call of `shuffle` by worker 0, after seven rounds of both workers: the shared
list holds the vectors `[(2, 2)]` and `[(1, 4), (1, 1)]`. -/
def atShuffle : Job Nat Nat Nat (Nat × Nat) :=
  run sumClient (insertionSort natLt) (roundRobin 2 7) (startMapReduceJob [1, 2, 4] 2)

/-- An ordering of the natural numbers that is irreflexive and not a strict
weak ordering: `a` is below `b` when `a + 1 < b`, so 1 and 2 are equivalent, 2
and 3 are equivalent, and 1 is below 3. -/
def gapLt (a b : Nat) : Bool := decide (a + 1 < b)

/-- A client on natural numbers with the ordering `gapLt`: `map` emits the
number under itself as key, and `reduce` emits the pairs of the group. -/
def gapClient : Client Nat Nat Nat (Nat × Nat) where
  map x := [(x, x)]
  reduce g := g
  lt := gapLt

/-- The job of `gapClient` on the input `[3, 1, 2, 5]` with one worker at the
top of the loop of `shuffle`, after fifteen steps of the worker: the shared
list holds the vector `[(2, 2), (1, 1), (3, 3), (5, 5)]`. -/
def atGapLoop : Job Nat Nat Nat (Nat × Nat) :=
  run gapClient (insertionSort gapLt) (List.replicate 15 0) (startMapReduceJob [3, 1, 2, 5] 1)

end MapReduce

namespace VM

/-! ### General facts on the range check of `VMread` and `VMwrite` -/

theorem VMread_out_of_range (c : Config) (m : PhysMem) (va : Nat) (value : Int)
    (h : VIRTUAL_MEMORY_SIZE c ≤ va) : (VMread c va value).run m = some ((0, value), m) := by
  simp [VMread, h, StateT.run, pure, StateT.pure]

theorem VMwrite_out_of_range (c : Config) (m : PhysMem) (va : Nat) (value : Int)
    (h : VIRTUAL_MEMORY_SIZE c ≤ va) : (VMwrite c va value).run m = some (0, m) := by
  simp [VMwrite, h, StateT.run, pure, StateT.pure]

theorem PM_bind_eq_some {α β : Type} (x : PM α) (f : α → PM β) (m m' : PhysMem) (b : β) :
    (x >>= f) m = some (b, m') ↔ ∃ a m1, x m = some (a, m1) ∧ f a m1 = some (b, m') := by
  show (StateT.bind x f) m = some (b, m') ↔ _
  unfold StateT.bind
  cases hx : x m with
  | none => simp [hx]
  | some p =>
    obtain ⟨a, m1⟩ := p
    simp only [hx, Option.some.injEq, Prod.mk.injEq]
    constructor
    · intro h
      exact ⟨a, m1, ⟨rfl, rfl⟩, h⟩
    · rintro ⟨a1, m2, ⟨rfl, rfl⟩, h⟩
      exact h

theorem PM_pure_eq_some {α : Type} (a b : α) (m m' : PhysMem) :
    (pure a : PM α) m = some (b, m') ↔ a = b ∧ m = m' := by
  show (StateT.pure a : PM α) m = some (b, m') ↔ _
  simp [StateT.pure, pure]

theorem VMread_in_range_ret (c : Config) (m m' : PhysMem) (va : Nat) (value : Int) (r : Int × Int)
    (h : va < VIRTUAL_MEMORY_SIZE c) (hr : (VMread c va value).run m = some (r, m')) :
    r.1 = 1 := by
  have h' : ¬ VIRTUAL_MEMORY_SIZE c ≤ va := Nat.not_le.mpr h
  simp only [VMread, ge_iff_le, h', if_false, StateT.run] at hr
  obtain ⟨_, _, _, hr⟩ := (PM_bind_eq_some _ _ _ _ _).mp hr
  obtain ⟨_, _, _, hr⟩ := (PM_bind_eq_some _ _ _ _ _).mp hr
  obtain ⟨hr, _⟩ := (PM_pure_eq_some _ _ _ _).mp hr
  rw [← hr]

theorem VMwrite_in_range_ret (c : Config) (m m' : PhysMem) (va : Nat) (value : Int) (r : Int)
    (h : va < VIRTUAL_MEMORY_SIZE c) (hr : (VMwrite c va value).run m = some (r, m')) :
    r = 1 := by
  have h' : ¬ VIRTUAL_MEMORY_SIZE c ≤ va := Nat.not_le.mpr h
  simp only [VMwrite, ge_iff_le, h', if_false, StateT.run] at hr
  obtain ⟨_, _, _, hr⟩ := (PM_bind_eq_some _ _ _ _ _).mp hr
  obtain ⟨_, _, _, hr⟩ := (PM_bind_eq_some _ _ _ _ _).mp hr
  obtain ⟨hr, _⟩ := (PM_pure_eq_some _ _ _ _).mp hr
  rw [← hr]

/-! ### The bundled test does not depend on the uninitialised output word -/

theorem VMread_garbage (c : Config) (va : Nat) (garbage : Int) (m : PhysMem) :
    (VMread c va garbage).run m
      = ((VMread c va 0).run m).map (fun p => (outputAfter garbage p.1, p.2)) := by
  by_cases h : VIRTUAL_MEMORY_SIZE c ≤ va
  · rw [VMread_out_of_range c m va garbage h, VMread_out_of_range c m va 0 h]
    rfl
  · have h' : va < VIRTUAL_MEMORY_SIZE c := Nat.lt_of_not_le h
    have heq : (VMread c va garbage).run m = (VMread c va 0).run m := by
      simp only [VMread, ge_iff_le, h, if_false]
    rw [heq]
    cases hx : (VMread c va 0).run m with
    | none => rfl
    | some p =>
      obtain ⟨r, m'⟩ := p
      have hr := VMread_in_range_ret c m m' va 0 r h' hx
      have : outputAfter garbage r = r := by
        unfold outputAfter
        rw [hr]
        rfl
      simp only [Option.map_some', this]

theorem simpleTestReads_garbage (c : Config) (garbage : Int) (n i : Nat) (m : PhysMem) :
    (simpleTestReads c garbage n i).run m
      = ((simpleTestReads c 0 n i).run m).map
          (fun p => (p.1.map (outputAfter garbage), p.2)) := by
  induction n generalizing i m with
  | zero => rfl
  | succ n ih =>
    show (VMread c (5 * i * PAGE_SIZE c) garbage >>= fun r =>
            simpleTestReads c garbage n (i + 1) >>= fun rs => pure (r :: rs)) m
        = Option.map _
          ((VMread c (5 * i * PAGE_SIZE c) 0 >>= fun r =>
            simpleTestReads c 0 n (i + 1) >>= fun rs => pure (r :: rs)) m)
    have h1 := VMread_garbage c (5 * i * PAGE_SIZE c) garbage m
    simp only [StateT.run] at h1 ih
    simp only [bind, StateT.bind, h1]
    cases hx : VMread c (5 * i * PAGE_SIZE c) 0 m with
    | none => rfl
    | some p =>
      obtain ⟨r, m1⟩ := p
      simp only [Option.map_some', Option.bind_eq_bind, Option.some_bind, ih]
      cases hy : simpleTestReads c 0 n (i + 1) m1 with
      | none => rfl
      | some q =>
        obtain ⟨rs, m2⟩ := q
        rfl

theorem simpleTest_garbage (c : Config) (garbage : Int) (m : PhysMem) :
    ((simpleTest c garbage).run m).map Prod.fst
      = (((simpleTest c 0).run m).map Prod.fst).map
          (fun p => (p.1, p.2.map (outputAfter garbage))) := by
  show Option.map Prod.fst (( VMinitialize c >>= fun _ =>
          simpleTestWrites c (2 * NUM_FRAMES c) 0 >>= fun ws =>
          simpleTestReads c garbage (2 * NUM_FRAMES c) 0 >>= fun rs => pure (ws, rs)) m)
      = Option.map _ (Option.map Prod.fst (( VMinitialize c >>= fun _ =>
          simpleTestWrites c (2 * NUM_FRAMES c) 0 >>= fun ws =>
          simpleTestReads c 0 (2 * NUM_FRAMES c) 0 >>= fun rs => pure (ws, rs)) m))
  simp only [bind, StateT.bind]
  cases hx : VMinitialize c m with
  | none => rfl
  | some p =>
    obtain ⟨u, m1⟩ := p
    simp only [Option.bind_eq_bind, Option.some_bind]
    cases hy : simpleTestWrites c (2 * NUM_FRAMES c) 0 m1 with
    | none => rfl
    | some q =>
      obtain ⟨ws, m2⟩ := q
      have h1 := simpleTestReads_garbage c garbage (2 * NUM_FRAMES c) 0 m2
      simp only [StateT.run] at h1
      simp only [Option.some_bind, h1]
      cases hz : simpleTestReads c 0 (2 * NUM_FRAMES c) 0 m2 with
      | none => rfl
      | some r =>
        obtain ⟨rs, m3⟩ := r
        rfl

/-! ### Properties of the virtual memory (claims C1 to C7) -/

set_option maxRecDepth 1000000 in
/-- C1 (persistence through eviction) fails on the code. With `TEST_CONSTANTS`,
after `VMinitialize(); VMwrite(24, 100); VMwrite(8, 1);` the call
`VMread(8, &value)` returns 1 and stores 100, not the 1 last written to
address 8: the second write reaches the eviction step, where
`findAndEvictFrame` selects no frame and `find_unused_frame` hands out frame 0,
so the word is written into the root table. -/
theorem C1_persistence_violated :
    ((do VMinitialize TEST_CONSTANTS
         let _ ← VMwrite TEST_CONSTANTS 24 100
         let _ ← VMwrite TEST_CONSTANTS 8 1
         VMread TEST_CONSTANTS 8 0 : PM (Int × Int)).run PhysMem.start).map Prod.fst
      = some (1, 100) := by
  decide!

set_option maxRecDepth 1000000 in
/-- C2 as stated fails: in the small configuration the iteration `i = 4` of
the read loop of the bundled test addresses `5 * 4 * PAGE_SIZE = 40`, which is
not below `VIRTUAL_MEMORY_SIZE = 32`; `VMread` returns 0 and the output word
keeps its previous content (here 0), it is not 4. -/
theorem C2_read_back_fails_at_4 :
    ((simpleTest TEST_CONSTANTS 0).run PhysMem.start).map (fun r => r.1.2[4]?)
      = some (some (0, 0)) := by
  decide!

set_option maxRecDepth 1000000 in
/-- C2, amended: in the small configuration, whatever the uninitialised output
word `garbage` of the read loop holds, the bundled test reads back `i` for
`i = 0, 1, 2, 3`, the only indices whose address `5 * i * PAGE_SIZE` is below
`VIRTUAL_MEMORY_SIZE`; for every larger index `VMwrite` and `VMread` return 0,
the output word keeps `garbage`, and the memory is left unchanged. -/
theorem C2_simple_test_small_config :
    (∀ garbage : Int,
      ((simpleTest TEST_CONSTANTS garbage).run PhysMem.start).map Prod.fst
        = some ([1, 1, 1, 1, 0, 0, 0, 0, 0, 0, 0, 0, 0, 0, 0, 0],
                [(1, 0), (1, 1), (1, 2), (1, 3), (0, garbage), (0, garbage), (0, garbage),
                 (0, garbage), (0, garbage), (0, garbage), (0, garbage), (0, garbage),
                 (0, garbage), (0, garbage), (0, garbage), (0, garbage)])) ∧
    ∀ (i : Nat) (garbage value : Int) (m : PhysMem),
      (VMwrite TEST_CONSTANTS (5 * (i + 4) * PAGE_SIZE TEST_CONSTANTS) value).run m
        = some (0, m) ∧
      (VMread TEST_CONSTANTS (5 * (i + 4) * PAGE_SIZE TEST_CONSTANTS) garbage).run m
        = some ((0, garbage), m) := by
  refine ⟨?_, ?_⟩
  · intro garbage
    have h0 : ((simpleTest TEST_CONSTANTS 0).run PhysMem.start).map Prod.fst
        = some ([1, 1, 1, 1, 0, 0, 0, 0, 0, 0, 0, 0, 0, 0, 0, 0],
                [(1, 0), (1, 1), (1, 2), (1, 3), (0, 0), (0, 0), (0, 0), (0, 0),
                 (0, 0), (0, 0), (0, 0), (0, 0), (0, 0), (0, 0), (0, 0), (0, 0)]) := by
      decide!
    rw [simpleTest_garbage, h0]
    simp [outputAfter]
  · intro i garbage value m
    have h : VIRTUAL_MEMORY_SIZE TEST_CONSTANTS ≤ 5 * (i + 4) * PAGE_SIZE TEST_CONSTANTS := by
      have h1 : VIRTUAL_MEMORY_SIZE TEST_CONSTANTS = 32 := by decide
      have h2 : PAGE_SIZE TEST_CONSTANTS = 2 := by decide
      rw [h1, h2]
      omega
    exact ⟨VMwrite_out_of_range _ _ _ _ h, VMread_out_of_range _ _ _ _ h⟩

set_option maxRecDepth 1000000 in
/-- C3: the return codes of `VMread` and `VMwrite`. For an address that is not
below `VIRTUAL_MEMORY_SIZE` both return 0 and leave RAM, swap store and output
word unchanged, and for an address below it neither ever returns anything but
1. They do not always return for such an address, which is where the code
departs from the claim: with `TEST_CONSTANTS`, after
`VMinitialize(); VMwrite(24, 100); VMwrite(8, 101);` the call `VMread(8, &value)`
is aborted by the assertion of `PMread`, the root table having been
overwritten by the second write. -/
theorem C3_return_codes :
    (∀ (c : Config) (m : PhysMem) (va : Nat) (value : Int), VIRTUAL_MEMORY_SIZE c ≤ va →
      (VMread c va value).run m = some ((0, value), m) ∧
      (VMwrite c va value).run m = some (0, m)) ∧
    (∀ (c : Config) (m m' : PhysMem) (va : Nat) (value : Int) (r : Int × Int),
      va < VIRTUAL_MEMORY_SIZE c → (VMread c va value).run m = some (r, m') → r.1 = 1) ∧
    (∀ (c : Config) (m m' : PhysMem) (va : Nat) (value r : Int),
      va < VIRTUAL_MEMORY_SIZE c → (VMwrite c va value).run m = some (r, m') → r = 1) ∧
    (do VMinitialize TEST_CONSTANTS
        let _ ← VMwrite TEST_CONSTANTS 24 100
        let _ ← VMwrite TEST_CONSTANTS 8 101
        VMread TEST_CONSTANTS 8 0 : PM (Int × Int)).run PhysMem.start = none := by
  refine ⟨?_, ?_, ?_, by decide!⟩
  · intro c m va value h
    exact ⟨VMread_out_of_range c m va value h, VMwrite_out_of_range c m va value h⟩
  · intro c m m' va value r h hr
    exact VMread_in_range_ret c m m' va value r h hr
  · intro c m m' va value r h hr
    exact VMwrite_in_range_ret c m m' va value r h hr

set_option maxRecDepth 1000000 in
/-- C4 fails on the code. With `TEST_CONSTANTS` (`NUM_PAGES = 16`), after
`VMinitialize(); VMwrite(4, 100); VMwrite(0, 101);` the resident pages are 0
and 2 and nothing is swapped; `VMwrite(14, 102)` (page 7) reaches the eviction
step and evicts page 2, at cyclic distance 5 from page 7, although page 0 is
resident at cyclic distance 7. -/
theorem C4_evicts_nearer_page :
    ((do VMinitialize TEST_CONSTANTS
         let _ ← VMwrite TEST_CONSTANTS 4 100
         let _ ← VMwrite TEST_CONSTANTS 0 101 : PM Unit).run PhysMem.start).map
        (fun r => (residentPages TEST_CONSTANTS r.2, swappedPages r.2)) = some ([0, 2], []) ∧
    ((do VMinitialize TEST_CONSTANTS
         let _ ← VMwrite TEST_CONSTANTS 4 100
         let _ ← VMwrite TEST_CONSTANTS 0 101
         let _ ← VMwrite TEST_CONSTANTS 14 102 : PM Unit).run PhysMem.start).map
        (fun r => (residentPages TEST_CONSTANTS r.2, r.2.swapFile))
      = some ([0, 7], [(2, [100, 0])]) ∧
    cyclicDistance TEST_CONSTANTS 7 2 = 5 ∧ cyclicDistance TEST_CONSTANTS 7 0 = 7 := by
  decide!

set_option maxRecDepth 1000000 in
/-- C5 fails on the code. With `TEST_CONSTANTS`, after
`VMinitialize(); VMwrite(0, 100); VMwrite(8, 101);` the resident pages are 0
and 4, both at the maximal cyclic distance 2 from page 2; `VMwrite(4, 102)`
(page 2) reaches the eviction step and evicts page 4, not page 0, which the
depth-first traversal meets first. -/
theorem C5_tie_not_first_in_dfs :
    ((do VMinitialize TEST_CONSTANTS
         let _ ← VMwrite TEST_CONSTANTS 0 100
         let _ ← VMwrite TEST_CONSTANTS 8 101 : PM Unit).run PhysMem.start).map
        (fun r => (residentPages TEST_CONSTANTS r.2, swappedPages r.2)) = some ([0, 4], []) ∧
    ((do VMinitialize TEST_CONSTANTS
         let _ ← VMwrite TEST_CONSTANTS 0 100
         let _ ← VMwrite TEST_CONSTANTS 8 101
         let _ ← VMwrite TEST_CONSTANTS 4 102 : PM Unit).run PhysMem.start).map
        (fun r => (residentPages TEST_CONSTANTS r.2, r.2.swapFile))
      = some ([0, 2], [(4, [101, 0])]) ∧
    cyclicDistance TEST_CONSTANTS 2 0 = 2 ∧ cyclicDistance TEST_CONSTANTS 2 4 = 2 := by
  decide!

set_option maxRecDepth 1000000 in
/-- C6 fails on the code. With `TEST_CONSTANTS`, after
`VMinitialize(); VMwrite(24, 100);` the walk of `getPhysicalAddress(8)` goes
through three levels and arrives in frame 7 with the root table `[5, 1]`; the
call `find_unused_frame(8, 7)` of the last level then returns frame 0, after
`PMevict(0, 0)` has stored the root table in the swap store as page 0 and
entry 0 of the root table has been zeroed. -/
theorem C6_root_frame_handed_out :
    ((do VMinitialize TEST_CONSTANTS
         let _ ← VMwrite TEST_CONSTANTS 24 100
         getPhysicalAddressLoop TEST_CONSTANTS 8 3 0 0 false : PM (Int × Bool)).run
        PhysMem.start).map (fun r => (r.1, r.2.RAM.head?, r.2.swapFile))
      = some ((7, true), some [5, 1], []) ∧
    ((do VMinitialize TEST_CONSTANTS
         let _ ← VMwrite TEST_CONSTANTS 24 100
         let _ ← getPhysicalAddressLoop TEST_CONSTANTS 8 3 0 0 false
         find_unused_frame TEST_CONSTANTS 8 7 : PM Int).run PhysMem.start).map
        (fun r => (r.1, r.2.RAM.head?, r.2.swapFile))
      = some (0, some [0, 1], [(0, [5, 1])]) := by
  decide!

set_option maxRecDepth 1000000 in
/-- C7 fails on the code. With `TEST_CONSTANTS`, after
`VMinitialize(); VMwrite(24, 100); VMwrite(8, 101);` only pages 12 and 4 have
been accessed, yet page 0 is a key of the swap store (it holds the former
root table), and page 4, which was just written, is neither mapped by the
page-table tree nor in the swap store. -/
theorem C7_unaccessed_page_in_swap :
    ((do VMinitialize TEST_CONSTANTS
         let _ ← VMwrite TEST_CONSTANTS 24 100
         let _ ← VMwrite TEST_CONSTANTS 8 101 : PM Unit).run PhysMem.start).map
        (fun r => (residentPages TEST_CONSTANTS r.2, r.2.swapFile))
      = some ([12], [(0, [5, 1])]) ∧
    24 >>> TEST_CONSTANTS.OFFSET_WIDTH = 12 ∧ 8 >>> TEST_CONSTANTS.OFFSET_WIDTH = 4 := by
  decide!

/-! ### Address translation along a present path (claim C30) -/

theorem ensureInit_of_ramGet (c : Config) (m : PhysMem) (a : Nat) (v : Int)
    (h : ramGet c m.RAM a = some v) : ensureInit c m = m := by
  unfold ensureInit
  cases hr : m.RAM with
  | nil => rw [hr] at h; simp [ramGet] at h
  | cons p ps => simp

theorem lt_RAM_SIZE_of_ramGet (c : Config) (ram : List page_t) (a : Nat) (v : Int)
    (hram : ram.length ≤ NUM_FRAMES c) (h : ramGet c ram a = some v) : a < RAM_SIZE c := by
  unfold ramGet at h
  cases hp : ram[a / PAGE_SIZE c]? with
  | none => rw [hp] at h; cases h
  | some page =>
    have hlt : a / PAGE_SIZE c < ram.length := (List.getElem?_eq_some_iff.mp hp).1
    have hps : 0 < PAGE_SIZE c := by
      unfold PAGE_SIZE
      rw [Nat.one_shiftLeft]
      exact Nat.two_pow_pos _
    have h1 : a / PAGE_SIZE c < RAM_SIZE c / PAGE_SIZE c := by
      unfold NUM_FRAMES at hram
      omega
    exact Nat.lt_of_div_lt_div h1

theorem PMread_of_ramGet (c : Config) (m : PhysMem) (a : Nat) (v : Int)
    (hram : m.RAM.length ≤ NUM_FRAMES c) (h : ramGet c m.RAM a = some v) :
    PMread c a m = some (v, m) := by
  unfold PMread
  simp only [ensureInit_of_ramGet c m a v h, lt_RAM_SIZE_of_ramGet c m.RAM a v hram h, if_true, h]

theorem index_eq_mod (c : Config) (x : Nat) : x &&& (PAGE_SIZE c - 1) = x % PAGE_SIZE c := by
  unfold PAGE_SIZE
  rw [Nat.one_shiftLeft]
  exact Nat.and_pow_two_sub_one_eq_mod x _

theorem getPhysicalAddressLoop_present (c : Config) (m : PhysMem) (va : Nat) (f : Int)
    (hram : m.RAM.length ≤ NUM_FRAMES c) (n i : Nat) (frame : Int) (useNewFrame : Bool)
    (h : frameReached c m.RAM va n i frame = some f) :
    getPhysicalAddressLoop c va n i frame useNewFrame m = some ((f, useNewFrame), m) := by
  induction n generalizing i frame with
  | zero =>
    simp only [frameReached, Option.some.injEq] at h
    rw [← h]
    rfl
  | succ n ih =>
    simp only [frameReached] at h
    cases hg : ramGet c m.RAM (toU64 (frame * (PAGE_SIZE c : Int)
        + (((va >>> (c.OFFSET_WIDTH * (TABLES_DEPTH c - i))) % PAGE_SIZE c : Nat) : Int))) with
    | none => rw [hg] at h; cases h
    | some entry =>
      rw [hg] at h
      by_cases he : entry = 0
      · simp [he] at h
      · simp only [he, if_false] at h
        have hread := PMread_of_ramGet c m _ entry hram hg
        have hrec := ih (i + 1) entry h
        unfold getPhysicalAddressLoop
        simp only [index_eq_mod, bind, StateT.bind, hread, Option.bind]
        have hne : (entry == 0) = false := by simpa using he
        simp only [hne]
        exact hrec

/-- C30: in a memory whose RAM has at most `NUM_FRAMES` frames, for every
virtual address `va` whose page-table path is fully present, that is, the walk
from frame 0 through `TABLES_DEPTH` table entries, the entry at level `i`
indexed by `(va >> OFFSET_WIDTH * (TABLES_DEPTH - i)) mod PAGE_SIZE`, finds a
non-zero entry at every level and ends in the frame `f`,
`getPhysicalAddress(va)` returns `f * PAGE_SIZE + (va mod PAGE_SIZE)` (a value
of `uint64_t`) and leaves the memory as it was. -/
theorem C30_translation_of_present_path (c : Config) (m : PhysMem) (va f : Nat)
    (hram : m.RAM.length ≤ NUM_FRAMES c)
    (hpath : frameReached c m.RAM va (TABLES_DEPTH c) 0 0 = some (f : Int))
    (hfit : f * PAGE_SIZE c + va % PAGE_SIZE c < 2 ^ 64) :
    getPhysicalAddress c va m = some (f * PAGE_SIZE c + va % PAGE_SIZE c, m) := by
  have hloop := getPhysicalAddressLoop_present c m va f hram (TABLES_DEPTH c) 0 0 false hpath
  unfold getPhysicalAddress
  simp only [bind, StateT.bind, hloop, Option.bind, index_eq_mod]
  have : toU64 ((f : Int) * (PAGE_SIZE c : Int) + ((va % PAGE_SIZE c : Nat) : Int))
      = f * PAGE_SIZE c + va % PAGE_SIZE c := by
    unfold toU64
    have e : ((f : Int) * (PAGE_SIZE c : Int) + ((va % PAGE_SIZE c : Nat) : Int))
        = ((f * PAGE_SIZE c + va % PAGE_SIZE c : Nat) : Int) := by push_cast; rfl
    rw [e]
    have e2 : ((2 : Int) ^ 64) = ((2 ^ 64 : Nat) : Int) := by norm_num
    rw [e2, ← Int.natCast_mod, Int.toNat_natCast, Nat.mod_eq_of_lt hfit]
  rw [this]
  rfl

set_option maxRecDepth 1000000 in
/-- C30 in the small configuration, in the memory left by
`VMinitialize(); VMwrite(13, 7);`: the path of the address 13 ends in frame 4
and `getPhysicalAddress(13)` returns `4 * 2 + 1 = 9`. -/
theorem C30_translation_of_present_path_witness :
    ((do VMinitialize TEST_CONSTANTS
         let _ ← VMwrite TEST_CONSTANTS 13 7 : PM Unit).run PhysMem.start).map Prod.snd
      = some mappedOnce ∧
    13 < VIRTUAL_MEMORY_SIZE TEST_CONSTANTS ∧
    mappedOnce.RAM.length ≤ NUM_FRAMES TEST_CONSTANTS ∧
    frameReached TEST_CONSTANTS mappedOnce.RAM 13 (TABLES_DEPTH TEST_CONSTANTS) 0 0
      = some ((4 : Nat) : Int) ∧
    4 * PAGE_SIZE TEST_CONSTANTS + 13 % PAGE_SIZE TEST_CONSTANTS = 9 ∧
    getPhysicalAddress TEST_CONSTANTS 13 mappedOnce
      = some (4 * PAGE_SIZE TEST_CONSTANTS + 13 % PAGE_SIZE TEST_CONSTANTS, mappedOnce) :=
  ⟨by decide!, by decide, by decide, by decide!, by decide,
    C30_translation_of_present_path TEST_CONSTANTS mappedOnce 13 4 (by decide) (by decide!)
      (by decide)⟩

/-! ### Reading a resident address (claim C36) -/

theorem PAGE_SIZE_pos (c : Config) : 0 < PAGE_SIZE c := by
  unfold PAGE_SIZE
  rw [Nat.one_shiftLeft]
  exact Nat.two_pow_pos _

theorem ramInit_idem (c : Config) (m : PhysMem) : ramInit c (ramInit c m) = ramInit c m := rfl

theorem ensureInit_idem (c : Config) (m : PhysMem) :
    ensureInit c (ensureInit c m) = ensureInit c m := by
  unfold ensureInit
  by_cases h : m.RAM.isEmpty = true
  · simp only [h, if_true]
    split <;> rfl
  · simp [h]

/-- What a successful `PMread` returns: the word of the RAM after the lazy
set-up, which is the state it leaves. -/
theorem PMread_some (c : Config) (a : Nat) (m m' : PhysMem) (v : Int)
    (h : PMread c a m = some (v, m')) :
    m' = ensureInit c m ∧ ramGet c (ensureInit c m).RAM a = some v := by
  unfold PMread at h
  simp only at h
  split at h
  · cases hg : ramGet c (ensureInit c m).RAM a with
    | none => rw [hg] at h; cases h
    | some w =>
      rw [hg] at h
      simp only [Option.some.injEq, Prod.mk.injEq] at h
      exact ⟨h.2.symm, by rw [h.1]⟩
  · cases h

theorem find_empty_frame_loop_sound (c : Config) (ram : List page_t) (u : Int)
    (recurse : Int → EmptySearch → PM EmptySearch)
    (hrec : ∀ e st m st' m', recurse e st m = some (st', m') → (ensureInit c m).RAM = ram →
      SoundEmpty c ram u st → SoundEmpty c ram u st' ∧ (ensureInit c m').RAM = ram)
    (f : Int) (n : Nat) :
    ∀ (i : Nat) (dnc : Bool) (st : EmptySearch) (m : PhysMem) (st' : EmptySearch)
      (m' : PhysMem),
      find_empty_frame_loop c recurse f u n i dnc st m = some (st', m') →
      i + n = PAGE_SIZE c → (ensureInit c m).RAM = ram → SoundEmpty c ram u st →
      (dnc = false → ∀ j, j < i →
        ramGet c ram (toU64 (f * (PAGE_SIZE c : Int) + (j : Int))) = some 0) →
      SoundEmpty c ram u st' ∧ (ensureInit c m').RAM = ram := by
  induction n with
  | zero =>
    intro i dnc st m st' m' h hin hm hs hz
    unfold find_empty_frame_loop at h
    split at h
    · rename_i hcond
      obtain ⟨h1, h2⟩ := (PM_pure_eq_some _ _ _ _).mp h
      subst h1 h2
      simp only [Bool.and_eq_true, Bool.not_eq_true', bne_iff_ne, ne_eq] at hcond
      refine ⟨Or.inr ⟨hcond.2, fun j hj => hz hcond.1 j (by omega)⟩, hm⟩
    · obtain ⟨h1, h2⟩ := (PM_pure_eq_some _ _ _ _).mp h
      subst h1 h2
      exact ⟨hs, hm⟩
  | succ n ih =>
    intro i dnc st m st' m' h hin hm hs hz
    unfold find_empty_frame_loop at h
    obtain ⟨frame, m1, hread, h⟩ := (PM_bind_eq_some _ _ _ _ _).mp h
    obtain ⟨hm1, hget⟩ := PMread_some c _ m m1 frame hread
    rw [hm] at hget
    have hm1' : (ensureInit c m1).RAM = ram := by rw [hm1, ensureInit_idem, hm]
    by_cases hfz : frame = 0
    · subst hfz
      simp only [bne_self_eq_false, Bool.false_eq_true, if_false] at h
      obtain ⟨⟨dnc2, st2⟩, m2, hb, h⟩ := (PM_bind_eq_some _ _ _ _ _).mp h
      obtain ⟨h1, h2⟩ := (PM_pure_eq_some _ _ _ _).mp hb
      cases h1
      subst h2
      simp only at h
      split at h
      · obtain ⟨h1, h2⟩ := (PM_pure_eq_some _ _ _ _).mp h
        subst h1 h2
        exact ⟨hs, hm1'⟩
      · refine ih (i + 1) dnc st m1 st' m' h (by omega) hm1' hs (fun hd j hj => ?_)
        by_cases hji : j = i
        · subst hji
          exact hget
        · exact hz hd j (by omega)
    · have hne : (frame != 0) = true := by simpa using hfz
      simp only [hne, if_true] at h
      obtain ⟨st3, m3, hr, h⟩ := (PM_bind_eq_some _ _ _ _ _).mp h
      obtain ⟨⟨dnc2, st2⟩, m2, hb, h⟩ := (PM_bind_eq_some _ _ _ _ _).mp h
      obtain ⟨h1, h2⟩ := (PM_pure_eq_some _ _ _ _).mp hb
      cases h1
      subst h2
      have hs' : SoundEmpty c ram u
          ⟨st.emptyFrame, toU64 (f * (PAGE_SIZE c : Int) + (i : Int))⟩ := hs
      obtain ⟨g1, g2⟩ := hrec frame _ m1 st3 m3 hr hm1' hs'
      simp only at h
      split at h
      · obtain ⟨h1, h2⟩ := (PM_pure_eq_some _ _ _ _).mp h
        subst h1 h2
        exact ⟨g1, g2⟩
      · exact ih (i + 1) true st3 m3 st' m' h (by omega) g2 g1 (fun hd => by cases hd)

theorem find_empty_frame_dfs_sound (c : Config) (ram : List page_t) (u : Int) (rem : Nat) :
    ∀ (f : Int) (st : EmptySearch) (m : PhysMem) (st' : EmptySearch) (m' : PhysMem),
      find_empty_frame_dfs c u rem f st m = some (st', m') → (ensureInit c m).RAM = ram →
      SoundEmpty c ram u st → SoundEmpty c ram u st' ∧ (ensureInit c m').RAM = ram := by
  induction rem with
  | zero =>
    intro f st m st' m' h hm hs
    unfold find_empty_frame_dfs at h
    obtain ⟨h1, h2⟩ := (PM_pure_eq_some _ _ _ _).mp h
    subst h1 h2
    exact ⟨hs, hm⟩
  | succ rem ih =>
    intro f st m st' m' h hm hs
    unfold find_empty_frame_dfs at h
    split at h
    · obtain ⟨h1, h2⟩ := (PM_pure_eq_some _ _ _ _).mp h
      subst h1 h2
      exact ⟨hs, hm⟩
    · exact find_empty_frame_loop_sound c ram u _ ih f (PAGE_SIZE c) 0 false st m st' m' h
        (by omega) hm hs (fun _ j hj => by omega)

theorem frameReached_add (c : Config) (ram : List page_t) (va : Nat) (a b : Nat) :
    ∀ (i : Nat) (f : Int),
      frameReached c ram va (a + b) i f
        = (frameReached c ram va a i f).bind (fun g => frameReached c ram va b (i + a) g) := by
  induction a with
  | zero =>
    intro i f
    simp [frameReached]
  | succ a ih =>
    intro i f
    have e : a + 1 + b = (a + b) + 1 := by omega
    rw [e]
    simp only [frameReached]
    cases ramGet c ram (toU64 (f * (PAGE_SIZE c : Int)
        + (((va >>> (c.OFFSET_WIDTH * (TABLES_DEPTH c - i))) % PAGE_SIZE c : Nat) : Int))) with
    | none => rfl
    | some entry =>
      simp only
      split
      · rfl
      · rw [ih (i + 1) entry]
        have e2 : i + 1 + a = i + (a + 1) := by omega
        rw [e2]

/-- A frame of the path in front of the current frame holds a non-zero entry. -/
theorem frameReached_entry (c : Config) (ram : List page_t) (va j k : Nat) (g u : Int)
    (hjk : j < k) (hk : frameReached c ram va k 0 0 = some u)
    (hj : frameReached c ram va j 0 0 = some g) :
    ∃ (i : Nat) (entry : Int), i < PAGE_SIZE c ∧ entry ≠ 0 ∧
      ramGet c ram (toU64 (g * (PAGE_SIZE c : Int) + (i : Int))) = some entry := by
  obtain ⟨r, hr⟩ : ∃ r, k = j + (r + 1) := ⟨k - j - 1, by omega⟩
  rw [hr, frameReached_add, hj] at hk
  simp only [Option.bind, frameReached, Nat.zero_add] at hk
  cases hg : ramGet c ram (toU64 (g * (PAGE_SIZE c : Int)
      + (((va >>> (c.OFFSET_WIDTH * (TABLES_DEPTH c - j))) % PAGE_SIZE c : Nat) : Int))) with
  | none => rw [hg] at hk; cases hk
  | some entry =>
    rw [hg] at hk
    simp only at hk
    by_cases he : entry = 0
    · simp [he] at hk
    · exact ⟨_, entry, Nat.mod_lt _ (PAGE_SIZE_pos c), he, hg⟩

/-- C33: for every memory, every untouchable frame `u` and every call of
`find_empty_frame_dfs` that starts with `*emptyFrame = 0` and returns, the
frame reported in `*emptyFrame`, when there is one, is not `u`. When the
search from frame 0 reports a frame, it is the frame that `find_unused_frame`
returns, and it is none of the frames on the in-flight translation path of
`va`: for the walk from frame 0 that has arrived at the current frame `u`
after `k` levels, it is not the frame reached after `j` levels for any
`j ≤ k` (frame 0 for `j = 0`, `u` for `j = k`). -/
theorem C33_untouchable_never_selected (c : Config) (u : Int) (m : PhysMem) :
    (∀ (rem : Nat) (f : Int) (st st' : EmptySearch) (m' : PhysMem), st.emptyFrame = 0 →
      find_empty_frame_dfs c u rem f st m = some (st', m') → st'.emptyFrame ≠ 0 →
      st'.emptyFrame ≠ u) ∧
    (∀ (va : Nat) (es : EmptySearch) (m1 : PhysMem),
      find_empty_frame_dfs c u (TABLES_DEPTH c) 0 ⟨0, 0⟩ m = some (es, m1) →
      es.emptyFrame ≠ 0 →
      (∀ (r : Int) (m' : PhysMem), find_unused_frame c va u m = some (r, m') →
        r = es.emptyFrame) ∧
      ∀ (j k : Nat) (g : Int), j ≤ k → frameReached c m.RAM va k 0 0 = some u →
        frameReached c m.RAM va j 0 0 = some g → es.emptyFrame ≠ g) := by
  constructor
  · intro rem f st st' m' hst h hne
    obtain ⟨hs, _⟩ := find_empty_frame_dfs_sound c (ensureInit c m).RAM u rem f st m st' m' h rfl
      (Or.inl hst)
    rcases hs with hs | hs
    · exact absurd hs hne
    · exact hs.1
  · intro va es m1 h hne
    obtain ⟨hs, _⟩ := find_empty_frame_dfs_sound c (ensureInit c m).RAM u (TABLES_DEPTH c) 0
      ⟨0, 0⟩ m es m1 h rfl (Or.inl rfl)
    have hs' : es.emptyFrame ≠ u ∧ ∀ i, i < PAGE_SIZE c →
        ramGet c (ensureInit c m).RAM
          (toU64 (es.emptyFrame * (PAGE_SIZE c : Int) + (i : Int))) = some 0 := by
      rcases hs with hs | hs
      · exact absurd hs hne
      · exact hs
    constructor
    · intro r m' hr
      unfold find_unused_frame at hr
      obtain ⟨es', m2, h1, hr⟩ := (PM_bind_eq_some _ _ _ _ _).mp hr
      rw [h] at h1
      simp only [Option.some.injEq, Prod.mk.injEq] at h1
      obtain ⟨h1, h2⟩ := h1
      subst h1 h2
      have hb : (es.emptyFrame != 0) = true := by simpa using hne
      simp only [hb, if_true] at hr
      obtain ⟨_, m3, _, hr⟩ := (PM_bind_eq_some _ _ _ _ _).mp hr
      exact ((PM_pure_eq_some _ _ _ _).mp hr).1.symm
    · intro j k g hjk hk hj heq
      rcases Nat.lt_or_eq_of_le hjk with hlt | heq'
      · obtain ⟨i, entry, hi, he, hg⟩ := frameReached_entry c m.RAM va j k g u hlt hk hj
        have hE : ensureInit c m = m := ensureInit_of_ramGet c m _ entry hg
        have := hs'.2 i hi
        rw [hE, heq, hg] at this
        exact he (Option.some.inj this)
      · subst heq'
        rw [hk] at hj
        exact hs'.1 (heq.trans (Option.some.inj hj).symm)

set_option maxRecDepth 1000000 in
/-- C33 in the small configuration, in the memory `emptyTableLeft`: the walk
of the address 8 has arrived at frame 5 after one level; the search with the
untouchable frame 5 reports the empty table in frame 3, which
`find_unused_frame` returns, and 3 is neither 0 nor 5. With the untouchable
frame 3 the search reports no frame. -/
theorem C33_untouchable_never_selected_witness :
    frameReached TEST_CONSTANTS emptyTableLeft.RAM 8 1 0 0 = some 5 ∧
    frameReached TEST_CONSTANTS emptyTableLeft.RAM 8 0 0 0 = some 0 ∧
    find_empty_frame_dfs TEST_CONSTANTS 5 (TABLES_DEPTH TEST_CONSTANTS) 0 ⟨0, 0⟩ emptyTableLeft
      = some (⟨3, 4⟩, emptyTableLeft) ∧
    (find_unused_frame TEST_CONSTANTS 8 5 emptyTableLeft).map Prod.fst = some 3 ∧
    (find_empty_frame_dfs TEST_CONSTANTS 3 (TABLES_DEPTH TEST_CONSTANTS) 0 ⟨0, 0⟩
      emptyTableLeft).map (fun r => r.1.emptyFrame) = some 0 ∧
    (3 : Int) ≠ 5 ∧ (3 : Int) ≠ 0 :=
  have h := (C33_untouchable_never_selected TEST_CONSTANTS 5 emptyTableLeft).2 8 ⟨3, 4⟩
    emptyTableLeft (by decide!) (by decide)
  ⟨by decide!, by decide!, by decide!, by decide!, by decide!,
    h.2 1 1 5 (Nat.le_refl _) (by decide!) (by decide!),
    h.2 0 1 0 (by decide) (by decide!) (by decide!)⟩

/-! ### The search for an empty table finds the first one (claim C31) -/

set_option maxRecDepth 1000000 in
/-- C37 fails on the code. With `TEST_CONSTANTS` (`RAM_SIZE = 16`,
`VIRTUAL_MEMORY_SIZE = 32`), the in-range calls
`VMinitialize(); VMwrite(24, 100); VMwrite(8, 101);` return 1 and leave 101 in
entry 0 of the root table: the second write reaches the eviction step, where
`find_unused_frame` hands out frame 0. The next in-range call `VMread(8)` takes
that word for a frame index and calls `PMread(101 * PAGE_SIZE + 1)`, whose
address 203 is not below `RAM_SIZE`: the assertion of `PMread` fails and the
run is aborted. -/
theorem C37_read_address_out_of_ram :
    (24 < VIRTUAL_MEMORY_SIZE TEST_CONSTANTS ∧ 8 < VIRTUAL_MEMORY_SIZE TEST_CONSTANTS ∧
      RAM_SIZE TEST_CONSTANTS = 16) ∧
    ((do VMinitialize TEST_CONSTANTS
         let first ← VMwrite TEST_CONSTANTS 24 100
         let second ← VMwrite TEST_CONSTANTS 8 101
         pure (first, second) : PM (Int × Int)).run PhysMem.start).map
        (fun r => (r.1, r.2.RAM.head?)) = some ((1, 1), some [101, 1]) ∧
    (do VMinitialize TEST_CONSTANTS
        let _ ← VMwrite TEST_CONSTANTS 24 100
        let _ ← VMwrite TEST_CONSTANTS 8 101
        VMread TEST_CONSTANTS 8 0 : PM (Int × Int)).run PhysMem.start = none ∧
    ((do VMinitialize TEST_CONSTANTS
         let _ ← VMwrite TEST_CONSTANTS 24 100
         let _ ← VMwrite TEST_CONSTANTS 8 101
         PMread TEST_CONSTANTS 0 : PM Int).run PhysMem.start).map Prod.fst = some 101 ∧
    (toU64 (101 * (PAGE_SIZE TEST_CONSTANTS : Int) + 1) = 203 ∧
      ¬ 203 < RAM_SIZE TEST_CONSTANTS) ∧
    (do VMinitialize TEST_CONSTANTS
        let _ ← VMwrite TEST_CONSTANTS 24 100
        let _ ← VMwrite TEST_CONSTANTS 8 101
        PMread TEST_CONSTANTS 203 : PM Int).run PhysMem.start = none := by
  decide!

/-! ### The page handed to `PMevict` (claim C34) -/

set_option maxRecDepth 1000000 in
set_option synthInstance.maxHeartbeats 400000 in
set_option synthInstance.maxSize 4096 in
/-- C34 fails on the code when the search of the eviction step selects no
candidate. With `TEST_CONSTANTS`, after `VMinitialize(); VMwrite(24, 100);`
the walk of `getPhysicalAddress(8)` arrives at its last level with the root
table `[5, 1]`, and `findAndEvictFrame` for the page 4 returns its
out-parameters as they were, all 0: the only resident page, page 12, sits in
frame 4, and the distance is taken to the frame index. `find_unused_frame` then
calls `PMevict(0, 0)` and zeroes the word at address 0, yet page 0 is not
mapped to frame 0 (it is not mapped at all), and the word at address 0 held 5,
the pointer to the table in frame 5, not a pointer to the victim frame 0.
When a candidate is selected the claim holds: in the same trace with
`getPhysicalAddress(0)` the search for page 0 selects frame 4 with the page
index 12 and the parent slot 6; page 12 is mapped to frame 4, and the word at
address 6 is 4. -/
theorem C34_evicted_page_index :
    ((do VMinitialize TEST_CONSTANTS
         let _ ← VMwrite TEST_CONSTANTS 24 100
         let _ ← getPhysicalAddressLoop TEST_CONSTANTS 8 3 0 0 false
         findAndEvictFrame TEST_CONSTANTS (8 >>> TEST_CONSTANTS.OFFSET_WIDTH)
           (TABLES_DEPTH TEST_CONSTANTS) 0 0 ⟨0, 0, 0, 0⟩ : PM EvictSearch).run
        PhysMem.start).map
        (fun r => (r.1, r.2.RAM.head?, pageFrame TEST_CONSTANTS r.2.RAM 0
          (TABLES_DEPTH TEST_CONSTANTS) 0 0, ramGet TEST_CONSTANTS r.2.RAM 0))
      = some (⟨0, 0, 0, 0⟩, some [5, 1], none, some 5) ∧
    ((do VMinitialize TEST_CONSTANTS
         let _ ← VMwrite TEST_CONSTANTS 24 100
         let _ ← getPhysicalAddressLoop TEST_CONSTANTS 8 3 0 0 false
         find_unused_frame TEST_CONSTANTS 8 7 : PM Int).run PhysMem.start).map
        (fun r => (r.1, r.2.RAM.head?, r.2.swapFile))
      = some (0, some [0, 1], [(0, [5, 1])]) ∧
    ((do VMinitialize TEST_CONSTANTS
         let _ ← VMwrite TEST_CONSTANTS 24 100
         let _ ← getPhysicalAddressLoop TEST_CONSTANTS 0 3 0 0 false
         findAndEvictFrame TEST_CONSTANTS (0 >>> TEST_CONSTANTS.OFFSET_WIDTH)
           (TABLES_DEPTH TEST_CONSTANTS) 0 0 ⟨0, 0, 0, 0⟩ : PM EvictSearch).run
        PhysMem.start).map
        (fun r => (r.1, pageFrame TEST_CONSTANTS r.2.RAM 12
          (TABLES_DEPTH TEST_CONSTANTS) 0 0, ramGet TEST_CONSTANTS r.2.RAM 6))
      = some (⟨4, 6, 4, 12⟩, some 4, some 4) := by
  decide!

end VM

namespace UThreads

/-! ### Inversion of the primitives -/

theorem UT_bind_ok {α β : Type} (x : UT α) (f : α → UT β) (s s' : Lib) (b : β) :
    (x >>= f) s = .ok (b, s') ↔ ∃ a s1, x s = .ok (a, s1) ∧ f a s1 = .ok (b, s') := by
  show (StateT.bind x f) s = .ok (b, s') ↔ _
  unfold StateT.bind
  cases hx : x s with
  | error e => simp [hx, bind, Except.bind]
  | ok p =>
    obtain ⟨a, s1⟩ := p
    simp only [hx, bind, Except.bind, Except.ok.injEq, Prod.mk.injEq]
    constructor
    · intro h
      exact ⟨a, s1, ⟨rfl, rfl⟩, h⟩
    · rintro ⟨a1, s2, ⟨rfl, rfl⟩, h⟩
      exact h

theorem UT_pure_ok {α : Type} (a b : α) (s s' : Lib) :
    (pure a : UT α) s = .ok (b, s') ↔ a = b ∧ s = s' := by
  show (StateT.pure a : UT α) s = .ok (b, s') ↔ _
  simp [StateT.pure, pure, Except.pure]

theorem getLib_ok (s s' a : Lib) : getLib s = .ok (a, s') ↔ a = s ∧ s' = s := by
  simp only [getLib, Except.ok.injEq, Prod.mk.injEq]
  constructor
  · rintro ⟨rfl, rfl⟩; exact ⟨rfl, rfl⟩
  · rintro ⟨rfl, rfl⟩; exact ⟨rfl, rfl⟩

theorem modifyLib_ok (f : Lib → Lib) (s s' : Lib) (u : Unit) :
    modifyLib f s = .ok (u, s') ↔ s' = f s := by
  simp only [modifyLib, Except.ok.injEq, Prod.mk.injEq, true_and]
  exact eq_comm

theorem halt_ok {α : Type} (h : Halt) (s s' : Lib) (a : α) :
    (halt h : UT α) s = .ok (a, s') ↔ False := by
  simp [halt]

theorem deref_ok (p : Nat) (s s' : Lib) (th : Uthread) :
    deref p s = .ok (th, s') ↔ s.uthreads_array[p]? = some (some th) ∧ s' = s := by
  unfold deref
  split
  · rename_i th' h
    simp only [Except.ok.injEq, Prod.mk.injEq, h, Option.some.injEq]
    constructor
    · rintro ⟨rfl, rfl⟩; exact ⟨rfl, rfl⟩
    · rintro ⟨rfl, rfl⟩; exact ⟨rfl, rfl⟩
  · rename_i h
    constructor
    · intro h'; cases h'
    · rintro ⟨h1, _⟩
      exact absurd h1 (h th)

theorem modifyThread_ok (p : Nat) (f : Uthread → Uthread) (s s' : Lib) (u : Unit) :
    modifyThread p f s = .ok (u, s') ↔
      ∃ th, s.uthreads_array[p]? = some (some th) ∧
        s' = { s with uthreads_array := s.uthreads_array.set p (some (f th)) } := by
  unfold modifyThread
  split
  · rename_i th' h
    simp only [Except.ok.injEq, Prod.mk.injEq, true_and, h, Option.some.injEq]
    constructor
    · rintro rfl; exact ⟨th', rfl, rfl⟩
    · rintro ⟨th, rfl, rfl⟩; rfl
  · rename_i h
    constructor
    · intro h'; cases h'
    · rintro ⟨th, h1, _⟩
      exact absurd h1 (h th)

theorem getIndexFree_ok (i : Nat) (s s' : Lib) (b : Bool) :
    getIndexFree i s = .ok (b, s') ↔ s.index_free[i]? = some b ∧ s' = s := by
  unfold getIndexFree
  split
  · rename_i b' h
    simp only [Except.ok.injEq, Prod.mk.injEq, h, Option.some.injEq]
    constructor
    · rintro ⟨rfl, rfl⟩; exact ⟨rfl, rfl⟩
    · rintro ⟨rfl, rfl⟩; exact ⟨rfl, rfl⟩
  · rename_i h
    simp [h]

theorem setIndexFree_ok (i : Nat) (b : Bool) (s s' : Lib) (u : Unit) :
    setIndexFree i b s = .ok (u, s') ↔
      i < s.index_free.length ∧ s' = { s with index_free := s.index_free.set i b } := by
  unfold setIndexFree
  split
  · rename_i h
    simp only [Except.ok.injEq, Prod.mk.injEq, true_and, h]
    exact eq_comm
  · rename_i h
    simp [h]

theorem setSlot_ok (i : Nat) (t : Option Uthread) (s s' : Lib) (u : Unit) :
    setSlot i t s = .ok (u, s') ↔
      i < s.uthreads_array.length ∧
        s' = { s with uthreads_array := s.uthreads_array.set i t } := by
  unfold setSlot
  split
  · rename_i h
    simp only [Except.ok.injEq, Prod.mk.injEq, true_and, h]
    exact eq_comm
  · rename_i h
    simp [h]

/-! ### Transitions that leave the view unchanged -/

theorem set_same {α : Type} (l : List α) (i : Nat) (a : α) (h : l[i]? = some a) :
    l.set i a = l := by
  induction l generalizing i with
  | nil => rfl
  | cons x xs ih =>
    cases i with
    | zero =>
      simp only [List.getElem?_cons_zero, Option.some.injEq] at h
      simp [h]
    | succ j =>
      simp only [List.getElem?_cons_succ] at h
      simp [ih j h]

theorem slotQuanta_set (s : Lib) (p : Nat) (t : Option Uthread) :
    slotQuanta { s with uthreads_array := s.uthreads_array.set p t }
      = (slotQuanta s).set p (t.map Uthread.quantum) := by
  simp [slotQuanta, List.map_set]

theorem slotQuanta_get (s : Lib) (p : Nat) (th : Uthread)
    (h : s.uthreads_array[p]? = some (some th)) :
    (slotQuanta s)[p]? = some (some th.quantum) := by
  simp [slotQuanta, List.getElem?_map, h]

theorem Pres_pure {α : Type} (a : α) : Pres (pure a : UT α) := by
  intro s b s' h
  obtain ⟨_, rfl⟩ := (UT_pure_ok _ _ _ _).mp h
  rfl

theorem Pres_bind {α β : Type} (x : UT α) (f : α → UT β) (hx : Pres x) (hf : ∀ a, Pres (f a)) :
    Pres (x >>= f) := by
  intro s b s' h
  obtain ⟨a, s1, h1, h2⟩ := (UT_bind_ok _ _ _ _ _).mp h
  rw [hf a s1 b s' h2, hx s a s1 h1]

theorem Pres_getLib : Pres getLib := by
  intro s a s' h
  obtain ⟨_, rfl⟩ := (getLib_ok _ _ _).mp h
  rfl

theorem Pres_halt {α : Type} (e : Halt) : Pres (halt e : UT α) := by
  intro s a s' h
  exact absurd h (by simp [halt])

theorem Pres_deref (p : Nat) : Pres (deref p) := by
  intro s a s' h
  obtain ⟨_, rfl⟩ := (deref_ok _ _ _ _).mp h
  rfl

theorem Pres_getIndexFree (i : Nat) : Pres (getIndexFree i) := by
  intro s a s' h
  obtain ⟨_, rfl⟩ := (getIndexFree_ok _ _ _ _).mp h
  rfl

theorem Pres_modifyLib (f : Lib → Lib) (hf : ∀ s, view (f s) = view s) : Pres (modifyLib f) := by
  intro s a s' h
  rw [(modifyLib_ok _ _ _ _).mp h]
  exact hf s

theorem Pres_modifyThread (p : Nat) (f : Uthread → Uthread)
    (hf : ∀ th, (f th).quantum = th.quantum) : Pres (modifyThread p f) := by
  intro s a s' h
  obtain ⟨th, hth, rfl⟩ := (modifyThread_ok _ _ _ _ _).mp h
  have hq := slotQuanta_get s p th hth
  simp only [view, slotQuanta_set, Option.map_some', hf]
  rw [set_same _ _ _ hq]

theorem Pres_set_clock : Pres set_clock := Pres_pure ()

theorem Pres_invalid_tid (n : Nat) (tid : Int) : Pres (invalid_tid n tid) := by
  unfold invalid_tid
  split
  · exact Pres_pure _
  · exact Pres_getIndexFree _

theorem Pres_erase_from_ready (tid : Int) : Pres (erase_from_ready tid) := by
  intro s a s' h
  unfold erase_from_ready at h
  split at h
  · cases h
    rfl
  · cases h

theorem Pres_uthread_resume (n : Nat) (tid : Int) : Pres (uthread_resume n tid) := by
  unfold uthread_resume
  repeat' first
    | exact Pres_pure _
    | exact Pres_deref _
    | exact Pres_invalid_tid _ _
    | exact Pres_modifyLib _ (fun _ => rfl)
    | exact Pres_modifyThread _ _ (fun _ => rfl)
    | refine Pres_bind _ _ ?_ (fun _ => ?_)
    | split

theorem Pres_update_sleeping_thread (n i : Nat) : Pres (update_sleeping_thread n i) := by
  unfold update_sleeping_thread
  repeat' first
    | exact Pres_pure _
    | exact Pres_deref _
    | exact Pres_getIndexFree _
    | exact Pres_uthread_resume _ _
    | exact Pres_modifyThread _ _ (fun _ => rfl)
    | refine Pres_bind _ _ ?_ (fun _ => ?_)
    | split

theorem Pres_update_sleeping_threads_loop (n k i : Nat) :
    Pres (update_sleeping_threads_loop n k i) := by
  induction k generalizing i with
  | zero => exact Pres_pure _
  | succ k ih =>
    unfold update_sleeping_threads_loop
    exact Pres_bind _ _ (Pres_update_sleeping_thread _ _) (fun _ => ih _)

theorem Pres_update_sleeping_threads (n : Nat) : Pres (update_sleeping_threads n) :=
  Pres_update_sleeping_threads_loop n n 0

/-! ### The accounting invariant along the transitions -/

theorem sum_getD_set (l : List (Option Int)) (i : Nat) (a b : Option Int) (h : l[i]? = some a) :
    ((l.set i b).map (fun q => q.getD 0)).sum
      = (l.map (fun q => q.getD 0)).sum - a.getD 0 + b.getD 0 := by
  induction l generalizing i with
  | nil => simp at h
  | cons x xs ih =>
    cases i with
    | zero =>
      simp only [List.getElem?_cons_zero, Option.some.injEq] at h
      subst h
      simp only [List.set_cons_zero, List.map_cons, List.sum_cons]
      ring
    | succ j =>
      simp only [List.getElem?_cons_succ] at h
      simp only [List.set_cons_succ, List.map_cons, List.sum_cons, ih j h]
      ring

theorem Shift_of_Pres {α : Type} (x : UT α) (h : Pres x) : Shift x 0 := by
  intro s a s' g hx hi
  rw [h s a s' hx, add_zero]
  exact hi

theorem Shift_bind {α β : Type} (x : UT α) (f : α → UT β) (d1 d2 d : Int) (hd : d1 + d2 = d)
    (hx : Shift x d1) (hf : ∀ a, Shift (f a) d2) : Shift (x >>= f) d := by
  intro s b s' g h hi
  obtain ⟨a, s1, h1, h2⟩ := (UT_bind_ok _ _ _ _ _).mp h
  have := hf a s1 b s' _ h2 (hx s a s1 g h1 hi)
  rw [add_assoc, hd] at this
  exact this

theorem Shift_halt {α : Type} (e : Halt) (d : Int) : Shift (halt e : UT α) d := by
  intro s a s' g h
  exact absurd h (by simp [halt])

theorem Shift_up : Shift (modifyLib (fun s => { s with quantums := s.quantums + 1 })) 1 := by
  intro s a s' g h hi
  rw [(modifyLib_ok _ _ _ _).mp h]
  obtain ⟨h1, h2, h3⟩ := hi
  refine ⟨?_, h2, h3⟩
  show ((view s).slots.map (fun q => q.getD 0)).sum + (g + 1) = (view s).quantums + 1
  rw [← h1]
  ring

theorem Shift_down (p : Nat) :
    Shift (modifyThread p (fun th => { th with quantum := th.quantum + 1 })) (-1) := by
  intro s a s' g h hi
  obtain ⟨th, hth, rfl⟩ := (modifyThread_ok _ _ _ _ _).mp h
  have hq := slotQuanta_get s p th hth
  obtain ⟨h1, h2, h3⟩ := hi
  simp only [view, slotQuanta_set, Option.map_some'] at h1 h2 h3 ⊢
  refine ⟨?_, ?_, ?_⟩
  · rw [sum_getD_set _ _ _ _ hq, ← h1]
    simp only [Option.getD_some]
    ring
  · intro q hqm
    rcases List.mem_or_eq_of_mem_set hqm with hm | hm
    · exact h2 q hm
    · simp only [Option.some.injEq] at hm
      have := h2 th.quantum (List.getElem?_mem hq)
      omega
  · intro i q hi hs
    rw [List.getElem?_set] at hs
    split at hs
    · rename_i hpi
      subst hpi
      exact h3 p th.quantum hi hq
    · exact h3 i q hi hs

theorem Shift_scheduler (n : Nat) : Shift (scheduler n) 0 := by
  unfold scheduler
  refine Shift_bind _ _ 1 (-1) 0 (by omega) Shift_up (fun _ => ?_)
  repeat' first
    | exact Shift_down _
    | exact Shift_halt _ _
    | exact Pres_pure _
    | exact Pres_getLib
    | exact Pres_deref _
    | exact Pres_update_sleeping_threads _
    | exact Pres_modifyLib _ (fun _ => rfl)
    | exact Pres_modifyThread _ _ (fun _ => rfl)
    | refine Shift_bind _ _ 0 (-1) (-1) (by omega) (Shift_of_Pres _ ?_) (fun _ => ?_)
    | split
    | dsimp only

theorem Shift_uthread_block (n : Nat) (tid : Int) : Shift (uthread_block n tid) 0 := by
  unfold uthread_block
  repeat' first
    | exact Shift_halt _ _
    | exact Shift_of_Pres _ (Pres_pure _)
    | exact Pres_pure _
    | exact Pres_getLib
    | exact Pres_deref _
    | exact Pres_set_clock
    | exact Pres_invalid_tid _ _
    | exact Pres_erase_from_ready _
    | exact Pres_modifyThread _ _ (fun _ => rfl)
    | refine Shift_bind _ _ 0 0 0 (by omega) (Shift_scheduler _) (fun _ => ?_)
    | refine Shift_bind _ _ 0 0 0 (by omega) (Shift_of_Pres _ ?_) (fun _ => ?_)
    | split

theorem Shift_uthread_sleep (n : Nat) (num_quantums : Int) :
    Shift (uthread_sleep n num_quantums) 0 := by
  unfold uthread_sleep
  repeat' first
    | exact Shift_halt _ _
    | exact Shift_of_Pres _ (Pres_pure _)
    | exact Pres_pure _
    | exact Pres_getLib
    | exact Pres_deref _
    | exact Pres_set_clock
    | exact Pres_modifyThread _ _ (fun _ => rfl)
    | refine Shift_bind _ _ 0 0 0 (by omega) (Shift_scheduler _) (fun _ => ?_)
    | refine Shift_bind _ _ 0 0 0 (by omega) (Shift_of_Pres _ ?_) (fun _ => ?_)
    | split

theorem min_free_id_loop_ok (k i : Nat) (s s' : Lib) (r : Int)
    (h : min_free_id_loop k i s = .ok (r, s')) :
    (r = -1 ∧ s' = s) ∨
    (∃ j : Nat, r = (j : Int) ∧ s.index_free[j]? = some true ∧
      s' = { s with index_free := s.index_free.set j false }) := by
  induction k generalizing i with
  | zero =>
    left
    unfold min_free_id_loop at h
    obtain ⟨h1, h2⟩ := (UT_pure_ok _ _ _ _).mp h
    exact ⟨h1.symm, h2.symm⟩
  | succ k ih =>
    unfold min_free_id_loop at h
    obtain ⟨b, s1, h1, h2⟩ := (UT_bind_ok _ _ _ _ _).mp h
    obtain ⟨hb, rfl⟩ := (getIndexFree_ok _ _ _ _).mp h1
    split at h2
    · rename_i hbt
      subst hbt
      obtain ⟨u, s2, h3, h4⟩ := (UT_bind_ok _ _ _ _ _).mp h2
      obtain ⟨_, rfl⟩ := (setIndexFree_ok _ _ _ _ _).mp h3
      obtain ⟨h5, h6⟩ := (UT_pure_ok _ _ _ _).mp h4
      right
      exact ⟨i, h5.symm, hb, h6.symm⟩
    · exact ih _ h2

theorem view_setSlot (i : Nat) (t : Option Uthread) (s s' : Lib) (u : Unit)
    (h : setSlot i t s = .ok (u, s')) :
    i < (view s).slots.length ∧
      view s' = ⟨(view s).slots.set i (t.map Uthread.quantum), (view s).index_free,
        (view s).quantums⟩ := by
  obtain ⟨hlen, rfl⟩ := (setSlot_ok _ _ _ _ _).mp h
  refine ⟨by simpa [view, slotQuanta] using hlen, ?_⟩
  simp only [view, slotQuanta_set]

theorem view_setIndexFree (i : Nat) (b : Bool) (s s' : Lib) (u : Unit)
    (h : setIndexFree i b s = .ok (u, s')) :
    view s' = ⟨(view s).slots, (view s).index_free.set i b, (view s).quantums⟩ := by
  obtain ⟨_, rfl⟩ := (setIndexFree_ok _ _ _ _ _).mp h
  rfl

theorem Inv_spawn (v : View) (g : Int) (j : Nat) (hi : Inv v g)
    (hj : v.index_free[j]? = some true) (hlen : j < v.slots.length) :
    Inv ⟨v.slots.set j (some 0), v.index_free.set j false, v.quantums⟩ g := by
  obtain ⟨i1, i2, i3⟩ := hi
  have hnone : v.slots[j]? = some none := by
    cases hq : v.slots[j]? with
    | none =>
      rw [List.getElem?_eq_none_iff] at hq
      omega
    | some o =>
      cases o with
      | none => rfl
      | some q => exact absurd hq (i3 j q hj)
  refine ⟨?_, ?_, ?_⟩
  · show ((v.slots.set j (some 0)).map (fun q => q.getD 0)).sum + g = v.quantums
    rw [sum_getD_set _ _ _ _ hnone]
    simpa using i1
  · intro q hq
    rcases List.mem_or_eq_of_mem_set hq with hm | hm
    · exact i2 q hm
    · simp only [Option.some.injEq] at hm
      omega
  · intro i q hif hs
    simp only [List.getElem?_set] at hif hs
    split at hif
    · split at hif <;> simp at hif
    · rename_i hji
      simp only [hji, if_false] at hs
      exact i3 i q hif hs

theorem Inv_release (v : View) (g : Int) (t : Nat) (hi : Inv v g) (hlen : t < v.slots.length) :
    Inv ⟨v.slots.set t none, v.index_free.set t true, v.quantums⟩
        (g + (v.slots.getD t none).getD 0) ∧
      0 ≤ (v.slots.getD t none).getD 0 := by
  obtain ⟨i1, i2, i3⟩ := hi
  have hget : v.slots[t]? = some (v.slots.getD t none) := by
    rw [List.getD_eq_getElem?_getD, List.getElem?_eq_getElem hlen]
    rfl
  have hnn : 0 ≤ (v.slots.getD t none).getD 0 := by
    cases hq : v.slots.getD t none with
    | none => simp
    | some q =>
      rw [hq] at hget
      simpa using i2 q (List.getElem?_mem hget)
  refine ⟨⟨?_, ?_, ?_⟩, hnn⟩
  · show ((v.slots.set t none).map (fun q => q.getD 0)).sum + _ = v.quantums
    rw [sum_getD_set _ _ _ _ hget, ← i1]
    simp only [Option.getD_none]
    ring
  · intro q hq
    rcases List.mem_or_eq_of_mem_set hq with hm | hm
    · exact i2 q hm
    · cases hm
  · intro i q hif hs
    simp only [List.getElem?_set] at hif hs
    by_cases hti : t = i
    · simp only [hti, if_true] at hs
      split at hs <;> simp at hs
    · simp only [hti, if_false] at hif hs
      exact i3 i q hif hs

theorem Shift_uthread_spawn (n : Nat) (entry_point : Option Nat) :
    Shift (uthread_spawn n entry_point) 0 := by
  intro s a s' g h hi
  rw [add_zero]
  unfold uthread_spawn at h
  split at h
  · obtain ⟨_, rfl⟩ := (UT_pure_ok _ _ _ _).mp h
    exact hi
  · obtain ⟨r, s1, h1, h2⟩ := (UT_bind_ok _ _ _ _ _).mp h
    rcases min_free_id_loop_ok _ _ _ _ _ h1 with ⟨rfl, rfl⟩ | ⟨j, rfl, hj, hs1⟩
    · simp only [beq_self_eq_true, if_true] at h2
      obtain ⟨_, rfl⟩ := (UT_pure_ok _ _ _ _).mp h2
      exact hi
    · have hv1 : view s1 = ⟨(view s).slots, (view s).index_free.set j false, (view s).quantums⟩ := by
        rw [hs1]; rfl
      have hne : ((j : Int) == -1) = false := by
        simp only [beq_eq_false_iff_ne, ne_eq]
        omega
      simp only [hne, Bool.false_eq_true, if_false, Uthread.new, Int.toNat_ofNat] at h2
      obtain ⟨_, s2, h3, h4⟩ := (UT_bind_ok _ _ _ _ _).mp h2
      obtain ⟨hlen, hv2⟩ := view_setSlot _ _ _ _ _ h3
      have hv3 : view s' = view s2 := by
        refine (?_ : Pres _) s2 _ s' h4
        repeat' first
          | exact Pres_pure _
          | exact Pres_modifyLib _ (fun _ => rfl)
          | refine Pres_bind _ _ ?_ (fun _ => ?_)
      rw [hv3, hv2, hv1]
      rw [hv1] at hlen
      exact Inv_spawn (view s) g j hi hj hlen

theorem released_terminate (n : Nat) (tid : Int) (s s' : Lib) (r : Option Int)
    (h : uthread_terminate n tid s = .ok (r, s')) :
    released n s (Event.terminate tid)
      = if r = some 0 then ((view s).slots.getD tid.toNat none).getD 0 else 0 := by
  have h' : (uthread_terminate n tid).run s = .ok (r, s') := h
  simp only [released, h']
  cases r with
  | none => simp
  | some r0 =>
    by_cases h0 : r0 = 0
    · simp [h0, view]
    · simp [h0]

theorem uthread_terminate_inv (n : Nat) (tid : Int) (s s' : Lib) (r : Option Int) (g : Int)
    (h : uthread_terminate n tid s = .ok (r, s')) (hi : Inv (view s) g) :
    Inv (view s') (g + released n s (Event.terminate tid)) ∧
      0 ≤ released n s (Event.terminate tid) := by
  rw [released_terminate n tid s s' r h]
  unfold uthread_terminate at h
  split at h
  · exact absurd h (by simp [halt])
  · obtain ⟨b, s1, h1, h2⟩ := (UT_bind_ok _ _ _ _ _).mp h
    have hv1 : view s1 = view s := Pres_invalid_tid _ _ s b s1 h1
    split at h2
    · obtain ⟨rfl, rfl⟩ := (UT_pure_ok _ _ _ _).mp h2
      simp only [Option.some.injEq, show ¬ ((-1 : Int) = 0) by decide, if_false, add_zero, hv1]
      exact ⟨hi, le_refl 0⟩
    · obtain ⟨l, s2, hl, h3⟩ := (UT_bind_ok _ _ _ _ _).mp h2
      obtain ⟨hl1, hl2⟩ := (getLib_ok _ _ _).mp hl
      subst hl2
      cases hrt : l.running_thread with
      | none =>
        simp only [hrt] at h3
        exact absurd h3 (by simp [halt])
      | some p =>
        simp only [hrt] at h3
        obtain ⟨th, s3, hd, h4⟩ := (UT_bind_ok _ _ _ _ _).mp h3
        obtain ⟨_, rfl⟩ := (deref_ok _ _ _ _).mp hd
        split at h4
        · obtain ⟨_, s4, h5, h6⟩ := (UT_bind_ok _ _ _ _ _).mp h4
          obtain ⟨_, s5, h7, h8⟩ := (UT_bind_ok _ _ _ _ _).mp h6
          obtain ⟨_, s6, h9, h10⟩ := (UT_bind_ok _ _ _ _ _).mp h8
          obtain ⟨rfl, rfl⟩ := (UT_pure_ok _ _ _ _).mp h10
          have hv4 : view s4 = view s3 := by rw [(modifyLib_ok _ _ _ _).mp h5]; rfl
          have hv5 : view s5 = view s4 := Pres_set_clock s4 _ s5 h7
          have hi5 : Inv (view s5) g := by rw [hv5, hv4, hv1]; exact hi
          have := Shift_scheduler n s5 _ s6 g h9 hi5
          simp only [add_zero] at this
          simp only [reduceCtorEq, if_false, add_zero]
          exact ⟨this, le_refl 0⟩
        · obtain ⟨_, s4, h5, h6⟩ := (UT_bind_ok _ _ _ _ _).mp h4
          obtain ⟨_, s5, h7, h8⟩ := (UT_bind_ok _ _ _ _ _).mp h6
          obtain ⟨_, s6, h9, h10⟩ := (UT_bind_ok _ _ _ _ _).mp h8
          obtain ⟨_, s7, h11, h12⟩ := (UT_bind_ok _ _ _ _ _).mp h10
          obtain ⟨rfl, rfl⟩ := (UT_pure_ok _ _ _ _).mp h12
          have hv4 : view s4 = view s3 := Pres_erase_from_ready _ _ _ s4 h5
          obtain ⟨hlen, hv5⟩ := view_setSlot _ _ _ _ _ h7
          have hv6 := view_setIndexFree _ _ _ _ _ h9
          have hv7 : view s7 = view s6 := by rw [(modifyLib_ok _ _ _ _).mp h11]; rfl
          rw [hv4, hv1] at hv5 hlen
          rw [hv5] at hv6
          rw [hv7, hv6]
          simp only [if_true, Option.map_none']
          exact Inv_release (view s) g tid.toNat hi hlen

theorem step_inv (n : Nat) (e : Event) (s s' : Lib) (u : Unit) (g : Int)
    (h : step n e s = .ok (u, s')) (hi : Inv (view s) g) :
    Inv (view s') (g + released n s e) ∧ 0 ≤ released n s e := by
  cases e with
  | terminate tid =>
    unfold step at h
    obtain ⟨r, s1, h1, h2⟩ := (UT_bind_ok _ _ _ _ _).mp h
    obtain ⟨_, rfl⟩ := (UT_pure_ok _ _ _ _).mp h2
    exact uthread_terminate_inv n tid s s1 r g h1 hi
  | spawn entry_point =>
    unfold step at h
    obtain ⟨r, s1, h1, h2⟩ := (UT_bind_ok _ _ _ _ _).mp h
    obtain ⟨_, rfl⟩ := (UT_pure_ok _ _ _ _).mp h2
    exact ⟨Shift_uthread_spawn n entry_point s r s1 g h1 hi, le_refl 0⟩
  | block tid =>
    unfold step at h
    obtain ⟨r, s1, h1, h2⟩ := (UT_bind_ok _ _ _ _ _).mp h
    obtain ⟨_, rfl⟩ := (UT_pure_ok _ _ _ _).mp h2
    exact ⟨Shift_uthread_block n tid s r s1 g h1 hi, le_refl 0⟩
  | resume tid =>
    unfold step at h
    obtain ⟨r, s1, h1, h2⟩ := (UT_bind_ok _ _ _ _ _).mp h
    obtain ⟨_, rfl⟩ := (UT_pure_ok _ _ _ _).mp h2
    exact ⟨Shift_of_Pres _ (Pres_uthread_resume n tid) s r s1 g h1 hi, le_refl 0⟩
  | sleep num_quantums =>
    unfold step at h
    obtain ⟨r, s1, h1, h2⟩ := (UT_bind_ok _ _ _ _ _).mp h
    obtain ⟨_, rfl⟩ := (UT_pure_ok _ _ _ _).mp h2
    exact ⟨Shift_uthread_sleep n num_quantums s r s1 g h1 hi, le_refl 0⟩
  | timer =>
    unfold step at h
    exact ⟨Shift_scheduler n s u s' g h hi, le_refl 0⟩

theorem steps_inv (n : Nat) (events : List Event) (s s' : Lib) (u : Unit) (g : Int)
    (h : steps n events s = .ok (u, s')) (hi : Inv (view s) g) :
    Inv (view s') (g + releasedAlong n events s) ∧ 0 ≤ releasedAlong n events s := by
  induction events generalizing s g with
  | nil =>
    unfold steps at h
    obtain ⟨_, rfl⟩ := (UT_pure_ok _ _ _ _).mp h
    simp only [releasedAlong, add_zero]
    exact ⟨hi, le_refl 0⟩
  | cons e es ih =>
    unfold steps at h
    obtain ⟨u1, s1, h1, h2⟩ := (UT_bind_ok _ _ _ _ _).mp h
    obtain ⟨hi1, hr1⟩ := step_inv n e s s1 u1 g h1 hi
    obtain ⟨hi2, hr2⟩ := ih s1 _ h2 hi1
    have h1' : (step n e).run s = .ok (u1, s1) := h1
    simp only [releasedAlong, h1']
    refine ⟨?_, by omega⟩
    rw [← add_assoc]
    exact hi2

theorem released_of_not_terminate (n : Nat) (e : Event) (s : Lib)
    (h : ∀ tid, e ≠ Event.terminate tid) : released n s e = 0 := by
  cases e with
  | terminate tid => exact absurd rfl (h tid)
  | spawn _ => rfl
  | block _ => rfl
  | resume _ => rfl
  | sleep _ => rfl
  | timer => rfl

theorem releasedAlong_of_no_terminate (n : Nat) (events : List Event) (s : Lib)
    (h : ∀ tid, Event.terminate tid ∉ events) : releasedAlong n events s = 0 := by
  induction events generalizing s with
  | nil => rfl
  | cons e es ih =>
    have he : ∀ tid, e ≠ Event.terminate tid := by
      intro tid heq
      exact h tid (by rw [heq]; exact List.mem_cons_self _ _)
    have hes : ∀ tid, Event.terminate tid ∉ es := by
      intro tid hm
      exact h tid (List.mem_cons_of_mem _ hm)
    unfold releasedAlong
    split
    · rw [released_of_not_terminate n e s he, ih _ hes]
      rfl
    · rfl

theorem index_free_loop_view (k i : Nat) (s s' : Lib) (u : Unit)
    (h : index_free_loop k i s = .ok (u, s')) :
    (view s').slots = (view s).slots ∧ (view s').quantums = (view s).quantums := by
  induction k generalizing i s with
  | zero =>
    unfold index_free_loop at h
    obtain ⟨_, rfl⟩ := (UT_pure_ok _ _ _ _).mp h
    exact ⟨rfl, rfl⟩
  | succ k ih =>
    unfold index_free_loop at h
    obtain ⟨_, s1, h1, h2⟩ := (UT_bind_ok _ _ _ _ _).mp h
    have hv := view_setIndexFree _ _ _ _ _ h1
    obtain ⟨ha, hb⟩ := ih _ _ h2
    rw [ha, hb, hv]
    exact ⟨rfl, rfl⟩

theorem sum_getD_replicate (n : Nat) :
    ((List.replicate n (none : Option Int)).map (fun q => q.getD 0)).sum = 0 := by
  induction n with
  | zero => rfl
  | succ n ih =>
    simp only [List.replicate_succ, List.map_cons, List.sum_cons, ih]
    rfl

theorem afterInit_inv (n : Nat) (quantum_usecs : Int) (s : Lib)
    (h : afterInit n quantum_usecs = some s) : Inv (view s) 0 := by
  unfold afterInit at h
  split at h
  · rename_i r s0 hrun
    split at h
    · rename_i hr
      subst hr
      cases h
      have hrun' : uthread_init n quantum_usecs (Lib.start n) = .ok (0, s) := hrun
      unfold uthread_init at hrun'
      obtain ⟨_, s1, h1, h2⟩ := (UT_bind_ok _ _ _ _ _).mp hrun'
      have hv1 : view s1 = ⟨List.replicate n none, (Lib.start n).index_free, 1⟩ := by
        rw [(modifyLib_ok _ _ _ _).mp h1]
        simp [view, slotQuanta, Lib.start]
      split at h2
      · obtain ⟨hc, _⟩ := (UT_pure_ok _ _ _ _).mp h2
        exact absurd hc (by decide)
      · obtain ⟨_, s2, h3, h4⟩ := (UT_bind_ok _ _ _ _ _).mp h2
        obtain ⟨_, s3, h5, h6⟩ := (UT_bind_ok _ _ _ _ _).mp h4
        obtain ⟨_, s4, h7, h8⟩ := (UT_bind_ok _ _ _ _ _).mp h6
        obtain ⟨_, s5, h9, h10⟩ := (UT_bind_ok _ _ _ _ _).mp h8
        obtain ⟨_, s6, h11, h12⟩ := (UT_bind_ok _ _ _ _ _).mp h10
        obtain ⟨_, s7, h13, h14⟩ := (UT_bind_ok _ _ _ _ _).mp h12
        obtain ⟨_, rfl⟩ := (UT_pure_ok _ _ _ _).mp h14
        have hv2 : view s2 = view s1 := by rw [(modifyLib_ok _ _ _ _).mp h3]; rfl
        obtain ⟨hlen, hv3⟩ := view_setSlot _ _ _ _ _ h5
        have hv4 : view s4 = view s3 := by rw [(modifyLib_ok _ _ _ _).mp h7]; rfl
        have hv5 : view s5 = view s4 := Pres_set_clock s4 _ s5 h9
        obtain ⟨hv6a, hv6b⟩ := index_free_loop_view _ _ _ _ _ h11
        have hv7 := view_setIndexFree _ _ _ _ _ h13
        rw [hv2, hv1] at hv3 hlen
        simp only [List.length_replicate] at hlen
        rw [hv7, hv6a, hv6b, hv5, hv4, hv3]
        simp only [Option.map_some', Uthread.new, zero_add]
        refine ⟨?_, ?_, ?_⟩
        · show (((List.replicate n (none : Option Int)).set 0 (some 1)).map
              (fun q => q.getD 0)).sum + 0 = (1 : Int)
          rw [sum_getD_set _ _ none _ (by simp [hlen]), sum_getD_replicate]
          rfl
        · intro q hq
          rcases List.mem_or_eq_of_mem_set hq with hm | hm
          · simp [List.mem_replicate] at hm
          · simp only [Option.some.injEq] at hm
            omega
        · intro i q hif hs
          simp only [List.getElem?_set] at hif hs
          by_cases h0 : 0 = i
          · simp only [h0, if_true] at hif
            split at hif <;> simp at hif
          · simp only [h0, if_false] at hs
            rw [List.getElem?_replicate] at hs
            split at hs <;> simp at hs
    · cases h
  · cases h

/-! ### Properties of the thread library (claims C8 to C10) -/

set_option maxRecDepth 1000000 in
/-- C8 as stated fails: with `MAX_THREAD_NUM = 100`, after `uthread_init(100000)`,
a spawn, two timer expiries (thread 1 runs one quantum, then thread 0 again)
and `uthread_terminate(1)` called by thread 0, the only existing thread has
quanta-run counter 2 while the total-quanta counter is 3. -/
theorem C8_sum_below_total_after_terminate :
    (reach 100 100000
        [Event.spawn (some 0), Event.timer, Event.timer, Event.terminate 1]).map
        (fun s => (sumQuanta s, s.quantums)) = some (2, 3) := by
  decide!

/-- C8, amended: in every state reached from a successful `uthread_init` by
spawn, terminate, block, resume, sleep and timer events, the quanta-run
counters of the existing threads plus the counters that released threads had
when `uthread_terminate` returned 0 for them add up to the total-quanta
counter; the released amount is never negative, so the sum of the existing
counters is at most the total, and it equals the total when the trace has no
`uthread_terminate` call. -/
theorem C8_quanta_accounting (MAX_THREAD_NUM : Nat) (quantum_usecs : Int)
    (events : List Event) (s : Lib)
    (h : reach MAX_THREAD_NUM quantum_usecs events = some s) :
    sumQuanta s + releasedIn MAX_THREAD_NUM quantum_usecs events = s.quantums ∧
    0 ≤ releasedIn MAX_THREAD_NUM quantum_usecs events ∧
    sumQuanta s ≤ s.quantums ∧
    ((∀ tid, Event.terminate tid ∉ events) → sumQuanta s = s.quantums) := by
  unfold reach at h
  cases h0 : afterInit MAX_THREAD_NUM quantum_usecs with
  | none => simp [h0] at h
  | some s0 =>
    simp only [h0] at h
    cases hrun : (steps MAX_THREAD_NUM events).run s0 with
    | error e => simp [hrun] at h
    | ok p =>
      obtain ⟨u, s1⟩ := p
      simp only [hrun, Option.some.injEq] at h
      subst h
      have hrun' : steps MAX_THREAD_NUM events s0 = .ok (u, s1) := hrun
      obtain ⟨hi, hr⟩ := steps_inv MAX_THREAD_NUM events s0 s1 u 0 hrun'
        (afterInit_inv MAX_THREAD_NUM quantum_usecs s0 h0)
      have hrel : releasedIn MAX_THREAD_NUM quantum_usecs events
          = releasedAlong MAX_THREAD_NUM events s0 := by
        simp only [releasedIn, h0]
      rw [hrel]
      have hsum : sumQuanta s1 + releasedAlong MAX_THREAD_NUM events s0 = s1.quantums := by
        have := hi.1
        rw [zero_add] at this
        exact this
      refine ⟨hsum, hr, by omega, ?_⟩
      intro hno
      rw [releasedAlong_of_no_terminate MAX_THREAD_NUM events s0 hno, add_zero] at hsum
      exact hsum

set_option maxRecDepth 1000000 in
/-- The accounting of C8 at a concrete trace with `MAX_THREAD_NUM = 3`: after
init, a spawn, two timer expiries and `uthread_terminate(1)`, thread 0 has
counter 2, the released thread had counter 1, and the total is 3. -/
theorem C8_quanta_accounting_witness :
    reach 3 1 [Event.spawn (some 0), Event.timer, Event.timer, Event.terminate 1]
      = some mainAloneAfterThreeQuanta ∧
    releasedIn 3 1 [Event.spawn (some 0), Event.timer, Event.timer, Event.terminate 1] = 1 ∧
    sumQuanta mainAloneAfterThreeQuanta
        + releasedIn 3 1 [Event.spawn (some 0), Event.timer, Event.timer, Event.terminate 1]
      = mainAloneAfterThreeQuanta.quantums :=
  ⟨by decide!, by decide!,
   (C8_quanta_accounting 3 1
      [Event.spawn (some 0), Event.timer, Event.timer, Event.terminate 1]
      mainAloneAfterThreeQuanta (by decide!)).1⟩

set_option maxRecDepth 1000000 in
/-- C9 fails on the code. With `MAX_THREAD_NUM = 100`, after
`uthread_init(100000)`, a spawn, a timer expiry (thread 1 is dispatched) and
`uthread_terminate(1)` called by thread 1 itself, two existing records have
state `RUNNING`, those of threads 0 and 1: the scheduler entered by the
self-terminating thread never returns, so its record is not released, its ID
stays taken and its state stays `RUNNING`. `uthread_get_tid` returns 0. -/
theorem C9_two_running_after_self_terminate :
    (reach 100 100000 [Event.spawn (some 0), Event.timer, Event.terminate 1]).map
        (fun s => (tidsInState s state.RUNNING, s.index_free.take 2,
                   (uthread_get_tid.run s).toOption.map Prod.fst))
      = some ([0, 1], [false, false], some 0) := by
  decide!

set_option maxRecDepth 1000000 in
/-- C10 fails on the code. With `MAX_THREAD_NUM = 100`, after
`uthread_init(100000)`, a spawn, a timer expiry (thread 1 is dispatched),
`uthread_sleep(0)` called by thread 1 and one more timer expiry, thread 1 is
`RUNNING` and still in the ready FIFO `[1, 0]`: in the scheduler entered by
`uthread_sleep(0)` the sleep counter reaches 0 at once, `uthread_resume`
appends the thread, and the scheduler appends it a second time. -/
theorem C10_running_thread_in_ready_after_sleep_zero :
    (reach 100 100000
        [Event.spawn (some 0), Event.timer, Event.sleep 0, Event.timer]).map
        (fun s => (s.ready_vector, tidsInState s state.READY, tidsInState s state.RUNNING))
      = some ([1, 0], [0], [1]) := by
  decide!

/-! ### `uthread_init` (claim C11) -/

theorem fillTrue_length (k i : Nat) (l : List Bool) : (fillTrue k i l).length = l.length := by
  induction k generalizing i l with
  | zero => rfl
  | succ k ih => simp [fillTrue, ih]

theorem fillTrue_get (k i j : Nat) (l : List Bool) :
    (fillTrue k i l)[j]? = if i ≤ j ∧ j < i + k ∧ j < l.length then some true else l[j]? := by
  induction k generalizing i l with
  | zero =>
    have : ¬ (i ≤ j ∧ j < i + 0 ∧ j < l.length) := by omega
    simp only [fillTrue, this, if_false]
  | succ k ih =>
    simp only [fillTrue, ih, List.length_set, List.getElem?_set]
    split_ifs with h1 h2 h3 h4 h5 h6 h7 <;>
      first
        | rfl
        | (exfalso; omega)
        | (symm; exact List.getElem?_eq_none_iff.mpr (by omega))

theorem fillTrue_all (n : Nat) (l : List Bool) (h : l.length = n) :
    fillTrue n 0 l = List.replicate n true := by
  apply List.ext_getElem?
  intro j
  rw [fillTrue_get, List.getElem?_replicate]
  by_cases hj : j < n
  · have : 0 ≤ j ∧ j < 0 + n ∧ j < l.length := by omega
    simp only [this, hj, and_self, if_true]
  · have : ¬ (0 ≤ j ∧ j < 0 + n ∧ j < l.length) := by omega
    simp only [this, hj, if_false]
    exact List.getElem?_eq_none_iff.mpr (by omega)

theorem index_free_loop_eq (k i : Nat) (s : Lib) (h : i + k ≤ s.index_free.length) :
    index_free_loop k i s = .ok ((), { s with index_free := fillTrue k i s.index_free }) := by
  induction k generalizing i s with
  | zero => rfl
  | succ k ih =>
    unfold index_free_loop
    refine (UT_bind_ok _ _ _ _ _).mpr ⟨(), { s with index_free := s.index_free.set i true }, ?_, ?_⟩
    · exact (setIndexFree_ok _ _ _ _ _).mpr ⟨by omega, rfl⟩
    · rw [ih (i + 1) _ (by simp only [List.length_set]; omega)]
      rfl

theorem uthread_init_fail (n : Nat) (quantum_usecs : Int) (s : Lib) (h : quantum_usecs ≤ 0) :
    (uthread_init n quantum_usecs).run s = .ok (-1, { s with quantums := 1 }) := by
  show uthread_init n quantum_usecs s = _
  unfold uthread_init
  refine (UT_bind_ok _ _ _ _ _).mpr ⟨(), { s with quantums := 1 }, rfl, ?_⟩
  simp only [h, if_true]
  rfl

theorem uthread_init_ok (n : Nat) (quantum_usecs : Int) (hn : 0 < n) (h : 0 < quantum_usecs) :
    (uthread_init n quantum_usecs).run (Lib.start n) = .ok (0, initialized n quantum_usecs) := by
  show uthread_init n quantum_usecs (Lib.start n) = _
  unfold uthread_init
  have hq : ¬ quantum_usecs ≤ 0 := by omega
  refine (UT_bind_ok _ _ _ _ _).mpr ⟨(), { Lib.start n with quantums := 1 }, rfl, ?_⟩
  simp only [hq, if_false]
  refine (UT_bind_ok _ _ _ _ _).mpr ⟨(), _, rfl, ?_⟩
  refine (UT_bind_ok _ _ _ _ _).mpr ⟨(), _, (setSlot_ok _ _ _ _ _).mpr ⟨?_, rfl⟩, ?_⟩
  · simp [Lib.start, hn]
  refine (UT_bind_ok _ _ _ _ _).mpr ⟨(), _, rfl, ?_⟩
  refine (UT_bind_ok _ _ _ _ _).mpr ⟨(), _, rfl, ?_⟩
  refine (UT_bind_ok _ _ _ _ _).mpr ⟨(), _, index_free_loop_eq n 0 _ ?_, ?_⟩
  · simp [Lib.start]
  refine (UT_bind_ok _ _ _ _ _).mpr ⟨(), _, (setIndexFree_ok _ _ _ _ _).mpr ⟨?_, rfl⟩, ?_⟩
  · simp [Lib.start, fillTrue_length, hn]
  refine (UT_pure_ok _ _ _ _).mpr ⟨rfl, ?_⟩
  simp only [initialized, Lib.start, mainThread, Uthread.new, zero_add]
  rw [fillTrue_all n _ (by simp)]

/-- C11: `uthread_init(quantum_usecs)` at program start, for a library with at
least one thread slot. It returns -1 when `quantum_usecs ≤ 0` and 0 otherwise
(so -1 exactly for a non-positive quantum); after the successful call the
globals are `initialized`: the total-quanta counter is 1, thread 0 exists with
state `RUNNING` and quanta-run counter 1 (`mainThread`), `uthread_get_tid`
returns 0, every ID from 1 on is free with an empty slot, and the ready FIFO
is empty. -/
theorem C11_uthread_init (MAX_THREAD_NUM : Nat) (quantum_usecs : Int)
    (hN : 0 < MAX_THREAD_NUM) :
    (quantum_usecs ≤ 0 →
      (uthread_init MAX_THREAD_NUM quantum_usecs).run (Lib.start MAX_THREAD_NUM)
        = .ok (-1, { Lib.start MAX_THREAD_NUM with quantums := 1 })) ∧
    (0 < quantum_usecs →
      (uthread_init MAX_THREAD_NUM quantum_usecs).run (Lib.start MAX_THREAD_NUM)
        = .ok (0, initialized MAX_THREAD_NUM quantum_usecs)) ∧
    (initialized MAX_THREAD_NUM quantum_usecs).quantums = 1 ∧
    (initialized MAX_THREAD_NUM quantum_usecs).uthreads_array[0]? = some (some mainThread) ∧
    mainThread.uthread_state = state.RUNNING ∧ mainThread.quantum = 1 ∧
    (initialized MAX_THREAD_NUM quantum_usecs).index_free[0]? = some false ∧
    uthread_get_tid.run (initialized MAX_THREAD_NUM quantum_usecs)
      = .ok (0, initialized MAX_THREAD_NUM quantum_usecs) ∧
    (∀ i : Nat, 1 ≤ i → i < MAX_THREAD_NUM →
      (initialized MAX_THREAD_NUM quantum_usecs).index_free[i]? = some true ∧
      (initialized MAX_THREAD_NUM quantum_usecs).uthreads_array[i]? = some none) ∧
    (initialized MAX_THREAD_NUM quantum_usecs).ready_vector = [] := by
  have h0 : (initialized MAX_THREAD_NUM quantum_usecs).uthreads_array[0]?
      = some (some mainThread) := by
    simp [initialized, List.getElem?_set, hN]
  refine ⟨uthread_init_fail _ _ _, uthread_init_ok _ _ hN, rfl, h0, rfl, rfl, ?_, ?_, ?_, rfl⟩
  · simp [initialized, List.getElem?_set, hN]
  · show uthread_get_tid (initialized MAX_THREAD_NUM quantum_usecs) = _
    unfold uthread_get_tid
    refine (UT_bind_ok _ _ _ _ _).mpr ⟨initialized MAX_THREAD_NUM quantum_usecs, _, rfl, ?_⟩
    show (deref 0 >>= fun th => pure th.tid) (initialized MAX_THREAD_NUM quantum_usecs) = _
    refine (UT_bind_ok _ _ _ _ _).mpr ⟨mainThread, _, (deref_ok _ _ _ _).mpr ⟨h0, rfl⟩, rfl⟩
  · intro i h1 h2
    have hne : ¬ (0 = i) := by omega
    simp [initialized, List.getElem?_set, hne, List.getElem?_replicate, h2]

/-- C11 at `MAX_THREAD_NUM = 3`: `uthread_init(1)` returns 0 and leaves the
initialized globals, `uthread_init(0)` returns -1. -/
theorem C11_uthread_init_witness :
    (0 : Nat) < 3 ∧
    (uthread_init 3 1).run (Lib.start 3) = .ok (0, initialized 3 1) ∧
    (uthread_init 3 0).run (Lib.start 3) = .ok (-1, { Lib.start 3 with quantums := 1 }) :=
  ⟨by decide, (C11_uthread_init 3 1 (by decide)).2.1 (by decide),
   (C11_uthread_init 3 0 (by decide)).1 (by decide)⟩

/-! ### `uthread_spawn` (claim C12) -/

theorem min_free_id_loop_none (k i : Nat) (s : Lib)
    (h : ∀ j : Nat, i ≤ j → j < i + k → s.index_free[j]? = some false) :
    min_free_id_loop k i s = .ok (-1, s) := by
  induction k generalizing i with
  | zero => rfl
  | succ k ih =>
    unfold min_free_id_loop
    refine (UT_bind_ok _ _ _ _ _).mpr
      ⟨false, s, (getIndexFree_ok _ _ _ _).mpr ⟨h i (le_refl i) (by omega), rfl⟩, ?_⟩
    simp only [Bool.false_eq_true, if_false]
    exact ih (i + 1) (fun j h1 h2 => h j (by omega) (by omega))

theorem min_free_id_loop_some (k i j : Nat) (s : Lib) (hij : i ≤ j) (hjk : j < i + k)
    (hfree : s.index_free[j]? = some true)
    (hmin : ∀ j' : Nat, i ≤ j' → j' < j → s.index_free[j']? = some false) :
    min_free_id_loop k i s
      = .ok ((j : Int), { s with index_free := s.index_free.set j false }) := by
  induction k generalizing i with
  | zero => omega
  | succ k ih =>
    unfold min_free_id_loop
    by_cases h : i = j
    · subst h
      refine (UT_bind_ok _ _ _ _ _).mpr
        ⟨true, s, (getIndexFree_ok _ _ _ _).mpr ⟨hfree, rfl⟩, ?_⟩
      simp only [if_true]
      have hlen : i < s.index_free.length := by
        by_contra hc
        rw [List.getElem?_eq_none_iff.mpr (by omega)] at hfree
        cases hfree
      refine (UT_bind_ok _ _ _ _ _).mpr
        ⟨(), _, (setIndexFree_ok _ _ _ _ _).mpr ⟨hlen, rfl⟩, rfl⟩
    · refine (UT_bind_ok _ _ _ _ _).mpr
        ⟨false, s, (getIndexFree_ok _ _ _ _).mpr ⟨hmin i (le_refl i) (by omega), rfl⟩, ?_⟩
      simp only [Bool.false_eq_true, if_false]
      exact ih (i + 1) (by omega) (by omega) (fun j' h1 h2 => hmin j' (by omega) h2)

theorem uthread_spawn_null (n : Nat) (s : Lib) :
    (uthread_spawn n none).run s = .ok (-1, s) := rfl

theorem uthread_spawn_full (n : Nat) (s : Lib) (e : Nat) (h : noFreeId n s) :
    (uthread_spawn n (some e)).run s = .ok (-1, s) := by
  show uthread_spawn n (some e) s = _
  unfold uthread_spawn
  simp only [Option.isNone_some, Bool.false_eq_true, if_false]
  refine (UT_bind_ok _ _ _ _ _).mpr ⟨-1, s, ?_, ?_⟩
  · exact min_free_id_loop_none (n - 1) 1 s (fun j h1 h2 => h j h1 (by omega))
  · simp only [beq_self_eq_true, if_true]
    rfl

theorem uthread_spawn_free (n : Nat) (s : Lib) (e i : Nat) (h : smallestFreeId n s i)
    (hlen : i < s.uthreads_array.length) :
    (uthread_spawn n (some e)).run s = .ok ((i : Int), spawned s i) := by
  obtain ⟨h1, h2, h3, h4⟩ := h
  show uthread_spawn n (some e) s = _
  unfold uthread_spawn
  simp only [Option.isNone_some, Bool.false_eq_true, if_false]
  refine (UT_bind_ok _ _ _ _ _).mpr
    ⟨(i : Int), _, min_free_id_loop_some (n - 1) 1 i s h1 (by omega) h3 h4, ?_⟩
  have hne : ((i : Int) == -1) = false := by
    simp only [beq_eq_false_iff_ne, ne_eq]
    omega
  simp only [hne, Bool.false_eq_true, if_false, Uthread.new, Int.toNat_ofNat]
  refine (UT_bind_ok _ _ _ _ _).mpr ⟨(), _, (setSlot_ok _ _ _ _ _).mpr ⟨hlen, rfl⟩, ?_⟩
  rfl

theorem free_id_cases (n : Nat) (s : Lib) (hlen : n ≤ s.index_free.length) :
    noFreeId n s ∨ ∃ i, smallestFreeId n s i := by
  by_cases h : ∃ i : Nat, 1 ≤ i ∧ i < n ∧ s.index_free[i]? = some true
  · right
    classical
    refine ⟨Nat.find h, (Nat.find_spec h).1, (Nat.find_spec h).2.1, (Nat.find_spec h).2.2, ?_⟩
    intro j hj1 hj2
    have hnot := Nat.find_min h hj2
    have hjn : j < n := lt_trans hj2 (Nat.find_spec h).2.1
    have hget : s.index_free[j]? = some s.index_free[j] :=
      List.getElem?_eq_getElem (by omega)
    cases hb : s.index_free[j] with
    | false => rw [hget, hb]
    | true => exact absurd ⟨hj1, hjn, by rw [hget, hb]⟩ hnot
  · left
    intro i h1 h2
    have hget : s.index_free[i]? = some s.index_free[i] :=
      List.getElem?_eq_getElem (by omega)
    cases hb : s.index_free[i] with
    | false => rw [hget, hb]
    | true => exact absurd ⟨i, h1, h2, by rw [hget, hb]⟩ h

/-- C12: `uthread_spawn` in a state whose free map and thread table have
`MAX_THREAD_NUM` entries. With a null entry point, or with no free ID in
`[1, MAX_THREAD_NUM)`, it returns -1 and changes nothing. With a non-null entry
point and a free ID it returns the smallest free ID `i` of `[1, MAX_THREAD_NUM)`
and leaves `spawned s i`: the ID is taken, slot `i` holds a new record in state
`READY` with quanta-run counter 0, and `i` is appended at the tail of the ready
FIFO. One of the three cases always applies, and -1 is returned only in the
first two. -/
theorem C12_uthread_spawn (MAX_THREAD_NUM : Nat) (s : Lib)
    (hfree : s.index_free.length = MAX_THREAD_NUM)
    (harr : s.uthreads_array.length = MAX_THREAD_NUM) :
    (uthread_spawn MAX_THREAD_NUM none).run s = .ok (-1, s) ∧
    (∀ e : Nat, noFreeId MAX_THREAD_NUM s →
      (uthread_spawn MAX_THREAD_NUM (some e)).run s = .ok (-1, s)) ∧
    (∀ e i : Nat, smallestFreeId MAX_THREAD_NUM s i →
      (uthread_spawn MAX_THREAD_NUM (some e)).run s = .ok ((i : Int), spawned s i) ∧
      (spawned s i).uthreads_array[i]? = some (some (Uthread.new (i : Int))) ∧
      (Uthread.new (i : Int)).uthread_state = state.READY ∧
      (Uthread.new (i : Int)).quantum = 0 ∧
      (spawned s i).ready_vector = s.ready_vector ++ [i] ∧
      (spawned s i).index_free[i]? = some false) ∧
    (noFreeId MAX_THREAD_NUM s ∨ ∃ i, smallestFreeId MAX_THREAD_NUM s i) ∧
    (∀ (entry_point : Option Nat) (s' : Lib),
      (uthread_spawn MAX_THREAD_NUM entry_point).run s = .ok (-1, s') →
        s' = s ∧ (entry_point = none ∨ noFreeId MAX_THREAD_NUM s)) := by
  refine ⟨uthread_spawn_null _ _, fun e h => uthread_spawn_full _ _ e h, ?_,
    free_id_cases _ _ (by omega), ?_⟩
  · intro e i h
    have hi : i < s.uthreads_array.length := by
      rw [harr]; exact h.2.1
    have hi' : i < s.index_free.length := by
      rw [hfree]; exact h.2.1
    refine ⟨uthread_spawn_free _ _ e i h hi, ?_, rfl, rfl, rfl, ?_⟩
    · simp [spawned, List.getElem?_set, hi]
    · simp [spawned, List.getElem?_set, hi']
  · intro entry_point s' hrun
    cases entry_point with
    | none =>
      rw [uthread_spawn_null] at hrun
      cases hrun
      exact ⟨rfl, Or.inl rfl⟩
    | some e =>
      rcases free_id_cases MAX_THREAD_NUM s (by omega) with hno | ⟨i, hi⟩
      · rw [uthread_spawn_full _ _ e hno] at hrun
        cases hrun
        exact ⟨rfl, Or.inr hno⟩
      · have hlen : i < s.uthreads_array.length := by
          rw [harr]; exact hi.2.1
        rw [uthread_spawn_free _ _ e i hi hlen] at hrun
        have h1 := hi.1
        simp only [Except.ok.injEq, Prod.mk.injEq] at hrun
        omega

set_option maxRecDepth 1000000 in
/-- C12 at the state `oneBlocked` (`MAX_THREAD_NUM = 3`, IDs 0 and 1 taken): a
spawn returns 2, the smallest free ID. -/
theorem C12_uthread_spawn_witness :
    oneBlocked.index_free.length = 3 ∧ oneBlocked.uthreads_array.length = 3 ∧
    smallestFreeId 3 oneBlocked 2 ∧
    (uthread_spawn 3 (some 0)).run oneBlocked = .ok (2, spawned oneBlocked 2) :=
  ⟨rfl, rfl,
   ⟨by decide, by decide, by decide, fun j h1 h2 => by
      have : j = 1 := by omega
      subst this
      rfl⟩,
   ((C12_uthread_spawn 3 oneBlocked rfl rfl).2.2.1 0 2
      ⟨by decide, by decide, by decide, fun j h1 h2 => by
        have : j = 1 := by omega
        subst this
        rfl⟩).1⟩

/-! ### `uthread_resume` (claim C16) -/

theorem invalid_tid_out (n : Nat) (tid : Int) (s : Lib) (h : tid < 0 ∨ (n : Int) ≤ tid) :
    invalid_tid n tid s = .ok (true, s) := by
  unfold invalid_tid
  have : (decide (tid < 0) || decide (tid ≥ (n : Int))) = true := by
    rcases h with h | h
    · simp [h]
    · simp [h]
  simp only [this, if_true]
  rfl

theorem invalid_tid_in (n : Nat) (tid : Int) (s : Lib) (b : Bool) (h0 : 0 ≤ tid)
    (h1 : tid < (n : Int)) (hb : s.index_free[tid.toNat]? = some b) :
    invalid_tid n tid s = .ok (b, s) := by
  unfold invalid_tid
  have : (decide (tid < 0) || decide (tid ≥ (n : Int))) = false := by
    simp only [Bool.or_eq_false_iff, decide_eq_false_iff_not, not_lt, ge_iff_le, not_le]
    exact ⟨h0, h1⟩
  simp only [this, Bool.false_eq_true, if_false]
  exact (getIndexFree_ok _ _ _ _).mpr ⟨hb, rfl⟩

theorem uthread_resume_invalid (n : Nat) (tid : Int) (s : Lib)
    (h : invalid_tid n tid s = .ok (true, s)) :
    (uthread_resume n tid).run s = .ok (-1, s) := by
  show uthread_resume n tid s = _
  unfold uthread_resume
  refine (UT_bind_ok _ _ _ _ _).mpr ⟨true, s, h, ?_⟩
  simp only [if_true]
  rfl

theorem uthread_resume_noop (n : Nat) (tid : Int) (s : Lib) (th : Uthread)
    (h : invalid_tid n tid s = .ok (false, s))
    (hth : s.uthreads_array[tid.toNat]? = some (some th))
    (hst : th.uthread_state = state.READY ∨ th.uthread_state = state.RUNNING ∨
      th.is_sleeping = true) :
    (uthread_resume n tid).run s = .ok (0, s) := by
  show uthread_resume n tid s = _
  unfold uthread_resume
  refine (UT_bind_ok _ _ _ _ _).mpr ⟨false, s, h, ?_⟩
  simp only [Bool.false_eq_true, if_false]
  refine (UT_bind_ok _ _ _ _ _).mpr ⟨th, s, (deref_ok _ _ _ _).mpr ⟨hth, rfl⟩, ?_⟩
  by_cases hsl : th.is_sleeping = true
  · simp only [hsl, Bool.not_true, Bool.false_eq_true, if_false]
    rfl
  · have hsl' : th.is_sleeping = false := by simpa using hsl
    have hcond : (th.uthread_state == state.BLOCKED || th.uthread_state == state.SLEEP) = false := by
      rcases hst with h1 | h1 | h1
      · rw [h1]; rfl
      · rw [h1]; rfl
      · exact absurd h1 hsl
    simp only [hsl', hcond, Bool.not_false, Bool.false_eq_true, if_true, if_false]
    rfl

theorem uthread_resume_blocked (n : Nat) (tid : Int) (s : Lib) (th : Uthread)
    (h : invalid_tid n tid s = .ok (false, s))
    (hth : s.uthreads_array[tid.toNat]? = some (some th))
    (hst : th.uthread_state = state.BLOCKED) (hsl : th.is_sleeping = false) :
    (uthread_resume n tid).run s = .ok (0, resumed s tid.toNat th) := by
  show uthread_resume n tid s = _
  unfold uthread_resume
  refine (UT_bind_ok _ _ _ _ _).mpr ⟨false, s, h, ?_⟩
  simp only [Bool.false_eq_true, if_false]
  refine (UT_bind_ok _ _ _ _ _).mpr ⟨th, s, (deref_ok _ _ _ _).mpr ⟨hth, rfl⟩, ?_⟩
  have hcond : (th.uthread_state == state.BLOCKED || th.uthread_state == state.SLEEP) = true := by
    rw [hst]; rfl
  simp only [hsl, hcond, Bool.not_false, if_true]
  refine (UT_bind_ok _ _ _ _ _).mpr
    ⟨(), { s with ready_vector := s.ready_vector ++ [tid.toNat] }, rfl, ?_⟩
  refine (UT_bind_ok _ _ _ _ _).mpr ⟨(), resumed s tid.toNat th, ?_, rfl⟩
  exact (modifyThread_ok _ _ _ _ _).mpr ⟨th, hth, rfl⟩

/-- C16: `uthread_resume(tid)`. For a `tid` that is out of range or free it
returns -1 and changes nothing. For an existing thread that is `READY` or
`RUNNING`, or whose sleeping flag is set, it returns 0 and changes nothing. For
a `BLOCKED` thread that is not sleeping it returns 0 and leaves `resumed`: the
state of the thread is `READY` and its ID is appended at the tail of the ready
FIFO. -/
theorem C16_uthread_resume (MAX_THREAD_NUM : Nat) (s : Lib) (tid : Int) :
    ((tid < 0 ∨ (MAX_THREAD_NUM : Int) ≤ tid) →
      (uthread_resume MAX_THREAD_NUM tid).run s = .ok (-1, s)) ∧
    (0 ≤ tid → tid < (MAX_THREAD_NUM : Int) → s.index_free[tid.toNat]? = some true →
      (uthread_resume MAX_THREAD_NUM tid).run s = .ok (-1, s)) ∧
    (∀ th : Uthread, 0 ≤ tid → tid < (MAX_THREAD_NUM : Int) →
      s.index_free[tid.toNat]? = some false →
      s.uthreads_array[tid.toNat]? = some (some th) →
      ((th.uthread_state = state.READY ∨ th.uthread_state = state.RUNNING ∨
          th.is_sleeping = true) →
        (uthread_resume MAX_THREAD_NUM tid).run s = .ok (0, s)) ∧
      (th.uthread_state = state.BLOCKED → th.is_sleeping = false →
        (uthread_resume MAX_THREAD_NUM tid).run s = .ok (0, resumed s tid.toNat th) ∧
        (resumed s tid.toNat th).ready_vector = s.ready_vector ++ [tid.toNat] ∧
        (resumed s tid.toNat th).uthreads_array[tid.toNat]?
          = some (some { th with uthread_state := state.READY }))) := by
  refine ⟨?_, ?_, ?_⟩
  · intro h
    exact uthread_resume_invalid _ _ _ (invalid_tid_out _ _ _ h)
  · intro h0 h1 hb
    exact uthread_resume_invalid _ _ _ (invalid_tid_in _ _ _ _ h0 h1 hb)
  · intro th h0 h1 hb hth
    have hinv := invalid_tid_in _ _ _ _ h0 h1 hb
    refine ⟨fun hst => uthread_resume_noop _ _ _ th hinv hth hst, ?_⟩
    intro hst hsl
    refine ⟨uthread_resume_blocked _ _ _ th hinv hth hst hsl, rfl, ?_⟩
    have hlen : tid.toNat < s.uthreads_array.length := by
      by_contra hc
      rw [List.getElem?_eq_none_iff.mpr (by omega)] at hth
      cases hth
    simp [resumed, List.getElem?_set, hlen]

/-- C16 at the state `oneBlocked` (`MAX_THREAD_NUM = 3`): resuming the blocked
thread 1 returns 0 and appends it to the ready FIFO in state `READY`; resuming
the running thread 0 changes nothing; resuming the free ID 2 returns -1. -/
theorem C16_uthread_resume_witness :
    (uthread_resume 3 1).run oneBlocked
      = .ok (0, resumed oneBlocked 1
          { tid := 1, quantum := 1, uthread_state := state.BLOCKED, is_sleeping := false,
            num_q_to_sleep := 0 }) ∧
    (uthread_resume 3 0).run oneBlocked = .ok (0, oneBlocked) ∧
    (uthread_resume 3 2).run oneBlocked = .ok (-1, oneBlocked) :=
  ⟨(((C16_uthread_resume 3 oneBlocked 1).2.2 _ (by decide) (by decide) rfl rfl).2 rfl rfl).1,
   ((C16_uthread_resume 3 oneBlocked 0).2.2 mainThread (by decide) (by decide) rfl rfl).1
     (Or.inr (Or.inl rfl)),
   (C16_uthread_resume 3 oneBlocked 2).2.1 (by decide) (by decide) rfl⟩

/-! ### Traces that settle claims C14, C17 and C18 -/

set_option maxRecDepth 1000000 in
set_option synthInstance.maxHeartbeats 400000 in
set_option synthInstance.maxSize 4096 in
/-- C14 fails on the code. With `MAX_THREAD_NUM = 100`, after
`uthread_init(100000)`, a spawn, a timer expiry (thread 1 is dispatched) and
`uthread_terminate(1)` called by thread 1 itself, thread 0 runs, and
`uthread_get_quantums(1)` returns 1 instead of failing, ID 1 is not free, and
`uthread_spawn` returns 2: the scheduler entered by the self-terminating
thread does not return, so the lines that release the record and free the ID
are never executed. -/
theorem C14_self_terminate_keeps_record :
    (reach 100 100000 [Event.spawn (some 0), Event.timer, Event.terminate 1]).map
        (fun s => (s.running_thread,
          ((uthread_get_quantums 100 1).run s).toOption.map Prod.fst,
          s.index_free.take 2,
          ((uthread_spawn 100 (some 0)).run s).toOption.map Prod.fst))
      = some (some 0, some 1, [false, false], some 2) := by
  decide!

set_option maxRecDepth 1000000 in
set_option synthInstance.maxHeartbeats 400000 in
set_option synthInstance.maxSize 4096 in
/-- C17 fails on the code in one of the two orders. With `MAX_THREAD_NUM = 100`,
thread 1 is dispatched, calls `uthread_sleep(2)`, and thread 0 blocks it. When
thread 0 calls `uthread_resume(1)` before the sleep expires, the call changes
nothing, and after the expiry (two timer expiries) and two more expiries
thread 1 is still `BLOCKED` and not in the ready FIFO, although its sleep has
expired and it has been resumed. When the sleep expires first and
`uthread_resume(1)` comes afterwards, thread 1 is `READY` and in the FIFO. -/
theorem C17_resume_before_expiry_is_lost :
    (reach 100 100000
        [Event.spawn (some 0), Event.timer, Event.sleep 2, Event.block 1]).map
        (fun s => (threadStatus s 1, s.ready_vector))
      = some (some (state.BLOCKED, true), []) ∧
    (reach 100 100000
        [Event.spawn (some 0), Event.timer, Event.sleep 2, Event.block 1, Event.resume 1]).map
        (fun s => (threadStatus s 1, s.ready_vector))
      = some (some (state.BLOCKED, true), []) ∧
    (reach 100 100000
        [Event.spawn (some 0), Event.timer, Event.sleep 2, Event.block 1, Event.resume 1,
         Event.timer, Event.timer]).map
        (fun s => (threadStatus s 1, s.ready_vector))
      = some (some (state.BLOCKED, false), []) ∧
    (reach 100 100000
        [Event.spawn (some 0), Event.timer, Event.sleep 2, Event.block 1, Event.resume 1,
         Event.timer, Event.timer, Event.timer, Event.timer]).map
        (fun s => (threadStatus s 1, s.ready_vector))
      = some (some (state.BLOCKED, false), []) ∧
    (reach 100 100000
        [Event.spawn (some 0), Event.timer, Event.sleep 2, Event.block 1,
         Event.timer, Event.timer, Event.resume 1]).map
        (fun s => (threadStatus s 1, s.ready_vector))
      = some (some (state.READY, false), [1]) := by
  decide!

set_option maxRecDepth 1000000 in
set_option synthInstance.maxHeartbeats 400000 in
set_option synthInstance.maxSize 4096 in
/-- C18 as stated fails: in the sleep scenario with `MAX_THREAD_NUM = 100`,
when the total-quanta counter is 4 (one timer expiry after the call of
`uthread_sleep(2)`) thread 1 is still asleep and the flag is 0, not 42. -/
theorem C18_flag_unset_at_total_4 :
    (reach 100 100000 (sleepScenario 1)).map
        (fun s => (s.quantums, threadStatus s 1, sleepScenarioFlag s))
      = some (4, some (state.SLEEP, true), 0) := by
  decide!

set_option maxRecDepth 1000000 in
set_option synthInstance.maxHeartbeats 400000 in
set_option synthInstance.maxSize 4096 in
/-- C18, amended: in the sleep scenario with `MAX_THREAD_NUM = 100`, thread 1
calls `uthread_sleep(2)` while the total-quanta counter is 2; the flag is
still 0 when the total is 3 and when it is 4, and the scheduler invocation
that raises the total to 5 dispatches thread 1, so the flag equals 42 when
the total-quanta counter is 5. -/
theorem C18_flag_set_at_total_5 :
    (reach 100 100000 [Event.spawn (some 0), Event.timer]).map
        (fun s => (s.quantums, s.running_thread)) = some (2, some 1) ∧
    (reach 100 100000 (sleepScenario 0)).map
        (fun s => (s.quantums, s.running_thread, sleepScenarioFlag s)) = some (3, some 0, 0) ∧
    (reach 100 100000 (sleepScenario 1)).map
        (fun s => (s.quantums, s.running_thread, sleepScenarioFlag s)) = some (4, some 0, 0) ∧
    (reach 100 100000 (sleepScenario 2)).map
        (fun s => (s.quantums, s.running_thread, sleepScenarioFlag s)) = some (5, some 1, 42) := by
  decide!

/-! ### The main thread is never blocked and never asleep (claim C20) -/

theorem Keeps_pure {α : Type} (I : Lib → Prop) (a : α) : Keeps I (pure a : UT α) := by
  intro s b s' h hi
  obtain ⟨_, rfl⟩ := (UT_pure_ok _ _ _ _).mp h
  exact hi

theorem Keeps_bind {α β : Type} (I : Lib → Prop) (x : UT α) (f : α → UT β)
    (hx : Keeps I x) (hf : ∀ a, Keeps I (f a)) : Keeps I (x >>= f) := by
  intro s b s' h hi
  obtain ⟨a, s1, h1, h2⟩ := (UT_bind_ok _ _ _ _ _).mp h
  exact hf a s1 b s' h2 (hx s a s1 h1 hi)

theorem Keeps_halt {α : Type} (I : Lib → Prop) (e : Halt) : Keeps I (halt e : UT α) := by
  intro s a s' h
  exact absurd h (by simp [halt])

theorem Keeps_getLib (I : Lib → Prop) : Keeps I getLib := by
  intro s a s' h hi
  obtain ⟨_, rfl⟩ := (getLib_ok _ _ _).mp h
  exact hi

theorem Keeps_deref (I : Lib → Prop) (p : Nat) : Keeps I (deref p) := by
  intro s a s' h hi
  obtain ⟨_, rfl⟩ := (deref_ok _ _ _ _).mp h
  exact hi

theorem Keeps_getIndexFree (I : Lib → Prop) (i : Nat) : Keeps I (getIndexFree i) := by
  intro s a s' h hi
  obtain ⟨_, rfl⟩ := (getIndexFree_ok _ _ _ _).mp h
  exact hi

theorem Keeps_invalid_tid (I : Lib → Prop) (n : Nat) (tid : Int) :
    Keeps I (invalid_tid n tid) := by
  unfold invalid_tid
  split
  · exact Keeps_pure _ _
  · exact Keeps_getIndexFree _ _

theorem MainOk_of_array (s s' : Lib) (h : s'.uthreads_array = s.uthreads_array)
    (hi : MainOk s) : MainOk s' := by
  unfold MainOk at hi ⊢
  rw [h]
  exact hi

theorem Keeps_MainOk_modifyLib (f : Lib → Lib)
    (hf : ∀ s, (f s).uthreads_array = s.uthreads_array) : Keeps MainOk (modifyLib f) := by
  intro s a s' h hi
  rw [(modifyLib_ok _ _ _ _).mp h]
  exact MainOk_of_array _ _ (hf s) hi

theorem Keeps_MainOk_setIndexFree (i : Nat) (b : Bool) : Keeps MainOk (setIndexFree i b) := by
  intro s a s' h hi
  obtain ⟨_, rfl⟩ := (setIndexFree_ok _ _ _ _ _).mp h
  exact MainOk_of_array _ _ rfl hi

theorem Keeps_MainOk_erase_from_ready (tid : Int) : Keeps MainOk (erase_from_ready tid) := by
  intro s a s' h hi
  unfold erase_from_ready at h
  split at h
  · cases h
    exact MainOk_of_array _ _ rfl hi
  · cases h

theorem MainOk_set (s : Lib) (p : Nat) (th th' : Uthread) (hi : MainOk s)
    (hth : s.uthreads_array[p]? = some (some th)) (htid : th'.tid = th.tid)
    (hst : p ≠ 0 ∨ th'.uthread_state = th.uthread_state ∨
      th'.uthread_state = state.READY ∨ th'.uthread_state = state.RUNNING) :
    MainOk { s with uthreads_array := s.uthreads_array.set p (some th') } := by
  obtain ⟨h1, th0, h2, h3⟩ := hi
  have hlen : p < s.uthreads_array.length := by
    by_contra hc
    rw [List.getElem?_eq_none_iff.mpr (by omega)] at hth
    cases hth
  refine ⟨?_, ?_⟩
  · intro i t hit
    simp only [List.getElem?_set] at hit
    by_cases hpi : p = i
    · subst hpi
      simp only [if_true, hlen, Option.some.injEq] at hit
      subst hit
      rw [htid]
      exact h1 p th hth
    · simp only [hpi, if_false] at hit
      exact h1 i t hit
  · by_cases hp0 : p = 0
    · subst hp0
      rw [h2] at hth
      simp only [Option.some.injEq] at hth
      subst hth
      refine ⟨th', by simp [List.getElem?_set, hlen], ?_⟩
      rcases hst with h | h | h | h
      · exact absurd rfl h
      · rw [h]; exact h3
      · exact Or.inl h
      · exact Or.inr h
    · refine ⟨th0, ?_, h3⟩
      simp only [List.getElem?_set, hp0, if_false]
      exact h2

theorem Keeps_MainOk_modifyThread (p : Nat) (f : Uthread → Uthread)
    (hf : ∀ th, (f th).tid = th.tid ∧
      ((f th).uthread_state = th.uthread_state ∨ (f th).uthread_state = state.READY ∨
        (f th).uthread_state = state.RUNNING)) :
    Keeps MainOk (modifyThread p f) := by
  intro s a s' h hi
  obtain ⟨th, hth, rfl⟩ := (modifyThread_ok _ _ _ _ _).mp h
  exact MainOk_set s p th (f th) hi hth (hf th).1 (Or.inr (hf th).2)

theorem Keeps_MainOk_uthread_resume (n : Nat) (tid : Int) :
    Keeps MainOk (uthread_resume n tid) := by
  unfold uthread_resume
  repeat' first
    | exact Keeps_pure _ _
    | exact Keeps_deref _ _
    | exact Keeps_invalid_tid _ _ _
    | exact Keeps_MainOk_modifyLib _ (fun _ => rfl)
    | exact Keeps_MainOk_modifyThread _ _ (fun _ => ⟨rfl, Or.inr (Or.inl rfl)⟩)
    | refine Keeps_bind _ _ _ ?_ (fun _ => ?_)
    | split

theorem Keeps_MainOk_update_sleeping_thread (n i : Nat) :
    Keeps MainOk (update_sleeping_thread n i) := by
  unfold update_sleeping_thread
  repeat' first
    | exact Keeps_pure _ _
    | exact Keeps_deref _ _
    | exact Keeps_getIndexFree _ _
    | exact Keeps_MainOk_uthread_resume _ _
    | exact Keeps_MainOk_modifyThread _ _ (fun _ => ⟨rfl, Or.inl rfl⟩)
    | refine Keeps_bind _ _ _ ?_ (fun _ => ?_)
    | split

theorem Keeps_MainOk_update_sleeping_threads_loop (n k i : Nat) :
    Keeps MainOk (update_sleeping_threads_loop n k i) := by
  induction k generalizing i with
  | zero => exact Keeps_pure _ _
  | succ k ih =>
    unfold update_sleeping_threads_loop
    exact Keeps_bind _ _ _ (Keeps_MainOk_update_sleeping_thread _ _) (fun _ => ih _)

theorem Keeps_MainOk_scheduler (n : Nat) : Keeps MainOk (scheduler n) := by
  unfold scheduler update_sleeping_threads
  repeat' first
    | exact Keeps_pure _ _
    | exact Keeps_halt _ _
    | exact Keeps_getLib _
    | exact Keeps_deref _ _
    | exact Keeps_MainOk_update_sleeping_threads_loop _ _ _
    | exact Keeps_MainOk_modifyLib _ (fun _ => rfl)
    | exact Keeps_MainOk_modifyThread _ _ (fun _ => ⟨rfl, Or.inl rfl⟩)
    | exact Keeps_MainOk_modifyThread _ _ (fun _ => ⟨rfl, Or.inr (Or.inl rfl)⟩)
    | exact Keeps_MainOk_modifyThread _ _ (fun _ => ⟨rfl, Or.inr (Or.inr rfl)⟩)
    | refine Keeps_bind _ _ _ ?_ (fun _ => ?_)
    | split
    | dsimp only

/-! ### The main thread is never blocked and never asleep (claim C20) -/
theorem invalid_tid_false_inv (n : Nat) (tid : Int) (s s' : Lib)
    (h : invalid_tid n tid s = .ok (false, s')) :
    0 ≤ tid ∧ tid < (n : Int) ∧ s.index_free[tid.toNat]? = some false ∧ s' = s := by
  unfold invalid_tid at h
  split at h
  · obtain ⟨hc, _⟩ := (UT_pure_ok _ _ _ _).mp h
    cases hc
  · rename_i hcond
    simp only [Bool.or_eq_true, decide_eq_true_eq, not_or, not_lt, ge_iff_le, not_le] at hcond
    obtain ⟨h1, h2⟩ := (getIndexFree_ok _ _ _ _).mp h
    exact ⟨hcond.1, hcond.2, h1, h2⟩

theorem min_free_id_loop_ge (k i : Nat) (s s' : Lib) (r : Int)
    (h : min_free_id_loop k i s = .ok (r, s')) :
    s'.uthreads_array = s.uthreads_array ∧
      (r = -1 ∨ ∃ j : Nat, r = (j : Int) ∧ i ≤ j) := by
  induction k generalizing i with
  | zero =>
    unfold min_free_id_loop at h
    obtain ⟨h1, h2⟩ := (UT_pure_ok _ _ _ _).mp h
    subst h2
    exact ⟨rfl, Or.inl h1.symm⟩
  | succ k ih =>
    unfold min_free_id_loop at h
    obtain ⟨b, s1, h1, h2⟩ := (UT_bind_ok _ _ _ _ _).mp h
    obtain ⟨hb, rfl⟩ := (getIndexFree_ok _ _ _ _).mp h1
    split at h2
    · obtain ⟨u, s2, h3, h4⟩ := (UT_bind_ok _ _ _ _ _).mp h2
      obtain ⟨_, rfl⟩ := (setIndexFree_ok _ _ _ _ _).mp h3
      obtain ⟨h5, h6⟩ := (UT_pure_ok _ _ _ _).mp h4
      subst h6
      exact ⟨rfl, Or.inr ⟨i, h5.symm, le_refl i⟩⟩
    · obtain ⟨ha, hb'⟩ := ih _ h2
      refine ⟨ha, ?_⟩
      rcases hb' with hb' | ⟨j, hj, hij⟩
      · exact Or.inl hb'
      · exact Or.inr ⟨j, hj, by omega⟩

theorem MainOk_setSlot (s : Lib) (i : Nat) (t : Option Uthread) (hi : MainOk s) (h0 : i ≠ 0)
    (ht : ∀ th, t = some th → th.tid = (i : Int)) :
    MainOk { s with uthreads_array := s.uthreads_array.set i t } := by
  obtain ⟨h1, th0, h2, h3⟩ := hi
  refine ⟨?_, th0, ?_, h3⟩
  · intro j th hj
    simp only [List.getElem?_set] at hj
    by_cases hij : i = j
    · subst hij
      simp only [if_true] at hj
      split at hj
      · simp only [Option.some.injEq] at hj
        exact ht th hj
      · cases hj
    · simp only [hij, if_false] at hj
      exact h1 j th hj
  · simp only [List.getElem?_set, h0, if_false]
    exact h2

theorem uthread_spawn_ret (n : Nat) (e : Option Nat) (s s' : Lib) (r : Int)
    (h : uthread_spawn n e s = .ok (r, s')) :
    (r = -1 ∨ 1 ≤ r) ∧ (MainOk s → MainOk s') := by
  unfold uthread_spawn at h
  split at h
  · obtain ⟨h1, rfl⟩ := (UT_pure_ok _ _ _ _).mp h
    exact ⟨Or.inl h1.symm, id⟩
  · obtain ⟨r0, s1, h1, h2⟩ := (UT_bind_ok _ _ _ _ _).mp h
    obtain ⟨harr, hr0⟩ := min_free_id_loop_ge _ _ _ _ _ h1
    rcases hr0 with rfl | ⟨j, rfl, hj⟩
    · simp only [beq_self_eq_true, if_true] at h2
      obtain ⟨h3, rfl⟩ := (UT_pure_ok _ _ _ _).mp h2
      exact ⟨Or.inl h3.symm, fun hi => MainOk_of_array _ _ harr hi⟩
    · have hne : ((j : Int) == -1) = false := by
        simp only [beq_eq_false_iff_ne, ne_eq]
        omega
      simp only [hne, Bool.false_eq_true, if_false, Uthread.new, Int.toNat_ofNat] at h2
      obtain ⟨_, s2, h3, h4⟩ := (UT_bind_ok _ _ _ _ _).mp h2
      obtain ⟨_, s3, h5, h6⟩ := (UT_bind_ok _ _ _ _ _).mp h4
      obtain ⟨_, s4, h7, h8⟩ := (UT_bind_ok _ _ _ _ _).mp h6
      obtain ⟨h9, rfl⟩ := (UT_pure_ok _ _ _ _).mp h8
      refine ⟨Or.inr (by rw [← h9]; omega), ?_⟩
      intro hi
      have hi1 : MainOk s1 := MainOk_of_array _ _ harr hi
      obtain ⟨_, hs2⟩ := (setSlot_ok _ _ _ _ _).mp h3
      have hi2 : MainOk s2 := by
        rw [hs2]
        exact MainOk_setSlot s1 j _ hi1 (by omega) (fun th hth => by cases hth; rfl)
      have hi3 : MainOk s3 := by
        rw [(modifyLib_ok _ _ _ _).mp h5]
        exact MainOk_of_array _ _ rfl hi2
      rw [(modifyLib_ok _ _ _ _).mp h7]
      exact MainOk_of_array _ _ rfl hi3

theorem Keeps_MainOk_uthread_terminate (n : Nat) (tid : Int) :
    Keeps MainOk (uthread_terminate n tid) := by
  intro s r s' h hi
  unfold uthread_terminate at h
  split at h
  · exact absurd h (by simp [halt])
  · rename_i htid
    obtain ⟨b, s1, h1, h2⟩ := (UT_bind_ok _ _ _ _ _).mp h
    split at h2
    · obtain ⟨_, rfl⟩ := (UT_pure_ok _ _ _ _).mp h2
      exact Keeps_invalid_tid _ _ _ s b s1 h1 hi
    · rename_i hb
      have hb' : b = false := by simpa using hb
      subst hb'
      obtain ⟨h0, _, _, rfl⟩ := invalid_tid_false_inv _ _ _ _ h1
      have hne : tid.toNat ≠ 0 := by
        have : tid ≠ 0 := by simpa using htid
        omega
      obtain ⟨l, s2, hl, h3⟩ := (UT_bind_ok _ _ _ _ _).mp h2
      obtain ⟨hl1, hl2⟩ := (getLib_ok _ _ _).mp hl
      subst hl2
      cases hrt : l.running_thread with
      | none =>
        simp only [hrt] at h3
        exact absurd h3 (by simp [halt])
      | some p =>
        simp only [hrt] at h3
        obtain ⟨th, s3, hd, h4⟩ := (UT_bind_ok _ _ _ _ _).mp h3
        obtain ⟨_, rfl⟩ := (deref_ok _ _ _ _).mp hd
        split at h4
        · obtain ⟨_, s4, h5, h6⟩ := (UT_bind_ok _ _ _ _ _).mp h4
          obtain ⟨_, s5, h7, h8⟩ := (UT_bind_ok _ _ _ _ _).mp h6
          obtain ⟨_, s6, h9, h10⟩ := (UT_bind_ok _ _ _ _ _).mp h8
          obtain ⟨_, rfl⟩ := (UT_pure_ok _ _ _ _).mp h10
          have hi4 : MainOk s4 := by
            rw [(modifyLib_ok _ _ _ _).mp h5]
            exact MainOk_of_array _ _ rfl hi
          have hi5 : MainOk s5 := Keeps_pure _ _ s4 _ s5 h7 hi4
          exact Keeps_MainOk_scheduler n s5 _ s6 h9 hi5
        · obtain ⟨_, s4, h5, h6⟩ := (UT_bind_ok _ _ _ _ _).mp h4
          obtain ⟨_, s5, h7, h8⟩ := (UT_bind_ok _ _ _ _ _).mp h6
          obtain ⟨_, s6, h9, h10⟩ := (UT_bind_ok _ _ _ _ _).mp h8
          obtain ⟨_, s7, h11, h12⟩ := (UT_bind_ok _ _ _ _ _).mp h10
          obtain ⟨_, rfl⟩ := (UT_pure_ok _ _ _ _).mp h12
          have hi4 : MainOk s4 := Keeps_MainOk_erase_from_ready _ _ _ s4 h5 hi
          obtain ⟨_, hs5⟩ := (setSlot_ok _ _ _ _ _).mp h7
          have hi5 : MainOk s5 := by
            rw [hs5]
            exact MainOk_setSlot s4 _ _ hi4 hne (fun th hth => by cases hth)
          have hi6 : MainOk s6 := Keeps_MainOk_setIndexFree _ _ s5 _ s6 h9 hi5
          rw [(modifyLib_ok _ _ _ _).mp h11]
          exact MainOk_of_array _ _ rfl hi6

theorem Keeps_MainOk_uthread_block (n : Nat) (tid : Int) :
    Keeps MainOk (uthread_block n tid) := by
  intro s r s' h hi
  unfold uthread_block at h
  split at h
  · obtain ⟨_, rfl⟩ := (UT_pure_ok _ _ _ _).mp h
    exact hi
  · rename_i htid
    obtain ⟨b, s1, h1, h2⟩ := (UT_bind_ok _ _ _ _ _).mp h
    split at h2
    · obtain ⟨_, rfl⟩ := (UT_pure_ok _ _ _ _).mp h2
      exact Keeps_invalid_tid _ _ _ s b s1 h1 hi
    · rename_i hb
      have hb' : b = false := by simpa using hb
      subst hb'
      obtain ⟨h0, _, _, rfl⟩ := invalid_tid_false_inv _ _ _ _ h1
      have hne : tid.toNat ≠ 0 := by
        have : tid ≠ 0 := by simpa using htid
        omega
      obtain ⟨_, s2, h3, h4⟩ := (UT_bind_ok _ _ _ _ _).mp h2
      obtain ⟨th, hth, hs2⟩ := (modifyThread_ok _ _ _ _ _).mp h3
      have hi2 : MainOk s2 := by
        rw [hs2]
        exact MainOk_set _ _ th _ hi hth rfl (Or.inl hne)
      refine (?_ : Keeps MainOk _) s2 r s' h4 hi2
      repeat' first
        | exact Keeps_pure _ _
        | exact Keeps_halt _ _
        | exact Keeps_getLib _
        | exact Keeps_deref _ _
        | exact Keeps_MainOk_erase_from_ready _
        | exact Keeps_MainOk_scheduler _
        | refine Keeps_bind _ _ _ ?_ (fun _ => ?_)
        | split

theorem Keeps_MainOk_uthread_sleep (n : Nat) (num_quantums : Int) :
    Keeps MainOk (uthread_sleep n num_quantums) := by
  intro s r s' h hi
  unfold uthread_sleep at h
  obtain ⟨l, s1, hl, h2⟩ := (UT_bind_ok _ _ _ _ _).mp h
  obtain ⟨hl1, hl2⟩ := (getLib_ok _ _ _).mp hl
  subst hl2
  cases hrt : l.running_thread with
  | none =>
    simp only [hrt] at h2
    exact absurd h2 (by simp [halt])
  | some p =>
    simp only [hrt] at h2
    obtain ⟨th, s3, hd, h4⟩ := (UT_bind_ok _ _ _ _ _).mp h2
    obtain ⟨hth, rfl⟩ := (deref_ok _ _ _ _).mp hd
    split at h4
    · obtain ⟨_, rfl⟩ := (UT_pure_ok _ _ _ _).mp h4
      exact hi
    · rename_i htid
      have hp : p ≠ 0 := by
        intro hp0
        have := hi.1 p th hth
        rw [hp0] at this
        exact htid (by simp [this])
      obtain ⟨_, s4, h5, h6⟩ := (UT_bind_ok _ _ _ _ _).mp h4
      obtain ⟨th1, hth1, hs4⟩ := (modifyThread_ok _ _ _ _ _).mp h5
      have hi4 : MainOk s4 := by
        rw [hs4]
        exact MainOk_set _ _ th1 _ hi hth1 rfl (Or.inl hp)
      refine (?_ : Keeps MainOk _) s4 r s' h6 hi4
      repeat' first
        | exact Keeps_pure _ _
        | exact Keeps_MainOk_scheduler _
        | exact Keeps_MainOk_modifyThread _ _ (fun _ => ⟨rfl, Or.inl rfl⟩)
        | refine Keeps_bind _ _ _ ?_ (fun _ => ?_)

theorem Keeps_MainOk_step (n : Nat) (e : Event) : Keeps MainOk (step n e) := by
  cases e with
  | spawn entry_point =>
    unfold step
    refine Keeps_bind _ _ _ ?_ (fun _ => Keeps_pure _ _)
    intro s r s' h hi
    exact (uthread_spawn_ret n entry_point s s' r h).2 hi
  | terminate tid =>
    unfold step
    exact Keeps_bind _ _ _ (Keeps_MainOk_uthread_terminate _ _) (fun _ => Keeps_pure _ _)
  | block tid =>
    unfold step
    exact Keeps_bind _ _ _ (Keeps_MainOk_uthread_block _ _) (fun _ => Keeps_pure _ _)
  | resume tid =>
    unfold step
    exact Keeps_bind _ _ _ (Keeps_MainOk_uthread_resume _ _) (fun _ => Keeps_pure _ _)
  | sleep num_quantums =>
    unfold step
    exact Keeps_bind _ _ _ (Keeps_MainOk_uthread_sleep _ _) (fun _ => Keeps_pure _ _)
  | timer =>
    unfold step
    exact Keeps_MainOk_scheduler _

theorem Keeps_MainOk_steps (n : Nat) (events : List Event) : Keeps MainOk (steps n events) := by
  induction events with
  | nil => exact Keeps_pure _ _
  | cons e es ih =>
    unfold steps
    exact Keeps_bind _ _ _ (Keeps_MainOk_step _ _) (fun _ => ih)

theorem afterInit_eq (n : Nat) (quantum_usecs : Int) (s0 : Lib)
    (h : afterInit n quantum_usecs = some s0) :
    0 < n ∧ 0 < quantum_usecs ∧ s0 = initialized n quantum_usecs := by
  unfold afterInit at h
  by_cases hq : quantum_usecs ≤ 0
  · rw [uthread_init_fail n quantum_usecs _ hq] at h
    simp at h
  · have hq' : 0 < quantum_usecs := by omega
    rcases Nat.eq_zero_or_pos n with hn | hn
    · exfalso
      subst hn
      cases hrun : (uthread_init 0 quantum_usecs).run (Lib.start 0) with
      | error e => rw [hrun] at h; simp at h
      | ok v =>
        obtain ⟨r, s1⟩ := v
        have hrun' : uthread_init 0 quantum_usecs (Lib.start 0) = .ok (r, s1) := hrun
        unfold uthread_init at hrun'
        obtain ⟨_, s2, h1, h2⟩ := (UT_bind_ok _ _ _ _ _).mp hrun'
        simp only [hq, if_false] at h2
        obtain ⟨_, s3, h3, h4⟩ := (UT_bind_ok _ _ _ _ _).mp h2
        obtain ⟨_, s4, h5, h6⟩ := (UT_bind_ok _ _ _ _ _).mp h4
        obtain ⟨hlt, _⟩ := (setSlot_ok _ _ _ _ _).mp h5
        rw [(modifyLib_ok _ _ _ _).mp h3, (modifyLib_ok _ _ _ _).mp h1] at hlt
        simp [Lib.start] at hlt
    · rw [uthread_init_ok n quantum_usecs hn hq'] at h
      simp at h
      exact ⟨hn, hq', h.symm⟩

theorem MainOk_initialized (n : Nat) (quantum_usecs : Int) (hn : 0 < n) :
    MainOk (initialized n quantum_usecs) := by
  have h0 : (initialized n quantum_usecs).uthreads_array[0]? = some (some mainThread) := by
    simp [initialized, List.getElem?_set, hn]
  refine ⟨?_, mainThread, h0, Or.inr rfl⟩
  intro i th hth
  by_cases hi : i = 0
  · subst hi
    rw [h0] at hth
    cases hth
    rfl
  · exfalso
    have hne : ¬ (0 = i) := fun h => hi h.symm
    simp [initialized, List.getElem?_set, hne, List.getElem?_replicate] at hth

theorem MainOk_reach (n : Nat) (quantum_usecs : Int) (events : List Event) (s : Lib)
    (h : reach n quantum_usecs events = some s) : MainOk s := by
  unfold reach at h
  cases h0 : afterInit n quantum_usecs with
  | none => rw [h0] at h; simp at h
  | some s0 =>
    rw [h0] at h
    obtain ⟨hn, _, rfl⟩ := afterInit_eq n quantum_usecs s0 h0
    simp only at h
    cases hrun : (steps n events).run (initialized n quantum_usecs) with
    | error e => rw [hrun] at h; simp at h
    | ok v =>
      obtain ⟨u, s1⟩ := v
      rw [hrun] at h
      simp at h
      subst h
      exact Keeps_MainOk_steps n events _ u _ hrun (MainOk_initialized n quantum_usecs hn)

theorem uthread_sleep_main (n : Nat) (num_quantums : Int) (s : Lib) (p : Nat) (th : Uthread)
    (hrt : s.running_thread = some p) (hth : s.uthreads_array[p]? = some (some th))
    (htid : th.tid = 0) :
    (uthread_sleep n num_quantums).run s = .ok (-1, s) := by
  show uthread_sleep n num_quantums s = _
  unfold uthread_sleep
  refine (UT_bind_ok _ _ _ _ _).mpr ⟨s, s, (getLib_ok _ _ _).mpr ⟨rfl, rfl⟩, ?_⟩
  simp only [hrt]
  refine (UT_bind_ok _ _ _ _ _).mpr ⟨th, s, (deref_ok _ _ _ _).mpr ⟨hth, rfl⟩, ?_⟩
  simp only [htid, beq_self_eq_true, if_true]
  rfl

/-- C20: in every state reached from a successful `uthread_init` by any
sequence of library calls and timer expiries, slot 0 holds the record of
thread 0 and its state is `READY` or `RUNNING`, so never `BLOCKED` and never
`SLEEP`. In such a state `uthread_block(0)` returns -1 and leaves every global
as it was, `uthread_sleep` called while thread 0 runs returns -1 and leaves
every global as it was, and a `uthread_spawn` that returns does not return
0. -/
theorem C20_main_thread_ready_or_running (MAX_THREAD_NUM : Nat) (quantum_usecs : Int)
    (events : List Event) (s : Lib)
    (h : reach MAX_THREAD_NUM quantum_usecs events = some s) :
    (∃ th : Uthread, s.uthreads_array[0]? = some (some th) ∧ th.tid = 0 ∧
      (th.uthread_state = state.READY ∨ th.uthread_state = state.RUNNING)) ∧
    (uthread_block MAX_THREAD_NUM 0).run s = .ok (-1, s) ∧
    (∀ num_quantums : Int, s.running_thread = some 0 →
      (uthread_sleep MAX_THREAD_NUM num_quantums).run s = .ok (-1, s)) ∧
    (∀ (entry_point : Option Nat) (r : Int) (s' : Lib),
      (uthread_spawn MAX_THREAD_NUM entry_point).run s = .ok (r, s') → r ≠ 0) := by
  have hi := MainOk_reach MAX_THREAD_NUM quantum_usecs events s h
  obtain ⟨h1, th, h2, h3⟩ := hi
  have htid : th.tid = 0 := by simpa using h1 0 th h2
  refine ⟨⟨th, h2, htid, h3⟩, rfl, ?_, ?_⟩
  · intro num_quantums hrt
    exact uthread_sleep_main MAX_THREAD_NUM num_quantums s 0 th hrt h2 htid
  · intro entry_point r s' hs
    rcases (uthread_spawn_ret MAX_THREAD_NUM entry_point s s' r hs).1 with hr | hr <;> omega

set_option maxRecDepth 1000000 in
/-- C20 at `MAX_THREAD_NUM = 3`: after init, a spawn and two timer expiries
thread 0 runs again; `uthread_block(0)` and `uthread_sleep(5)` return -1 and
change nothing. -/
theorem C20_main_thread_ready_or_running_witness :
    reach 3 1 [Event.spawn (some 0), Event.timer, Event.timer] = some mainRunsAgain ∧
    (uthread_block 3 0).run mainRunsAgain = .ok (-1, mainRunsAgain) ∧
    (uthread_sleep 3 5).run mainRunsAgain = .ok (-1, mainRunsAgain) :=
  ⟨by decide!,
   (C20_main_thread_ready_or_running 3 1 [Event.spawn (some 0), Event.timer, Event.timer]
      mainRunsAgain (by decide!)).2.1,
   (C20_main_thread_ready_or_running 3 1 [Event.spawn (some 0), Event.timer, Event.timer]
      mainRunsAgain (by decide!)).2.2.1 5 rfl⟩

/-! ### The scheduler is round-robin (claim C19) -/

theorem RecWoke_refl (th : Uthread) : RecWoke th th := ⟨rfl, rfl, Or.inl rfl⟩

theorem RecWoke_trans (a b c : Uthread) (h1 : RecWoke a b) (h2 : RecWoke b c) : RecWoke a c := by
  obtain ⟨t1, q1, s1⟩ := h1
  obtain ⟨t2, q2, s2⟩ := h2
  refine ⟨t2.trans t1, q2.trans q1, ?_⟩
  rcases s1 with s1 | ⟨s1, s1'⟩
  · rw [s1] at s2
    exact s2
  · rcases s2 with s2 | ⟨_, s2⟩
    · exact Or.inr ⟨s1, s2.trans s1'⟩
    · exact Or.inr ⟨s1, s2⟩

theorem SlotWoke_trans (a b c : Option (Option Uthread)) (h1 : SlotWoke a b)
    (h2 : SlotWoke b c) : SlotWoke a c := by
  rcases h1 with rfl | ⟨th, th', rfl, rfl, h1⟩
  · exact h2
  · rcases h2 with rfl | ⟨th2, th3, h2, rfl, h3⟩
    · exact Or.inr ⟨th, th', rfl, rfl, h1⟩
    · cases h2
      exact Or.inr ⟨th, th3, rfl, rfl, RecWoke_trans _ _ _ h1 h3⟩

theorem Woke_refl (s : Lib) : Woke s s :=
  ⟨rfl, rfl, rfl, fun _ => Or.inl rfl, [], by simp, by simp⟩

theorem Woke_trans (a b c : Lib) (h1 : Woke a b) (h2 : Woke b c) : Woke a c := by
  obtain ⟨q1, r1, f1, a1, w1, e1, m1⟩ := h1
  obtain ⟨q2, r2, f2, a2, w2, e2, m2⟩ := h2
  refine ⟨q2.trans q1, r2.trans r1, f2.trans f1,
    fun i => SlotWoke_trans _ _ _ (a1 i) (a2 i), w1 ++ w2, ?_, ?_⟩
  · rw [e2, e1, List.append_assoc]
  · intro w hw
    rcases List.mem_append.mp hw with hw | hw
    · exact m1 w hw
    · obtain ⟨thb, hb, hst⟩ := m2 w hw
      rcases a1 w with h | ⟨th, th', h, h', hr⟩
      · exact ⟨thb, h.trans hb, hst⟩
      · rw [hb] at h'
        cases h'
        refine ⟨th, h, ?_⟩
        rcases hr.2.2 with hr | ⟨hr, _⟩
        · rw [hr] at hst
          exact hst
        · exact hr

theorem Woke_set (s : Lib) (p : Nat) (th th' : Uthread)
    (hth : s.uthreads_array[p]? = some (some th)) (hr : RecWoke th th') :
    Woke s { s with uthreads_array := s.uthreads_array.set p (some th') } := by
  refine ⟨rfl, rfl, rfl, ?_, [], by simp, by simp⟩
  intro i
  have hlen : p < s.uthreads_array.length := by
    by_contra hc
    rw [List.getElem?_eq_none_iff.mpr (by omega)] at hth
    cases hth
  by_cases hpi : p = i
  · subst hpi
    refine Or.inr ⟨th, th', hth, ?_, hr⟩
    simp [List.getElem?_set, hlen]
  · refine Or.inl ?_
    simp [List.getElem?_set, hpi]

theorem Woke_append (s : Lib) (w : Nat) (th : Uthread)
    (hth : s.uthreads_array[w]? = some (some th))
    (hst : th.uthread_state = state.BLOCKED ∨ th.uthread_state = state.SLEEP) :
    Woke s { s with ready_vector := s.ready_vector ++ [w] } := by
  refine ⟨rfl, rfl, rfl, fun _ => Or.inl rfl, [w], rfl, ?_⟩
  intro v hv
  rw [List.mem_singleton] at hv
  subst hv
  exact ⟨th, hth, hst⟩

theorem Readable_Woke (n : Nat) (s s' : Lib) (hR : Readable n s) (hw : Woke s s') :
    Readable n s' := by
  intro i hi
  obtain ⟨_, _, f1, a1, _⟩ := hw
  rw [f1]
  rcases hR i hi with h | ⟨h, th, hth⟩
  · exact Or.inl h
  · refine Or.inr ⟨h, ?_⟩
    rcases a1 i with h1 | ⟨_, th', _, h1, _⟩
    · exact ⟨th, h1 ▸ hth⟩
    · exact ⟨th', h1⟩

theorem Tot_bind {α β : Type} (P : Lib → Prop) (x : UT α) (Q : α → Lib → Prop)
    (f : α → UT β) (R : β → Lib → Prop) (hx : Tot P x Q) (hf : ∀ a, Tot (Q a) (f a) R) :
    Tot P (x >>= f) R := by
  intro s hs
  obtain ⟨a, s1, h1, hq⟩ := hx s hs
  obtain ⟨b, s2, h2, hr⟩ := hf a s1 hq
  exact ⟨b, s2, (UT_bind_ok _ _ _ _ _).mpr ⟨a, s1, h1, h2⟩, hr⟩

theorem Tot_pure {α : Type} (P : Lib → Prop) (a : α) (Q : α → Lib → Prop)
    (h : ∀ s, P s → Q a s) : Tot P (pure a : UT α) Q := by
  intro s hs
  exact ⟨a, s, rfl, h s hs⟩

theorem Tot_getIndexFree (P : Lib → Prop) (i : Nat)
    (h : ∀ s, P s → ∃ b, s.index_free[i]? = some b) :
    Tot P (getIndexFree i) (fun b s => P s ∧ s.index_free[i]? = some b) := by
  intro s hs
  obtain ⟨b, hb⟩ := h s hs
  exact ⟨b, s, (getIndexFree_ok _ _ _ _).mpr ⟨hb, rfl⟩, hs, hb⟩

theorem Tot_deref (P : Lib → Prop) (p : Nat)
    (h : ∀ s, P s → ∃ th, s.uthreads_array[p]? = some (some th)) :
    Tot P (deref p) (fun th s => P s ∧ s.uthreads_array[p]? = some (some th)) := by
  intro s hs
  obtain ⟨th, hth⟩ := h s hs
  exact ⟨th, s, (deref_ok _ _ _ _).mpr ⟨hth, rfl⟩, hs, hth⟩

theorem Tot_modifyThread (P : Lib → Prop) (p : Nat) (f : Uthread → Uthread)
    (Q : Unit → Lib → Prop)
    (h : ∀ s, P s → ∃ th, s.uthreads_array[p]? = some (some th) ∧
      Q () { s with uthreads_array := s.uthreads_array.set p (some (f th)) }) :
    Tot P (modifyThread p f) Q := by
  intro s hs
  obtain ⟨th, hth, hq⟩ := h s hs
  exact ⟨(), _, (modifyThread_ok _ _ _ _ _).mpr ⟨th, hth, rfl⟩, hq⟩

theorem Tot_modifyLib (P : Lib → Prop) (f : Lib → Lib) (Q : Unit → Lib → Prop)
    (h : ∀ s, P s → Q () (f s)) : Tot P (modifyLib f) Q := by
  intro s hs
  exact ⟨(), f s, rfl, h s hs⟩

theorem uthread_resume_sleep (n : Nat) (tid : Int) (s : Lib) (th : Uthread)
    (h : invalid_tid n tid s = .ok (false, s))
    (hth : s.uthreads_array[tid.toNat]? = some (some th))
    (hst : th.uthread_state = state.SLEEP) (hsl : th.is_sleeping = false) :
    (uthread_resume n tid).run s = .ok (0, resumed s tid.toNat th) := by
  show uthread_resume n tid s = _
  unfold uthread_resume
  refine (UT_bind_ok _ _ _ _ _).mpr ⟨false, s, h, ?_⟩
  simp only [Bool.false_eq_true, if_false]
  refine (UT_bind_ok _ _ _ _ _).mpr ⟨th, s, (deref_ok _ _ _ _).mpr ⟨hth, rfl⟩, ?_⟩
  have hcond : (th.uthread_state == state.BLOCKED || th.uthread_state == state.SLEEP) = true := by
    rw [hst]; rfl
  simp only [hsl, hcond, Bool.not_false, if_true]
  refine (UT_bind_ok _ _ _ _ _).mpr
    ⟨(), { s with ready_vector := s.ready_vector ++ [tid.toNat] }, rfl, ?_⟩
  refine (UT_bind_ok _ _ _ _ _).mpr ⟨(), resumed s tid.toNat th, ?_, rfl⟩
  exact (modifyThread_ok _ _ _ _ _).mpr ⟨th, hth, rfl⟩

theorem Woke_resumed (s : Lib) (i : Nat) (th : Uthread)
    (hth : s.uthreads_array[i]? = some (some th))
    (hst : th.uthread_state = state.BLOCKED ∨ th.uthread_state = state.SLEEP) :
    Woke s (resumed s i th) := by
  have h1 := Woke_append s i th hth hst
  refine Woke_trans _ _ _ h1 ?_
  exact Woke_set { s with ready_vector := s.ready_vector ++ [i] } i th
    { th with uthread_state := state.READY } hth ⟨rfl, rfl, Or.inr ⟨hst, rfl⟩⟩

/-- The wake-up call of `update_sleeping_threads` returns and only wakes. -/
theorem Tot_uthread_resume (n i : Nat) (s0 : Lib) (hi : i < n) :
    Tot (fun s => Woke s0 s ∧ s.index_free[i]? = some false ∧
          ∃ th, s.uthreads_array[i]? = some (some th))
      (uthread_resume n (i : Int)) (fun _ s => Woke s0 s) := by
  intro s ⟨hw, hf, th, hth⟩
  have hinv : invalid_tid n (i : Int) s = .ok (false, s) :=
    invalid_tid_in n (i : Int) s false (by omega) (by omega) (by simpa using hf)
  have hth' : s.uthreads_array[(i : Int).toNat]? = some (some th) := by simpa using hth
  by_cases hsl : th.is_sleeping = true
  · exact ⟨0, s, uthread_resume_noop n _ s th hinv hth' (Or.inr (Or.inr hsl)), hw⟩
  · have hsl' : th.is_sleeping = false := by simpa using hsl
    cases hst : th.uthread_state with
    | READY => exact ⟨0, s, uthread_resume_noop n _ s th hinv hth' (Or.inl hst), hw⟩
    | RUNNING => exact ⟨0, s, uthread_resume_noop n _ s th hinv hth' (Or.inr (Or.inl hst)), hw⟩
    | BLOCKED =>
      refine ⟨0, _, uthread_resume_blocked n _ s th hinv hth' hst hsl', ?_⟩
      exact Woke_trans _ _ _ hw (Woke_resumed s _ th hth' (Or.inl hst))
    | SLEEP =>
      refine ⟨0, _, uthread_resume_sleep n _ s th hinv hth' hst hsl', ?_⟩
      exact Woke_trans _ _ _ hw (Woke_resumed s _ th hth' (Or.inr hst))

theorem WokeAt_slot (n i : Nat) (s0 s : Lib) (hR : Readable n s0) (hi : i < n)
    (h : WokeAt s0 i s) : ∃ th, s.uthreads_array[i]? = some (some th) := by
  rcases Readable_Woke n s0 s hR h.1 i hi with h1 | ⟨_, h1⟩
  · rw [h.2] at h1
    cases h1
  · exact h1

theorem Tot_deref_WokeAt (n i : Nat) (s0 : Lib) (hR : Readable n s0) (hi : i < n) :
    Tot (WokeAt s0 i) (deref i) (fun _ s => WokeAt s0 i s) := by
  intro s hs
  obtain ⟨th, hth⟩ := WokeAt_slot n i s0 s hR hi hs
  exact ⟨th, s, (deref_ok _ _ _ _).mpr ⟨hth, rfl⟩, hs⟩

theorem Tot_modifyThread_WokeAt (n i : Nat) (s0 : Lib) (hR : Readable n s0) (hi : i < n)
    (f : Uthread → Uthread) (hf : ∀ th, RecWoke th (f th)) :
    Tot (WokeAt s0 i) (modifyThread i f) (fun _ s => WokeAt s0 i s) := by
  intro s hs
  obtain ⟨th, hth⟩ := WokeAt_slot n i s0 s hR hi hs
  refine ⟨(), _, (modifyThread_ok _ _ _ _ _).mpr ⟨th, hth, rfl⟩, ?_, hs.2⟩
  exact Woke_trans _ _ _ hs.1 (Woke_set s i th (f th) hth (hf th))

theorem Tot_uthread_resume_WokeAt (n i : Nat) (s0 : Lib) (hR : Readable n s0) (hi : i < n) :
    Tot (WokeAt s0 i) (uthread_resume n (i : Int)) (fun _ s => WokeAt s0 i s) := by
  intro s hs
  obtain ⟨r, s', h, hw⟩ :=
    Tot_uthread_resume n i s0 hi s ⟨hs.1, hs.2, WokeAt_slot n i s0 s hR hi hs⟩
  refine ⟨r, s', h, hw, ?_⟩
  rw [hw.2.2.1, ← hs.1.2.2.1]
  exact hs.2

theorem Tot_update_sleeping_thread (n i : Nat) (s0 : Lib) (hR : Readable n s0) (hi : i < n) :
    Tot (fun s => Woke s0 s) (update_sleeping_thread n i) (fun _ s => Woke s0 s) := by
  unfold update_sleeping_thread
  refine Tot_bind _ _ _ _ _ (Tot_getIndexFree _ i ?_) (fun b => ?_)
  · intro s hw
    rcases Readable_Woke n s0 s hR hw i hi with h | ⟨h, _⟩
    · exact ⟨_, h⟩
    · exact ⟨_, h⟩
  · cases b with
    | true =>
      exact Tot_pure _ _ _ (fun s hs => hs.1)
    | false =>
      simp only [Bool.not_false, if_true]
      show Tot (WokeAt s0 i) _ _
      repeat' first
        | exact Tot_pure _ _ _ (fun s hs => hs.1)
        | exact Tot_pure _ _ _ (fun s hs => hs)
        | exact Tot_deref_WokeAt n i s0 hR hi
        | exact Tot_modifyThread_WokeAt n i s0 hR hi _ (fun _ => ⟨rfl, rfl, Or.inl rfl⟩)
        | exact Tot_uthread_resume_WokeAt n i s0 hR hi
        | refine Tot_bind _ _ (fun _ s => WokeAt s0 i s) _ _ ?_ (fun _ => ?_)
        | split

theorem Tot_update_sleeping_threads_loop (n : Nat) (s0 : Lib) (hR : Readable n s0) (k i : Nat)
    (hk : i + k ≤ n) :
    Tot (fun s => Woke s0 s) (update_sleeping_threads_loop n k i) (fun _ s => Woke s0 s) := by
  induction k generalizing i with
  | zero => exact Tot_pure _ _ _ (fun s hs => hs)
  | succ k ih =>
    unfold update_sleeping_threads_loop
    exact Tot_bind _ _ _ _ _ (Tot_update_sleeping_thread n i s0 hR (by omega))
      (fun _ => ih (i + 1) (by omega))

theorem update_sleeping_threads_ok (n : Nat) (s : Lib) (hR : Readable n s) :
    ∃ s', update_sleeping_threads n s = .ok ((), s') ∧ Woke s s' := by
  obtain ⟨_, s', h, hw⟩ :=
    Tot_update_sleeping_threads_loop n s hR n 0 (by omega) s (Woke_refl s)
  exact ⟨s', h, hw⟩

theorem Woke_slot (s s' : Lib) (p : Nat) (th : Uthread) (hw : Woke s s')
    (h : s.uthreads_array[p]? = some (some th)) :
    ∃ th', s'.uthreads_array[p]? = some (some th') ∧ RecWoke th th' := by
  rcases hw.2.2.2.1 p with e | ⟨a, b, ha, hb, hr⟩
  · exact ⟨th, e ▸ h, RecWoke_refl th⟩
  · rw [h] at ha
    cases ha
    exact ⟨b, hb, hr⟩

theorem erase_from_ready_loop_cons (f : Nat → Option Int) (tid : Int) (p : Nat)
    (rest : List Nat) :
    erase_from_ready_loop f tid (p :: rest) =
      match f p with
      | none => none
      | some t =>
        if t == tid then
          match rest with
          | [] => some []
          | q :: rest' => (erase_from_ready_loop f tid rest').map (fun l => q :: l)
        else (erase_from_ready_loop f tid rest).map (fun l => p :: l) := by
  cases rest with
  | nil =>
    refine (erase_from_ready_loop.eq_2 f tid p).trans ?_
    cases f p <;> rfl
  | cons q rest' =>
    refine (erase_from_ready_loop.eq_3 f tid p q rest').trans ?_
    cases f p <;> rfl

theorem erase_loop_no_match (f : Nat → Option Int) (tid : Int) (l : List Nat)
    (h : ∀ p ∈ l, ∃ t, f p = some t ∧ t ≠ tid) :
    erase_from_ready_loop f tid l = some l := by
  induction l with
  | nil => rfl
  | cons p rest ih =>
    obtain ⟨t, ht, hne⟩ := h p (List.mem_cons_self _ _)
    have hrest := ih (fun q hq => h q (List.mem_cons_of_mem _ hq))
    rw [erase_from_ready_loop_cons]
    simp [ht, hne, hrest]

theorem erase_loop_once (f : Nat → Option Int) (tid : Int) (l : List Nat)
    (h : ∀ p ∈ l, ∃ t, f p = some t)
    (h1 : (l.filter (fun p => f p == some tid)).length ≤ 1) :
    erase_from_ready_loop f tid l = some (l.filter (fun p => !(f p == some tid))) := by
  induction l with
  | nil => rfl
  | cons p rest ih =>
    obtain ⟨t, ht⟩ := h p (List.mem_cons_self _ _)
    have hdef := fun q hq => h q (List.mem_cons_of_mem p hq)
    by_cases htid : t = tid
    · subst htid
      have hp : (f p == some t) = true := by simp [ht]
      simp only [List.filter_cons, hp, if_true, List.length_cons] at h1
      have hnil : rest.filter (fun p => f p == some t) = [] := by
        apply List.eq_nil_of_length_eq_zero
        omega
      have hno : ∀ q ∈ rest, ∃ u, f q = some u ∧ u ≠ t := by
        intro q hq
        obtain ⟨u, hu⟩ := hdef q hq
        refine ⟨u, hu, ?_⟩
        intro hut
        have : q ∈ rest.filter (fun p => f p == some t) := by
          rw [List.mem_filter]
          exact ⟨hq, by simp [hu, hut]⟩
        rw [hnil] at this
        cases this
      have hkeep : rest.filter (fun p => !(f p == some t)) = rest := by
        rw [List.filter_eq_self]
        intro q hq
        obtain ⟨u, hu, hne⟩ := hno q hq
        simp [hu, hne]
      simp only [List.filter_cons, hp, Bool.not_true, Bool.false_eq_true, if_false, hkeep]
      rw [erase_from_ready_loop_cons]
      simp only [ht, beq_self_eq_true, if_true]
      cases rest with
      | nil => rfl
      | cons q rest' =>
        have := erase_loop_no_match f t rest'
          (fun r hr => hno r (List.mem_cons_of_mem _ hr))
        simp [this]
    · have hp : (f p == some tid) = false := by simp [ht, htid]
      simp only [List.filter_cons, hp, Bool.false_eq_true, if_false] at h1
      have hrest := ih hdef h1
      simp only [List.filter_cons, hp, Bool.not_false, if_true]
      rw [erase_from_ready_loop_cons]
      simp [ht, htid, hrest]

theorem erase_from_ready_once (tid : Int) (s : Lib) (h : ReadyOnce s tid) :
    erase_from_ready tid s = .ok ((), { s with ready_vector := readyWithout s tid }) := by
  have := erase_loop_once (tidOf s) tid s.ready_vector h.1 h.2
  unfold erase_from_ready
  show (match erase_from_ready_loop (tidOf s) tid s.ready_vector with
    | some l => Except.ok ((), { s with ready_vector := l })
    | none => Except.error Halt.undefined) = _
  rw [this]
  rfl

theorem getElem?_lt_length {α : Type} (l : List α) (i : Nat) (a : α) (h : l[i]? = some a) :
    i < l.length := by
  by_contra hc
  rw [List.getElem?_eq_none_iff.mpr (by omega)] at h
  cases h

theorem uthread_terminate_invalid (n : Nat) (tid : Int) (s : Lib) (h0 : tid ≠ 0)
    (h : invalid_tid n tid s = .ok (true, s)) :
    (uthread_terminate n tid).run s = .ok (some (-1), s) := by
  show uthread_terminate n tid s = _
  unfold uthread_terminate
  have hb : (tid == 0) = false := by simpa using h0
  simp only [hb, Bool.false_eq_true, if_false]
  refine (UT_bind_ok _ _ _ _ _).mpr ⟨true, s, h, ?_⟩
  simp only [if_true]
  rfl

theorem uthread_terminate_other (n : Nat) (tid : Int) (s : Lib) (p : Nat) (thp : Uthread)
    (h0 : tid ≠ 0) (hinv : invalid_tid n tid s = .ok (false, s))
    (hlen : tid.toNat < s.uthreads_array.length)
    (hfl : tid.toNat < s.index_free.length)
    (hrun : s.running_thread = some p) (hp : s.uthreads_array[p]? = some (some thp))
    (hne : thp.tid ≠ tid) (hready : ReadyOnce s tid) :
    (uthread_terminate n tid).run s = .ok (some 0, terminated s tid) := by
  show uthread_terminate n tid s = _
  unfold uthread_terminate
  have hb : (tid == 0) = false := by simpa using h0
  simp only [hb, Bool.false_eq_true, if_false]
  refine (UT_bind_ok _ _ _ _ _).mpr ⟨false, s, hinv, ?_⟩
  simp only [Bool.false_eq_true, if_false]
  refine (UT_bind_ok _ _ _ _ _).mpr ⟨s, s, rfl, ?_⟩
  simp only [hrun]
  refine (UT_bind_ok _ _ _ _ _).mpr ⟨thp, s, (deref_ok _ _ _ _).mpr ⟨hp, rfl⟩, ?_⟩
  have hc : (thp.tid == tid) = false := by simpa using hne
  simp only [hc, Bool.false_eq_true, if_false]
  refine (UT_bind_ok _ _ _ _ _).mpr ⟨(), _, erase_from_ready_once tid s hready, ?_⟩
  refine (UT_bind_ok _ _ _ _ _).mpr ⟨(), _, (setSlot_ok _ _ _ _ _).mpr ⟨hlen, rfl⟩, ?_⟩
  refine (UT_bind_ok _ _ _ _ _).mpr ⟨(), _, (setIndexFree_ok _ _ _ _ _).mpr ⟨hfl, rfl⟩, ?_⟩
  rfl

theorem tidOf_set (s : Lib) (i : Nat) (th th' : Uthread)
    (hth : s.uthreads_array[i]? = some (some th)) (htid : th'.tid = th.tid) :
    tidOf { s with uthreads_array := s.uthreads_array.set i (some th') } = tidOf s := by
  funext q
  have hlen := getElem?_lt_length _ _ _ hth
  unfold tidOf
  by_cases hq : i = q
  · subst hq
    simp [List.getElem?_set, hlen, hth, htid]
  · simp [List.getElem?_set, hq]

theorem uthread_block_main (n : Nat) (s : Lib) :
    (uthread_block n 0).run s = .ok (-1, s) := rfl

theorem uthread_block_invalid (n : Nat) (tid : Int) (s : Lib) (h0 : tid ≠ 0)
    (h : invalid_tid n tid s = .ok (true, s)) :
    (uthread_block n tid).run s = .ok (-1, s) := by
  show uthread_block n tid s = _
  unfold uthread_block
  have hb : (tid == 0) = false := by simpa using h0
  simp only [hb, Bool.false_eq_true, if_false]
  refine (UT_bind_ok _ _ _ _ _).mpr ⟨true, s, h, ?_⟩
  simp only [if_true]
  rfl

theorem uthread_block_other (n : Nat) (tid : Int) (s : Lib) (p : Nat) (thp th : Uthread)
    (h0 : tid ≠ 0) (hinv : invalid_tid n tid s = .ok (false, s))
    (hth : s.uthreads_array[tid.toNat]? = some (some th))
    (hrun : s.running_thread = some p) (hp : s.uthreads_array[p]? = some (some thp))
    (hne : thp.tid ≠ tid) (hready : ReadyOnce s tid) :
    (uthread_block n tid).run s = .ok (0, blocked s tid th) := by
  have htid := tidOf_set s tid.toNat th { th with uthread_state := state.BLOCKED } hth rfl
  have hready1 : ReadyOnce
      { s with uthreads_array :=
          s.uthreads_array.set tid.toNat (some { th with uthread_state := state.BLOCKED }) }
      tid := by
    unfold ReadyOnce
    rw [htid]
    exact hready
  have hlen := getElem?_lt_length _ _ _ hth
  have hp1 : ∃ thp1, (s.uthreads_array.set tid.toNat
        (some { th with uthread_state := state.BLOCKED }))[p]? = some (some thp1) ∧
      thp1.tid = thp.tid := by
    by_cases hq : tid.toNat = p
    · subst hq
      rw [hth] at hp
      cases hp
      exact ⟨{ thp with uthread_state := state.BLOCKED },
        by simp [List.getElem?_set, hlen], rfl⟩
    · exact ⟨thp, by simp [List.getElem?_set, hq, hp], rfl⟩
  obtain ⟨thp1, hp1, hp1t⟩ := hp1
  show uthread_block n tid s = _
  unfold uthread_block
  have hb : (tid == 0) = false := by simpa using h0
  simp only [hb, Bool.false_eq_true, if_false]
  refine (UT_bind_ok _ _ _ _ _).mpr ⟨false, s, hinv, ?_⟩
  simp only [Bool.false_eq_true, if_false]
  refine (UT_bind_ok _ _ _ _ _).mpr ⟨(), _, (modifyThread_ok _ _ _ _ _).mpr ⟨th, hth, rfl⟩, ?_⟩
  have hrw : readyWithout
      { s with uthreads_array :=
          s.uthreads_array.set tid.toNat (some { th with uthread_state := state.BLOCKED }) }
      tid = readyWithout s tid := by
    unfold readyWithout
    rw [htid]
  have herase := erase_from_ready_once tid _ hready1
  rw [hrw] at herase
  refine (UT_bind_ok _ _ _ _ _).mpr ⟨(), blocked s tid th, herase, ?_⟩
  refine (UT_bind_ok _ _ _ _ _).mpr ⟨blocked s tid th, blocked s tid th, rfl, ?_⟩
  have hrun1 : (blocked s tid th).running_thread = some p := hrun
  simp only [hrun1]
  refine (UT_bind_ok _ _ _ _ _).mpr ⟨thp1, _, (deref_ok _ _ _ _).mpr ⟨hp1, rfl⟩, ?_⟩
  have hc : (thp1.tid == tid) = false := by
    rw [hp1t]
    simpa using hne
  simp only [hc, Bool.false_eq_true, if_false]
  rfl

set_option maxRecDepth 1000000 in
set_option synthInstance.maxHeartbeats 400000 in
set_option synthInstance.maxSize 4096 in
/-- C13 fails on the code. With `MAX_THREAD_NUM = 100`, after
`uthread_init(100000)`, a spawn, a timer expiry (thread 1 is dispatched) and
`uthread_sleep(0)` called by thread 1, thread 0 runs and the ready FIFO is
`[1, 1]`. The call `uthread_terminate(1)` by thread 0 returns 0, releases the
record and frees the ID, but leaves the ready FIFO `[1]`: `erase_from_ready`
goes on with `++i` after `erase(begin() + i)` and so skips the second entry,
which now points to the released record.
The rest of the claim holds. For a `tid ≠ 0` that is out of range or free the
call returns -1 and changes nothing. For an existing `tid ≠ 0` that is not the
running thread, in a state whose ready FIFO holds at most one entry of thread
`tid` (`ReadyOnce`), the call returns 0 and leaves `terminated s tid`: the
ready FIFO without the entry of `tid` and otherwise in the same order, slot
`tid` empty and every other slot as before, and the ID free. -/
theorem C13_uthread_terminate :
    (reach 100 100000 [Event.spawn (some 0), Event.timer, Event.sleep 0]).map
        (fun s => (s.ready_vector, s.running_thread, threadStatus s 1,
          ((uthread_terminate 100 1).run s).toOption.map
            (fun r => (r.1, r.2.ready_vector, threadStatus r.2 1, r.2.index_free.take 2))))
      = some ([1, 1], some 0, some (state.READY, false),
          some (some 0, [1], none, [false, true])) ∧
    (∀ (MAX_THREAD_NUM : Nat) (s : Lib) (tid : Int), tid ≠ 0 →
      ((tid < 0 ∨ (MAX_THREAD_NUM : Int) ≤ tid) ∨
        (0 ≤ tid ∧ tid < (MAX_THREAD_NUM : Int) ∧ s.index_free[tid.toNat]? = some true)) →
      (uthread_terminate MAX_THREAD_NUM tid).run s = .ok (some (-1), s)) ∧
    (∀ (MAX_THREAD_NUM : Nat) (s : Lib) (tid : Int) (p : Nat) (thp th : Uthread),
      tid ≠ 0 → 0 ≤ tid → tid < (MAX_THREAD_NUM : Int) →
      s.index_free[tid.toNat]? = some false →
      s.uthreads_array[tid.toNat]? = some (some th) →
      s.running_thread = some p → s.uthreads_array[p]? = some (some thp) → thp.tid ≠ tid →
      ReadyOnce s tid →
      (uthread_terminate MAX_THREAD_NUM tid).run s = .ok (some 0, terminated s tid) ∧
      (terminated s tid).ready_vector
        = s.ready_vector.filter (fun q => !(tidOf s q == some tid)) ∧
      (terminated s tid).uthreads_array = s.uthreads_array.set tid.toNat none ∧
      (terminated s tid).index_free = s.index_free.set tid.toNat true) := by
  refine ⟨by decide!, ?_, ?_⟩
  · intro n s tid h0 h
    apply uthread_terminate_invalid n tid s h0
    rcases h with h | ⟨h1, h2, h3⟩
    · exact invalid_tid_out n tid s h
    · exact invalid_tid_in n tid s true h1 h2 h3
  · intro n s tid p thp th h0 h1 h2 hfree hth hrun hp hne hready
    exact ⟨uthread_terminate_other n tid s p thp h0 (invalid_tid_in n tid s false h1 h2 hfree)
      (getElem?_lt_length _ _ _ hth) (getElem?_lt_length _ _ _ hfree) hrun hp hne hready,
      rfl, rfl, rfl⟩

/-- The part of C13 that holds, at `MAX_THREAD_NUM = 3` in the state
`mainRunsAgain` (thread 0 runs, thread 1 is the one entry of the ready FIFO, ID
2 is free): `uthread_terminate(1)` returns 0 and empties the ready FIFO, and
`uthread_terminate(2)` returns -1 and changes nothing. -/
theorem C13_uthread_terminate_witness :
    (uthread_terminate 3 1).run mainRunsAgain = .ok (some 0, terminated mainRunsAgain 1) ∧
    (terminated mainRunsAgain 1).ready_vector = [] ∧
    (uthread_terminate 3 2).run mainRunsAgain = .ok (some (-1), mainRunsAgain) :=
  ⟨(C13_uthread_terminate.2.2 3 mainRunsAgain 1 0 _ _ (by decide) (by decide) (by decide)
      rfl rfl rfl rfl (by decide)
      ⟨fun p hp => by
        rw [List.mem_singleton.mp hp]
        exact ⟨1, rfl⟩, by decide⟩).1,
   by decide,
   C13_uthread_terminate.2.1 3 mainRunsAgain 2 (by decide)
     (Or.inr ⟨by decide, by decide, rfl⟩)⟩

set_option maxRecDepth 1000000 in
set_option synthInstance.maxHeartbeats 400000 in
set_option synthInstance.maxSize 4096 in
/-- C15 fails on the code. With `MAX_THREAD_NUM = 100`, after
`uthread_init(100000)`, a spawn, a timer expiry (thread 1 is dispatched) and
`uthread_sleep(0)` called by thread 1, thread 0 runs and the ready FIFO is
`[1, 1]`. The call `uthread_block(1)` by thread 0 returns 0 and makes thread 1
`BLOCKED`, but thread 1 is still in the ready FIFO, which is `[1]`:
`erase_from_ready` skips the entry that follows an erased one.
The rest of the claim holds. `uthread_block(0)` returns -1 and changes
nothing, and so does `uthread_block(tid)` for a `tid` that is out of range or
free. For an existing `tid ≠ 0` that is not the running thread, in a state
whose ready FIFO holds at most one entry of thread `tid` (`ReadyOnce`), the
call returns 0 and leaves `blocked s tid th`: the record of `tid` with state
`BLOCKED`, every other slot as before, and the ready FIFO without the entry of
`tid` and otherwise in the same order. -/
theorem C15_uthread_block :
    (reach 100 100000 [Event.spawn (some 0), Event.timer, Event.sleep 0]).map
        (fun s => (s.ready_vector, s.running_thread, threadStatus s 1,
          ((uthread_block 100 1).run s).toOption.map
            (fun r => (r.1, r.2.ready_vector, threadStatus r.2 1))))
      = some ([1, 1], some 0, some (state.READY, false),
          some (0, [1], some (state.BLOCKED, false))) ∧
    (∀ (MAX_THREAD_NUM : Nat) (s : Lib),
      (uthread_block MAX_THREAD_NUM 0).run s = .ok (-1, s)) ∧
    (∀ (MAX_THREAD_NUM : Nat) (s : Lib) (tid : Int), tid ≠ 0 →
      ((tid < 0 ∨ (MAX_THREAD_NUM : Int) ≤ tid) ∨
        (0 ≤ tid ∧ tid < (MAX_THREAD_NUM : Int) ∧ s.index_free[tid.toNat]? = some true)) →
      (uthread_block MAX_THREAD_NUM tid).run s = .ok (-1, s)) ∧
    (∀ (MAX_THREAD_NUM : Nat) (s : Lib) (tid : Int) (p : Nat) (thp th : Uthread),
      tid ≠ 0 → 0 ≤ tid → tid < (MAX_THREAD_NUM : Int) →
      s.index_free[tid.toNat]? = some false →
      s.uthreads_array[tid.toNat]? = some (some th) →
      s.running_thread = some p → s.uthreads_array[p]? = some (some thp) → thp.tid ≠ tid →
      ReadyOnce s tid →
      (uthread_block MAX_THREAD_NUM tid).run s = .ok (0, blocked s tid th) ∧
      (blocked s tid th).ready_vector
        = s.ready_vector.filter (fun q => !(tidOf s q == some tid)) ∧
      (blocked s tid th).uthreads_array
        = s.uthreads_array.set tid.toNat (some { th with uthread_state := state.BLOCKED })) := by
  refine ⟨by decide!, fun n s => uthread_block_main n s, ?_, ?_⟩
  · intro n s tid h0 h
    apply uthread_block_invalid n tid s h0
    rcases h with h | ⟨h1, h2, h3⟩
    · exact invalid_tid_out n tid s h
    · exact invalid_tid_in n tid s true h1 h2 h3
  · intro n s tid p thp th h0 h1 h2 hfree hth hrun hp hne hready
    exact ⟨uthread_block_other n tid s p thp th h0 (invalid_tid_in n tid s false h1 h2 hfree)
      hth hrun hp hne hready, rfl, rfl⟩

/-- The part of C15 that holds, at `MAX_THREAD_NUM = 3` in the state
`twoSpawned` (thread 0 runs, the ready FIFO is `[1, 2]`): `uthread_block(1)`
returns 0, thread 1 is `BLOCKED`, and the ready FIFO is `[2]`. -/
theorem C15_uthread_block_witness :
    (uthread_block 3 1).run twoSpawned = .ok (0, blocked twoSpawned 1 (Uthread.new 1)) ∧
    (blocked twoSpawned 1 (Uthread.new 1)).ready_vector = [2] ∧
    threadStatus (blocked twoSpawned 1 (Uthread.new 1)) 1 = some (state.BLOCKED, false) :=
  ⟨(C15_uthread_block.2.2.2 3 twoSpawned 1 0 _ _ (by decide) (by decide) (by decide)
      rfl rfl rfl rfl (by decide)
      ⟨fun p hp => by
        rcases List.mem_cons.mp hp with h | h
        · rw [h]
          exact ⟨1, rfl⟩
        · rw [List.mem_singleton.mp h]
          exact ⟨2, rfl⟩, by decide⟩).1,
   by decide, by decide⟩

/-! ### The duration of a sleep (claim C35) -/

set_option maxRecDepth 1000000 in
set_option synthInstance.maxHeartbeats 400000 in
set_option synthInstance.maxSize 4096 in
/-- C35 fails on the code. With `MAX_THREAD_NUM = 100`, after
`uthread_init(100000)`, a spawn, a timer expiry (thread 1 is dispatched),
`uthread_sleep(0)` called by thread 1 and one more timer expiry, thread 1 runs
with the total-quanta counter at 4 and a second copy of itself in the ready
FIFO `[1, 0]`. It calls `uthread_sleep(2)` and is never blocked. The scheduler
entered by that call raises the total to 5 and dispatches the stale copy:
thread 1 is `RUNNING` with its sleeping flag set. The next timer expiry raises
the total to 6, which is in `[5, 6]`, and puts thread 1 into the ready FIFO
with state `READY` while it is still sleeping. The scheduler invocation that
raises the total to 7 finds it at the head of the FIFO and dispatches it; it
appends only thread 0. -/
theorem C35_sleeper_in_ready_fifo_before_expiry :
    (reach 100 100000
        [Event.spawn (some 0), Event.timer, Event.sleep 0, Event.timer]).map
        (fun s => (s.quantums, s.running_thread, s.ready_vector, threadStatus s 1))
      = some (4, some 1, [1, 0], some (state.RUNNING, false)) ∧
    (reach 100 100000
        [Event.spawn (some 0), Event.timer, Event.sleep 0, Event.timer, Event.sleep 2]).map
        (fun s => (s.quantums, s.running_thread, s.ready_vector, threadStatus s 1))
      = some (5, some 1, [0], some (state.RUNNING, true)) ∧
    (reach 100 100000
        [Event.spawn (some 0), Event.timer, Event.sleep 0, Event.timer, Event.sleep 2,
         Event.timer]).map
        (fun s => (s.quantums, s.running_thread, s.ready_vector, threadStatus s 1))
      = some (6, some 0, [1], some (state.READY, true)) ∧
    (reach 100 100000
        [Event.spawn (some 0), Event.timer, Event.sleep 0, Event.timer, Event.sleep 2,
         Event.timer, Event.timer]).map
        (fun s => (s.quantums, s.running_thread, s.ready_vector, threadStatus s 1))
      = some (7, some 1, [0], some (state.RUNNING, false)) := by
  decide!

/-! ### The ready FIFO at the dispatch (claim C38) -/

theorem scheduler_split (n : Nat) :
    scheduler n = (do scheduler_enqueue n; scheduler_dispatch) := by
  unfold scheduler scheduler_enqueue scheduler_dispatch
  simp only [bind_assoc]
  refine congrArg _ (funext fun _ => congrArg _ (funext fun _ => congrArg _ (funext fun l => ?_)))
  cases hr : l.running_thread with
  | none => simp only [pure_bind]
  | some p =>
    simp only [bind_assoc]
    refine congrArg _ (funext fun th => ?_)
    split
    · simp only [bind_assoc]
    · simp only [pure_bind]

theorem Keeps_and {α : Type} (I J : Lib → Prop) (x : UT α) (hI : Keeps I x) (hJ : Keeps J x) :
    Keeps (fun s => I s ∧ J s) x :=
  fun s a s' h hi => ⟨hI s a s' h hi.1, hJ s a s' h hi.2⟩

theorem MainQueued_of (s s' : Lib) (hr : s'.running_thread = s.running_thread)
    (hq : ∀ x ∈ s.ready_vector, x ∈ s'.ready_vector) (h : MainQueued s) : MainQueued s' := by
  rcases h with h | h
  · exact Or.inl (hr.trans h)
  · exact Or.inr (hq 0 h)

theorem Keeps_MainQueued_modifyLib (f : Lib → Lib)
    (hf : ∀ s, (f s).running_thread = s.running_thread ∧
      ∀ x ∈ s.ready_vector, x ∈ (f s).ready_vector) :
    Keeps MainQueued (modifyLib f) := by
  intro s a s' h hi
  rw [(modifyLib_ok _ _ _ _).mp h]
  exact MainQueued_of _ _ (hf s).1 (hf s).2 hi

theorem Keeps_MainQueued_modifyThread (p : Nat) (f : Uthread → Uthread) :
    Keeps MainQueued (modifyThread p f) := by
  intro s a s' h hi
  obtain ⟨th, _, rfl⟩ := (modifyThread_ok _ _ _ _ _).mp h
  exact hi

theorem Keeps_MainQueued_setIndexFree (i : Nat) (b : Bool) :
    Keeps MainQueued (setIndexFree i b) := by
  intro s a s' h hi
  obtain ⟨_, rfl⟩ := (setIndexFree_ok _ _ _ _ _).mp h
  exact hi

theorem Keeps_MainQueued_setSlot (i : Nat) (t : Option Uthread) :
    Keeps MainQueued (setSlot i t) := by
  intro s a s' h hi
  obtain ⟨_, rfl⟩ := (setSlot_ok _ _ _ _ _).mp h
  exact hi

theorem Keeps_MainQueued_uthread_resume (n : Nat) (tid : Int) :
    Keeps MainQueued (uthread_resume n tid) := by
  unfold uthread_resume
  repeat' first
    | exact Keeps_pure _ _
    | exact Keeps_deref _ _
    | exact Keeps_invalid_tid _ _ _
    | exact Keeps_MainQueued_modifyLib _
        (fun _ => ⟨rfl, fun x hx => List.mem_append_left _ hx⟩)
    | exact Keeps_MainQueued_modifyThread _ _
    | refine Keeps_bind _ _ _ ?_ (fun _ => ?_)
    | split

theorem Keeps_MainQueued_update_sleeping_thread (n i : Nat) :
    Keeps MainQueued (update_sleeping_thread n i) := by
  unfold update_sleeping_thread
  repeat' first
    | exact Keeps_pure _ _
    | exact Keeps_deref _ _
    | exact Keeps_getIndexFree _ _
    | exact Keeps_MainQueued_uthread_resume _ _
    | exact Keeps_MainQueued_modifyThread _ _
    | refine Keeps_bind _ _ _ ?_ (fun _ => ?_)
    | split

theorem Keeps_MainQueued_update_sleeping_threads (n : Nat) :
    Keeps MainQueued (update_sleeping_threads n) := by
  have hloop : ∀ k i, Keeps MainQueued (update_sleeping_threads_loop n k i) := by
    intro k
    induction k with
    | zero => exact fun i => Keeps_pure _ _
    | succ k ih =>
      intro i
      unfold update_sleeping_threads_loop
      exact Keeps_bind _ _ _ (Keeps_MainQueued_update_sleeping_thread _ _) (fun _ => ih _)
  exact hloop n 0

theorem Keeps_MainQueued_min_free_id_loop (k i : Nat) :
    Keeps MainQueued (min_free_id_loop k i) := by
  induction k generalizing i with
  | zero => exact Keeps_pure _ _
  | succ k ih =>
    unfold min_free_id_loop
    repeat' first
      | exact Keeps_pure _ _
      | exact Keeps_getIndexFree _ _
      | exact Keeps_MainQueued_setIndexFree _ _
      | exact ih _
      | refine Keeps_bind _ _ _ ?_ (fun _ => ?_)
      | split

theorem Keeps_MainQueued_uthread_spawn (n : Nat) (e : Option Nat) :
    Keeps MainQueued (uthread_spawn n e) := by
  unfold uthread_spawn min_free_id
  repeat' first
    | exact Keeps_pure _ _
    | exact Keeps_MainQueued_min_free_id_loop _ _
    | exact Keeps_MainQueued_setSlot _ _
    | exact Keeps_MainQueued_modifyLib _
        (fun _ => ⟨rfl, fun x hx => List.mem_append_left _ hx⟩)
    | exact Keeps_MainQueued_modifyLib _ (fun _ => ⟨rfl, fun x hx => hx⟩)
    | refine Keeps_bind _ _ _ ?_ (fun _ => ?_)
    | split

/-- The loop of `erase_from_ready` keeps every entry that does not point to
thread `tid`. -/
theorem erase_loop_keeps (f : Nat → Option Int) (tid : Int) (x : Nat) (hf : f x ≠ some tid)
    (k : Nat) : ∀ l l', l.length ≤ k → erase_from_ready_loop f tid l = some l' → x ∈ l →
      x ∈ l' := by
  induction k with
  | zero =>
    intro l l' hlen _ hx
    have : l = [] := List.length_eq_zero.mp (by omega)
    subst this
    cases hx
  | succ k ih =>
    intro l l' hlen h hx
    cases l with
    | nil => cases hx
    | cons p rest =>
      rw [erase_from_ready_loop_cons] at h
      cases hfp : f p with
      | none => simp [hfp] at h
      | some t =>
        simp only [hfp] at h
        by_cases ht : t = tid
        · subst ht
          have hxp : x ≠ p := fun e => hf (e ▸ hfp)
          have hx1 : x ∈ rest := by
            rcases List.mem_cons.mp hx with e | e
            · exact absurd e hxp
            · exact e
          simp only [beq_self_eq_true, if_true] at h
          cases rest with
          | nil => cases hx1
          | cons q rest' =>
            simp only [Option.map_eq_some'] at h
            obtain ⟨l1, hl1, rfl⟩ := h
            rcases List.mem_cons.mp hx1 with e | e
            · exact List.mem_cons.mpr (Or.inl e)
            · exact List.mem_cons_of_mem _
                (ih rest' l1 (by simp only [List.length_cons] at hlen; omega) hl1 e)
        · have hb : (t == tid) = false := by simpa using ht
          simp only [hb, Bool.false_eq_true, if_false, Option.map_eq_some'] at h
          obtain ⟨l1, hl1, rfl⟩ := h
          rcases List.mem_cons.mp hx with e | e
          · exact List.mem_cons.mpr (Or.inl e)
          · exact List.mem_cons_of_mem _
              (ih rest l1 (by simp only [List.length_cons] at hlen; omega) hl1 e)

theorem MainOk_tidOf_zero (s : Lib) (h : MainOk s) : tidOf s 0 = some 0 := by
  obtain ⟨h1, th0, h2, _⟩ := h
  unfold tidOf
  rw [h2]
  simp only [Option.some.injEq]
  simpa using h1 0 th0 h2

theorem Keeps_MainQueued_erase_from_ready (tid : Int) (h0 : tid ≠ 0) :
    Keeps (fun s => MainOk s ∧ MainQueued s) (erase_from_ready tid) := by
  intro s a s' h hi
  have hm := Keeps_MainOk_erase_from_ready tid s a s' h hi.1
  refine ⟨hm, ?_⟩
  unfold erase_from_ready at h
  have h' : (match erase_from_ready_loop (tidOf s) tid s.ready_vector with
    | some l => Except.ok ((), { s with ready_vector := l })
    | none => Except.error Halt.undefined) = Except.ok (a, s') := h
  cases hl : erase_from_ready_loop (tidOf s) tid s.ready_vector with
  | none => rw [hl] at h'; cases h'
  | some l =>
    rw [hl] at h'
    cases h'
    rcases hi.2 with hr | hq
    · exact Or.inl hr
    · refine Or.inr (erase_loop_keeps (tidOf s) tid 0 ?_ _ _ l (le_refl _) hl hq)
      rw [MainOk_tidOf_zero s hi.1]
      intro e
      cases e
      exact h0 rfl

/-- In front of `ready_vector.front()`: from a state in which thread 0 is
running or queued, thread 0 is in the ready FIFO. -/
theorem scheduler_enqueue_main (n : Nat) (s s' : Lib) (u : Unit)
    (h : scheduler_enqueue n s = .ok (u, s')) (hm : MainOk s) (hq : MainQueued s) :
    MainOk s' ∧ 0 ∈ s'.ready_vector := by
  unfold scheduler_enqueue at h
  obtain ⟨_, s1, h1, h2⟩ := (UT_bind_ok _ _ _ _ _).mp h
  obtain ⟨_, s2, h3, h4⟩ := (UT_bind_ok _ _ _ _ _).mp h2
  obtain ⟨l0, l, h5, h6⟩ := (UT_bind_ok _ _ _ _ _).mp h4
  obtain ⟨rfl, rfl⟩ := (getLib_ok _ _ _).mp h5
  have hs1 := (modifyLib_ok _ _ _ _).mp h1
  have hm1 : MainOk s1 := by
    rw [hs1]
    exact MainOk_of_array _ _ rfl hm
  have hq1 : MainQueued s1 := by
    rw [hs1]
    exact hq
  have hm2 : MainOk l := Keeps_MainOk_update_sleeping_threads_loop _ _ _ s1 _ l h3 hm1
  have hq2 : MainQueued l := Keeps_MainQueued_update_sleeping_threads n s1 _ l h3 hq1
  cases hrt : l.running_thread with
  | none =>
    simp only [hrt] at h6
    obtain ⟨_, rfl⟩ := (UT_pure_ok _ _ _ _).mp h6
    rcases hq2 with e | e
    · rw [hrt] at e
      cases e
    · exact ⟨hm2, e⟩
  | some p =>
    simp only [hrt] at h6
    obtain ⟨th, s4, h7, h8⟩ := (UT_bind_ok _ _ _ _ _).mp h6
    obtain ⟨hth, rfl⟩ := (deref_ok _ _ _ _).mp h7
    split at h8
    · obtain ⟨_, s5, h9, h10⟩ := (UT_bind_ok _ _ _ _ _).mp h8
      have hm5 : MainOk s5 :=
        Keeps_MainOk_modifyThread p (fun th => { th with uthread_state := state.READY })
          (fun _ => ⟨rfl, Or.inr (Or.inl rfl)⟩) _ _ s5 h9 hm2
      have hq5 : MainQueued s5 := Keeps_MainQueued_modifyThread _ _ _ _ s5 h9 hq2
      have hr5 : s5.running_thread = some p := by
        obtain ⟨_, _, rfl⟩ := (modifyThread_ok _ _ _ _ _).mp h9
        exact hrt
      rw [(modifyLib_ok _ _ _ _).mp h10]
      refine ⟨MainOk_of_array _ _ rfl hm5, ?_⟩
      rcases hq5 with e | e
      · rw [hr5] at e
        cases e
        exact List.mem_append_right _ (List.mem_singleton_self _)
      · exact List.mem_append_left _ e
    · rename_i hc
      obtain ⟨_, rfl⟩ := (UT_pure_ok _ _ _ _).mp h8
      refine ⟨hm2, ?_⟩
      rcases hq2 with e | e
      · exfalso
        rw [hrt] at e
        cases e
        obtain ⟨_, th0, h0, hst⟩ := hm2
        rw [h0] at hth
        cases hth
        apply hc
        rcases hst with e | e <;> simp [e]
      · exact e

/-- From `ready_vector.front()` on: the dispatch keeps thread 0 running or
queued. -/
theorem scheduler_dispatch_main (s s' : Lib) (u : Unit)
    (h : scheduler_dispatch s = .ok (u, s')) (hm : MainOk s) (hq : 0 ∈ s.ready_vector) :
    MainOk s' ∧ MainQueued s' := by
  unfold scheduler_dispatch at h
  obtain ⟨l0, l, h1, h2⟩ := (UT_bind_ok _ _ _ _ _).mp h
  obtain ⟨rfl, rfl⟩ := (getLib_ok _ _ _).mp h1
  cases hrv : l.ready_vector with
  | nil => rw [hrv] at hq; cases hq
  | cons p rest =>
    simp only [hrv] at h2
    obtain ⟨_, s2, h3, h4⟩ := (UT_bind_ok _ _ _ _ _).mp h2
    obtain ⟨_, s3, h5, h6⟩ := (UT_bind_ok _ _ _ _ _).mp h4
    have hs2 := (modifyLib_ok _ _ _ _).mp h3
    have hm2 : MainOk s2 := by
      rw [hs2]
      exact MainOk_of_array _ _ rfl hm
    have hq2 : MainQueued s2 := by
      rw [hs2]
      rw [hrv] at hq
      rcases List.mem_cons.mp hq with e | e
      · exact Or.inl (by rw [e])
      · exact Or.inr e
    have hm3 : MainOk s3 :=
      Keeps_MainOk_modifyThread p (fun th => { th with uthread_state := state.RUNNING })
        (fun _ => ⟨rfl, Or.inr (Or.inr rfl)⟩) _ _ s3 h5 hm2
    have hq3 : MainQueued s3 := Keeps_MainQueued_modifyThread _ _ _ _ s3 h5 hq2
    exact ⟨Keeps_MainOk_modifyThread p (fun th => { th with quantum := th.quantum + 1 })
        (fun _ => ⟨rfl, Or.inl rfl⟩) _ _ s' h6 hm3,
      Keeps_MainQueued_modifyThread _ _ _ _ s' h6 hq3⟩

theorem Keeps_MainQueued_scheduler (n : Nat) :
    Keeps (fun s => MainOk s ∧ MainQueued s) (scheduler n) := by
  intro s u s' h hi
  rw [scheduler_split] at h
  obtain ⟨_, s1, h1, h2⟩ := (UT_bind_ok _ _ _ _ _).mp h
  obtain ⟨hm1, hq1⟩ := scheduler_enqueue_main n s s1 _ h1 hi.1 hi.2
  exact scheduler_dispatch_main s1 s' _ h2 hm1 hq1

theorem UT_bind_eval {α β : Type} (x : UT α) (f : α → UT β) (s s1 : Lib) (a : α)
    (h : x s = .ok (a, s1)) : (x >>= f) s = f a s1 := by
  show (StateT.bind x f) s = _
  unfold StateT.bind
  simp only [h, bind, Except.bind]

theorem UT_unit_bind_pure (x : UT Unit) (s : Lib) :
    (x >>= fun _ => (pure PUnit.unit : UT Unit)) s = x s := by
  have : (x >>= fun _ => (pure PUnit.unit : UT Unit)) = x := bind_pure_unit
  rw [this]

theorem modifyThread_eval (p : Nat) (f : Uthread → Uthread) (s : Lib) (th : Uthread)
    (h : s.uthreads_array[p]? = some (some th)) :
    modifyThread p f s =
      .ok ((), { s with uthreads_array := s.uthreads_array.set p (some (f th)) }) :=
  (modifyThread_ok _ _ _ _ _).mpr ⟨th, h, rfl⟩

theorem slot_set_self (l : List (Option Uthread)) (p : Nat) (x : Uthread)
    (hlen : p < l.length) : (l.set p (some x))[p]? = some (some x) := by
  simp [List.getElem?_set, hlen]

/-- At an entry of the scheduler the rest of the event is the run of
`scheduler` from the entry state. -/
theorem SchedulerEntry_step (n : Nat) (s s1 : Lib) (e : Event)
    (he : SchedulerEntry n s e s1) : step n e s = scheduler n s1 := by
  cases he with
  | timer => rfl
  | sleep k p th hrt hth htid =>
    have hlen := getElem?_lt_length _ _ _ hth
    have hc : (th.tid == 0) = false := by simpa using htid
    generalize hR : scheduler n _ = R
    unfold step uthread_sleep
    simp only [bind_assoc]
    rw [UT_bind_eval _ _ s s s ((getLib_ok _ _ _).mpr ⟨rfl, rfl⟩)]
    simp only [hrt, bind_assoc]
    rw [UT_bind_eval _ _ s s th ((deref_ok _ _ _ _).mpr ⟨hth, rfl⟩)]
    simp only [hc, Bool.false_eq_true, if_false, bind_assoc]
    rw [UT_bind_eval _ _ s _ () (modifyThread_eval p _ s th hth)]
    rw [UT_bind_eval _ _ _ _ () (modifyThread_eval p _ _ _ (slot_set_self _ p _ hlen))]
    rw [UT_bind_eval _ _ _ _ () (modifyThread_eval p _ _ _
      (slot_set_self _ p _ (by simpa using hlen)))]
    simp only [set_clock, pure_bind, List.set_set]
    rw [← hR]
    exact UT_unit_bind_pure _ _
  | block tid th l p thp h0 hge hlt hfree hth hl hrt hp htid =>
    have hc0 : (tid == 0) = false := by simpa using h0
    have hc : (thp.tid == tid) = true := by simpa using htid
    generalize hR : scheduler n _ = R
    unfold step uthread_block
    simp only [hc0, Bool.false_eq_true, if_false, bind_assoc]
    rw [UT_bind_eval _ _ s s false (invalid_tid_in n tid s false hge hlt hfree)]
    simp only [Bool.false_eq_true, if_false, bind_assoc]
    rw [UT_bind_eval _ _ s _ () (modifyThread_eval _ _ s th hth)]
    have herase : erase_from_ready tid
        { s with uthreads_array :=
            s.uthreads_array.set tid.toNat (some { th with uthread_state := state.BLOCKED }) } =
        .ok ((), { s with
          uthreads_array :=
            s.uthreads_array.set tid.toNat (some { th with uthread_state := state.BLOCKED }),
          ready_vector := l }) := by
      unfold erase_from_ready
      show (match erase_from_ready_loop (tidOf _) tid s.ready_vector with
        | some l => Except.ok ((), _)
        | none => Except.error Halt.undefined) = _
      rw [hl]
    rw [UT_bind_eval _ _ _ _ () herase]
    rw [UT_bind_eval _ _ _ _ _ ((getLib_ok _ _ _).mpr ⟨rfl, rfl⟩)]
    simp only [hrt, bind_assoc]
    rw [UT_bind_eval _ _ _ _ thp ((deref_ok _ _ _ _).mpr ⟨hp, rfl⟩)]
    simp only [hc, if_true, set_clock, pure_bind, bind_assoc]
    rw [← hR, ← hrt]
    exact UT_unit_bind_pure _ _
  | terminate tid p th h0 hge hlt hfree hrt hth htid =>
    have hc0 : (tid == 0) = false := by simpa using h0
    have hc : (th.tid == tid) = true := by simpa using htid
    generalize hR : scheduler n _ = R
    unfold step uthread_terminate
    simp only [hc0, Bool.false_eq_true, if_false, bind_assoc]
    rw [UT_bind_eval _ _ s s false (invalid_tid_in n tid s false hge hlt hfree)]
    simp only [Bool.false_eq_true, if_false, bind_assoc]
    rw [UT_bind_eval _ _ s s s ((getLib_ok _ _ _).mpr ⟨rfl, rfl⟩)]
    simp only [hrt, bind_assoc]
    rw [UT_bind_eval _ _ s s th ((deref_ok _ _ _ _).mpr ⟨hth, rfl⟩)]
    simp only [hc, if_true, set_clock, pure_bind, bind_assoc]
    rw [UT_bind_eval _ _ s _ () ((modifyLib_ok _ _ _ _).mpr rfl)]
    rw [← hR]
    exact UT_unit_bind_pure _ _

theorem MainOk_running_ne_zero (s : Lib) (p : Nat) (th : Uthread) (tid : Int) (hm : MainOk s)
    (hth : s.uthreads_array[p]? = some (some th)) (htid : th.tid = tid) (h0 : tid ≠ 0) :
    p ≠ 0 := by
  intro hp
  have := hm.1 p th hth
  rw [hp, htid] at this
  exact h0 (by simpa using this)

theorem MainQueued_ne_zero (s : Lib) (p : Nat) (hq : MainQueued s)
    (hrt : s.running_thread = some p) (hp : p ≠ 0) : 0 ∈ s.ready_vector := by
  rcases hq with e | e
  · rw [hrt] at e
    cases e
    exact absurd rfl hp
  · exact e

/-- At every entry of the scheduler thread 0 is running or queued. -/
theorem SchedulerEntry_main (n : Nat) (s s1 : Lib) (e : Event)
    (he : SchedulerEntry n s e s1) (hm : MainOk s) (hq : MainQueued s) :
    MainOk s1 ∧ MainQueued s1 := by
  cases he with
  | timer => exact ⟨hm, hq⟩
  | sleep k p th hrt hth htid =>
    have hp := MainOk_running_ne_zero s p th _ hm hth rfl htid
    exact ⟨MainOk_set s p th _ hm hth rfl (Or.inl hp), hq⟩
  | block tid th l p thp h0 hge hlt hfree hth hl hrt hp htid =>
    have hne : tid.toNat ≠ 0 := by omega
    have hm1 := MainOk_set s tid.toNat th { th with uthread_state := state.BLOCKED } hm hth rfl
      (Or.inl hne)
    refine ⟨MainOk_of_array _ _ rfl hm1, Or.inr ?_⟩
    have hp0 : p ≠ 0 := MainOk_running_ne_zero _ p thp tid hm1 hp htid h0
    have hq0 := MainQueued_ne_zero s p hq hrt hp0
    refine erase_loop_keeps _ tid 0 ?_ _ _ l (le_refl _) hl hq0
    rw [MainOk_tidOf_zero _ hm1]
    intro e
    cases e
    exact h0 rfl
  | terminate tid p th h0 hge hlt hfree hrt hth htid =>
    have hp0 : p ≠ 0 := MainOk_running_ne_zero _ p th tid hm hth htid h0
    exact ⟨MainOk_of_array _ _ rfl hm, Or.inr (MainQueued_ne_zero s p hq hrt hp0)⟩

theorem Keeps_MainQueued_uthread_terminate (n : Nat) (tid : Int) :
    Keeps (fun s => MainOk s ∧ MainQueued s) (uthread_terminate n tid) := by
  intro s r s' h hi
  unfold uthread_terminate at h
  split at h
  · exact absurd h (by simp [halt])
  · rename_i htid
    have h0 : tid ≠ 0 := by simpa using htid
    obtain ⟨b, s1, h1, h2⟩ := (UT_bind_ok _ _ _ _ _).mp h
    split at h2
    · obtain ⟨_, rfl⟩ := (UT_pure_ok _ _ _ _).mp h2
      exact Keeps_invalid_tid (fun s => MainOk s ∧ MainQueued s) _ _ s b s1 h1 hi
    · rename_i hb
      have hb' : b = false := by simpa using hb
      subst hb'
      obtain ⟨hge, hlt, hfree, rfl⟩ := invalid_tid_false_inv _ _ _ _ h1
      have hne : tid.toNat ≠ 0 := by omega
      obtain ⟨l, s2, hl, h3⟩ := (UT_bind_ok _ _ _ _ _).mp h2
      obtain ⟨hl1, hl2⟩ := (getLib_ok _ _ _).mp hl
      subst hl2
      subst hl1
      cases hrt : l.running_thread with
      | none =>
        simp only [hrt] at h3
        exact absurd h3 (by simp [halt])
      | some p =>
        simp only [hrt] at h3
        obtain ⟨th, s3, hd, h4⟩ := (UT_bind_ok _ _ _ _ _).mp h3
        obtain ⟨hth, rfl⟩ := (deref_ok _ _ _ _).mp hd
        split at h4
        · rename_i hself
          have hself' : th.tid = tid := by simpa using hself
          obtain ⟨_, s4, h5, h6⟩ := (UT_bind_ok _ _ _ _ _).mp h4
          obtain ⟨_, s5, h7, h8⟩ := (UT_bind_ok _ _ _ _ _).mp h6
          obtain ⟨_, s6, h9, h10⟩ := (UT_bind_ok _ _ _ _ _).mp h8
          obtain ⟨_, rfl⟩ := (UT_pure_ok _ _ _ _).mp h10
          obtain ⟨_, rfl⟩ := (UT_pure_ok _ _ _ _).mp h7
          have hs4 := (modifyLib_ok _ _ _ _).mp h5
          have hi4 := SchedulerEntry_main n _ _ _
            (SchedulerEntry.terminate tid p th h0 hge hlt hfree hrt hth hself') hi.1 hi.2
          rw [← hs4] at hi4
          exact Keeps_MainQueued_scheduler n s4 _ s6 h9 hi4
        · obtain ⟨_, s4, h5, h6⟩ := (UT_bind_ok _ _ _ _ _).mp h4
          obtain ⟨_, s5, h7, h8⟩ := (UT_bind_ok _ _ _ _ _).mp h6
          obtain ⟨_, s6, h9, h10⟩ := (UT_bind_ok _ _ _ _ _).mp h8
          obtain ⟨_, s7, h11, h12⟩ := (UT_bind_ok _ _ _ _ _).mp h10
          obtain ⟨_, rfl⟩ := (UT_pure_ok _ _ _ _).mp h12
          have hi4 := Keeps_MainQueued_erase_from_ready tid h0 _ _ s4 h5 hi
          obtain ⟨_, hs5⟩ := (setSlot_ok _ _ _ _ _).mp h7
          have hi5 : MainOk s5 ∧ MainQueued s5 := by
            rw [hs5]
            exact ⟨MainOk_setSlot s4 _ _ hi4.1 hne (fun th hth => by cases hth), hi4.2⟩
          have hi6 : MainOk s6 ∧ MainQueued s6 :=
            ⟨Keeps_MainOk_setIndexFree _ _ s5 _ s6 h9 hi5.1,
              Keeps_MainQueued_setIndexFree _ _ s5 _ s6 h9 hi5.2⟩
          rw [(modifyLib_ok _ _ _ _).mp h11]
          exact ⟨MainOk_of_array _ _ rfl hi6.1, hi6.2⟩

theorem Keeps_MainQueued_uthread_block (n : Nat) (tid : Int) :
    Keeps (fun s => MainOk s ∧ MainQueued s) (uthread_block n tid) := by
  intro s r s' h hi
  unfold uthread_block at h
  split at h
  · obtain ⟨_, rfl⟩ := (UT_pure_ok _ _ _ _).mp h
    exact hi
  · rename_i htid
    have h0 : tid ≠ 0 := by simpa using htid
    obtain ⟨b, s1, h1, h2⟩ := (UT_bind_ok _ _ _ _ _).mp h
    split at h2
    · obtain ⟨_, rfl⟩ := (UT_pure_ok _ _ _ _).mp h2
      exact Keeps_invalid_tid (fun s => MainOk s ∧ MainQueued s) _ _ s b s1 h1 hi
    · rename_i hb
      have hb' : b = false := by simpa using hb
      subst hb'
      obtain ⟨hge, _, _, rfl⟩ := invalid_tid_false_inv _ _ _ _ h1
      have hne : tid.toNat ≠ 0 := by omega
      obtain ⟨_, s2, h3, h4⟩ := (UT_bind_ok _ _ _ _ _).mp h2
      obtain ⟨th, hth, hs2⟩ := (modifyThread_ok _ _ _ _ _).mp h3
      have hi2 : MainOk s2 ∧ MainQueued s2 := by
        rw [hs2]
        exact ⟨MainOk_set _ _ th _ hi.1 hth rfl (Or.inl hne), hi.2⟩
      refine (?_ : Keeps (fun s => MainOk s ∧ MainQueued s) _) s2 r s' h4 hi2
      repeat' first
        | exact Keeps_pure _ _
        | exact Keeps_halt _ _
        | exact Keeps_getLib _
        | exact Keeps_deref _ _
        | exact Keeps_MainQueued_erase_from_ready _ h0
        | exact Keeps_MainQueued_scheduler _
        | refine Keeps_bind _ _ _ ?_ (fun _ => ?_)
        | split

theorem Keeps_MainQueued_uthread_sleep (n : Nat) (num_quantums : Int) :
    Keeps (fun s => MainOk s ∧ MainQueued s) (uthread_sleep n num_quantums) := by
  intro s r s' h hi
  have hcall := h
  unfold uthread_sleep at h
  obtain ⟨l, s2, hl, h2⟩ := (UT_bind_ok _ _ _ _ _).mp h
  obtain ⟨hl1, hl2⟩ := (getLib_ok _ _ _).mp hl
  subst hl2
  subst hl1
  cases hrt : l.running_thread with
  | none =>
    simp only [hrt] at h2
    exact absurd h2 (by simp [halt])
  | some p =>
    simp only [hrt] at h2
    obtain ⟨th, s3, hd, h4⟩ := (UT_bind_ok _ _ _ _ _).mp h2
    obtain ⟨hth, rfl⟩ := (deref_ok _ _ _ _).mp hd
    split at h4
    · obtain ⟨_, rfl⟩ := (UT_pure_ok _ _ _ _).mp h4
      exact hi
    · rename_i htid
      have htid' : th.tid ≠ 0 := by simpa using htid
      have hstep := SchedulerEntry_step n _ _ _ (SchedulerEntry.sleep num_quantums p th hrt hth htid')
      have hpre := SchedulerEntry_main n _ _ _
        (SchedulerEntry.sleep num_quantums p th hrt hth htid') hi.1 hi.2
      have hrun : step n (Event.sleep num_quantums) s3 = .ok ((), s') := by
        unfold step
        exact (UT_bind_ok _ _ _ _ _).mpr ⟨r, s', hcall, rfl⟩
      rw [hstep] at hrun
      exact Keeps_MainQueued_scheduler n _ _ s' hrun hpre

theorem Keeps_MainQueued_step (n : Nat) (e : Event) :
    Keeps (fun s => MainOk s ∧ MainQueued s) (step n e) := by
  cases e with
  | spawn entry_point =>
    unfold step
    refine Keeps_bind _ _ _ ?_ (fun _ => Keeps_pure _ _)
    intro s r s' h hi
    exact ⟨(uthread_spawn_ret n entry_point s s' r h).2 hi.1,
      Keeps_MainQueued_uthread_spawn n entry_point s r s' h hi.2⟩
  | terminate tid =>
    unfold step
    exact Keeps_bind _ _ _ (Keeps_MainQueued_uthread_terminate _ _) (fun _ => Keeps_pure _ _)
  | block tid =>
    unfold step
    exact Keeps_bind _ _ _ (Keeps_MainQueued_uthread_block _ _) (fun _ => Keeps_pure _ _)
  | resume tid =>
    unfold step
    exact Keeps_bind _ _ _
      (Keeps_and _ _ _ (Keeps_MainOk_uthread_resume _ _) (Keeps_MainQueued_uthread_resume _ _))
      (fun _ => Keeps_pure _ _)
  | sleep num_quantums =>
    unfold step
    exact Keeps_bind _ _ _ (Keeps_MainQueued_uthread_sleep _ _) (fun _ => Keeps_pure _ _)
  | timer =>
    unfold step
    exact Keeps_MainQueued_scheduler _

theorem MainQueued_reach (n : Nat) (quantum_usecs : Int) (events : List Event) (s : Lib)
    (h : reach n quantum_usecs events = some s) : MainOk s ∧ MainQueued s := by
  have hsteps : ∀ events, Keeps (fun s => MainOk s ∧ MainQueued s) (steps n events) := by
    intro events
    induction events with
    | nil => exact Keeps_pure _ _
    | cons e es ih =>
      unfold steps
      exact Keeps_bind _ _ _ (Keeps_MainQueued_step _ _) (fun _ => ih)
  unfold reach at h
  cases h0 : afterInit n quantum_usecs with
  | none => rw [h0] at h; simp at h
  | some s0 =>
    rw [h0] at h
    obtain ⟨hn, _, rfl⟩ := afterInit_eq n quantum_usecs s0 h0
    simp only at h
    cases hrun : (steps n events).run (initialized n quantum_usecs) with
    | error e => rw [hrun] at h; simp at h
    | ok v =>
      obtain ⟨u, s1⟩ := v
      rw [hrun] at h
      simp at h
      subst h
      exact hsteps events _ u _ hrun ⟨MainOk_initialized n quantum_usecs hn, Or.inl rfl⟩

theorem RunningOk_of (n : Nat) (s s' : Lib) (ha : s'.uthreads_array = s.uthreads_array)
    (hf : s'.index_free = s.index_free)
    (hr : s'.running_thread = s.running_thread ∨ s'.running_thread = none)
    (h : RunningOk n s) : RunningOk n s' := by
  refine ⟨?_, ?_⟩
  · intro i hi
    rw [hf, ha]
    exact h.1 i hi
  · intro p hp
    rw [ha]
    rcases hr with hr | hr
    · exact h.2 p (hr ▸ hp)
    · rw [hr] at hp
      cases hp

theorem RunningOk_set (n : Nat) (s : Lib) (p : Nat) (th th' : Uthread)
    (hth : s.uthreads_array[p]? = some (some th)) (h : RunningOk n s) :
    RunningOk n { s with uthreads_array := s.uthreads_array.set p (some th') } := by
  have hlen := getElem?_lt_length _ _ _ hth
  have hslot : ∀ (i : Nat) (t : Uthread), s.uthreads_array[i]? = some (some t) →
      ∃ t' : Uthread, (s.uthreads_array.set p (some th'))[i]? = some (some t') := by
    intro i t ht
    by_cases hpi : p = i
    · subst hpi
      exact ⟨th', slot_set_self _ _ _ hlen⟩
    · exact ⟨t, by simp [List.getElem?_set, hpi, ht]⟩
  refine ⟨?_, ?_⟩
  · intro i hi
    rcases h.1 i hi with h1 | ⟨h1, t, ht⟩
    · exact Or.inl h1
    · exact Or.inr ⟨h1, hslot i t ht⟩
  · intro q hq
    obtain ⟨t, ht⟩ := h.2 q hq
    exact hslot q t ht

theorem Keeps_RunningOk_modifyLib (n : Nat) (f : Lib → Lib)
    (hf : ∀ s, (f s).uthreads_array = s.uthreads_array ∧ (f s).index_free = s.index_free ∧
      ((f s).running_thread = s.running_thread ∨ (f s).running_thread = none)) :
    Keeps (RunningOk n) (modifyLib f) := by
  intro s a s' h hi
  rw [(modifyLib_ok _ _ _ _).mp h]
  exact RunningOk_of n _ _ (hf s).1 (hf s).2.1 (hf s).2.2 hi

theorem Keeps_RunningOk_modifyThread (n p : Nat) (f : Uthread → Uthread) :
    Keeps (RunningOk n) (modifyThread p f) := by
  intro s a s' h hi
  obtain ⟨th, hth, rfl⟩ := (modifyThread_ok _ _ _ _ _).mp h
  exact RunningOk_set n s p th _ hth hi

theorem Keeps_RunningOk_erase_from_ready (n : Nat) (tid : Int) :
    Keeps (RunningOk n) (erase_from_ready tid) := by
  intro s a s' h hi
  unfold erase_from_ready at h
  split at h
  · cases h
    exact RunningOk_of n _ _ rfl rfl (Or.inl rfl) hi
  · cases h

theorem Keeps_RunningOk_uthread_resume (n : Nat) (tid : Int) :
    Keeps (RunningOk n) (uthread_resume n tid) := by
  unfold uthread_resume
  repeat' first
    | exact Keeps_pure _ _
    | exact Keeps_deref _ _
    | exact Keeps_invalid_tid _ _ _
    | exact Keeps_RunningOk_modifyLib _ _ (fun _ => ⟨rfl, rfl, Or.inl rfl⟩)
    | exact Keeps_RunningOk_modifyThread _ _ _
    | refine Keeps_bind _ _ _ ?_ (fun _ => ?_)
    | split

theorem Keeps_RunningOk_scheduler_enqueue (n : Nat) :
    Keeps (RunningOk n) (scheduler_enqueue n) := by
  have hone : ∀ i, Keeps (RunningOk n) (update_sleeping_thread n i) := by
    intro i
    unfold update_sleeping_thread
    repeat' first
      | exact Keeps_pure _ _
      | exact Keeps_deref _ _
      | exact Keeps_getIndexFree _ _
      | exact Keeps_RunningOk_uthread_resume _ _
      | exact Keeps_RunningOk_modifyThread _ _ _
      | refine Keeps_bind _ _ _ ?_ (fun _ => ?_)
      | split
  have hloop : ∀ k i, Keeps (RunningOk n) (update_sleeping_threads_loop n k i) := by
    intro k
    induction k with
    | zero => exact fun i => Keeps_pure _ _
    | succ k ih =>
      intro i
      unfold update_sleeping_threads_loop
      exact Keeps_bind _ _ _ (hone _) (fun _ => ih _)
  unfold scheduler_enqueue update_sleeping_threads
  repeat' first
    | exact Keeps_pure _ _
    | exact Keeps_getLib _
    | exact Keeps_deref _ _
    | exact hloop _ _
    | exact Keeps_RunningOk_modifyLib _ _ (fun _ => ⟨rfl, rfl, Or.inl rfl⟩)
    | exact Keeps_RunningOk_modifyThread _ _ _
    | refine Keeps_bind _ _ _ ?_ (fun _ => ?_)
    | split
    | dsimp only

theorem Keeps_RunningOk_scheduler_dispatch (n : Nat) :
    Keeps (RunningOk n) scheduler_dispatch := by
  intro s u s' h hi
  unfold scheduler_dispatch at h
  obtain ⟨l0, l, h1, h2⟩ := (UT_bind_ok _ _ _ _ _).mp h
  obtain ⟨hl1, hl2⟩ := (getLib_ok _ _ _).mp h1
  subst hl2
  subst hl1
  cases hrv : l0.ready_vector with
  | nil =>
    simp only [hrv] at h2
    exact absurd h2 (by simp [halt])
  | cons p rest =>
    simp only [hrv] at h2
    obtain ⟨_, s2, h3, h4⟩ := (UT_bind_ok _ _ _ _ _).mp h2
    obtain ⟨_, s3, h5, h6⟩ := (UT_bind_ok _ _ _ _ _).mp h4
    have hs2 := (modifyLib_ok _ _ _ _).mp h3
    obtain ⟨th, hth, hs3⟩ := (modifyThread_ok _ _ _ _ _).mp h5
    obtain ⟨th1, hth1, hs'⟩ := (modifyThread_ok _ _ _ _ _).mp h6
    have hR2 : Readable n s2 := by
      rw [hs2]
      exact hi.1
    have hlen : p < s2.uthreads_array.length := getElem?_lt_length _ _ _ hth
    have hk3 : RunningOk n s3 := by
      rw [hs3]
      refine ⟨(RunningOk_set n s2 p th _ hth ⟨hR2, fun q hq => ?_⟩).1, ?_⟩
      · rw [hs2] at hq
        simp only [Option.some.injEq] at hq
        subst hq
        exact ⟨th, hth⟩
      · intro q hq
        rw [hs2] at hq
        simp only [Option.some.injEq] at hq
        subst hq
        exact ⟨_, slot_set_self _ _ _ hlen⟩
    rw [hs']
    exact RunningOk_set n s3 p th1 _ hth1 hk3

theorem Keeps_RunningOk_scheduler (n : Nat) : Keeps (RunningOk n) (scheduler n) := by
  rw [scheduler_split]
  exact Keeps_bind _ _ _ (Keeps_RunningOk_scheduler_enqueue n)
    (fun _ => Keeps_RunningOk_scheduler_dispatch n)

/-- From a state in which every taken ID has a record and `running_thread` is
null or points to a record, the scheduler gets to `ready_vector.front()`. -/
theorem scheduler_enqueue_total (n : Nat) (s : Lib) (h : RunningOk n s) :
    ∃ s', scheduler_enqueue n s = .ok ((), s') := by
  have h1 : RunningOk n { s with quantums := s.quantums + 1 } :=
    RunningOk_of n _ _ rfl rfl (Or.inl rfl) h
  obtain ⟨s2, h2, hw⟩ := update_sleeping_threads_ok n _ h1.1
  unfold scheduler_enqueue
  simp only [bind_assoc]
  rw [UT_bind_eval _ _ s _ () ((modifyLib_ok _ _ _ _).mpr rfl)]
  rw [UT_bind_eval _ _ _ s2 () h2]
  rw [UT_bind_eval _ _ s2 s2 s2 ((getLib_ok _ _ _).mpr ⟨rfl, rfl⟩)]
  cases hrt : s2.running_thread with
  | none => exact ⟨s2, rfl⟩
  | some p =>
    have hrt1 : s.running_thread = some p := by
      rw [← hrt, hw.2.1]
    obtain ⟨th, hth⟩ := h.2 p hrt1
    obtain ⟨th', hth', _⟩ := Woke_slot _ s2 p th hw hth
    simp only [bind_assoc]
    rw [UT_bind_eval _ _ s2 s2 th' ((deref_ok _ _ _ _).mpr ⟨hth', rfl⟩)]
    split
    · rw [UT_bind_eval _ _ s2 _ () (modifyThread_eval p _ s2 th' hth')]
      exact ⟨_, (modifyLib_ok _ _ _ _).mpr rfl⟩
    · exact ⟨s2, rfl⟩

theorem Keeps_RunningOk_uthread_spawn (n : Nat) (e : Option Nat) :
    Keeps (RunningOk n) (uthread_spawn n e) := by
  intro s r s' h hi
  unfold uthread_spawn at h
  split at h
  · obtain ⟨_, rfl⟩ := (UT_pure_ok _ _ _ _).mp h
    exact hi
  · obtain ⟨r0, s1, h1, h2⟩ := (UT_bind_ok _ _ _ _ _).mp h
    rcases min_free_id_loop_ok _ _ _ _ _ h1 with ⟨rfl, rfl⟩ | ⟨j, rfl, hfree, rfl⟩
    · simp only [beq_self_eq_true, if_true] at h2
      obtain ⟨_, rfl⟩ := (UT_pure_ok _ _ _ _).mp h2
      exact hi
    · have hne : ((j : Int) == -1) = false := by
        simp only [beq_eq_false_iff_ne, ne_eq]
        omega
      simp only [hne, Bool.false_eq_true, if_false, Uthread.new, Int.toNat_ofNat] at h2
      obtain ⟨_, s2, h3, h4⟩ := (UT_bind_ok _ _ _ _ _).mp h2
      obtain ⟨_, s3, h5, h6⟩ := (UT_bind_ok _ _ _ _ _).mp h4
      obtain ⟨_, s4, h7, h8⟩ := (UT_bind_ok _ _ _ _ _).mp h6
      obtain ⟨_, rfl⟩ := (UT_pure_ok _ _ _ _).mp h8
      obtain ⟨hlen, hs2⟩ := (setSlot_ok _ _ _ _ _).mp h3
      have hs3 := (modifyLib_ok _ _ _ _).mp h5
      have hs4 := (modifyLib_ok _ _ _ _).mp h7
      have hjlen : j < s.index_free.length := getElem?_lt_length _ _ _ hfree
      have hslot : ∀ (i : Nat) (t : Uthread), s.uthreads_array[i]? = some (some t) →
          ∃ t' : Uthread, s2.uthreads_array[i]? = some (some t') := by
        intro i t ht
        rw [hs2]
        by_cases hji : j = i
        · subst hji
          exact ⟨_, slot_set_self _ _ _ hlen⟩
        · exact ⟨t, by simp [List.getElem?_set, hji, ht]⟩
      have hk2 : RunningOk n s2 := by
        refine ⟨?_, ?_⟩
        · intro i hin
          by_cases hji : j = i
          · subst hji
            refine Or.inr ⟨?_, ?_⟩
            · rw [hs2]
              simp [List.getElem?_set, hjlen]
            · rw [hs2]
              exact ⟨_, slot_set_self _ _ _ hlen⟩
          · rcases hi.1 i hin with h1 | ⟨h1, t, ht⟩
            · left
              rw [hs2]
              simp [List.getElem?_set, hji, h1]
            · right
              refine ⟨?_, hslot i t ht⟩
              rw [hs2]
              simp [List.getElem?_set, hji, h1]
        · intro p hp
          rw [hs2] at hp
          obtain ⟨t, ht⟩ := hi.2 p hp
          exact hslot p t ht
      rw [hs4, hs3]
      exact RunningOk_of n _ _ rfl rfl (Or.inl rfl) hk2

theorem Keeps_RunningOk_uthread_terminate (n : Nat) (tid : Int) :
    Keeps (fun s => MainOk s ∧ RunningOk n s) (uthread_terminate n tid) := by
  intro s r s' h hi
  refine ⟨Keeps_MainOk_uthread_terminate n tid s r s' h hi.1, ?_⟩
  unfold uthread_terminate at h
  split at h
  · exact absurd h (by simp [halt])
  · rename_i htid
    have h0 : tid ≠ 0 := by simpa using htid
    obtain ⟨b, s1, h1, h2⟩ := (UT_bind_ok _ _ _ _ _).mp h
    split at h2
    · obtain ⟨_, rfl⟩ := (UT_pure_ok _ _ _ _).mp h2
      exact Keeps_invalid_tid (RunningOk n) _ _ s b s1 h1 hi.2
    · rename_i hb
      have hb' : b = false := by simpa using hb
      subst hb'
      obtain ⟨hge, hlt, hfree, rfl⟩ := invalid_tid_false_inv _ _ _ _ h1
      obtain ⟨l, s2, hl, h3⟩ := (UT_bind_ok _ _ _ _ _).mp h2
      obtain ⟨hl1, hl2⟩ := (getLib_ok _ _ _).mp hl
      subst hl2
      subst hl1
      cases hrt : l.running_thread with
      | none =>
        simp only [hrt] at h3
        exact absurd h3 (by simp [halt])
      | some p =>
        simp only [hrt] at h3
        obtain ⟨th, s3, hd, h4⟩ := (UT_bind_ok _ _ _ _ _).mp h3
        obtain ⟨hth, hs3⟩ := (deref_ok _ _ _ _).mp hd
        subst hs3
        split at h4
        · refine (?_ : Keeps (RunningOk n) _) _ r s' h4 hi.2
          repeat' first
            | exact Keeps_pure _ _
            | exact Keeps_RunningOk_scheduler _
            | exact Keeps_RunningOk_modifyLib _ _ (fun _ => ⟨rfl, rfl, Or.inr rfl⟩)
            | refine Keeps_bind _ _ _ ?_ (fun _ => ?_)
        · rename_i hself
          have hself' : th.tid ≠ tid := by simpa using hself
          have hp : p ≠ tid.toNat := by
            intro e
            have := hi.1.1 p th hth
            rw [e] at this
            exact hself' (by rw [this]; omega)
          obtain ⟨_, s4, h5, h6⟩ := (UT_bind_ok _ _ _ _ _).mp h4
          obtain ⟨_, s5, h7, h8⟩ := (UT_bind_ok _ _ _ _ _).mp h6
          obtain ⟨_, s6, h9, h10⟩ := (UT_bind_ok _ _ _ _ _).mp h8
          obtain ⟨_, s7, h11, h12⟩ := (UT_bind_ok _ _ _ _ _).mp h10
          obtain ⟨_, rfl⟩ := (UT_pure_ok _ _ _ _).mp h12
          have hk4 := Keeps_RunningOk_erase_from_ready n tid _ _ s4 h5 hi.2
          have hr4 : s4.running_thread = some p := by
            unfold erase_from_ready at h5
            split at h5
            · cases h5
              exact hrt
            · cases h5
          obtain ⟨_, hs5⟩ := (setSlot_ok _ _ _ _ _).mp h7
          obtain ⟨hflen, hs6⟩ := (setIndexFree_ok _ _ _ _ _).mp h9
          have hs7 := (modifyLib_ok _ _ _ _).mp h11
          have hk6 : RunningOk n s6 := by
            rw [hs6, hs5]
            rw [hs5] at hflen
            refine ⟨?_, ?_⟩
            · intro i hin
              by_cases hti : tid.toNat = i
              · subst hti
                left
                simp [List.getElem?_set, hflen]
              · rcases hk4.1 i hin with h1 | ⟨h1, t, ht⟩
                · left
                  simp [List.getElem?_set, hti, h1]
                · right
                  refine ⟨by simp [List.getElem?_set, hti, h1], t, ?_⟩
                  simp [List.getElem?_set, hti, ht]
            · intro q hq
              have hq' : s4.running_thread = some q := hq
              rw [hr4] at hq'
              cases hq'
              obtain ⟨t, ht⟩ := hk4.2 p hr4
              have hne : ¬ tid.toNat = p := fun e => hp e.symm
              exact ⟨t, by simp [List.getElem?_set, hne, ht]⟩
          rw [hs7]
          exact RunningOk_of n _ _ rfl rfl (Or.inl rfl) hk6

theorem Keeps_RunningOk_uthread_block (n : Nat) (tid : Int) :
    Keeps (RunningOk n) (uthread_block n tid) := by
  unfold uthread_block
  repeat' first
    | exact Keeps_pure _ _
    | exact Keeps_halt _ _
    | exact Keeps_getLib _
    | exact Keeps_deref _ _
    | exact Keeps_invalid_tid _ _ _
    | exact Keeps_RunningOk_erase_from_ready _ _
    | exact Keeps_RunningOk_scheduler _
    | exact Keeps_RunningOk_modifyThread _ _ _
    | refine Keeps_bind _ _ _ ?_ (fun _ => ?_)
    | split

theorem Keeps_RunningOk_uthread_sleep (n : Nat) (num_quantums : Int) :
    Keeps (RunningOk n) (uthread_sleep n num_quantums) := by
  unfold uthread_sleep
  repeat' first
    | exact Keeps_pure _ _
    | exact Keeps_halt _ _
    | exact Keeps_getLib _
    | exact Keeps_deref _ _
    | exact Keeps_RunningOk_scheduler _
    | exact Keeps_RunningOk_modifyThread _ _ _
    | refine Keeps_bind _ _ _ ?_ (fun _ => ?_)
    | split

theorem Keeps_RunningOk_step (n : Nat) (e : Event) :
    Keeps (fun s => MainOk s ∧ RunningOk n s) (step n e) := by
  refine fun s u s' h hi => ⟨Keeps_MainOk_step n e s u s' h hi.1, ?_⟩
  cases e with
  | spawn entry_point =>
    unfold step at h
    exact Keeps_bind _ _ _ (Keeps_RunningOk_uthread_spawn _ _) (fun _ => Keeps_pure _ _)
      s u s' h hi.2
  | terminate tid =>
    unfold step at h
    exact (Keeps_bind _ _ _ (Keeps_RunningOk_uthread_terminate n tid) (fun _ => Keeps_pure _ _)
      s u s' h hi).2
  | block tid =>
    unfold step at h
    exact Keeps_bind _ _ _ (Keeps_RunningOk_uthread_block _ _) (fun _ => Keeps_pure _ _)
      s u s' h hi.2
  | resume tid =>
    unfold step at h
    exact Keeps_bind _ _ _ (Keeps_RunningOk_uthread_resume _ _) (fun _ => Keeps_pure _ _)
      s u s' h hi.2
  | sleep num_quantums =>
    unfold step at h
    exact Keeps_bind _ _ _ (Keeps_RunningOk_uthread_sleep _ _) (fun _ => Keeps_pure _ _)
      s u s' h hi.2
  | timer =>
    unfold step at h
    exact Keeps_RunningOk_scheduler _ s u s' h hi.2

theorem RunningOk_initialized (n : Nat) (quantum_usecs : Int) (hn : 0 < n) :
    RunningOk n (initialized n quantum_usecs) := by
  have h0 : (initialized n quantum_usecs).uthreads_array[0]? = some (some mainThread) := by
    simp [initialized, List.getElem?_set, hn]
  refine ⟨?_, ?_⟩
  · intro i hi
    by_cases hi0 : i = 0
    · subst hi0
      exact Or.inr ⟨by simp [initialized, List.getElem?_set, hn], mainThread, h0⟩
    · have hne : ¬ (0 = i) := fun h => hi0 h.symm
      left
      simp [initialized, List.getElem?_set, hne, List.getElem?_replicate, hi]
  · intro p hp
    have : p = 0 := by
      simp [initialized] at hp
      exact hp.symm
    subst this
    exact ⟨mainThread, h0⟩

theorem RunningOk_reach (n : Nat) (quantum_usecs : Int) (events : List Event) (s : Lib)
    (h : reach n quantum_usecs events = some s) : RunningOk n s := by
  have hsteps : ∀ events, Keeps (fun s => MainOk s ∧ RunningOk n s) (steps n events) := by
    intro events
    induction events with
    | nil => exact Keeps_pure _ _
    | cons e es ih =>
      unfold steps
      exact Keeps_bind _ _ _ (Keeps_RunningOk_step _ _) (fun _ => ih)
  unfold reach at h
  cases h0 : afterInit n quantum_usecs with
  | none => rw [h0] at h; simp at h
  | some s0 =>
    rw [h0] at h
    obtain ⟨hn, _, rfl⟩ := afterInit_eq n quantum_usecs s0 h0
    simp only at h
    cases hrun : (steps n events).run (initialized n quantum_usecs) with
    | error e => rw [hrun] at h; simp at h
    | ok v =>
      obtain ⟨u, s1⟩ := v
      rw [hrun] at h
      simp at h
      subst h
      exact (hsteps events _ u _ hrun
        ⟨MainOk_initialized n quantum_usecs hn, RunningOk_initialized n quantum_usecs hn⟩).2

/-- At every entry of the scheduler every taken ID has a record and
`running_thread` is null or points to a record. -/
theorem SchedulerEntry_running (n : Nat) (s s1 : Lib) (e : Event)
    (he : SchedulerEntry n s e s1) (hk : RunningOk n s) : RunningOk n s1 := by
  cases he with
  | timer => exact hk
  | sleep k p th hrt hth htid => exact RunningOk_set n s p th _ hth hk
  | block tid th l p thp h0 hge hlt hfree hth hl hrt hp htid =>
    exact RunningOk_of n
      { s with uthreads_array :=
                 s.uthreads_array.set tid.toNat (some { th with uthread_state := state.BLOCKED }) }
      _ rfl rfl (Or.inl rfl) (RunningOk_set n s tid.toNat th _ hth hk)
  | terminate tid p th h0 hge hlt hfree hrt hth htid =>
    exact RunningOk_of n s _ rfl rfl (Or.inr rfl) hk

/-- C38: in every state `s` reached after a successful `uthread_init` by any
sequence of public operations and timer expiries, thread 0 is running or is in
the ready FIFO. Whenever an event enters `scheduler` from `s` with the globals
`s1` (a timer expiry, or a call of `uthread_sleep`, `uthread_block` or
`uthread_terminate` that gets to its call of `scheduler`), the rest of the event
is the run of `scheduler` from `s1`, the statements of `scheduler` in front of
`ready_vector.front()` return, and the ready FIFO they leave is non-empty: it
holds thread 0. -/
theorem C38_ready_fifo_nonempty_at_dispatch (MAX_THREAD_NUM : Nat) (quantum_usecs : Int)
    (events : List Event) (s : Lib)
    (h : reach MAX_THREAD_NUM quantum_usecs events = some s) :
    MainQueued s ∧
    ∀ (e : Event) (s1 : Lib), SchedulerEntry MAX_THREAD_NUM s e s1 →
      step MAX_THREAD_NUM e s =
        (do scheduler_enqueue MAX_THREAD_NUM; scheduler_dispatch : UT Unit) s1 ∧
      ∃ s2 : Lib, scheduler_enqueue MAX_THREAD_NUM s1 = .ok ((), s2) ∧
        s2.ready_vector ≠ [] ∧ 0 ∈ s2.ready_vector := by
  obtain ⟨hm, hq⟩ := MainQueued_reach MAX_THREAD_NUM quantum_usecs events s h
  have hk := RunningOk_reach MAX_THREAD_NUM quantum_usecs events s h
  refine ⟨hq, ?_⟩
  intro e s1 he
  refine ⟨?_, ?_⟩
  · rw [SchedulerEntry_step MAX_THREAD_NUM s s1 e he, scheduler_split]
  · obtain ⟨hm1, hq1⟩ := SchedulerEntry_main MAX_THREAD_NUM s s1 e he hm hq
    obtain ⟨s2, h2⟩ :=
      scheduler_enqueue_total MAX_THREAD_NUM s1 (SchedulerEntry_running MAX_THREAD_NUM s s1 e he hk)
    have h0 := (scheduler_enqueue_main MAX_THREAD_NUM s1 s2 () h2 hm1 hq1).2
    exact ⟨s2, h2, List.ne_nil_of_mem h0, h0⟩

set_option maxRecDepth 1000000 in
/-- C38 at `MAX_THREAD_NUM = 3`: after init, a spawn and one timer expiry
thread 1 runs and thread 0 is queued; when thread 1 calls `uthread_sleep(2)`,
the scheduler is entered in `spawnedSleeps` and finds a non-empty ready FIFO
that holds thread 0. -/
theorem C38_ready_fifo_nonempty_at_dispatch_witness :
    reach 3 1 [Event.spawn (some 0), Event.timer] = some spawnedRuns ∧
    SchedulerEntry 3 spawnedRuns (Event.sleep 2) spawnedSleeps ∧
    MainQueued spawnedRuns ∧
    ∃ s2 : Lib, scheduler_enqueue 3 spawnedSleeps = .ok ((), s2) ∧
      s2.ready_vector ≠ [] ∧ 0 ∈ s2.ready_vector :=
  ⟨by decide!,
   SchedulerEntry.sleep 2 1
     { tid := 1, quantum := 1, uthread_state := state.RUNNING, is_sleeping := false,
       num_q_to_sleep := 0 } rfl rfl (by decide),
   (C38_ready_fifo_nonempty_at_dispatch 3 1 [Event.spawn (some 0), Event.timer]
      spawnedRuns (by decide!)).1,
   ((C38_ready_fifo_nonempty_at_dispatch 3 1 [Event.spawn (some 0), Event.timer]
      spawnedRuns (by decide!)).2 (Event.sleep 2) spawnedSleeps
      (SchedulerEntry.sleep 2 1
        { tid := 1, quantum := 1, uthread_state := state.RUNNING, is_sleeping := false,
          num_q_to_sleep := 0 } rfl rfl (by decide))).2⟩

end UThreads

namespace MapReduce

/-! ### The packed progress word (claim C21) -/

theorem toUL_natCast (v : Nat) (h : v < 2 ^ 64) : toUL (v : Int) = v := by
  unfold toUL
  have h1 : ((v : Int)) % 2 ^ 64 = (v : Int) :=
    Int.emod_eq_of_lt (Int.natCast_nonneg v) (by exact_mod_cast h)
  rw [h1]
  exact Int.toNat_natCast v

theorem tmod_natCast_four (s : Nat) (h : s < 4) : Int.tmod (s : Int) 4 = (s : Int) := by
  interval_cases s <;> rfl

theorem applyUpdate_eq (w : Nat) (u : Update) :
    applyUpdate w u = (w + contribution u) % 2 ^ 64 := by
  cases u <;>
    simp only [applyUpdate, contribution, set_atomic_stage, set_atomic_processed_pairs,
      set_atomic_total_number_of_pairs, Nat.add_mod_mod]

theorem applyUpdates_eq (w : Nat) (calls : List Update) (hw : w < 2 ^ 64) :
    applyUpdates w calls = (w + (calls.map contribution).sum) % 2 ^ 64 := by
  unfold applyUpdates
  induction calls generalizing w with
  | nil =>
    simp only [List.foldl_nil, List.map_nil, List.sum_nil, Nat.add_zero]
    exact (Nat.mod_eq_of_lt hw).symm
  | cons u us ih =>
    rw [List.foldl_cons, ih _ (by rw [applyUpdate_eq]; exact Nat.mod_lt _ (by norm_num)),
      applyUpdate_eq, List.map_cons, List.sum_cons, Nat.mod_add_mod, Nat.add_assoc]

theorem sum_processed (incs : List Nat) (h : incs.sum < 2 ^ 64) :
    ((incs.map (fun v : Nat => Update.processed (v : Int))).map contribution).sum
      = incs.sum * 2 ^ 31 := by
  induction incs with
  | nil => rfl
  | cons v vs ih =>
    rw [List.sum_cons] at h
    rw [List.map_cons, List.map_cons, List.sum_cons, List.sum_cons, ih (by omega)]
    show toUL (v : Int) * 2 ^ 31 + _ = _
    rw [toUL_natCast v (by omega), Nat.add_mul]

theorem word_of_calls (s p t : Nat) (incs : List Nat) (calls : List Update)
    (hs : s < 4) (hp : p < 2 ^ 31) (ht : t < 2 ^ 31) (hsum : incs.sum = p)
    (hcalls : calls.Perm
      (Update.stage (s : Int) :: Update.total (t : Int) ::
        incs.map (fun v : Nat => Update.processed (v : Int)))) :
    applyUpdates 0 calls = s * 2 ^ 62 + p * 2 ^ 31 + t := by
  rw [applyUpdates_eq 0 calls (by norm_num), (hcalls.map contribution).sum_eq,
    List.map_cons, List.map_cons, List.sum_cons, List.sum_cons,
    sum_processed incs (by rw [hsum]; omega), hsum]
  show (0 + (toUL (Int.tmod (s : Int) 4) * 2 ^ 62 + (toUL (t : Int) + p * 2 ^ 31))) % 2 ^ 64 = _
  rw [tmod_natCast_four s hs, toUL_natCast s (by omega), toUL_natCast t (by omega)]
  norm_num at hp ht ⊢
  omega

theorem getters_of_word (s p t : Nat) (hp : p < 2 ^ 31) (ht : t < 2 ^ 31) :
    get_atomic_stage (s * 2 ^ 62 + p * 2 ^ 31 + t) = (s : Int) ∧
    get_atomic_processed_pairs (s * 2 ^ 62 + p * 2 ^ 31 + t) = ((p % 2 ^ 28 : Nat) : Int) ∧
    get_atomic_total_num_of_pairs (s * 2 ^ 62 + p * 2 ^ 31 + t) = ((t % 2 ^ 28 : Nat) : Int) ∧
    processedField (s * 2 ^ 62 + p * 2 ^ 31 + t) = p ∧
    totalField (s * 2 ^ 62 + p * 2 ^ 31 + t) = t := by
  unfold get_atomic_stage get_atomic_processed_pairs get_atomic_total_num_of_pairs
    processedField totalField
  norm_num at hp ht ⊢
  refine ⟨?_, ?_, ?_, ?_, ?_⟩ <;> omega

theorem set_atomic_stage_others (w : Nat) (value : Int) :
    get_atomic_processed_pairs (set_atomic_stage w value) = get_atomic_processed_pairs w ∧
    get_atomic_total_num_of_pairs (set_atomic_stage w value)
      = get_atomic_total_num_of_pairs w := by
  unfold get_atomic_processed_pairs get_atomic_total_num_of_pairs set_atomic_stage
  generalize toUL (Int.tmod value 4) = c
  norm_num
  constructor <;> omega

theorem set_atomic_processed_pairs_others (w v : Nat) (hw : w < 2 ^ 64)
    (h : processedField w + v < 2 ^ 31) :
    get_atomic_stage (set_atomic_processed_pairs w (v : Int)) = get_atomic_stage w ∧
    get_atomic_total_num_of_pairs (set_atomic_processed_pairs w (v : Int))
      = get_atomic_total_num_of_pairs w := by
  unfold processedField at h
  have hv : v < 2 ^ 64 := by norm_num at h ⊢; omega
  unfold get_atomic_stage get_atomic_total_num_of_pairs set_atomic_processed_pairs
  rw [toUL_natCast v hv]
  norm_num at hw h ⊢
  constructor <;> omega

theorem set_atomic_total_number_of_pairs_others (w v : Nat) (hw : w < 2 ^ 64)
    (h : totalField w + v < 2 ^ 31) :
    get_atomic_stage (set_atomic_total_number_of_pairs w (v : Int)) = get_atomic_stage w ∧
    get_atomic_processed_pairs (set_atomic_total_number_of_pairs w (v : Int))
      = get_atomic_processed_pairs w := by
  unfold totalField at h
  have hv : v < 2 ^ 64 := by norm_num at h ⊢; omega
  unfold get_atomic_stage get_atomic_processed_pairs set_atomic_total_number_of_pairs
  rw [toUL_natCast v hv]
  norm_num at hw h ⊢
  constructor <;> omega

/-- C21 fails on the code from `2 ^ 28` on: the getters mask with `0xfffffff`,
which keeps 28 bits and not 31. After `set_atomic_stage(1)` and
`set_atomic_total_number_of_pairs(2 ^ 28)` on the word 0,
`get_atomic_total_num_of_pairs` returns 0, and after increments of the
processed field that sum to `2 ^ 28`, `get_atomic_processed_pairs` returns 0.
What holds: for a stage `s < 4` and counts `p, t < 2 ^ 31`, after
`set_atomic_stage(s)`, `set_atomic_total_number_of_pairs(t)` and increments of
the processed field that sum to `p`, in any order, the two 31-bit fields of the
word hold `p` and `t`, `get_atomic_stage` returns `s`, and the other two
getters return `p % 2 ^ 28` and `t % 2 ^ 28`, hence `p` and `t` when these are
below `2 ^ 28`. A setter call leaves the results of the getters of the other
two fields as they were: always for the stage, and for a count as long as its
31-bit field does not overflow. -/
theorem C21_progress_word_roundtrip :
    (get_atomic_total_num_of_pairs
        (applyUpdates 0 [Update.stage 1, Update.total (2 ^ 28)]) = 0 ∧
      get_atomic_processed_pairs
        (applyUpdates 0 [Update.stage 1, Update.total 5, Update.processed (2 ^ 27),
          Update.processed (2 ^ 27)]) = 0) ∧
    (∀ (s p t : Nat) (incs : List Nat) (calls : List Update),
      s < 4 → p < 2 ^ 31 → t < 2 ^ 31 → incs.sum = p →
      calls.Perm (Update.stage (s : Int) :: Update.total (t : Int) ::
        incs.map (fun v : Nat => Update.processed (v : Int))) →
      get_atomic_stage (applyUpdates 0 calls) = (s : Int) ∧
      get_atomic_processed_pairs (applyUpdates 0 calls) = ((p % 2 ^ 28 : Nat) : Int) ∧
      get_atomic_total_num_of_pairs (applyUpdates 0 calls) = ((t % 2 ^ 28 : Nat) : Int) ∧
      processedField (applyUpdates 0 calls) = p ∧
      totalField (applyUpdates 0 calls) = t ∧
      (p < 2 ^ 28 → get_atomic_processed_pairs (applyUpdates 0 calls) = (p : Int)) ∧
      (t < 2 ^ 28 → get_atomic_total_num_of_pairs (applyUpdates 0 calls) = (t : Int))) ∧
    (∀ (w : Nat) (value : Int),
      get_atomic_processed_pairs (set_atomic_stage w value) = get_atomic_processed_pairs w ∧
      get_atomic_total_num_of_pairs (set_atomic_stage w value)
        = get_atomic_total_num_of_pairs w) ∧
    (∀ w v : Nat, w < 2 ^ 64 → processedField w + v < 2 ^ 31 →
      get_atomic_stage (set_atomic_processed_pairs w (v : Int)) = get_atomic_stage w ∧
      get_atomic_total_num_of_pairs (set_atomic_processed_pairs w (v : Int))
        = get_atomic_total_num_of_pairs w) ∧
    (∀ w v : Nat, w < 2 ^ 64 → totalField w + v < 2 ^ 31 →
      get_atomic_stage (set_atomic_total_number_of_pairs w (v : Int)) = get_atomic_stage w ∧
      get_atomic_processed_pairs (set_atomic_total_number_of_pairs w (v : Int))
        = get_atomic_processed_pairs w) := by
  refine ⟨⟨by decide!, by decide!⟩, ?_, set_atomic_stage_others,
    set_atomic_processed_pairs_others, set_atomic_total_number_of_pairs_others⟩
  intro s p t incs calls hs hp ht hsum hcalls
  rw [word_of_calls s p t incs calls hs hp ht hsum hcalls]
  obtain ⟨h1, h2, h3, h4, h5⟩ := getters_of_word s p t hp ht
  refine ⟨h1, h2, h3, h4, h5, ?_, ?_⟩
  · intro h
    rw [h2, Nat.mod_eq_of_lt h]
  · intro h
    rw [h3, Nat.mod_eq_of_lt h]

/-- The part of C21 that holds, at stage 2, processed count 3 (as increments 1
and 2) and total count 5, with the calls in the order processed, total, stage,
processed: the getters return 2, 3 and 5. -/
theorem C21_progress_word_roundtrip_witness :
    get_atomic_stage (applyUpdates 0
      [Update.processed 1, Update.total 5, Update.stage 2, Update.processed 2]) = 2 ∧
    get_atomic_processed_pairs (applyUpdates 0
      [Update.processed 1, Update.total 5, Update.stage 2, Update.processed 2]) = 3 ∧
    get_atomic_total_num_of_pairs (applyUpdates 0
      [Update.processed 1, Update.total 5, Update.stage 2, Update.processed 2]) = 5 :=
  have h := C21_progress_word_roundtrip.2.1 2 3 5 [1, 2]
    [Update.processed 1, Update.total 5, Update.stage 2, Update.processed 2]
    (by decide) (by decide) (by decide) (by decide) (by decide)
  ⟨h.1, h.2.2.2.2.2.1 (by decide), h.2.2.2.2.2.2 (by decide)⟩

/-! ### The key ordering and the loops of `shuffle` -/

section Shuffle

variable {K V : Type}

theorem equivKeys_iff (lt : K → K → Bool) (a b : K) :
    equivKeys lt a b = true ↔ lt a b = false ∧ lt b a = false := by
  unfold equivKeys
  cases lt a b <;> cases lt b a <;> simp

theorem equivKeys_refl (lt : K → K → Bool) (h : StrictWeak lt) (a : K) :
    equivKeys lt a a = true :=
  (equivKeys_iff lt a a).mpr ⟨h.1 a, h.1 a⟩

theorem equivKeys_symm (lt : K → K → Bool) (a b : K) (h : equivKeys lt a b = true) :
    equivKeys lt b a = true := by
  rw [equivKeys_iff] at h ⊢
  exact ⟨h.2, h.1⟩

/-- In a strict weak ordering `a < c` implies `a < b` or `b < c`. -/
theorem lt_cotrans (lt : K → K → Bool) (h : StrictWeak lt) (a b c : K)
    (hab : lt a b = false) (hbc : lt b c = false) : lt a c = false := by
  by_contra hac
  have hac' : lt a c = true := by simpa using hac
  have hba : lt b a = false := by
    by_contra hba
    have := h.2.1 b a c (by simpa using hba) hac'
    rw [hbc] at this
    cases this
  have hcb : lt c b = false := by
    by_contra hcb
    have := h.2.1 a c b hac' (by simpa using hcb)
    rw [hab] at this
    cases this
  have he := h.2.2 a b c ((equivKeys_iff lt a b).mpr ⟨hab, hba⟩)
    ((equivKeys_iff lt b c).mpr ⟨hbc, hcb⟩)
  rw [equivKeys_iff] at he
  rw [he.1] at hac'
  cases hac'

theorem popEquivalent_spec (lt : K → K → Bool) (m : K) (n : Nat) (vec temp : List (K × V))
    (hn : vec.length ≤ n) :
    ∃ kept trailing : List (K × V),
      vec = kept ++ trailing ∧
      popEquivalent lt m n vec temp = (kept, temp ++ trailing.reverse) ∧
      (∀ x ∈ trailing, equivKeys lt m x.1 = true) ∧
      (∀ b, kept.getLast? = some b → equivKeys lt m b.1 = false) := by
  induction n generalizing vec temp with
  | zero =>
    have : vec = [] := List.eq_nil_of_length_eq_zero (by omega)
    subst this
    exact ⟨[], [], rfl, by simp [popEquivalent], by simp, by simp⟩
  | succ n ih =>
    unfold popEquivalent
    cases hlast : vec.getLast? with
    | none =>
      have : vec = [] := List.getLast?_eq_none_iff.mp hlast
      subst this
      exact ⟨[], [], rfl, by simp, by simp, by simp⟩
    | some b =>
      have hvec : vec.dropLast ++ [b] = vec := List.dropLast_append_getLast? b hlast
      by_cases he : equivKeys lt m b.1 = true
      · have hlen : vec.dropLast.length ≤ n := by
          rw [List.length_dropLast]
          omega
        obtain ⟨kept, trailing, h1, h2, h3, h4⟩ := ih vec.dropLast (temp ++ [b]) hlen
        refine ⟨kept, trailing ++ [b], ?_, ?_, ?_, h4⟩
        · rw [← List.append_assoc, ← h1, hvec]
        · simp only [he, if_true]
          rw [h2]
          simp
        · intro x hx
          rcases List.mem_append.mp hx with hx | hx
          · exact h3 x hx
          · rw [List.mem_singleton.mp hx]
            exact he
      · refine ⟨vec, [], by simp, ?_, by simp, ?_⟩
        · simp [he]
        · intro b' hb'
          rw [hlast] at hb'
          cases hb'
          simpa using he

theorem findMaxKey_some (lt : K → K → Bool) (h : StrictWeak lt) (vecs : List (List (K × V)))
    (curr : Option K) (m : K) (hr : findMaxKey lt vecs curr = some m) :
    (curr = some m ∨ ∃ vec ∈ vecs, ∃ b, vec.getLast? = some b ∧ b.1 = m) ∧
    (∀ c, curr = some c → lt m c = false) ∧
    (∀ vec ∈ vecs, ∀ b, vec.getLast? = some b → lt m b.1 = false) := by
  induction vecs generalizing curr with
  | nil =>
    simp only [findMaxKey] at hr
    subst hr
    refine ⟨Or.inl rfl, ?_, by simp⟩
    intro c hc
    cases hc
    exact h.1 m
  | cons vec rest ih =>
    unfold findMaxKey at hr
    cases hlast : vec.getLast? with
    | none =>
      simp only [hlast] at hr
      obtain ⟨h1, h2, h3⟩ := ih curr hr
      refine ⟨?_, h2, ?_⟩
      · rcases h1 with h1 | ⟨v, hv, b, hb, hm⟩
        · exact Or.inl h1
        · exact Or.inr ⟨v, List.mem_cons_of_mem _ hv, b, hb, hm⟩
      · intro v hv b hb
        rcases List.mem_cons.mp hv with hv | hv
        · subst hv
          rw [hlast] at hb
          cases hb
        · exact h3 v hv b hb
    | some back =>
      simp only [hlast] at hr
      have key : ∀ curr' : Option K, findMaxKey lt rest curr' = some m →
          (curr' = some back.1 ∨ curr' = curr) →
          (∀ c, curr = some c → lt m c = false) → lt m back.1 = false →
          (curr = some m ∨ ∃ vec' ∈ vec :: rest, ∃ b, vec'.getLast? = some b ∧ b.1 = m) ∧
          (∀ c, curr = some c → lt m c = false) ∧
          (∀ vec' ∈ vec :: rest, ∀ b, vec'.getLast? = some b → lt m b.1 = false) := by
        intro curr' hr' hc' hcur hback
        obtain ⟨h1, _, h3⟩ := ih curr' hr'
        refine ⟨?_, hcur, ?_⟩
        · rcases h1 with h1 | ⟨v, hv, b, hb, hm⟩
          · rcases hc' with hc' | hc'
            · rw [hc'] at h1
              cases h1
              exact Or.inr ⟨vec, List.mem_cons_self _ _, back, hlast, rfl⟩
            · rw [hc'] at h1
              exact Or.inl h1
          · exact Or.inr ⟨v, List.mem_cons_of_mem _ hv, b, hb, hm⟩
        · intro v hv b hb
          rcases List.mem_cons.mp hv with hv | hv
          · subst hv
            rw [hlast] at hb
            cases hb
            exact hback
          · exact h3 v hv b hb
      cases hcurr : curr with
      | none =>
        simp only [hcurr] at hr
        have := key (some back.1) hr (Or.inl rfl) (by intro c hc; rw [hcurr] at hc; cases hc)
          ((ih (some back.1) hr).2.1 back.1 rfl)
        rw [hcurr] at this
        exact this
      | some c =>
        simp only [hcurr] at hr
        by_cases hlt : lt c back.1 = true
        · simp only [hlt, if_true] at hr
          have hmb : lt m back.1 = false := (ih (some back.1) hr).2.1 back.1 rfl
          have := key (some back.1) hr (Or.inl rfl)
            (by
              intro c' hc'
              rw [hcurr] at hc'
              cases hc'
              by_contra hmc
              have := h.2.1 m c back.1 (by simpa using hmc) hlt
              rw [hmb] at this
              cases this)
            hmb
          rw [hcurr] at this
          exact this
        · have hlt' : lt c back.1 = false := by simpa using hlt
          simp only [hlt', Bool.false_eq_true, if_false] at hr
          have hmc : lt m c = false := (ih (some c) hr).2.1 c rfl
          have := key (some c) hr (Or.inr hcurr.symm)
            (by
              intro c' hc'
              rw [hcurr] at hc'
              cases hc'
              exact hmc)
            (lt_cotrans lt h m c back.1 hmc hlt')
          rw [hcurr] at this
          exact this

theorem findMaxKey_ne_none (lt : K → K → Bool) (vecs : List (List (K × V))) (c : K) :
    findMaxKey lt vecs (some c) ≠ none := by
  induction vecs generalizing c with
  | nil => simp [findMaxKey]
  | cons vec rest ih =>
    unfold findMaxKey
    cases vec.getLast? with
    | none => exact ih c
    | some back =>
      simp only
      split
      · exact ih _
      · exact ih _

theorem findMaxKey_none (lt : K → K → Bool) (vecs : List (List (K × V))) :
    findMaxKey lt vecs none = none ↔ vecs.flatten = [] := by
  induction vecs with
  | nil => simp [findMaxKey]
  | cons vec rest ih =>
    unfold findMaxKey
    cases hlast : vec.getLast? with
    | none =>
      have : vec = [] := List.getLast?_eq_none_iff.mp hlast
      subst this
      simpa using ih
    | some back =>
      have hne : vec ≠ [] := by
        intro hv
        rw [hv] at hlast
        cases hlast
      simp only [List.flatten_cons, List.append_eq_nil, hne, false_and, iff_false]
      exact findMaxKey_ne_none lt rest back.1

theorem mem_of_getLast_eq {α : Type} (l : List α) (b : α) (h : l.getLast? = some b) :
    b ∈ l := by
  rw [← List.dropLast_append_getLast? b h]
  simp

theorem sorted_back_max (lt : K → K → Bool) (h : StrictWeak lt) (vec : List (K × V))
    (hs : SortedVec lt vec) (b : K × V) (hb : vec.getLast? = some b) :
    ∀ x ∈ vec, lt b.1 x.1 = false := by
  have hvec : vec.dropLast ++ [b] = vec := List.dropLast_append_getLast? b hb
  intro x hx
  rw [← hvec] at hx hs
  rcases List.mem_append.mp hx with hx | hx
  · exact (List.pairwise_append.mp hs).2.2 x hx b (List.mem_singleton_self b)
  · rw [List.mem_singleton.mp hx]
    exact h.1 b.1

/-- The key that `findMaxKey` returns is a maximum of the keys of all pairs. -/
theorem findMaxKey_max (lt : K → K → Bool) (h : StrictWeak lt) (vecs : List (List (K × V)))
    (hs : ∀ vec ∈ vecs, SortedVec lt vec) (m : K) (hr : findMaxKey lt vecs none = some m) :
    ∀ x ∈ vecs.flatten, lt m x.1 = false := by
  intro x hx
  obtain ⟨vec, hvec, hxv⟩ := List.mem_flatten.mp hx
  cases hlast : vec.getLast? with
  | none =>
    rw [List.getLast?_eq_none_iff.mp hlast] at hxv
    cases hxv
  | some b =>
    exact lt_cotrans lt h m b.1 x.1 ((findMaxKey_some lt h vecs none m hr).2.2 vec hvec b hlast)
      (sorted_back_max lt h vec (hs vec hvec) b hlast x hxv)

theorem popEquivalent_sorted (lt : K → K → Bool) (h : StrictWeak lt) (m : K)
    (vec temp : List (K × V)) (hs : SortedVec lt vec) (hmax : ∀ x ∈ vec, lt m x.1 = false) :
    ∃ kept trailing : List (K × V),
      vec = kept ++ trailing ∧
      popEquivalent lt m vec.length vec temp = (kept, temp ++ trailing.reverse) ∧
      (∀ x ∈ trailing, equivKeys lt m x.1 = true) ∧
      (∀ x ∈ kept, equivKeys lt m x.1 = false) := by
  obtain ⟨kept, trailing, h1, h2, h3, h4⟩ :=
    popEquivalent_spec lt m vec.length vec temp (Nat.le_refl _)
  refine ⟨kept, trailing, h1, h2, h3, ?_⟩
  intro x hx
  cases hlast : kept.getLast? with
  | none =>
    rw [List.getLast?_eq_none_iff.mp hlast] at hx
    cases hx
  | some b =>
    have hb := h4 b hlast
    have hbk : b ∈ kept := mem_of_getLast_eq _ _ hlast
    have hmb : lt m b.1 = false := hmax b (by rw [h1]; exact List.mem_append_left _ hbk)
    have hbm : lt b.1 m = true := by
      by_contra hc
      have : equivKeys lt m b.1 = true := (equivKeys_iff lt m b.1).mpr ⟨hmb, by simpa using hc⟩
      rw [hb] at this
      cases this
    have hks : SortedVec lt kept := by
      rw [h1] at hs
      exact (List.pairwise_append.mp hs).1
    have hbx : lt b.1 x.1 = false := sorted_back_max lt h kept hks b hlast x hx
    by_contra hc
    have hex : equivKeys lt m x.1 = true := by simpa using hc
    have := lt_cotrans lt h b.1 x.1 m hbx ((equivKeys_iff lt m x.1).mp hex).2
    rw [hbm] at this
    cases this

/-- One call of `getMaxKeyFromAllVectors` with a maximal key on sorted vectors:
it moves to `temp_vector` exactly the pairs whose key is equivalent to the
key, and the vectors stay sorted. -/
theorem getMaxKeyFromAllVectors_spec (lt : K → K → Bool) (h : StrictWeak lt) (m : K)
    (vecs : List (List (K × V))) (temp : List (K × V))
    (hs : ∀ vec ∈ vecs, SortedVec lt vec) (hmax : ∀ x ∈ vecs.flatten, lt m x.1 = false) :
    ∃ popped : List (K × V),
      (getMaxKeyFromAllVectors lt m vecs temp).2 = temp ++ popped ∧
      (popped ++ (getMaxKeyFromAllVectors lt m vecs temp).1.flatten).Perm vecs.flatten ∧
      (∀ x ∈ popped, equivKeys lt m x.1 = true) ∧
      (∀ x ∈ (getMaxKeyFromAllVectors lt m vecs temp).1.flatten, equivKeys lt m x.1 = false) ∧
      (∀ vec ∈ (getMaxKeyFromAllVectors lt m vecs temp).1, SortedVec lt vec) ∧
      (∀ vec ∈ vecs, ∀ b, vec.getLast? = some b → equivKeys lt m b.1 = true → popped ≠ []) := by
  induction vecs generalizing temp with
  | nil =>
    exact ⟨[], by simp [getMaxKeyFromAllVectors], by simp [getMaxKeyFromAllVectors],
      by simp, by simp [getMaxKeyFromAllVectors], by simp [getMaxKeyFromAllVectors], by simp⟩
  | cons vec rest ih =>
    have hsv : SortedVec lt vec := hs vec (List.mem_cons_self _ _)
    have hmv : ∀ x ∈ vec, lt m x.1 = false := fun x hx =>
      hmax x (by rw [List.flatten_cons]; exact List.mem_append_left _ hx)
    obtain ⟨kept, trailing, h1, h2, h3, h4⟩ := popEquivalent_sorted lt h m vec temp hsv hmv
    obtain ⟨popped, g1, g2, g3, g4, g5, g6⟩ := ih (temp ++ trailing.reverse)
      (fun v hv => hs v (List.mem_cons_of_mem _ hv))
      (fun x hx => hmax x (by rw [List.flatten_cons]; exact List.mem_append_right _ hx))
    have hdef : getMaxKeyFromAllVectors lt m (vec :: rest) temp
        = (kept :: (getMaxKeyFromAllVectors lt m rest (temp ++ trailing.reverse)).1,
           (getMaxKeyFromAllVectors lt m rest (temp ++ trailing.reverse)).2) := by
      simp only [getMaxKeyFromAllVectors, h2]
    rw [hdef]
    refine ⟨trailing.reverse ++ popped, ?_, ?_, ?_, ?_, ?_, ?_⟩
    · simp only [g1, List.append_assoc]
    · simp only [List.flatten_cons]
      rw [h1]
      have e1 : (trailing.reverse ++ popped
          ++ (kept ++ (getMaxKeyFromAllVectors lt m rest (temp ++ trailing.reverse)).1.flatten)).Perm
          ((kept ++ trailing) ++ (popped
            ++ (getMaxKeyFromAllVectors lt m rest (temp ++ trailing.reverse)).1.flatten)) := by
        generalize (getMaxKeyFromAllVectors lt m rest (temp ++ trailing.reverse)).1.flatten = X
        have p1 : (trailing.reverse ++ popped ++ (kept ++ X)).Perm
            (trailing ++ popped ++ (kept ++ X)) :=
          ((List.reverse_perm trailing).append_right popped).append_right _
        refine p1.trans ?_
        have p2 : (trailing ++ popped ++ kept).Perm (kept ++ (trailing ++ popped)) :=
          List.perm_append_comm
        have p3 := p2.append_right X
        simpa only [List.append_assoc] using p3
      exact e1.trans (List.Perm.append_left _ g2)
    · intro x hx
      rcases List.mem_append.mp hx with hx | hx
      · exact h3 x (List.mem_reverse.mp hx)
      · exact g3 x hx
    · intro x hx
      simp only [List.flatten_cons] at hx
      rcases List.mem_append.mp hx with hx | hx
      · exact h4 x hx
      · exact g4 x hx
    · intro v hv
      rcases List.mem_cons.mp hv with hv | hv
      · subst hv
        rw [h1] at hsv
        exact (List.pairwise_append.mp hsv).1
      · exact g5 v hv
    · intro v hv b hb heq
      rcases List.mem_cons.mp hv with hv | hv
      · subst hv
        have hbv : b ∈ v := mem_of_getLast_eq _ _ hb
        have hbt : trailing ≠ [] := by
          intro ht
          rw [ht, List.append_nil] at h1
          rw [h1] at hbv
          have := h4 b hbv
          rw [heq] at this
          cases this
        intro hnil
        have := (List.append_eq_nil.mp hnil).1
        exact hbt (List.reverse_eq_nil_iff.mp this)
      · have := g6 v hv b hb heq
        intro hnil
        exact this (List.append_eq_nil.mp hnil).2

end Shuffle

/-! ### The steps of the workers -/

section Machine

variable {I K V O : Type}

@[simp] theorem goto_pc_self (c : Job I K V O) (tid : Nat) (p : Pc K V) :
    (goto c tid p).pc tid = p := by
  simp [goto]

theorem goto_pc_of_ne (c : Job I K V O) (tid t : Nat) (p : Pc K V) (h : t ≠ tid) :
    (goto c tid p).pc t = c.pc t := by
  simp [goto, Function.update_noteq h]

theorem goto_pc (c : Job I K V O) (tid t : Nat) (p : Pc K V) :
    (goto c tid p).pc t = if t = tid then p else c.pc t := by
  by_cases h : t = tid
  · subst h
    simp
  · simp [h, goto_pc_of_ne c tid t p h]

/-- Every step that `step` takes is a case of `Step`. -/
theorem step_Step (client : Client I K V O) (std_sort : List (K × V) → List (K × V))
    (tid : Nat) (c c' : Job I K V O) (h : step client std_sort tid c = some c') :
    tid < c.threads_num ∧ Step client std_sort tid c c' := by
  unfold step at h
  by_cases htid : tid < c.threads_num
  · refine ⟨htid, ?_⟩
    simp only [htid, if_true] at h
    cases hpc : c.pc tid with
    | mapLoop =>
      simp only [hpc] at h
      by_cases hlt : get_atomic_processed_pairs c.atomic_counter < (c.context_input_vec.length : Int)
      · simp only [hlt, if_true] at h
        cases hpair : c.context_input_vec[(get_atomic_processed_pairs c.atomic_counter).toNat]? with
        | none => simp only [hpair] at h; cases h
        | some pair =>
          simp only [hpair, Option.some.injEq] at h
          subst h
          exact Step.mapClaim pair _ hpc hlt hpair rfl
      · simp only [hlt, if_false, Option.some.injEq] at h
        subst h
        exact Step.mapLeave hpc hlt
    | mapUpdate =>
      simp only [hpc, Option.some.injEq] at h
      subst h
      exact Step.mapUpdate _ hpc rfl
    | sort =>
      simp only [hpc] at h
      cases hvec : (c.context_intermediate_vec tid).isEmpty with
      | true =>
        simp only [hvec, if_true, Option.some.injEq] at h
        subst h
        exact Step.sortEmpty hpc hvec
      | false =>
        simp only [hvec, Bool.false_eq_true, if_false, Option.some.injEq] at h
        subst h
        exact Step.sortPush hpc hvec
    | barrier =>
      simp only [hpc] at h
      cases hall : allArrived c with
      | true =>
        simp only [hall, if_true, Option.some.injEq] at h
        subst h
        exact Step.barrier hpc hall
      | false =>
        simp only [hall, Bool.false_eq_true, if_false] at h
        cases h
    | shuffle =>
      simp only [hpc] at h
      by_cases hz : (c.all_intermediate_vec.map List.length).sum = 0
      · simp only [hz, if_true, Option.some.injEq] at h
        subst h
        exact Step.shuffleSkip hpc hz
      · simp only [hz, if_false, Option.some.injEq] at h
        subst h
        exact Step.shuffleReset hpc hz
    | shuffleSetStage pairs_num =>
      simp only [hpc, Option.some.injEq] at h
      subst h
      exact Step.shuffleSetStage pairs_num _ hpc rfl
    | shuffleSetTotal pairs_num =>
      simp only [hpc, Option.some.injEq] at h
      subst h
      exact Step.shuffleSetTotal pairs_num _ hpc rfl
    | shuffleFirstUpdate =>
      simp only [hpc, Option.some.injEq] at h
      subst h
      exact Step.shuffleFirstUpdate _ hpc rfl
    | shuffleLoop =>
      simp only [hpc] at h
      cases hmax : findMaxKey client.lt c.all_intermediate_vec none with
      | none =>
        simp only [hmax, Option.some.injEq] at h
        subst h
        exact Step.shuffleExit hpc hmax
      | some m =>
        simp only [hmax, Option.some.injEq] at h
        subst h
        exact Step.shuffleGroup m hpc hmax
    | shuffleAdd size =>
      simp only [hpc, Option.some.injEq] at h
      subst h
      exact Step.shuffleAdd size _ hpc rfl
    | shuffleUpdate =>
      simp only [hpc, Option.some.injEq] at h
      subst h
      exact Step.shuffleUpdate _ hpc rfl
    | readyReset =>
      simp only [hpc, Option.some.injEq] at h
      subst h
      exact Step.readyReset hpc
    | readySetStage =>
      simp only [hpc, Option.some.injEq] at h
      subst h
      exact Step.readySetStage _ hpc rfl
    | readySetTotal =>
      simp only [hpc, Option.some.injEq] at h
      subst h
      exact Step.readySetTotal _ hpc rfl
    | readyUpdate =>
      simp only [hpc, Option.some.injEq] at h
      subst h
      exact Step.readyUpdate _ hpc rfl
    | readyPost i =>
      simp only [hpc] at h
      by_cases hi : i < c.threads_num
      · simp only [hi, if_true, Option.some.injEq] at h
        subst h
        exact Step.post i hpc hi
      · simp only [hi, if_false, Option.some.injEq] at h
        subst h
        exact Step.postDone i hpc hi
    | semWait =>
      simp only [hpc] at h
      by_cases hs : 0 < c.sem
      · simp only [hs, if_true, Option.some.injEq] at h
        subst h
        exact Step.semWait hpc hs
      · simp only [hs, if_false] at h
        cases h
    | reduceLoop =>
      simp only [hpc] at h
      cases hback : c.shuffled_vector.getLast? with
      | none =>
        simp only [hback, Option.some.injEq] at h
        subst h
        exact Step.reduceLeave hpc hback
      | some g =>
        simp only [hback, Option.some.injEq] at h
        subst h
        exact Step.reducePop g hpc hback
    | reduceCall g =>
      simp only [hpc, Option.some.injEq] at h
      subst h
      exact Step.reduceCall g hpc
    | reduceAdd =>
      simp only [hpc, Option.some.injEq] at h
      subst h
      exact Step.reduceAdd _ hpc rfl
    | reduceUpdate =>
      simp only [hpc, Option.some.injEq] at h
      subst h
      exact Step.reduceUpdate _ hpc rfl
    | join i =>
      simp only [hpc] at h
      by_cases hi : i < c.threads_num
      · simp only [hi, if_true] at h
        cases hret : returned (c.pc i) with
        | true =>
          simp only [hret, if_true, Option.some.injEq] at h
          subst h
          exact Step.joinNext i hpc hi hret
        | false =>
          simp only [hret, Bool.false_eq_true, if_false] at h
          cases h
      · simp only [hi, if_false, Option.some.injEq] at h
        subst h
        exact Step.joinDone i hpc hi
    | done =>
      simp only [hpc] at h
      cases h
  · simp only [htid, if_false] at h
    cases h

@[simp] theorem goto_threads_num (c : Job I K V O) (tid : Nat) (p : Pc K V) :
    (goto c tid p).threads_num = c.threads_num := rfl
@[simp] theorem goto_context_input_vec (c : Job I K V O) (tid : Nat) (p : Pc K V) :
    (goto c tid p).context_input_vec = c.context_input_vec := rfl
@[simp] theorem goto_atomic_counter (c : Job I K V O) (tid : Nat) (p : Pc K V) :
    (goto c tid p).atomic_counter = c.atomic_counter := rfl
@[simp] theorem goto_state (c : Job I K V O) (tid : Nat) (p : Pc K V) :
    (goto c tid p).state = c.state := rfl
@[simp] theorem goto_context_intermediate_vec (c : Job I K V O) (tid : Nat) (p : Pc K V) :
    (goto c tid p).context_intermediate_vec = c.context_intermediate_vec := rfl
@[simp] theorem goto_all_intermediate_vec (c : Job I K V O) (tid : Nat) (p : Pc K V) :
    (goto c tid p).all_intermediate_vec = c.all_intermediate_vec := rfl
@[simp] theorem goto_shuffled_vector (c : Job I K V O) (tid : Nat) (p : Pc K V) :
    (goto c tid p).shuffled_vector = c.shuffled_vector := rfl
@[simp] theorem goto_context_output_vec (c : Job I K V O) (tid : Nat) (p : Pc K V) :
    (goto c tid p).context_output_vec = c.context_output_vec := rfl
@[simp] theorem goto_sem (c : Job I K V O) (tid : Nat) (p : Pc K V) :
    (goto c tid p).sem = c.sem := rfl
@[simp] theorem goto_mapCalls (c : Job I K V O) (tid : Nat) (p : Pc K V) :
    (goto c tid p).mapCalls = c.mapCalls := rfl
@[simp] theorem goto_reduceCalls (c : Job I K V O) (tid : Nat) (p : Pc K V) :
    (goto c tid p).reduceCalls = c.reduceCalls := rfl
@[simp] theorem goto_posts (c : Job I K V O) (tid : Nat) (p : Pc K V) :
    (goto c tid p).posts = c.posts := rfl

@[simp] theorem update_stage_threads_num (c : Job I K V O) :
    (update_stage c).threads_num = c.threads_num := rfl
@[simp] theorem update_stage_context_input_vec (c : Job I K V O) :
    (update_stage c).context_input_vec = c.context_input_vec := rfl
@[simp] theorem update_stage_atomic_counter (c : Job I K V O) :
    (update_stage c).atomic_counter = c.atomic_counter := rfl
@[simp] theorem update_stage_context_intermediate_vec (c : Job I K V O) :
    (update_stage c).context_intermediate_vec = c.context_intermediate_vec := rfl
@[simp] theorem update_stage_all_intermediate_vec (c : Job I K V O) :
    (update_stage c).all_intermediate_vec = c.all_intermediate_vec := rfl
@[simp] theorem update_stage_shuffled_vector (c : Job I K V O) :
    (update_stage c).shuffled_vector = c.shuffled_vector := rfl
@[simp] theorem update_stage_context_output_vec (c : Job I K V O) :
    (update_stage c).context_output_vec = c.context_output_vec := rfl
@[simp] theorem update_stage_sem (c : Job I K V O) : (update_stage c).sem = c.sem := rfl
@[simp] theorem update_stage_pc (c : Job I K V O) : (update_stage c).pc = c.pc := rfl
@[simp] theorem update_stage_mapCalls (c : Job I K V O) :
    (update_stage c).mapCalls = c.mapCalls := rfl
@[simp] theorem update_stage_reduceCalls (c : Job I K V O) :
    (update_stage c).reduceCalls = c.reduceCalls := rfl
@[simp] theorem update_stage_posts (c : Job I K V O) : (update_stage c).posts = c.posts := rfl
@[simp] theorem update_stage_stage (c : Job I K V O) :
    (update_stage c).state.stage = get_atomic_stage c.atomic_counter := rfl

/-- A step of a waiting worker only moves that worker from the barrier to
`sem_wait`, while the semaphore is 0. -/
theorem Step_of_waiting (client : Client I K V O) (std_sort : List (K × V) → List (K × V))
    (tid : Nat) (c c' : Job I K V O) (hstep : Step client std_sort tid c c')
    (hw : waiting (c.pc tid) = true) (hne : tid ≠ 0) (hsem : c.sem = 0) :
    c' = goto c tid Pc.semWait := by
  cases hstep
  case barrier hpc hall => simp [hne]
  case semWait hpc hs => omega
  all_goals (exfalso; simp_all [waiting])

theorem ShuffleInv_goto_other (lt : K → K → Bool) (P : List (K × V)) (c : Job I K V O)
    (tid : Nat) (hinv : ShuffleInv lt P c) (hne : tid ≠ 0) :
    ShuffleInv lt P (goto c tid Pc.semWait) := by
  have h0 : (goto c tid Pc.semWait).pc 0 = c.pc 0 := goto_pc_of_ne c tid 0 _ (Ne.symm hne)
  refine ⟨by rw [h0]; exact hinv.leader, ?_, hinv.sem, hinv.posts, hinv.out, hinv.calls,
    hinv.sorted, hinv.groups, hinv.apart, hinv.perm, by rw [h0]; exact hinv.left⟩
  intro t ht0 htw
  rw [goto_pc]
  split
  · rfl
  · exact hinv.others t ht0 htw

theorem ShuffleInv_of_eq (lt : K → K → Bool) (P : List (K × V)) (c c' : Job I K V O)
    (p : Pc K V) (hinv : ShuffleInv lt P c) (hpc : c'.pc = Function.update c.pc 0 p)
    (hp : inShuffle p = true) (hW : c'.threads_num = c.threads_num) (hsem : c'.sem = c.sem)
    (hposts : c'.posts = c.posts) (hout : c'.context_output_vec = c.context_output_vec)
    (hcalls : c'.reduceCalls = c.reduceCalls)
    (hall : c'.all_intermediate_vec = c.all_intermediate_vec)
    (hq : c'.shuffled_vector = c.shuffled_vector)
    (hleft : loopLeft p = true → c.all_intermediate_vec.flatten = []) :
    ShuffleInv lt P c' := by
  have h0 : c'.pc 0 = p := by rw [hpc]; simp
  refine ⟨by rw [h0]; exact hp, ?_, by rw [hsem]; exact hinv.sem, by rw [hposts]; exact hinv.posts,
    by rw [hout]; exact hinv.out, by rw [hcalls]; exact hinv.calls,
    by rw [hall]; exact hinv.sorted, by rw [hq]; exact hinv.groups,
    by rw [hq, hall]; exact hinv.apart, by rw [hq, hall]; exact hinv.perm,
    by rw [h0, hall]; exact hleft⟩
  intro t ht0 htw
  rw [hpc, Function.update_noteq (by omega)]
  exact hinv.others t ht0 (by rw [hW] at htw; exact htw)

theorem ShuffleInv_setWord (lt : K → K → Bool) (P : List (K × V)) (c : Job I K V O)
    (w : Nat) (p : Pc K V) (hinv : ShuffleInv lt P c) (hp : inShuffle p = true)
    (hleft : loopLeft p = true → c.all_intermediate_vec.flatten = []) :
    ShuffleInv lt P (goto { c with atomic_counter := w } 0 p) :=
  ShuffleInv_of_eq lt P c _ p hinv rfl hp rfl rfl rfl rfl rfl rfl rfl hleft

theorem ShuffleInv_setState (lt : K → K → Bool) (P : List (K × V)) (c : Job I K V O)
    (st : JobState) (p : Pc K V) (hinv : ShuffleInv lt P c) (hp : inShuffle p = true)
    (hleft : loopLeft p = true → c.all_intermediate_vec.flatten = []) :
    ShuffleInv lt P (goto { c with state := st } 0 p) :=
  ShuffleInv_of_eq lt P c _ p hinv rfl hp rfl rfl rfl rfl rfl rfl rfl hleft

theorem ShuffleInv_goto (lt : K → K → Bool) (P : List (K × V)) (c : Job I K V O)
    (p : Pc K V) (hinv : ShuffleInv lt P c) (hp : inShuffle p = true)
    (hleft : loopLeft p = true → c.all_intermediate_vec.flatten = []) :
    ShuffleInv lt P (goto c 0 p) :=
  ShuffleInv_of_eq lt P c _ p hinv rfl hp rfl rfl rfl rfl rfl rfl rfl hleft

/-- The step of `shuffle` that forms a group keeps `ShuffleInv`. -/
theorem ShuffleInv_group (client : Client I K V O) (h : StrictWeak client.lt)
    (P : List (K × V)) (c : Job I K V O) (m : K) (hinv : ShuffleInv client.lt P c)
    (hmax : findMaxKey client.lt c.all_intermediate_vec none = some m) :
    ShuffleInv client.lt P
      (goto
        { c with
          all_intermediate_vec :=
            (getMaxKeyFromAllVectors client.lt m c.all_intermediate_vec []).1,
          shuffled_vector := c.shuffled_vector
            ++ [(getMaxKeyFromAllVectors client.lt m c.all_intermediate_vec []).2] }
        0
        (Pc.shuffleAdd
          (getMaxKeyFromAllVectors client.lt m c.all_intermediate_vec []).2.length)) := by
  have hmx := findMaxKey_max client.lt h c.all_intermediate_vec hinv.sorted m hmax
  obtain ⟨popped, g1, g2, g3, g4, g5, g6⟩ :=
    getMaxKeyFromAllVectors_spec client.lt h m c.all_intermediate_vec [] hinv.sorted hmx
  rw [List.nil_append] at g1
  have hne : popped ≠ [] := by
    rcases (findMaxKey_some client.lt h c.all_intermediate_vec none m hmax).1 with h1 | h1
    · cases h1
    · obtain ⟨vec, hvec, b, hb, hbm⟩ := h1
      exact g6 vec hvec b hb (by rw [hbm]; exact equivKeys_refl client.lt h m)
  have hsub : ∀ x ∈ popped, x ∈ c.all_intermediate_vec.flatten := fun x hx =>
    g2.subset (List.mem_append_left _ hx)
  have hsub' : ∀ x ∈ (getMaxKeyFromAllVectors client.lt m c.all_intermediate_vec []).1.flatten,
      x ∈ c.all_intermediate_vec.flatten := fun x hx =>
    g2.subset (List.mem_append_right _ hx)
  refine ⟨rfl, ?_, hinv.sem, hinv.posts, hinv.out, hinv.calls, g5, ?_, ?_, ?_, ?_⟩
  · intro t ht0 htw
    rw [goto_pc_of_ne _ _ _ _ (by omega)]
    exact hinv.others t ht0 htw
  · show GroupsOk client.lt (c.shuffled_vector
      ++ [(getMaxKeyFromAllVectors client.lt m c.all_intermediate_vec []).2])
    rw [g1]
    refine ⟨?_, ?_⟩
    · intro g hg
      rcases List.mem_append.mp hg with hg | hg
      · exact hinv.groups.1 g hg
      · rw [List.mem_singleton.mp hg]
        refine ⟨hne, ?_⟩
        intro a ha b hb
        exact h.2.2 a.1 m b.1 (equivKeys_symm _ _ _ (g3 a ha)) (g3 b hb)
    · rw [List.pairwise_append]
      refine ⟨hinv.groups.2, List.pairwise_singleton _ _, ?_⟩
      intro g hg g' hg' a ha b hb
      rw [List.mem_singleton.mp hg'] at hb
      exact hinv.apart g hg a ha b (hsub b hb)
  · show ∀ g ∈ c.shuffled_vector
      ++ [(getMaxKeyFromAllVectors client.lt m c.all_intermediate_vec []).2], _
    rw [g1]
    intro g hg a ha x hx
    rcases List.mem_append.mp hg with hg | hg
    · exact hinv.apart g hg a ha x (hsub' x hx)
    · rw [List.mem_singleton.mp hg] at ha
      by_contra hc
      have hax : equivKeys client.lt a.1 x.1 = true := by simpa using hc
      have := h.2.2 m a.1 x.1 (g3 a ha) hax
      rw [g4 x hx] at this
      cases this
  · show ((c.shuffled_vector
      ++ [(getMaxKeyFromAllVectors client.lt m c.all_intermediate_vec []).2]).flatten
      ++ (getMaxKeyFromAllVectors client.lt m c.all_intermediate_vec []).1.flatten).Perm P
    rw [g1, List.flatten_append, List.flatten_singleton, List.append_assoc]
    exact (List.Perm.append_left _ g2).trans hinv.perm
  · intro hl
    cases hl

/-- Every step of a worker keeps `ShuffleInv`, except the first `sem_post` of
worker 0, which ends the part of the job that `ShuffleInv` describes. -/
theorem ShuffleInv_step (client : Client I K V O) (std_sort : List (K × V) → List (K × V))
    (h : StrictWeak client.lt) (P : List (K × V)) (tid : Nat) (c c' : Job I K V O)
    (hinv : ShuffleInv client.lt P c) (htid : tid < c.threads_num)
    (hstep : Step client std_sort tid c c') :
    ShuffleInv client.lt P c' ∨
      (tid = 0 ∧ c.pc 0 = Pc.readyPost 0 ∧
        c' = goto { c with sem := c.sem + 1, posts := c.posts + 1 } 0 (Pc.readyPost 1)) := by
  by_cases hne : tid = 0
  · subst hne
    have hl := hinv.leader
    cases hstep with
    | shuffleSetStage pairs_num w hpc hw =>
      exact Or.inl (ShuffleInv_setWord _ P c _ _ hinv rfl
        (fun hc => by cases hc))
    | shuffleSetTotal pairs_num w hpc hw =>
      exact Or.inl (ShuffleInv_setWord _ P c _ _ hinv rfl
        (fun hc => by cases hc))
    | shuffleFirstUpdate st hpc hst =>
      exact Or.inl (ShuffleInv_setState _ P c _ _ hinv rfl
        (fun hc => by cases hc))
    | shuffleExit hpc hmax =>
      exact Or.inl (ShuffleInv_goto _ P c _ hinv rfl
        (fun _ => (findMaxKey_none client.lt c.all_intermediate_vec).mp hmax))
    | shuffleGroup m hpc hmax =>
      exact Or.inl (ShuffleInv_group client h P c m hinv hmax)
    | shuffleAdd size w hpc hw =>
      exact Or.inl (ShuffleInv_setWord _ P c _ _ hinv rfl
        (fun hc => by cases hc))
    | shuffleUpdate st hpc hst =>
      exact Or.inl (ShuffleInv_setState _ P c _ _ hinv rfl
        (fun hc => by cases hc))
    | readyReset hpc =>
      exact Or.inl (ShuffleInv_setWord _ P c _ _ hinv rfl
        (fun _ => hinv.left (by rw [hpc]; rfl)))
    | readySetStage w hpc hw =>
      exact Or.inl (ShuffleInv_setWord _ P c _ _ hinv rfl
        (fun _ => hinv.left (by rw [hpc]; rfl)))
    | readySetTotal w hpc hw =>
      exact Or.inl (ShuffleInv_setWord _ P c _ _ hinv rfl
        (fun _ => hinv.left (by rw [hpc]; rfl)))
    | readyUpdate st hpc hst =>
      exact Or.inl (ShuffleInv_setState _ P c _ _ hinv rfl
        (fun _ => hinv.left (by rw [hpc]; rfl)))
    | post i hpc hi =>
      rw [hpc] at hl
      have hi0 : i = 0 := by simpa [inShuffle] using hl
      subst hi0
      exact Or.inr ⟨rfl, hpc, rfl⟩
    | postDone i hpc hi =>
      rw [hpc] at hl
      have hi0 : i = 0 := by simpa [inShuffle] using hl
      subst hi0
      exact absurd htid hi
    | _ => exfalso; simp_all [inShuffle]
  · have hw := hinv.others tid (by omega) htid
    rw [Step_of_waiting client std_sort tid c c' hstep hw hne hinv.sem]
    exact Or.inl (ShuffleInv_goto_other _ P c tid hinv hne)

end Machine

/-! ### The progress word of a stage -/

theorem set_atomic_stage_zero (s : Nat) (hs : s < 4) :
    set_atomic_stage 0 (s : Int) = wordOf s 0 0 := by
  unfold set_atomic_stage wordOf
  rw [tmod_natCast_four s hs, toUL_natCast s (by omega)]
  norm_num
  omega

theorem set_atomic_stage_map : set_atomic_stage 0 MAP_STAGE = wordOf 1 0 0 := by
  have := set_atomic_stage_zero 1 (by decide)
  simpa [MAP_STAGE] using this

theorem set_atomic_stage_shuffle : set_atomic_stage 0 SHUFFLE_STAGE = wordOf 2 0 0 := by
  have := set_atomic_stage_zero 2 (by decide)
  simpa [SHUFFLE_STAGE] using this

theorem set_atomic_stage_reduce : set_atomic_stage 0 REDUCE_STAGE = wordOf 3 0 0 := by
  have := set_atomic_stage_zero 3 (by decide)
  simpa [REDUCE_STAGE] using this

theorem set_atomic_stage_shuffle_of (w : Nat) (h : w = 0) :
    set_atomic_stage w SHUFFLE_STAGE = wordOf 2 0 0 :=
  (congrArg (fun x => set_atomic_stage x SHUFFLE_STAGE) h).trans set_atomic_stage_shuffle

theorem set_atomic_stage_reduce_of (w : Nat) (h : w = 0) :
    set_atomic_stage w REDUCE_STAGE = wordOf 3 0 0 :=
  (congrArg (fun x => set_atomic_stage x REDUCE_STAGE) h).trans set_atomic_stage_reduce

theorem set_total_wordOf (s p t : Nat) (hs : s < 4) (hp : p < 2 ^ 31) (ht : t < 2 ^ 31) :
    set_atomic_total_number_of_pairs (wordOf s p 0) (t : Int) = wordOf s p t := by
  unfold set_atomic_total_number_of_pairs wordOf
  rw [toUL_natCast t (by norm_num at ht ⊢; omega)]
  norm_num at hp ht ⊢
  omega

theorem set_processed_wordOf (s p t v : Nat) (hs : s < 4) (hp : p + v < 2 ^ 31)
    (ht : t < 2 ^ 31) :
    set_atomic_processed_pairs (wordOf s p t) (v : Int) = wordOf s (p + v) t := by
  unfold set_atomic_processed_pairs wordOf
  rw [toUL_natCast v (by norm_num at hp ⊢; omega)]
  norm_num at hp ht ⊢
  omega

theorem set_processed_wordOf_one (s p t : Nat) (hs : s < 4) (hp : p + 1 < 2 ^ 31)
    (ht : t < 2 ^ 31) :
    set_atomic_processed_pairs (wordOf s p t) 1 = wordOf s (p + 1) t := by
  have := set_processed_wordOf s p t 1 hs hp ht
  simpa using this

theorem getters_wordOf (s p t : Nat) (hp : p < 2 ^ 31) (ht : t < 2 ^ 31) :
    get_atomic_stage (wordOf s p t) = (s : Int) ∧
    get_atomic_processed_pairs (wordOf s p t) = ((p % 2 ^ 28 : Nat) : Int) ∧
    get_atomic_total_num_of_pairs (wordOf s p t) = ((t % 2 ^ 28 : Nat) : Int) ∧
    processedField (wordOf s p t) = p ∧
    totalField (wordOf s p t) = t := by
  unfold wordOf
  exact getters_of_word s p t hp ht

theorem get_atomic_stage_wordOf (s p t : Nat) (hp : p < 2 ^ 31) (ht : t < 2 ^ 31) :
    get_atomic_stage (wordOf s p t) = (s : Int) :=
  (getters_wordOf s p t hp ht).1

theorem get_atomic_processed_pairs_wordOf (s p t : Nat) (hp : p < 2 ^ 28) (ht : t < 2 ^ 31) :
    get_atomic_processed_pairs (wordOf s p t) = (p : Int) := by
  rw [(getters_wordOf s p t (by norm_num at hp ⊢; omega) ht).2.1, Nat.mod_eq_of_lt hp]

theorem get_atomic_total_num_of_pairs_wordOf (s p t : Nat) (hp : p < 2 ^ 31) (ht : t < 2 ^ 28) :
    get_atomic_total_num_of_pairs (wordOf s p t) = (t : Int) := by
  rw [(getters_wordOf s p t hp (by norm_num at ht ⊢; omega)).2.2.1, Nat.mod_eq_of_lt ht]

theorem length_le_flatten_length {α : Type} (groups : List (List α))
    (h : ∀ g ∈ groups, g ≠ []) : groups.length ≤ groups.flatten.length := by
  induction groups with
  | nil => simp
  | cons g gs ih =>
    have hg : g ≠ [] := h g (List.mem_cons_self _ _)
    have hlen : 0 < g.length := List.length_pos.mpr hg
    have := ih (fun g' hg' => h g' (List.mem_cons_of_mem _ hg'))
    simp only [List.length_cons, List.flatten_cons, List.length_append]
    omega

section Machine
variable {I K V O : Type}

theorem ShuffleWord_at (P : List (K × V)) (c : Job I K V O) (p : Pc K V) (hpc : c.pc 0 = p) :
    ShuffleWord P c ↔ ShuffleWordAt P.length c.shuffled_vector.flatten.length
      c.shuffled_vector.length c.atomic_counter c.state.stage p := by
  unfold ShuffleWord
  rw [hpc]

theorem ShuffleWord_goto_other (P : List (K × V)) (c : Job I K V O) (tid : Nat)
    (p : Pc K V) (hw : ShuffleWord P c) (hne : tid ≠ 0) : ShuffleWord P (goto c tid p) := by
  have h0 : (goto c tid p).pc 0 = c.pc 0 := goto_pc_of_ne c tid 0 _ (Ne.symm hne)
  unfold ShuffleWord at hw ⊢
  rw [h0]
  exact hw

theorem ShuffleWord_setWord (P : List (K × V)) (c : Job I K V O) (w : Nat) (p : Pc K V) :
    ShuffleWord P (goto { c with atomic_counter := w } 0 p) ↔
      ShuffleWordAt P.length c.shuffled_vector.flatten.length c.shuffled_vector.length
        w c.state.stage p := by
  unfold ShuffleWord
  rw [goto_pc_self]
  exact Iff.rfl

theorem ShuffleWord_goto (P : List (K × V)) (c : Job I K V O) (p : Pc K V) :
    ShuffleWord P (goto c 0 p) ↔
      ShuffleWordAt P.length c.shuffled_vector.flatten.length c.shuffled_vector.length
        c.atomic_counter c.state.stage p := by
  unfold ShuffleWord
  rw [goto_pc_self]
  exact Iff.rfl

theorem ShuffleWord_setState (P : List (K × V)) (c : Job I K V O) (st : JobState)
    (p : Pc K V) :
    ShuffleWord P (goto { c with state := st } 0 p) ↔
      ShuffleWordAt P.length c.shuffled_vector.flatten.length c.shuffled_vector.length
        c.atomic_counter st.stage p := by
  unfold ShuffleWord
  rw [goto_pc_self]
  exact Iff.rfl

theorem ShuffleWord_group (P : List (K × V)) (c : Job I K V O) (vecs : List (List (K × V)))
    (g : List (K × V)) (p : Pc K V) :
    ShuffleWord P
        (goto { c with all_intermediate_vec := vecs, shuffled_vector := c.shuffled_vector ++ [g] }
          0 p) ↔
      ShuffleWordAt P.length (c.shuffled_vector.flatten.length + g.length)
        (c.shuffled_vector.length + 1) c.atomic_counter c.state.stage p := by
  unfold ShuffleWord
  rw [goto_pc_self]
  show ShuffleWordAt P.length (c.shuffled_vector ++ [g]).flatten.length
    (c.shuffled_vector ++ [g]).length c.atomic_counter c.state.stage p ↔ _
  rw [List.flatten_append, List.flatten_singleton, List.length_append, List.length_append,
    List.length_singleton]

theorem stage_of_update (c : Job I K V O) (st : JobState) (hst : st = (update_stage c).state) :
    st.stage = get_atomic_stage c.atomic_counter := by
  rw [hst]
  rfl

/-- Every step that stays inside the part of the job that `ShuffleInv`
describes keeps `ShuffleWord` and does not lower the reported stage. -/
theorem ShuffleWord_step (client : Client I K V O) (std_sort : List (K × V) → List (K × V))
    (P : List (K × V)) (hP : P.length < 2 ^ 31) (tid : Nat) (c c' : Job I K V O)
    (hinv : ShuffleInv client.lt P c) (hw : ShuffleWord P c) (htid : tid < c.threads_num)
    (hstep : Step client std_sort tid c c') (hinv' : ShuffleInv client.lt P c') :
    ShuffleWord P c' ∧ c.state.stage ≤ c'.state.stage := by
  by_cases hne : tid = 0
  · subst hne
    have hq : c.shuffled_vector.flatten.length + c.all_intermediate_vec.flatten.length
        = P.length := by
      have := hinv.perm.length_eq
      rw [List.length_append] at this
      exact this
    have hG : c.shuffled_vector.length ≤ c.shuffled_vector.flatten.length :=
      length_le_flatten_length _ (fun g hg => (hinv.groups.1 g hg).1)
    have hposts' := hinv'.posts
    clear hinv'
    have hl := hinv.leader
    cases hstep with
    | shuffleSetStage pairs_num w hpc hX =>
      obtain ⟨h1, h2, h3, h4⟩ := (ShuffleWord_at P c _ hpc).mp hw
      rw [set_atomic_stage_shuffle_of _ h1] at hX
      exact ⟨(ShuffleWord_setWord P c _ _).mpr ⟨hX, h2, h3, h4⟩, le_refl _⟩
    | shuffleSetTotal pairs_num w hpc hX =>
      obtain ⟨h1, h2, h3, h4⟩ := (ShuffleWord_at P c _ hpc).mp hw
      rw [h1, h2, set_total_wordOf 2 0 P.length (by omega) (by norm_num) hP] at hX
      exact ⟨(ShuffleWord_setWord P c _ _).mpr ⟨hX, h3, h4⟩, le_refl _⟩
    | shuffleFirstUpdate st hpc hst =>
      obtain ⟨h1, h2, h3⟩ := (ShuffleWord_at P c _ hpc).mp hw
      have hs : st.stage = 2 := by
        rw [stage_of_update c st hst, h1]
        exact get_atomic_stage_wordOf 2 0 P.length (by norm_num) hP
      refine ⟨(ShuffleWord_setState P c _ _).mpr ⟨?_, hs⟩, ?_⟩
      · rw [h1, h2]
      · show c.state.stage ≤ st.stage
        rw [hs]
        exact h3
    | shuffleExit hpc hmax =>
      exact ⟨(ShuffleWord_goto P c _).mpr ((ShuffleWord_at P c _ hpc).mp hw), le_refl _⟩
    | shuffleGroup m hpc hmax =>
      obtain ⟨h1, h2⟩ := (ShuffleWord_at P c _ hpc).mp hw
      exact ⟨(ShuffleWord_group P c _ _ _).mpr ⟨_, h1, rfl, h2⟩, le_refl _⟩
    | shuffleAdd size w hpc hX =>
      obtain ⟨before, h1, h2, h3⟩ := (ShuffleWord_at P c _ hpc).mp hw
      rw [h1, set_processed_wordOf 2 before P.length size (by omega) (by omega) hP, h2] at hX
      exact ⟨(ShuffleWord_setWord P c _ _).mpr ⟨hX, h3⟩, le_refl _⟩
    | shuffleUpdate st hpc hst =>
      obtain ⟨h1, h2⟩ := (ShuffleWord_at P c _ hpc).mp hw
      have hs : st.stage = 2 := by
        rw [stage_of_update c st hst, h1]
        exact get_atomic_stage_wordOf 2 _ P.length (by omega) hP
      refine ⟨(ShuffleWord_setState P c _ _).mpr ⟨h1, hs⟩, ?_⟩
      show c.state.stage ≤ st.stage
      rw [hs, h2]
    | readyReset hpc =>
      obtain ⟨h1, h2⟩ := (ShuffleWord_at P c _ hpc).mp hw
      exact ⟨(ShuffleWord_setWord P c 0 _).mpr ⟨rfl, h2⟩, le_refl _⟩
    | readySetStage w hpc hX =>
      obtain ⟨h1, h2⟩ := (ShuffleWord_at P c _ hpc).mp hw
      rw [set_atomic_stage_reduce_of _ h1] at hX
      exact ⟨(ShuffleWord_setWord P c _ _).mpr ⟨hX, h2⟩, le_refl _⟩
    | readySetTotal w hpc hX =>
      obtain ⟨h1, h2⟩ := (ShuffleWord_at P c _ hpc).mp hw
      rw [h1, set_total_wordOf 3 0 _ (by omega) (by norm_num) (by omega)] at hX
      exact ⟨(ShuffleWord_setWord P c _ _).mpr ⟨hX, h2⟩, le_refl _⟩
    | readyUpdate st hpc hst =>
      obtain ⟨h1, h2⟩ := (ShuffleWord_at P c _ hpc).mp hw
      have hs : st.stage = 3 := by
        rw [stage_of_update c st hst, h1]
        exact get_atomic_stage_wordOf 3 0 _ (by norm_num) (by omega)
      refine ⟨(ShuffleWord_setState P c _ _).mpr ⟨h1, hs⟩, ?_⟩
      show c.state.stage ≤ st.stage
      rw [hs, h2]
      decide
    | post i hpc hi =>
      exfalso
      have : c.posts + 1 = 0 := hposts'
      omega
    | postDone i hpc hi =>
      rw [hpc] at hl
      have hi0 : i = 0 := by simpa [inShuffle] using hl
      subst hi0
      exact absurd htid hi
    | _ => exfalso; simp_all [inShuffle]
  · have hwt := hinv.others tid (by omega) htid
    rw [Step_of_waiting client std_sort tid c c' hstep hwt hne hinv.sem]
    exact ⟨ShuffleWord_goto_other P c tid _ hw hne, le_refl _⟩

end Machine

/-! ### Lists gathered from the workers -/

theorem flatMap_congr_mem {α β : Type} (l : List α) (f g : α → List β)
    (h : ∀ x ∈ l, g x = f x) : l.flatMap g = l.flatMap f := by
  induction l with
  | nil => rfl
  | cons a l ih =>
    rw [List.flatMap_cons, List.flatMap_cons, h a (List.mem_cons_self _ _),
      ih (fun x hx => h x (List.mem_cons_of_mem _ hx))]

theorem gather_congr {α : Type} (W : Nat) (f g : Nat → List α)
    (h : ∀ t, t < W → g t = f t) : gather W g = gather W f :=
  flatMap_congr_mem _ f g (fun t ht => h t (List.mem_range.mp ht))

theorem gather_nil {α : Type} (W : Nat) (f : Nat → List α) (h : ∀ t, t < W → f t = []) :
    gather W f = [] := by
  unfold gather
  rw [flatMap_congr_mem _ (fun _ => []) f (fun t ht => h t (List.mem_range.mp ht))]
  induction List.range W with
  | nil => rfl
  | cons a l ih => rw [List.flatMap_cons, ih, List.append_nil]

theorem mem_gather {α : Type} (W : Nat) (f : Nat → List α) (x : α) :
    x ∈ gather W f ↔ ∃ t, t < W ∧ x ∈ f t := by
  unfold gather
  rw [List.mem_flatMap]
  constructor
  · rintro ⟨t, ht, hx⟩
    exact ⟨t, List.mem_range.mp ht, hx⟩
  · rintro ⟨t, ht, hx⟩
    exact ⟨t, List.mem_range.mpr ht, hx⟩

/-- The gathered list when the list of one worker changes: the lists of the
other workers stand in front of it and behind it as before. -/
theorem gather_split {α : Type} (W tid : Nat) (h : tid < W) (f : Nat → List α) :
    ∃ front back : List α, ∀ g : Nat → List α, (∀ t, t ≠ tid → g t = f t) →
      gather W g = front ++ g tid ++ back := by
  obtain ⟨s, t, hst⟩ := List.append_of_mem (List.mem_range.mpr h)
  have hnd : (s ++ tid :: t).Nodup := by
    rw [← hst]
    exact List.nodup_range W
  have hs : tid ∉ s := fun hm =>
    (List.nodup_append.mp hnd).2.2 hm (List.mem_cons_self _ _) |>.elim
  have ht : tid ∉ t := (List.nodup_cons.mp (List.nodup_append.mp hnd).2.1).1
  refine ⟨s.flatMap f, t.flatMap f, ?_⟩
  intro g hg
  unfold gather
  rw [hst, List.flatMap_append, List.flatMap_cons,
    flatMap_congr_mem s f g (fun x hx => hg x (fun hxt => hs (hxt ▸ hx))),
    flatMap_congr_mem t f g (fun x hx => hg x (fun hxt => ht (hxt ▸ hx))),
    List.append_assoc]

theorem gather_perm {α : Type} (W tid : Nat) (h : tid < W) (f g : Nat → List α)
    (hoff : ∀ t, t ≠ tid → g t = f t) :
    (gather W g ++ f tid).Perm (gather W f ++ g tid) := by
  obtain ⟨front, back, hsplit⟩ := gather_split W tid h f
  rw [hsplit g hoff, hsplit f (fun _ _ => rfl)]
  have e1 : (front ++ g tid ++ back ++ f tid).Perm (front ++ (g tid ++ (back ++ f tid))) := by
    simp only [List.append_assoc]
    exact List.Perm.refl _
  have e2 : (front ++ f tid ++ back ++ g tid).Perm (front ++ (g tid ++ (back ++ f tid))) := by
    simp only [List.append_assoc]
    refine List.Perm.append_left _ ?_
    have : (f tid ++ (back ++ g tid)).Perm ((back ++ g tid) ++ f tid) := List.perm_append_comm
    refine this.trans ?_
    simp only [List.append_assoc]
    have : (back ++ (g tid ++ f tid)).Perm ((g tid ++ f tid) ++ back) := List.perm_append_comm
    refine this.trans ?_
    simp only [List.append_assoc]
    refine List.Perm.append_left _ ?_
    exact List.perm_append_comm
  exact e1.trans e2.symm

theorem gather_length {α : Type} (W tid : Nat) (h : tid < W) (f g : Nat → List α)
    (hoff : ∀ t, t ≠ tid → g t = f t) :
    (gather W g).length + (f tid).length = (gather W f).length + (g tid).length := by
  have := (gather_perm W tid h f g hoff).length_eq
  rw [List.length_append, List.length_append] at this
  exact this

theorem perm_local {α : Type} (Q Q' H H' C C' o n gs : List α)
    (h1 : (H' ++ o).Perm (H ++ n)) (h2 : (Q' ++ n ++ C').Perm (Q ++ o ++ C))
    (h3 : (Q ++ H ++ C).Perm gs) : (Q' ++ H' ++ C').Perm gs := by
  have e1 : ((H' : Multiset α) + (o : Multiset α)) = (H : Multiset α) + (n : Multiset α) := by
    have := Multiset.coe_eq_coe.mpr h1
    rwa [← Multiset.coe_add, ← Multiset.coe_add] at this
  have e2 : ((Q' : Multiset α) + (n : Multiset α) + (C' : Multiset α))
      = (Q : Multiset α) + (o : Multiset α) + (C : Multiset α) := by
    have := Multiset.coe_eq_coe.mpr h2
    rwa [← Multiset.coe_add, ← Multiset.coe_add, ← Multiset.coe_add, ← Multiset.coe_add] at this
  have e3 : ((Q : Multiset α) + (H : Multiset α) + (C : Multiset α)) = (gs : Multiset α) := by
    have := Multiset.coe_eq_coe.mpr h3
    rwa [← Multiset.coe_add, ← Multiset.coe_add] at this
  apply Multiset.coe_eq_coe.mp
  rw [← Multiset.coe_add, ← Multiset.coe_add]
  apply add_right_cancel (b := (o : Multiset α))
  calc ((Q' : Multiset α) + (H' : Multiset α) + (C' : Multiset α)) + (o : Multiset α)
      = (Q' : Multiset α) + (C' : Multiset α) + ((H' : Multiset α) + (o : Multiset α)) := by abel
    _ = (Q' : Multiset α) + (C' : Multiset α) + ((H : Multiset α) + (n : Multiset α)) := by rw [e1]
    _ = ((Q' : Multiset α) + (n : Multiset α) + (C' : Multiset α)) + (H : Multiset α) := by abel
    _ = ((Q : Multiset α) + (o : Multiset α) + (C : Multiset α)) + (H : Multiset α) := by rw [e2]
    _ = ((Q : Multiset α) + (H : Multiset α) + (C : Multiset α)) + (o : Multiset α) := by abel
    _ = (gs : Multiset α) + (o : Multiset α) := by rw [e3]

section Machine
variable {I K V O : Type}

theorem update_pc_apply (pc : Nat → Pc K V) (tid t : Nat) (p : Pc K V) :
    Function.update pc tid p t = if t = tid then p else pc t := by
  by_cases h : t = tid
  · subst h
    simp
  · simp [h]

/-- A step of worker `tid` that takes it to position `p` keeps `ReduceInv`
when the changes it makes fit the position. -/
theorem ReduceInv_of (client : Client I K V O) (gs : List (List (K × V))) (c c' : Job I K V O)
    (tid : Nat) (p : Pc K V) (hinv : ReduceInv client gs c) (htid : tid < c.threads_num)
    (hpc : c'.pc = Function.update c.pc tid p)
    (hW : c'.threads_num = c.threads_num)
    (hp : reducePc tid p = true)
    (hposts0 : tid = 0 → c'.posts = postsAt c.threads_num p)
    (hposts1 : tid ≠ 0 → c'.posts = c.posts)
    (hbound : tid = 0 → ∀ i, p = Pc.readyPost i → i ≤ c.threads_num)
    (hfront : ∃ rest, gs = c'.shuffled_vector ++ rest)
    (hgroups : (c'.shuffled_vector ++ heldAt p ++ c'.reduceCalls).Perm
      (c.shuffled_vector ++ heldAt (c.pc tid) ++ c.reduceCalls))
    (hword : ∀ r, c.atomic_counter = wordOf 3 r gs.length →
      r + (gather c.threads_num (fun t => addingAt (c.pc t))).length = c.reduceCalls.length →
      ∃ r',
      c'.atomic_counter = wordOf 3 r' gs.length ∧
      r' + (addingAt p).length + c.reduceCalls.length
        = r + (addingAt (c.pc tid)).length + c'.reduceCalls.length)
    (hstage : c'.state.stage = 3)
    (houtput : c'.context_output_vec = (c'.reduceCalls.map client.reduce).flatten)
    (hdrain0 : leftReduce p = true → c'.shuffled_vector = [])
    (hdrain1 : c.shuffled_vector = [] → c'.shuffled_vector = []) :
    ReduceInv client gs c' := by
  have hoff : ∀ {α : Type} (F : Pc K V → List α) (t : Nat), t ≠ tid →
      F (c'.pc t) = F (c.pc t) := by
    intro α F t ht
    rw [hpc, Function.update_noteq ht]
  have hat : c'.pc tid = p := by rw [hpc]; simp
  refine ⟨?_, ?_, ?_, hfront, ?_, ?_, hstage, houtput, ?_⟩
  · intro t ht
    rw [hW] at ht
    rw [hpc, update_pc_apply]
    split
    · next h => rw [h]; exact hp
    · exact hinv.pcs t ht
  · rw [hW]
    by_cases h0 : tid = 0
    · rw [hposts0 h0, hpc, h0]
      simp
    · rw [hposts1 h0, hinv.posts, hpc, Function.update_noteq (Ne.symm h0)]
  · intro i hi
    rw [hW]
    by_cases h0 : tid = 0
    · rw [hpc, h0] at hi
      simp only [Function.update_same] at hi
      exact hbound h0 i hi
    · rw [hpc, Function.update_noteq (Ne.symm h0)] at hi
      exact hinv.postBound i hi
  · rw [hW]
    have h1 := gather_perm c.threads_num tid htid (fun t => heldAt (c.pc t))
      (fun t => heldAt (c'.pc t)) (fun t ht => hoff heldAt t ht)
    simp only [hat] at h1
    exact perm_local _ _ _ _ _ _ _ _ _ h1 hgroups hinv.groups
  · rw [hW]
    obtain ⟨r, hr1, hr2⟩ := hinv.word
    obtain ⟨r', hr1', hr2'⟩ := hword r hr1 hr2
    refine ⟨r', hr1', ?_⟩
    have h1 := gather_length c.threads_num tid htid (fun t => addingAt (c.pc t))
      (fun t => addingAt (c'.pc t)) (fun t ht => hoff addingAt t ht)
    simp only [hat] at h1
    omega
  · intro t ht hl
    rw [hW] at ht
    rw [hpc, update_pc_apply] at hl
    split at hl
    · exact hdrain0 hl
    · exact hdrain1 (hinv.drained t ht hl)

theorem gather_length_pos {α : Type} (W tid : Nat) (h : tid < W) (f : Nat → List α)
    (hne : f tid ≠ []) : 0 < (gather W f).length := by
  obtain ⟨x, hx⟩ := List.exists_mem_of_ne_nil _ hne
  exact List.length_pos_of_mem ((mem_gather W f x).mpr ⟨tid, h, hx⟩)

theorem ReduceInv_calls_le (client : Client I K V O) (gs : List (List (K × V)))
    (c : Job I K V O) (hinv : ReduceInv client gs c) : c.reduceCalls.length ≤ gs.length := by
  have := hinv.groups.length_eq
  rw [List.length_append, List.length_append] at this
  omega

/-- Every step of a worker keeps `ReduceInv`, and the reported stage stays
REDUCE. -/
theorem ReduceInv_step (client : Client I K V O) (std_sort : List (K × V) → List (K × V))
    (gs : List (List (K × V))) (hG : gs.length < 2 ^ 31) (tid : Nat) (c c' : Job I K V O)
    (hinv : ReduceInv client gs c) (htid : tid < c.threads_num)
    (hstep : Step client std_sort tid c c') :
    ReduceInv client gs c' := by
  have hpcs := hinv.pcs tid htid
  have hle := ReduceInv_calls_le client gs c hinv
  have keep : ∀ q : Pc K V, c.pc tid = q → postsAt c.threads_num q = c.threads_num →
      tid = 0 → c.posts = c.threads_num := by
    intro q hq hW h0
    have := hinv.posts
    rw [← h0, hq, hW] at this
    exact this
  cases hstep with
  | barrier hpc hall =>
    rw [hpc] at hpcs
    have h0 : tid ≠ 0 := by simpa [reducePc] using hpcs
    rw [if_neg h0]
    exact ReduceInv_of client gs c _ tid Pc.semWait hinv htid rfl rfl (by simpa [reducePc] using h0)
      (fun h => absurd h h0) (fun _ => rfl) (fun h => absurd h h0) hinv.front
      (by rw [hpc]; exact List.Perm.refl _)
      (fun r hr _ => ⟨r, hr, by rw [hpc]; rfl⟩) hinv.stage hinv.output
      (fun h => by cases h) (fun h => h)
  | semWait hpc hsem =>
    rw [hpc] at hpcs
    have h0 : tid ≠ 0 := by simpa [reducePc] using hpcs
    exact ReduceInv_of client gs c _ tid Pc.reduceLoop hinv htid rfl rfl rfl
      (fun h => absurd h h0) (fun _ => rfl) (fun h => absurd h h0) hinv.front
      (by rw [hpc]; exact List.Perm.refl _)
      (fun r hr _ => ⟨r, hr, by rw [hpc]; rfl⟩) hinv.stage hinv.output
      (fun h => by cases h) (fun h => h)
  | reducePop g hpc hback =>
    have hq : c.shuffled_vector.dropLast ++ [g] = c.shuffled_vector :=
      List.dropLast_append_getLast? g hback
    obtain ⟨rest, hrest⟩ := hinv.front
    refine ReduceInv_of client gs c _ tid (Pc.reduceCall g) hinv htid rfl rfl rfl
      (fun h => keep _ hpc rfl h) (fun _ => rfl) (fun _ i hi => by cases hi)
      ⟨[g] ++ rest, ?_⟩ ?_
      (fun r hr _ => ⟨r, hr, by rw [hpc]; rfl⟩) hinv.stage hinv.output
      (fun h => by cases h) ?_
    · show gs = c.shuffled_vector.dropLast ++ ([g] ++ rest)
      rw [← List.append_assoc, hq]
      exact hrest
    · rw [hpc]
      show (c.shuffled_vector.dropLast ++ [g] ++ c.reduceCalls).Perm
        (c.shuffled_vector ++ [] ++ c.reduceCalls)
      rw [hq, List.append_nil]
    · intro h
      show c.shuffled_vector.dropLast = []
      rw [h]
      rfl
  | reduceLeave hpc hback =>
    have hq : c.shuffled_vector = [] := List.getLast?_eq_none_iff.mp hback
    by_cases h0 : tid = 0
    · rw [if_pos h0]
      exact ReduceInv_of client gs c _ tid (Pc.join 1) hinv htid rfl rfl
        (by rw [h0]; rfl)
        (fun h => keep _ hpc rfl h) (fun _ => rfl) (fun _ i hi => by cases hi) hinv.front
        (by rw [hpc]; exact List.Perm.refl _)
        (fun r hr _ => ⟨r, hr, by rw [hpc]; rfl⟩) hinv.stage hinv.output
        (fun _ => hq) (fun h => h)
    · rw [if_neg h0]
      exact ReduceInv_of client gs c _ tid Pc.done hinv htid rfl rfl rfl
        (fun h => absurd h h0) (fun _ => rfl) (fun h => absurd h h0) hinv.front
        (by rw [hpc]; exact List.Perm.refl _)
        (fun r hr _ => ⟨r, hr, by rw [hpc]; rfl⟩) hinv.stage hinv.output
        (fun _ => hq) (fun h => h)
  | reduceCall g hpc =>
    refine ReduceInv_of client gs c _ tid Pc.reduceAdd hinv htid rfl rfl rfl
      (fun h => keep _ hpc rfl h) (fun _ => rfl) (fun _ i hi => by cases hi) hinv.front
      ?_ (fun r hr _ => ⟨r, hr, ?_⟩) hinv.stage ?_
      (fun h => by cases h) (fun h => h)
    · rw [hpc]
      show (c.shuffled_vector ++ [] ++ (c.reduceCalls ++ [g])).Perm
        (c.shuffled_vector ++ [g] ++ c.reduceCalls)
      rw [List.append_nil, List.append_assoc]
      exact List.Perm.append_left _ List.perm_append_comm
    · rw [hpc]
      show r + 1 + c.reduceCalls.length = r + 0 + (c.reduceCalls ++ [g]).length
      rw [List.length_append, List.length_singleton]
      omega
    · show c.context_output_vec ++ client.reduce g
        = ((c.reduceCalls ++ [g]).map client.reduce).flatten
      rw [hinv.output, List.map_append, List.flatten_append]
      simp
  | reduceAdd w hpc hw =>
    have hpos : 0 < (gather c.threads_num (fun t => addingAt (c.pc t))).length :=
      gather_length_pos _ tid htid _ (by rw [hpc]; exact List.cons_ne_nil _ _)
    refine ReduceInv_of client gs c _ tid Pc.reduceUpdate hinv htid rfl rfl rfl
      (fun h => keep _ hpc rfl h) (fun _ => rfl) (fun _ i hi => by cases hi) hinv.front
      (by rw [hpc]; exact List.Perm.refl _)
      (fun r hr hr2 => ⟨r + 1, ?_, ?_⟩) hinv.stage hinv.output
      (fun h => by cases h) (fun h => h)
    · show w = wordOf 3 (r + 1) gs.length
      rw [hw, hr]
      exact set_processed_wordOf_one 3 r gs.length (by omega) (by omega) hG
    · rw [hpc]
      show r + 1 + 0 + c.reduceCalls.length = r + 1 + c.reduceCalls.length
      omega
  | reduceUpdate st hpc hst =>
    obtain ⟨r, hr, hr2⟩ := hinv.word
    have hs : st.stage = 3 := by
      rw [stage_of_update c st hst, hr]
      exact get_atomic_stage_wordOf 3 r gs.length (by omega) hG
    exact ReduceInv_of client gs c _ tid Pc.reduceLoop hinv htid rfl rfl rfl
      (fun h => keep _ hpc rfl h) (fun _ => rfl) (fun _ i hi => by cases hi) hinv.front
      (by rw [hpc]; exact List.Perm.refl _)
      (fun r hr _ => ⟨r, hr, by rw [hpc]; rfl⟩) hs hinv.output
      (fun h => by cases h) (fun h => h)
  | post i hpc hi =>
    rw [hpc] at hpcs
    have h0 : tid = 0 := by
      have : tid = 0 ∧ ¬ i = 0 := by simpa [reducePc] using hpcs
      exact this.1
    have hposts : c.posts = i := by
      have := hinv.posts
      rw [← h0, hpc] at this
      exact this
    exact ReduceInv_of client gs c _ tid (Pc.readyPost (i + 1)) hinv htid rfl rfl
      (by rw [h0]; rfl)
      (fun _ => by
        show c.posts + 1 = i + 1
        rw [hposts])
      (fun h => absurd h0 h)
      (fun _ j hj => by
        cases hj
        exact hi)
      hinv.front
      (by rw [hpc]; exact List.Perm.refl _)
      (fun r hr _ => ⟨r, hr, by rw [hpc]; rfl⟩) hinv.stage hinv.output
      (fun h => by cases h) (fun h => h)
  | postDone i hpc hi =>
    rw [hpc] at hpcs
    have h0 : tid = 0 := by
      have : tid = 0 ∧ ¬ i = 0 := by simpa [reducePc] using hpcs
      exact this.1
    have hposts : c.posts = i := by
      have := hinv.posts
      rw [← h0, hpc] at this
      exact this
    have hb : i ≤ c.threads_num := hinv.postBound i (by rw [← h0]; exact hpc)
    exact ReduceInv_of client gs c _ tid Pc.reduceLoop hinv htid rfl rfl rfl
      (fun _ => by
        show c.posts = c.threads_num
        omega)
      (fun h => absurd h0 h) (fun _ j hj => by cases hj) hinv.front
      (by rw [hpc]; exact List.Perm.refl _)
      (fun r hr _ => ⟨r, hr, by rw [hpc]; rfl⟩) hinv.stage hinv.output
      (fun h => by cases h) (fun h => h)
  | joinNext i hpc hi hret =>
    rw [hpc] at hpcs
    have h0 : tid = 0 := by
      have : tid = 0 ∧ ¬ i = 0 := by simpa [reducePc] using hpcs
      exact this.1
    exact ReduceInv_of client gs c _ tid (Pc.join (i + 1)) hinv htid rfl rfl
      (by rw [h0]; rfl)
      (fun h => keep _ hpc rfl h) (fun h => absurd h0 h) (fun _ j hj => by cases hj) hinv.front
      (by rw [hpc]; exact List.Perm.refl _)
      (fun r hr _ => ⟨r, hr, by rw [hpc]; rfl⟩) hinv.stage hinv.output
      (fun _ => hinv.drained tid htid (by rw [hpc]; rfl)) (fun h => h)
  | joinDone i hpc hi =>
    exact ReduceInv_of client gs c _ tid Pc.done hinv htid rfl rfl rfl
      (fun h => keep _ hpc rfl h) (fun _ => rfl) (fun _ j hj => by cases hj) hinv.front
      (by rw [hpc]; exact List.Perm.refl _)
      (fun r hr _ => ⟨r, hr, by rw [hpc]; rfl⟩) hinv.stage hinv.output
      (fun _ => hinv.drained tid htid (by rw [hpc]; rfl)) (fun h => h)
  | _ => exfalso; simp_all [reducePc]

end Machine

section Machine
variable {I K V O : Type}

theorem reducePc_of_waiting (tid : Nat) (p : Pc K V) (h0 : tid ≠ 0) (h : waiting p = true) :
    reducePc tid p = true ∧ heldAt p = [] ∧ addingAt p = [] ∧ leftReduce p = false ∧
      returned p = false := by
  cases p <;> simp_all [waiting, reducePc, heldAt, addingAt, leftReduce, returned]

/-- A step in a job behind a `shuffle` that found no pair keeps `SkipInv` and
changes neither the progress word nor the reported state. -/
theorem SkipInv_step (client : Client I K V O) (std_sort : List (K × V) → List (K × V))
    (tid : Nat) (c c' : Job I K V O) (hinv : SkipInv c) (htid : tid < c.threads_num)
    (hstep : Step client std_sort tid c c') :
    SkipInv c' ∧ c'.state = c.state ∧ c'.atomic_counter = c.atomic_counter := by
  by_cases hne : tid = 0
  · subst hne
    have hl := hinv.leader
    have hmk : ∀ p : Pc K V, skipPc p = true → SkipInv (goto c 0 p) := by
      intro p hp
      refine ⟨by rw [goto_pc_self]; exact hp, ?_, hinv.sem, hinv.posts, hinv.queue, hinv.out,
        hinv.calls⟩
      intro t ht0 htw
      rw [goto_pc_of_ne _ _ _ _ (by omega)]
      exact hinv.others t ht0 htw
    cases hstep with
    | reducePop g hpc hback =>
      rw [hinv.queue] at hback
      cases hback
    | reduceLeave hpc hback =>
      exact ⟨hmk _ rfl, rfl, rfl⟩
    | joinNext i hpc hi hret =>
      exfalso
      rw [hpc] at hl
      have hi0 : i ≠ 0 := by simpa [skipPc] using hl
      have := (reducePc_of_waiting i (c.pc i) hi0 (hinv.others i (by omega) hi)).2.2.2.2
      rw [hret] at this
      cases this
    | joinDone i hpc hi =>
      exact ⟨hmk _ rfl, rfl, rfl⟩
    | _ => exfalso; simp_all [skipPc]
  · have hw := hinv.others tid (by omega) htid
    rw [Step_of_waiting client std_sort tid c c' hstep hw hne hinv.sem]
    refine ⟨⟨?_, ?_, hinv.sem, hinv.posts, hinv.queue, hinv.out, hinv.calls⟩, rfl, rfl⟩
    · rw [goto_pc_of_ne _ _ _ _ (Ne.symm hne)]
      exact hinv.leader
    · intro t ht0 htw
      rw [goto_pc]
      split
      · rfl
      · exact hinv.others t ht0 htw

/-- The first `sem_post` of worker 0 starts the part of the job that
`ReduceInv` describes, for the queue that `shuffle` has built. -/
theorem ReduceInv_first (client : Client I K V O) (P : List (K × V)) (c : Job I K V O)
    (hinv : ShuffleInv client.lt P c) (hw : ShuffleWord P c) (hpc : c.pc 0 = Pc.readyPost 0)
    (hW : 0 < c.threads_num) :
    ReduceInv client c.shuffled_vector
        (goto { c with sem := c.sem + 1, posts := c.posts + 1 } 0 (Pc.readyPost 1)) ∧
      GroupsOk client.lt c.shuffled_vector ∧ c.shuffled_vector.flatten.Perm P := by
  have hwait : ∀ t, t < c.threads_num → t ≠ 0 → waiting (c.pc t) = true :=
    fun t ht h0 => hinv.others t (by omega) ht
  obtain ⟨h1, h2⟩ := (ShuffleWord_at P c _ hpc).mp hw
  have hheld : gather c.threads_num (fun t => heldAt
      ((goto { c with sem := c.sem + 1, posts := c.posts + 1 } 0 (Pc.readyPost 1)).pc t)) = [] := by
    apply gather_nil
    intro t ht
    rw [goto_pc]
    split
    · rfl
    · next h => exact (reducePc_of_waiting t _ h (hwait t ht h)).2.1
  have hadd : gather c.threads_num (fun t => addingAt
      ((goto { c with sem := c.sem + 1, posts := c.posts + 1 } 0 (Pc.readyPost 1)).pc t)) = [] := by
    apply gather_nil
    intro t ht
    rw [goto_pc]
    split
    · rfl
    · next h => exact (reducePc_of_waiting t _ h (hwait t ht h)).2.2.1
  refine ⟨⟨?_, ?_, ?_, ⟨[], (List.append_nil _).symm⟩, ?_, ⟨0, h1, ?_⟩, h2, ?_, ?_⟩,
    hinv.groups, ?_⟩
  · intro t ht
    rw [goto_pc]
    split
    · next h => rw [h]; rfl
    · next h => exact (reducePc_of_waiting t _ h (hwait t ht h)).1
  · show c.posts + 1 = postsAt c.threads_num
      ((goto { c with sem := c.sem + 1, posts := c.posts + 1 } 0 (Pc.readyPost 1)).pc 0)
    rw [goto_pc_self, hinv.posts]
    rfl
  · intro i hi
    rw [goto_pc_self] at hi
    cases hi
    exact hW
  · show (c.shuffled_vector ++ gather c.threads_num _ ++ c.reduceCalls).Perm c.shuffled_vector
    rw [hheld, hinv.calls, List.append_nil, List.append_nil]
  · show 0 + (gather c.threads_num _).length = c.reduceCalls.length
    rw [hadd, hinv.calls]
    rfl
  · show c.context_output_vec = (c.reduceCalls.map client.reduce).flatten
    rw [hinv.out, hinv.calls]
    rfl
  · intro t ht hl
    exfalso
    rw [goto_pc] at hl
    split at hl
    · cases hl
    · next h =>
      have := (reducePc_of_waiting t _ h (hwait t ht h)).2.2.2.1
      rw [this] at hl
      cases hl
  · have := hinv.perm
    rw [hinv.left (by rw [hpc]; rfl), List.append_nil] at this
    exact this

/-- The step of worker 0 that enters `shuffle`: with no intermediate pair it
returns at once, otherwise it resets the progress word. -/
theorem ShuffleEntry_leader (client : Client I K V O) (std_sort : List (K × V) → List (K × V))
    (c c' : Job I K V O) (hent : ShuffleEntry client.lt c)
    (hstep : Step client std_sort 0 c c') :
    LaterInv client c.all_intermediate_vec.flatten c' ∧ c'.state = c.state := by
  have hl := hent.leader
  cases hstep with
  | shuffleSkip hpc hzero =>
    rw [← List.length_flatten] at hzero
    refine ⟨Or.inr (Or.inr ⟨List.eq_nil_of_length_eq_zero hzero, ?_⟩), rfl⟩
    refine ⟨by rw [goto_pc_self]; rfl, ?_, hent.sem, hent.posts, hent.queue, hent.out,
      hent.calls⟩
    intro t ht0 htw
    rw [goto_pc_of_ne _ _ _ _ (by omega)]
    exact hent.others t ht0 htw
  | shuffleReset hpc hpos =>
    refine ⟨Or.inl ⟨?_, ?_⟩, rfl⟩
    · refine ⟨by rw [goto_pc_self]; rfl, ?_, hent.sem, hent.posts, hent.out, hent.calls,
        hent.sorted, ?_, ?_, ?_, ?_⟩
      · intro t ht0 htw
        rw [goto_pc_of_ne _ _ _ _ (by omega)]
        exact hent.others t ht0 htw
      · show GroupsOk client.lt c.shuffled_vector
        rw [hent.queue]
        exact ⟨by simp, List.Pairwise.nil⟩
      · show ∀ g ∈ c.shuffled_vector, _
        rw [hent.queue]
        simp
      · show (c.shuffled_vector.flatten ++ c.all_intermediate_vec.flatten).Perm _
        rw [hent.queue]
        exact List.Perm.refl _
      · intro h
        rw [goto_pc_self] at h
        cases h
    · refine (ShuffleWord_setWord _ c 0 _).mpr ⟨rfl, ?_, ?_, hent.stage⟩
      · exact (List.length_flatten _).symm
      · rw [hent.queue]
        rfl
  | _ => exfalso; simp_all

/-- A step of another worker at the call of `shuffle` changes nothing but the
position of that worker. -/
theorem ShuffleEntry_other (client : Client I K V O) (std_sort : List (K × V) → List (K × V))
    (tid : Nat) (c c' : Job I K V O) (hent : ShuffleEntry client.lt c) (hne : tid ≠ 0)
    (htid : tid < c.threads_num) (hstep : Step client std_sort tid c c') :
    ShuffleEntry client.lt c' ∧ c'.all_intermediate_vec = c.all_intermediate_vec ∧
      c'.state = c.state := by
  have hw := hent.others tid (by omega) htid
  rw [Step_of_waiting client std_sort tid c c' hstep hw hne hent.sem]
  refine ⟨⟨?_, ?_, hent.sem, hent.posts, hent.queue, hent.out, hent.calls, hent.sorted,
    hent.stage⟩, rfl, rfl⟩
  · rw [goto_pc_of_ne _ _ _ _ (Ne.symm hne)]
    exact hent.leader
  · intro t ht0 htw
    rw [goto_pc]
    split
    · rfl
    · exact hent.others t ht0 htw

/-- Every step keeps `LaterInv` and does not lower the reported stage. -/
theorem LaterInv_step (client : Client I K V O) (std_sort : List (K × V) → List (K × V))
    (h : StrictWeak client.lt) (P : List (K × V)) (hP : P.length < 2 ^ 31) (tid : Nat)
    (c c' : Job I K V O) (hinv : LaterInv client P c) (htid : tid < c.threads_num)
    (hstep : Step client std_sort tid c c') :
    LaterInv client P c' ∧ c.state.stage ≤ c'.state.stage := by
  rcases hinv with ⟨hs, hw⟩ | ⟨gs, hg, hperm, hr⟩ | ⟨hnil, hs⟩
  · rcases ShuffleInv_step client std_sort h P tid c c' hs htid hstep with hs' | ⟨h0, hpc, hc'⟩
    · obtain ⟨hw', hle⟩ := ShuffleWord_step client std_sort P hP tid c c' hs hw htid hstep hs'
      exact ⟨Or.inl ⟨hs', hw'⟩, hle⟩
    · subst h0
      obtain ⟨hr, hg, hperm⟩ := ReduceInv_first client P c hs hw hpc htid
      rw [hc']
      refine ⟨Or.inr (Or.inl ⟨_, hg, hperm, hr⟩), ?_⟩
      exact le_refl _
  · have hG : gs.length < 2 ^ 31 := by
      have h1 := length_le_flatten_length gs (fun g hg' => (hg.1 g hg').1)
      have h2 := hperm.length_eq
      omega
    have hr' := ReduceInv_step client std_sort gs hG tid c c' hr htid hstep
    refine ⟨Or.inr (Or.inl ⟨gs, hg, hperm, hr'⟩), ?_⟩
    rw [hr.stage, hr'.stage]
  · obtain ⟨hs', hst, _⟩ := SkipInv_step client std_sort tid c c' hs htid hstep
    refine ⟨Or.inr (Or.inr ⟨hnil, hs'⟩), ?_⟩
    rw [hst]

/-- Every step keeps `FromShuffle` and does not lower the reported stage. -/
theorem FromShuffle_step (client : Client I K V O) (std_sort : List (K × V) → List (K × V))
    (h : StrictWeak client.lt) (P : List (K × V)) (hP : P.length < 2 ^ 31) (tid : Nat)
    (c c' : Job I K V O) (hinv : FromShuffle client P c) (htid : tid < c.threads_num)
    (hstep : Step client std_sort tid c c') :
    FromShuffle client P c' ∧ c.state.stage ≤ c'.state.stage := by
  rcases hinv with ⟨hent, hP'⟩ | hl
  · by_cases h0 : tid = 0
    · subst h0
      obtain ⟨hl, hst⟩ := ShuffleEntry_leader client std_sort c c' hent hstep
      rw [hP'] at hl
      refine ⟨Or.inr hl, ?_⟩
      rw [hst]
    · obtain ⟨hent', hv, hst⟩ := ShuffleEntry_other client std_sort tid c c' hent h0 htid hstep
      refine ⟨Or.inl ⟨hent', by rw [hv]; exact hP'⟩, ?_⟩
      rw [hst]
  · obtain ⟨hl', hle⟩ := LaterInv_step client std_sort h P hP tid c c' hl htid hstep
    exact ⟨Or.inr hl', hle⟩

end Machine

section Machine
variable {I K V O : Type}

/-! ### Runs -/

theorem run_append (client : Client I K V O) (std_sort : List (K × V) → List (K × V))
    (s1 s2 : List Nat) (c : Job I K V O) :
    run client std_sort (s1 ++ s2) c = run client std_sort s2 (run client std_sort s1 c) := by
  induction s1 generalizing c with
  | nil => rfl
  | cons tid s1 ih =>
    rw [List.cons_append]
    simp only [run]
    cases step client std_sort tid c with
    | none => exact ih c
    | some c' => exact ih c'

/-- A property that every step keeps holds after every run; a relation between
the job before and after a step that is reflexive and transitive holds between
the start and the end of every run. -/
theorem run_induction (client : Client I K V O) (std_sort : List (K × V) → List (K × V))
    (Inv : Job I K V O → Prop) (R : Job I K V O → Job I K V O → Prop)
    (hrefl : ∀ c, R c c) (htrans : ∀ a b c, R a b → R b c → R a c)
    (hstep : ∀ tid c c', Inv c → tid < c.threads_num → Step client std_sort tid c c' →
      Inv c' ∧ R c c')
    (schedule : List Nat) (c : Job I K V O) (hinv : Inv c) :
    Inv (run client std_sort schedule c) ∧ R c (run client std_sort schedule c) := by
  induction schedule generalizing c with
  | nil => exact ⟨hinv, hrefl c⟩
  | cons tid schedule ih =>
    unfold run
    cases hs : step client std_sort tid c with
    | none => exact ih c hinv
    | some c' =>
      obtain ⟨htid, hS⟩ := step_Step client std_sort tid c c' hs
      obtain ⟨hinv', hR⟩ := hstep tid c c' hinv htid hS
      obtain ⟨h1, h2⟩ := ih c' hinv'
      exact ⟨h1, htrans _ _ _ hR h2⟩

theorem Step_frame (client : Client I K V O) (std_sort : List (K × V) → List (K × V))
    (tid : Nat) (c c' : Job I K V O) (hstep : Step client std_sort tid c c') :
    c'.threads_num = c.threads_num ∧ c'.context_input_vec = c.context_input_vec ∧
      (c.pc tid ≠ Pc.mapLoop → c'.mapCalls = c.mapCalls) ∧
      (∀ t, t ≠ tid → c'.pc t = c.pc t) := by
  cases hstep <;>
    exact ⟨rfl, rfl, fun h => by first | rfl | exact absurd (by assumption) h,
      fun t ht => goto_pc_of_ne _ _ _ _ ht⟩

theorem run_frame (client : Client I K V O) (std_sort : List (K × V) → List (K × V))
    (schedule : List Nat) (c : Job I K V O) :
    (run client std_sort schedule c).threads_num = c.threads_num ∧
      (run client std_sort schedule c).context_input_vec = c.context_input_vec := by
  have := run_induction client std_sort (fun _ => True)
    (fun a b => b.threads_num = a.threads_num ∧ b.context_input_vec = a.context_input_vec)
    (fun _ => ⟨rfl, rfl⟩) (fun a b c h1 h2 => ⟨h2.1.trans h1.1, h2.2.trans h1.2⟩)
    (fun tid c c' _ _ hS =>
      ⟨trivial, (Step_frame client std_sort tid c c' hS).1,
        (Step_frame client std_sort tid c c' hS).2.1⟩)
    schedule c trivial
  exact this.2

/-! ### The number of distinct keys -/

theorem any_equiv_perm (lt : K → K → Bool) (k : K) (l1 l2 : List (K × V)) (h : l1.Perm l2) :
    l1.any (fun y => equivKeys lt k y.1) = l2.any (fun y => equivKeys lt k y.1) := by
  rw [Bool.eq_iff_iff, List.any_eq_true, List.any_eq_true]
  constructor
  · rintro ⟨y, hy, he⟩
    exact ⟨y, h.subset hy, he⟩
  · rintro ⟨y, hy, he⟩
    exact ⟨y, h.symm.subset hy, he⟩

theorem any_equiv_congr (lt : K → K → Bool) (hlt : StrictWeak lt) (a b : K) (l : List (K × V))
    (h : equivKeys lt a b = true) :
    l.any (fun y => equivKeys lt a y.1) = l.any (fun y => equivKeys lt b y.1) := by
  rw [Bool.eq_iff_iff, List.any_eq_true, List.any_eq_true]
  constructor
  · rintro ⟨y, hy, he⟩
    exact ⟨y, hy, hlt.2.2 b a y.1 (equivKeys_symm lt a b h) he⟩
  · rintro ⟨y, hy, he⟩
    exact ⟨y, hy, hlt.2.2 a b y.1 h he⟩

theorem distinctKeys_perm (lt : K → K → Bool) (hlt : StrictWeak lt) (l1 l2 : List (K × V))
    (h : l1.Perm l2) : distinctKeys lt l1 = distinctKeys lt l2 := by
  induction h with
  | nil => rfl
  | cons x hp ih =>
    unfold distinctKeys
    rw [any_equiv_perm lt x.1 _ _ hp, ih]
  | swap x y l =>
    simp only [distinctKeys, List.any_cons]
    by_cases he : equivKeys lt x.1 y.1 = true
    · have he' := equivKeys_symm lt _ _ he
      simp only [he, he', Bool.true_or, if_true, Nat.zero_add,
        any_equiv_congr lt hlt x.1 y.1 l he]
    · have he1 : equivKeys lt x.1 y.1 = false := by simpa using he
      have he2 : equivKeys lt y.1 x.1 = false := by
        by_contra hc
        exact he (equivKeys_symm lt _ _ (by simpa using hc))
      simp only [he1, he2, Bool.false_or]
      exact Nat.add_left_comm _ _ _
  | trans _ _ ih1 ih2 => exact ih1.trans ih2

theorem distinctKeys_group (lt : K → K → Bool) (g rest : List (K × V)) (hne : g ≠ [])
    (hg : ∀ a ∈ g, ∀ b ∈ g, equivKeys lt a.1 b.1 = true)
    (hrest : ∀ a ∈ g, ∀ x ∈ rest, equivKeys lt a.1 x.1 = false) :
    distinctKeys lt (g ++ rest) = 1 + distinctKeys lt rest := by
  induction g with
  | nil => exact absurd rfl hne
  | cons a g ih =>
    cases g with
    | nil =>
      show (if rest.any (fun y => equivKeys lt a.1 y.1) then 0 else 1) + distinctKeys lt rest = _
      have : rest.any (fun y => equivKeys lt a.1 y.1) = false := by
        rw [List.any_eq_false]
        intro x hx
        rw [hrest a (List.mem_cons_self _ _) x hx]
        simp
      rw [this]
      rfl
    | cons b g =>
      show (if (b :: g ++ rest).any (fun y => equivKeys lt a.1 y.1) then 0 else 1)
        + distinctKeys lt (b :: g ++ rest) = _
      have : (b :: g ++ rest).any (fun y => equivKeys lt a.1 y.1) = true := by
        rw [List.any_eq_true]
        exact ⟨b, List.mem_cons_self _ _,
          hg a (List.mem_cons_self _ _) b (List.mem_cons_of_mem _ (List.mem_cons_self _ _))⟩
      rw [this, ih (List.cons_ne_nil _ _)
        (fun x hx y hy => hg x (List.mem_cons_of_mem _ hx) y (List.mem_cons_of_mem _ hy))
        (fun x hx y hy => hrest x (List.mem_cons_of_mem _ hx) y hy)]
      simp

/-- Well-formed groups are as many as the distinct keys of their pairs. -/
theorem distinctKeys_groups (lt : K → K → Bool) (gs : List (List (K × V)))
    (h : GroupsOk lt gs) : distinctKeys lt gs.flatten = gs.length := by
  induction gs with
  | nil => rfl
  | cons g gs ih =>
    have hg := h.1 g (List.mem_cons_self _ _)
    have hpw := List.pairwise_cons.mp h.2
    rw [List.flatten_cons, distinctKeys_group lt g gs.flatten hg.1 hg.2, ih
      ⟨fun g' hg' => h.1 g' (List.mem_cons_of_mem _ hg'), hpw.2⟩, List.length_cons]
    · omega
    · intro a ha x hx
      obtain ⟨g', hg', hx'⟩ := List.mem_flatten.mp hx
      exact hpw.1 g' hg' a ha x hx'

theorem groups_count (lt : K → K → Bool) (hlt : StrictWeak lt) (gs : List (List (K × V)))
    (P : List (K × V)) (h : GroupsOk lt gs) (hperm : gs.flatten.Perm P) :
    gs.length = distinctKeys lt P := by
  rw [← distinctKeys_perm lt hlt _ _ hperm, distinctKeys_groups lt gs h]

end Machine

section Machine
variable {I K V O : Type}

/-! ### The loop of `shuffle` ends -/

theorem step_leader_some (client : Client I K V O) (std_sort : List (K × V) → List (K × V))
    (c : Job I K V O) (hW : 0 < c.threads_num) (h : 0 < shuffleRank c) :
    ∃ c', step client std_sort 0 c = some c' := by
  unfold shuffleRank at h
  unfold step
  rw [if_pos hW]
  cases hpc : c.pc 0 <;> rw [hpc] at h <;> simp only [rankAt, Nat.lt_irrefl] at h <;>
    simp only
  · split <;> exact ⟨_, rfl⟩
  · exact ⟨_, rfl⟩
  · exact ⟨_, rfl⟩
  · exact ⟨_, rfl⟩
  · split <;> exact ⟨_, rfl⟩
  · exact ⟨_, rfl⟩
  · exact ⟨_, rfl⟩

theorem run_leader_succ (client : Client I K V O) (std_sort : List (K × V) → List (K × V))
    (c c' : Job I K V O) (m : Nat) (h : step client std_sort 0 c = some c') :
    run client std_sort (List.replicate (m + 1) 0) c
      = run client std_sort (List.replicate m 0) c' := by
  rw [List.replicate_succ]
  simp only [run, h]

theorem shuffleRank_goto (c : Job I K V O) (p : Pc K V) :
    shuffleRank (goto c 0 p) = rankAt p c.all_intermediate_vec.flatten.length := by
  unfold shuffleRank
  rw [goto_pc_self]
  rfl

/-- A step of worker 0 inside `shuffle` lowers `shuffleRank`, and when the
rank reaches 0 the worker has just left the loop. -/
theorem shuffleRank_step (client : Client I K V O) (std_sort : List (K × V) → List (K × V))
    (P : List (K × V)) (c c' : Job I K V O) (hinv : ShuffleInv client.lt P c)
    (hinv' : ShuffleInv client.lt P c') (hpos : 0 < shuffleRank c)
    (hstep : Step client std_sort 0 c c') :
    shuffleRank c' < shuffleRank c ∧ (shuffleRank c' = 0 → c'.pc 0 = Pc.readyReset) := by
  have hq : c.shuffled_vector.flatten.length + c.all_intermediate_vec.flatten.length
      = P.length := by
    have := hinv.perm.length_eq
    rw [List.length_append] at this
    exact this
  have hq' : c'.shuffled_vector.flatten.length + c'.all_intermediate_vec.flatten.length
      = P.length := by
    have := hinv'.perm.length_eq
    rw [List.length_append] at this
    exact this
  have hg' := hinv'.groups.1
  have hl := hinv.leader
  unfold shuffleRank at hpos ⊢
  cases hstep with
  | shuffleSetStage pairs_num w hpc hw =>
    rw [hpc, goto_pc_self]
    exact ⟨by show 3 * c.all_intermediate_vec.flatten.length + 3 < 3 * c.all_intermediate_vec.flatten.length + 4; omega, fun h => by cases h⟩
  | shuffleSetTotal pairs_num w hpc hw =>
    rw [hpc, goto_pc_self]
    exact ⟨by show 3 * c.all_intermediate_vec.flatten.length + 2 < 3 * c.all_intermediate_vec.flatten.length + 3; omega, fun h => by cases h⟩
  | shuffleFirstUpdate st hpc hst =>
    rw [hpc, goto_pc_self]
    exact ⟨by show 3 * c.all_intermediate_vec.flatten.length + 1 < 3 * c.all_intermediate_vec.flatten.length + 2; omega, fun h => by cases h⟩
  | shuffleExit hpc hmax =>
    rw [hpc, goto_pc_self]
    exact ⟨by show 0 < 3 * c.all_intermediate_vec.flatten.length + 1; omega, fun _ => rfl⟩
  | shuffleGroup m hpc hmax =>
    rw [hpc, goto_pc_self]
    have hne := (hg' _ (List.mem_append_right _ (List.mem_singleton_self _))).1
    have hlen := List.length_pos.mpr hne
    have e : ((c.shuffled_vector
        ++ [(getMaxKeyFromAllVectors client.lt m c.all_intermediate_vec []).2]).flatten).length
        + ((getMaxKeyFromAllVectors client.lt m c.all_intermediate_vec []).1.flatten).length
        = P.length := hq'
    rw [List.flatten_append, List.flatten_singleton, List.length_append] at e
    refine ⟨?_, fun h => by cases h⟩
    show 3 * ((getMaxKeyFromAllVectors client.lt m c.all_intermediate_vec []).1.flatten).length + 3
      < 3 * c.all_intermediate_vec.flatten.length + 1
    omega
  | shuffleAdd size w hpc hw =>
    rw [hpc, goto_pc_self]
    exact ⟨by show 3 * c.all_intermediate_vec.flatten.length + 2 < 3 * c.all_intermediate_vec.flatten.length + 3; omega, fun h => by cases h⟩
  | shuffleUpdate st hpc hst =>
    rw [hpc, goto_pc_self]
    exact ⟨by show 3 * c.all_intermediate_vec.flatten.length + 1 < 3 * c.all_intermediate_vec.flatten.length + 2; omega, fun h => by cases h⟩
  | readyReset hpc => rw [hpc] at hpos; cases hpos
  | readySetStage w hpc hw => rw [hpc] at hpos; cases hpos
  | readySetTotal w hpc hw => rw [hpc] at hpos; cases hpos
  | readyUpdate st hpc hst => rw [hpc] at hpos; cases hpos
  | post i hpc hi => rw [hpc] at hpos; cases hpos
  | postDone i hpc hi => rw [hpc] at hpos; cases hpos
  | _ => exfalso; simp_all [inShuffle]

/-- Worker 0 leaves the loop of `shuffle`: from a position inside `shuffle`
its own steps, at most `shuffleRank` of them, take it to the end of the
loop. -/
theorem shuffle_loop_ends (client : Client I K V O) (std_sort : List (K × V) → List (K × V))
    (h : StrictWeak client.lt) (P : List (K × V)) (n : Nat) (c : Job I K V O)
    (hn : shuffleRank c ≤ n) (hW : 0 < c.threads_num) (hinv : ShuffleInv client.lt P c)
    (hpos : 0 < shuffleRank c) :
    ∃ m, m ≤ n ∧ (run client std_sort (List.replicate m 0) c).pc 0 = Pc.readyReset := by
  induction n generalizing c with
  | zero => omega
  | succ n ih =>
    obtain ⟨c', hs⟩ := step_leader_some client std_sort c hW hpos
    obtain ⟨_, hS⟩ := step_Step client std_sort 0 c c' hs
    have hW' : 0 < c'.threads_num := by
      rw [(Step_frame client std_sort 0 c c' hS).1]
      exact hW
    rcases ShuffleInv_step client std_sort h P 0 c c' hinv hW hS with hinv' | ⟨_, hpc, _⟩
    · obtain ⟨hlt, hz⟩ := shuffleRank_step client std_sort P c c' hinv hinv' hpos hS
      by_cases h0 : shuffleRank c' = 0
      · refine ⟨1, by omega, ?_⟩
        rw [run_leader_succ client std_sort c c' 0 hs]
        exact hz h0
      · obtain ⟨m, hm, hr⟩ := ih c' (by omega) hW' hinv' (by omega)
        refine ⟨m + 1, by omega, ?_⟩
        rw [run_leader_succ client std_sort c c' m hs]
        exact hr
    · exfalso
      unfold shuffleRank at hpos
      rw [hpc] at hpos
      cases hpos

end Machine

theorem perm_local2 {α : Type} (A A' G G' o n M extra : List α)
    (h1 : (G' ++ o).Perm (G ++ n)) (h2 : (A' ++ n).Perm (A ++ o ++ extra))
    (h3 : (A ++ G).Perm M) : (A' ++ G').Perm (M ++ extra) := by
  have e1 : ((G' : Multiset α) + (o : Multiset α)) = (G : Multiset α) + (n : Multiset α) := by
    have := Multiset.coe_eq_coe.mpr h1
    rwa [← Multiset.coe_add, ← Multiset.coe_add] at this
  have e2 : ((A' : Multiset α) + (n : Multiset α))
      = (A : Multiset α) + (o : Multiset α) + (extra : Multiset α) := by
    have := Multiset.coe_eq_coe.mpr h2
    rwa [← Multiset.coe_add, ← Multiset.coe_add, ← Multiset.coe_add] at this
  have e3 : ((A : Multiset α) + (G : Multiset α)) = (M : Multiset α) := by
    have := Multiset.coe_eq_coe.mpr h3
    rwa [← Multiset.coe_add] at this
  apply Multiset.coe_eq_coe.mp
  rw [← Multiset.coe_add, ← Multiset.coe_add]
  apply add_right_cancel (b := (o : Multiset α))
  calc ((A' : Multiset α) + (G' : Multiset α)) + (o : Multiset α)
      = (A' : Multiset α) + ((G' : Multiset α) + (o : Multiset α)) := by abel
    _ = (A' : Multiset α) + ((G : Multiset α) + (n : Multiset α)) := by rw [e1]
    _ = ((A' : Multiset α) + (n : Multiset α)) + (G : Multiset α) := by abel
    _ = ((A : Multiset α) + (o : Multiset α) + (extra : Multiset α)) + (G : Multiset α) := by
      rw [e2]
    _ = ((A : Multiset α) + (G : Multiset α)) + (extra : Multiset α) + (o : Multiset α) := by abel
    _ = (M : Multiset α) + (extra : Multiset α) + (o : Multiset α) := by rw [e3]

theorem range_flatMap_getElem {α β : Type} (f : α → List β) (l : List α) :
    (List.range l.length).flatMap (fun i =>
      match l[i]? with
      | some a => f a
      | none => []) = l.flatMap f := by
  induction l with
  | nil => rfl
  | cons a l ih =>
    rw [List.length_cons, List.range_succ_eq_map, List.flatMap_cons, List.flatMap_map,
      List.flatMap_cons, ← ih]
    simp only [List.getElem?_cons_zero, Nat.succ_eq_add_one, List.getElem?_cons_succ]

section Machine
variable {I K V O : Type}

theorem mapped_append (client : Client I K V O) (input : List I) (calls : List (Nat × Nat))
    (tid k : Nat) (pair : I) (h : input[k]? = some pair) :
    mapped client input (calls ++ [(tid, k)]) = mapped client input calls ++ client.map pair := by
  unfold mapped
  rw [List.flatMap_append]
  simp only [List.flatMap_cons, List.flatMap_nil, List.append_nil, h]

theorem mapped_range (client : Client I K V O) (input : List I) (calls : List (Nat × Nat))
    (h : calls.map Prod.snd = List.range input.length) :
    mapped client input calls = input.flatMap client.map := by
  rw [← range_flatMap_getElem client.map input, ← h, List.flatMap_map]
  rfl

theorem allArrived_iff (c : Job I K V O) :
    allArrived c = true ↔ ∀ t, t < c.threads_num → arrived (c.pc t) = true := by
  unfold allArrived
  rw [List.all_eq_true]
  constructor
  · intro h t ht
    exact h t (List.mem_range.mpr ht)
  · intro h t ht
    exact h t (List.mem_range.mp ht)

theorem arrived_of_beyond (p : Pc K V) (h : beyond p = true) : arrived p = true := by
  cases p <;> simp_all [beyond, arrived]

/-- A step of worker `tid` that takes it to position `p` keeps `MapInv` when
the changes it makes fit the position; `extra` are the pairs that the step
has emitted. -/
theorem MapInv_of (client : Client I K V O) (c c' : Job I K V O) (tid : Nat) (p : Pc K V)
    (extra : List (K × V)) (hinv : MapInv client c) (htid : tid < c.threads_num)
    (hpc : c'.pc = Function.update c.pc tid p)
    (hW : c'.threads_num = c.threads_num)
    (hin : c'.context_input_vec = c.context_input_vec)
    (hp : mapPc tid p = true)
    (harr : arrived (c.pc tid) = true → arrived p = true)
    (hbey : beyond p = true → ∀ t, t < c.threads_num → arrived (c.pc t) = true)
    (hsem : c'.sem = c.sem) (hposts : c'.posts = c.posts)
    (hqueue : c'.shuffled_vector = c.shuffled_vector)
    (hout : c'.context_output_vec = c.context_output_vec)
    (hcalls : c'.reduceCalls = c.reduceCalls)
    (hword : c'.atomic_counter = wordOf 1 c'.mapCalls.length c.context_input_vec.length)
    (hbound : c'.mapCalls.length ≤ c.context_input_vec.length)
    (hind : c'.mapCalls.map Prod.snd = List.range c'.mapCalls.length)
    (hleft0 : inLoop p = false → c'.mapCalls.length = c.context_input_vec.length)
    (hleft1 : ∀ t, t < c.threads_num → t ≠ tid → inLoop (c.pc t) = false →
      c'.mapCalls.length = c.context_input_vec.length)
    (hstage : c'.state.stage = 1)
    (hsorted : ∀ vec ∈ c'.all_intermediate_vec, SortedVec client.lt vec)
    (hvec : ∀ t, t ≠ tid → c'.context_intermediate_vec t = c.context_intermediate_vec t)
    (hmapped : mapped client c.context_input_vec c'.mapCalls
      = mapped client c.context_input_vec c.mapCalls ++ extra)
    (hpairs : (c'.all_intermediate_vec.flatten
        ++ pendingAt p (c'.context_intermediate_vec tid)).Perm
      (c.all_intermediate_vec.flatten
        ++ pendingAt (c.pc tid) (c.context_intermediate_vec tid) ++ extra)) :
    MapInv client c' := by
  have hat : c'.pc tid = p := by rw [hpc]; simp
  have hoffpc : ∀ t, t ≠ tid → c'.pc t = c.pc t := by
    intro t ht
    rw [hpc, Function.update_noteq ht]
  refine ⟨?_, ?_, by rw [hsem]; exact hinv.sem, by rw [hposts]; exact hinv.posts,
    by rw [hqueue]; exact hinv.queue, by rw [hout]; exact hinv.out,
    by rw [hcalls]; exact hinv.calls, by rw [hin]; exact hword, by rw [hin]; exact hbound,
    hind, ?_, hstage, hsorted, ?_⟩
  · intro t ht
    rw [hW] at ht
    by_cases h : t = tid
    · rw [h, hat]
      exact hp
    · rw [hoffpc t h]
      exact hinv.pcs t ht
  · intro t ht hb t' ht'
    rw [hW] at ht ht'
    have hall : ∀ s, s < c.threads_num → arrived (c.pc s) = true := by
      by_cases h : t = tid
      · rw [h, hat] at hb
        exact hbey hb
      · rw [hoffpc t h] at hb
        exact hinv.passed t ht hb
    by_cases h' : t' = tid
    · rw [h', hat]
      exact harr (hall tid htid)
    · rw [hoffpc t' h']
      exact hall t' ht'
  · intro t ht hl
    rw [hW] at ht
    rw [hin]
    by_cases h : t = tid
    · rw [h, hat] at hl
      exact hleft0 hl
    · rw [hoffpc t h] at hl
      exact hleft1 t ht h hl
  · rw [hW, hin, hmapped]
    have h1 := gather_perm c.threads_num tid htid
      (fun t => pendingAt (c.pc t) (c.context_intermediate_vec t))
      (fun t => pendingAt (c'.pc t) (c'.context_intermediate_vec t))
      (fun t ht => by
        show pendingAt (c'.pc t) (c'.context_intermediate_vec t) = _
        rw [hoffpc t ht, hvec t ht])
    simp only [hat] at h1
    exact perm_local2 _ _ _ _ _ _ _ _ h1 hpairs hinv.pairs

/-- Every step of a worker in the map phase keeps `MapInv`, except the step of
worker 0 that enters `shuffle`; the reported stage stays MAP. -/
theorem MapInv_step (client : Client I K V O) (std_sort : List (K × V) → List (K × V))
    (hsort : Sorts client.lt std_sort) (tid : Nat) (c c' : Job I K V O)
    (hn : c.context_input_vec.length < 2 ^ 28) (hinv : MapInv client c)
    (htid : tid < c.threads_num) (hns : c.pc tid ≠ Pc.shuffle)
    (hstep : Step client std_sort tid c c') :
    MapInv client c' := by
  have hpcs := hinv.pcs tid htid
  have hb := hinv.bound
  have hget : get_atomic_processed_pairs c.atomic_counter = (c.mapCalls.length : Int) := by
    rw [hinv.word]
    exact get_atomic_processed_pairs_wordOf 1 _ _ (by omega) (by norm_num at hn ⊢; omega)
  have hleft1 : ∀ t, t < c.threads_num → t ≠ tid → inLoop (c.pc t) = false →
      c.mapCalls.length = c.context_input_vec.length := fun t ht _ hl => hinv.left t ht hl
  cases hstep with
  | mapClaim pair w hpc hlt hpair hw =>
    rw [hget] at hlt hpair
    rw [Int.toNat_natCast] at hpair
    have hk : c.mapCalls.length < c.context_input_vec.length := by exact_mod_cast hlt
    have hlen : (c.mapCalls ++ [(tid, c.mapCalls.length)]).length = c.mapCalls.length + 1 := by
      rw [List.length_append, List.length_singleton]
    rw [hget, Int.toNat_natCast]
    refine MapInv_of client c _ tid Pc.mapUpdate (client.map pair) hinv htid rfl rfl rfl rfl
      (fun h => by rw [hpc] at h; cases h) (fun h => by cases h) rfl rfl rfl rfl rfl
      ?_ ?_ ?_ (fun h => by cases h) ?_ hinv.stage hinv.sorted ?_ ?_ ?_
    · show w = wordOf 1 (c.mapCalls ++ [(tid, c.mapCalls.length)]).length
        c.context_input_vec.length
      rw [hw, hinv.word, hlen]
      exact set_processed_wordOf_one 1 _ _ (by omega) (by norm_num at hn ⊢; omega)
        (by norm_num at hn ⊢; omega)
    · show (c.mapCalls ++ [(tid, c.mapCalls.length)]).length ≤ c.context_input_vec.length
      rw [hlen]
      omega
    · show (c.mapCalls ++ [(tid, c.mapCalls.length)]).map Prod.snd
        = List.range (c.mapCalls ++ [(tid, c.mapCalls.length)]).length
      rw [hlen, List.map_append, hinv.indices, List.range_succ]
      rfl
    · intro t ht hne hl
      have := hinv.left t ht hl
      omega
    · intro t ht
      show Function.update c.context_intermediate_vec tid _ t = _
      rw [Function.update_noteq ht]
    · exact mapped_append client _ _ tid _ pair hpair
    · show (c.all_intermediate_vec.flatten ++ pendingAt Pc.mapUpdate
          (Function.update c.context_intermediate_vec tid
            (c.context_intermediate_vec tid ++ client.map pair) tid)).Perm _
      rw [Function.update_same, hpc]
      show (c.all_intermediate_vec.flatten
        ++ (c.context_intermediate_vec tid ++ client.map pair)).Perm
        (c.all_intermediate_vec.flatten ++ c.context_intermediate_vec tid ++ client.map pair)
      rw [List.append_assoc]
  | mapLeave hpc hge =>
    rw [hget] at hge
    have hk : ¬ c.mapCalls.length < c.context_input_vec.length := by exact_mod_cast hge
    refine MapInv_of client c _ tid Pc.sort [] hinv htid rfl rfl rfl rfl
      (fun h => by rw [hpc] at h; cases h) (fun h => by cases h) rfl rfl rfl rfl rfl
      hinv.word hinv.bound hinv.indices
      (fun _ => by
        show c.mapCalls.length = c.context_input_vec.length
        omega)
      hleft1 hinv.stage hinv.sorted
      (fun _ _ => rfl) (List.append_nil _).symm ?_
    rw [hpc, List.append_nil]
    exact List.Perm.refl _
  | mapUpdate st hpc hst =>
    have hs : st.stage = 1 := by
      rw [stage_of_update c st hst, hinv.word]
      exact get_atomic_stage_wordOf 1 _ _ (by norm_num at hn ⊢; omega)
        (by norm_num at hn ⊢; omega)
    refine MapInv_of client c _ tid Pc.mapLoop [] hinv htid rfl rfl rfl rfl
      (fun h => by rw [hpc] at h; cases h) (fun h => by cases h) rfl rfl rfl rfl rfl
      hinv.word hinv.bound hinv.indices (fun h => by cases h) hleft1 hs hinv.sorted
      (fun _ _ => rfl) (List.append_nil _).symm ?_
    rw [hpc, List.append_nil]
    exact List.Perm.refl _
  | sortEmpty hpc hvec =>
    have hk := hinv.left tid htid (by rw [hpc]; rfl)
    refine MapInv_of client c _ tid Pc.barrier [] hinv htid rfl rfl rfl rfl
      (fun _ => rfl) (fun h => by cases h) rfl rfl rfl rfl rfl
      hinv.word hinv.bound hinv.indices (fun _ => hk) hleft1 hinv.stage hinv.sorted
      (fun _ _ => rfl) (List.append_nil _).symm ?_
    rw [hpc, List.append_nil]
    show (c.all_intermediate_vec.flatten ++ []).Perm
      (c.all_intermediate_vec.flatten ++ c.context_intermediate_vec tid)
    rw [List.isEmpty_iff.mp hvec]
  | sortPush hpc hvec =>
    have hk := hinv.left tid htid (by rw [hpc]; rfl)
    refine MapInv_of client c _ tid Pc.barrier [] hinv htid rfl rfl rfl rfl
      (fun _ => rfl) (fun h => by cases h) rfl rfl rfl rfl rfl
      hinv.word hinv.bound hinv.indices (fun _ => hk) hleft1 hinv.stage ?_
      ?_ (List.append_nil _).symm ?_
    · intro vec hv
      rcases List.mem_append.mp hv with hv | hv
      · exact hinv.sorted vec hv
      · rw [List.mem_singleton.mp hv]
        exact (hsort _).1
    · intro t ht
      show Function.update c.context_intermediate_vec tid _ t = _
      rw [Function.update_noteq ht]
    · rw [hpc, List.append_nil]
      show ((c.all_intermediate_vec ++ [std_sort (c.context_intermediate_vec tid)]).flatten
        ++ []).Perm (c.all_intermediate_vec.flatten ++ c.context_intermediate_vec tid)
      rw [List.append_nil, List.flatten_append, List.flatten_singleton]
      exact List.Perm.append_left _ (hsort _).2
  | barrier hpc hall =>
    have hk := hinv.left tid htid (by rw [hpc]; rfl)
    have hall' := (allArrived_iff c).mp hall
    have hp : mapPc tid (if tid = 0 then Pc.shuffle else Pc.semWait : Pc K V) = true := by
      by_cases h0 : tid = 0
      · rw [if_pos h0, h0]
        rfl
      · rw [if_neg h0]
        simpa [mapPc] using h0
    have ha : arrived (if tid = 0 then Pc.shuffle else Pc.semWait : Pc K V) = true := by
      by_cases h0 : tid = 0
      · rw [if_pos h0]
        rfl
      · rw [if_neg h0]
        rfl
    have hl : inLoop (if tid = 0 then Pc.shuffle else Pc.semWait : Pc K V) = false := by
      by_cases h0 : tid = 0
      · rw [if_pos h0]
        rfl
      · rw [if_neg h0]
        rfl
    refine MapInv_of client c _ tid _ [] hinv htid rfl rfl rfl hp
      (fun _ => ha) (fun _ => hall') rfl rfl rfl rfl rfl
      hinv.word hinv.bound hinv.indices (fun _ => hk) hleft1 hinv.stage hinv.sorted
      (fun _ _ => rfl) (List.append_nil _).symm ?_
    rw [hpc, List.append_nil]
    unfold pendingAt
    rw [ha]
    exact List.Perm.refl _
  | semWait hpc hsem =>
    have := hinv.sem
    omega
  | _ => exfalso; simp_all [mapPc]

theorem waiting_of_arrived (t : Nat) (p : Pc K V) (h0 : t ≠ 0) (hp : mapPc t p = true)
    (ha : arrived p = true) : waiting p = true := by
  cases p <;> simp_all [mapPc, arrived, waiting]

/-- In the map phase, when worker 0 is about to call `shuffle`, the job is as
`ShuffleEntry` says, and the shared list holds the pairs emitted for the
input. -/
theorem MapInv_entry (client : Client I K V O) (c : Job I K V O) (hinv : MapInv client c)
    (hW : 0 < c.threads_num) (hpc : c.pc 0 = Pc.shuffle) :
    ShuffleEntry client.lt c ∧ MapDone client c.all_intermediate_vec.flatten c := by
  have hall := hinv.passed 0 hW (by rw [hpc]; rfl)
  have hk := hinv.left 0 hW (by rw [hpc]; rfl)
  refine ⟨⟨hpc, ?_, hinv.sem, hinv.posts, hinv.queue, hinv.out, hinv.calls, hinv.sorted, ?_⟩,
    ⟨?_, ?_⟩⟩
  · intro t ht0 ht
    exact waiting_of_arrived t _ (by omega) (hinv.pcs t ht) (hall t ht)
  · rw [hinv.stage]
    decide
  · rw [← hk]
    exact hinv.indices
  · have hg : gather c.threads_num
        (fun t => pendingAt (c.pc t) (c.context_intermediate_vec t)) = [] := by
      apply gather_nil
      intro t ht
      show pendingAt (c.pc t) (c.context_intermediate_vec t) = []
      unfold pendingAt
      rw [hall t ht]
      rfl
    have := hinv.pairs
    rw [hg, List.append_nil, mapped_range client _ _ (by rw [← hk]; exact hinv.indices)] at this
    exact this

theorem LaterInv_pc (client : Client I K V O) (P : List (K × V)) (c : Job I K V O)
    (hinv : LaterInv client P c) (tid : Nat) (htid : tid < c.threads_num) :
    inLoop (c.pc tid) = false ∧ c.pc tid ≠ Pc.sort ∧ c.pc tid ≠ Pc.shuffle := by
  have key : ∀ p : Pc K V,
      (inShuffle p = true ∨ waiting p = true ∨ reducePc tid p = true ∨ skipPc p = true) →
      inLoop p = false ∧ p ≠ Pc.sort ∧ p ≠ Pc.shuffle := by
    intro p hp
    cases p <;> simp_all [inShuffle, waiting, reducePc, skipPc, inLoop]
  apply key
  rcases hinv with ⟨hs, _⟩ | ⟨gs, _, _, hr⟩ | ⟨_, hs⟩
  · by_cases h0 : tid = 0
    · rw [h0]
      exact Or.inl hs.leader
    · exact Or.inr (Or.inl (hs.others tid (by omega) htid))
  · exact Or.inr (Or.inr (Or.inl (hr.pcs tid htid)))
  · by_cases h0 : tid = 0
    · rw [h0]
      exact Or.inr (Or.inr (Or.inr hs.leader))
    · exact Or.inr (Or.inl (hs.others tid (by omega) htid))

/-- Every step of a worker keeps `JobInv` and does not lower the reported
stage. -/
theorem JobInv_step (client : Client I K V O) (std_sort : List (K × V) → List (K × V))
    (h : StrictWeak client.lt) (hsort : Sorts client.lt std_sort) (tid : Nat)
    (c c' : Job I K V O) (hn : c.context_input_vec.length < 2 ^ 28)
    (hP : (c.context_input_vec.flatMap client.map).length < 2 ^ 31)
    (hinv : JobInv client c) (htid : tid < c.threads_num)
    (hstep : Step client std_sort tid c c') :
    JobInv client c' ∧ c.state.stage ≤ c'.state.stage := by
  obtain ⟨hW, hin, hcalls, _⟩ := Step_frame client std_sort tid c c' hstep
  rcases hinv with hm | ⟨P, hd, hl⟩
  · by_cases hs : c.pc tid = Pc.shuffle
    · have h0 : tid = 0 := by
        have := hm.pcs tid htid
        rw [hs] at this
        simpa [mapPc] using this
      subst h0
      obtain ⟨hent, hd⟩ := MapInv_entry client c hm htid hs
      obtain ⟨hl, hst⟩ := ShuffleEntry_leader client std_sort c c' hent hstep
      refine ⟨Or.inr ⟨_, ⟨?_, ?_⟩, hl⟩, by rw [hst]⟩
      · rw [hin, hcalls (by rw [hs]; exact fun hc => by cases hc)]
        exact hd.indices
      · rw [hin]
        exact hd.pairs
    · have hm' := MapInv_step client std_sort hsort tid c c' hn hm htid hs hstep
      exact ⟨Or.inl hm', by rw [hm.stage, hm'.stage]⟩
  · have hPl : P.length < 2 ^ 31 := by
      rw [hd.pairs.length_eq]
      exact hP
    obtain ⟨hl', hle⟩ := LaterInv_step client std_sort h P hPl tid c c' hl htid hstep
    have hpc := LaterInv_pc client P c hl tid htid
    refine ⟨Or.inr ⟨P, ⟨?_, ?_⟩, hl'⟩, hle⟩
    · rw [hin, hcalls (fun hc => by rw [hc] at hpc; simp [inLoop] at hpc)]
      exact hd.indices
    · rw [hin]
      exact hd.pairs

end Machine

section Machine
variable {I K V O : Type}

theorem start_fields (input : List I) (W : Nat) :
    ((startMapReduceJob input W : Job I K V O).threads_num = W ∧
      (startMapReduceJob input W : Job I K V O).context_input_vec = input ∧
      (startMapReduceJob input W : Job I K V O).pc = (fun _ => Pc.mapLoop) ∧
      (startMapReduceJob input W : Job I K V O).context_intermediate_vec = (fun _ => []) ∧
      (startMapReduceJob input W : Job I K V O).all_intermediate_vec = [] ∧
      (startMapReduceJob input W : Job I K V O).mapCalls = []) ∧
    ((startMapReduceJob input W : Job I K V O).sem = 0 ∧
      (startMapReduceJob input W : Job I K V O).posts = 0 ∧
      (startMapReduceJob input W : Job I K V O).shuffled_vector = [] ∧
      (startMapReduceJob input W : Job I K V O).context_output_vec = [] ∧
      (startMapReduceJob input W : Job I K V O).reduceCalls = []) ∧
    (startMapReduceJob input W : Job I K V O).atomic_counter
      = set_atomic_total_number_of_pairs (set_atomic_stage 0 MAP_STAGE) (input.length : Int) ∧
    (startMapReduceJob input W : Job I K V O).state.stage
      = get_atomic_stage (startMapReduceJob input W : Job I K V O).atomic_counter :=
  ⟨⟨rfl, rfl, rfl, rfl, rfl, rfl⟩, ⟨rfl, rfl, rfl, rfl, rfl⟩, rfl, rfl⟩

/-- The job that `startMapReduceJob` returns is in its map phase. -/
theorem MapInv_start (client : Client I K V O) (input : List I) (W : Nat)
    (hn : input.length < 2 ^ 31) : MapInv client (startMapReduceJob input W) := by
  obtain ⟨⟨h1, h2, h3, h4, h5, h6⟩, ⟨h7, h8, h9, h10, h11⟩, h12, h13⟩ :=
    start_fields (K := K) (V := V) (O := O) input W
  have hword : (startMapReduceJob input W : Job I K V O).atomic_counter
      = wordOf 1 0 input.length := by
    rw [h12, set_atomic_stage_map]
    exact set_total_wordOf 1 0 _ (by omega) (by norm_num) hn
  refine ⟨?_, ?_, h7, h8, h9, h10, h11, ?_, ?_, ?_, ?_, ?_, ?_, ?_⟩
  · intro t _
    rw [h3]
    rfl
  · intro t _ hb
    rw [h3] at hb
    cases hb
  · rw [h6, h2]
    exact hword
  · rw [h6]
    exact Nat.zero_le _
  · rw [h6]
    rfl
  · intro t _ hl
    rw [h3] at hl
    cases hl
  · rw [h13, hword]
    exact get_atomic_stage_wordOf 1 0 _ (by norm_num) hn
  · intro vec hv
    rw [h5] at hv
    cases hv
  · rw [h5, h6, h1, h3, h4]
    have : gather W (fun tid => pendingAt (Pc.mapLoop : Pc K V) ([] : List (K × V))) = [] :=
      gather_nil _ _ (fun _ _ => rfl)
    show ([] ++ gather W (fun tid => pendingAt (Pc.mapLoop : Pc K V) ([] : List (K × V)))).Perm []
    rw [this]
    exact List.Perm.refl _

/-- What holds in every job state that the workers reach from
`startMapReduceJob`, for an input of fewer than `2 ^ 28` pairs whose
intermediate pairs are fewer than `2 ^ 31`: `JobInv`, and the reported stage
is not below the stage MAP reported at the start. -/
theorem JobInv_run (client : Client I K V O) (std_sort : List (K × V) → List (K × V))
    (h : StrictWeak client.lt) (hsort : Sorts client.lt std_sort) (input : List I) (W : Nat)
    (hn : input.length < 2 ^ 28) (hP : (input.flatMap client.map).length < 2 ^ 31)
    (schedule : List Nat) :
    JobInv client (run client std_sort schedule (startMapReduceJob input W)) := by
  have := run_induction client std_sort
    (fun c => JobInv client c ∧ c.context_input_vec = input) (fun _ _ => True)
    (fun _ => trivial) (fun _ _ _ _ _ => trivial)
    (fun tid c c' hinv htid hS => by
      obtain ⟨hj, hin⟩ := hinv
      have hstep := JobInv_step client std_sort h hsort tid c c' (by rw [hin]; exact hn)
        (by rw [hin]; exact hP) hj htid hS
      exact ⟨⟨hstep.1, by rw [(Step_frame client std_sort tid c c' hS).2.1]; exact hin⟩,
        trivial⟩)
    schedule (startMapReduceJob input W)
    ⟨Or.inl (MapInv_start client input W (by norm_num at hn ⊢; omega)), rfl⟩
  exact this.1.1

end Machine

section Machine
variable {I K V O : Type}

theorem GroupsOk_front (lt : K → K → Bool) (gs queue rest : List (List (K × V)))
    (h : GroupsOk lt gs) (hq : gs = queue ++ rest) : GroupsOk lt queue := by
  subst hq
  exact ⟨fun g hg => h.1 g (List.mem_append_left _ hg), (List.pairwise_append.mp h.2).1⟩

theorem FromShuffle_groups (client : Client I K V O) (P : List (K × V)) (c : Job I K V O)
    (h : FromShuffle client P c) : GroupsOk client.lt c.shuffled_vector := by
  rcases h with ⟨hent, _⟩ | ⟨hs, _⟩ | ⟨gs, hg, _, hr⟩ | ⟨_, hs⟩
  · rw [hent.queue]
    exact ⟨by simp, List.Pairwise.nil⟩
  · exact hs.groups
  · obtain ⟨rest, hrest⟩ := hr.front
    exact GroupsOk_front client.lt gs _ rest hg hrest
  · rw [hs.queue]
    exact ⟨by simp, List.Pairwise.nil⟩

theorem FromShuffle_loopLeft (client : Client I K V O) (P : List (K × V)) (c : Job I K V O)
    (h : FromShuffle client P c) (hW : 0 < c.threads_num) (hl : loopLeft (c.pc 0) = true) :
    ShuffleInv client.lt P c ∧ ShuffleWord P c := by
  have key : ∀ p : Pc K V, loopLeft p = true →
      p ≠ Pc.shuffle ∧ reducePc 0 p = false ∧ skipPc p = false := by
    intro p hp
    cases p <;> simp_all [loopLeft, reducePc, skipPc]
  obtain ⟨k1, k2, k3⟩ := key _ hl
  rcases h with ⟨hent, _⟩ | hs | ⟨gs, _, _, hr⟩ | ⟨_, hs⟩
  · exact absurd hent.leader k1
  · exact hs
  · rw [hr.pcs 0 hW] at k2
    cases k2
  · rw [hs.leader] at k3
    cases k3

/-- Every run from the call of `shuffle` keeps `FromShuffle`. -/
theorem FromShuffle_run (client : Client I K V O) (std_sort : List (K × V) → List (K × V))
    (h : StrictWeak client.lt) (c : Job I K V O) (hent : ShuffleEntry client.lt c)
    (hP : c.all_intermediate_vec.flatten.length < 2 ^ 31) (schedule : List Nat) :
    FromShuffle client c.all_intermediate_vec.flatten (run client std_sort schedule c) :=
  (run_induction client std_sort (FromShuffle client c.all_intermediate_vec.flatten)
    (fun _ _ => True) (fun _ => trivial) (fun _ _ _ _ _ => trivial)
    (fun tid a b hinv htid hS =>
      ⟨(FromShuffle_step client std_sort h _ hP tid a b hinv htid hS).1, trivial⟩)
    schedule c (Or.inl ⟨hent, rfl⟩)).1

/-- From the call of `shuffle` with at least one pair in the shared list, the
steps of worker 0 alone, at most three for every pair and five more, take it
to the end of the loop of `shuffle`. -/
theorem shuffle_reaches_exit (client : Client I K V O) (std_sort : List (K × V) → List (K × V))
    (h : StrictWeak client.lt) (c : Job I K V O) (hent : ShuffleEntry client.lt c)
    (hW : 0 < c.threads_num) (hne : c.all_intermediate_vec.flatten ≠ []) :
    ∃ m, m ≤ 3 * c.all_intermediate_vec.flatten.length + 5 ∧
      (run client std_sort (List.replicate m 0) c).pc 0 = Pc.readyReset := by
  have hr : shuffleRank c = 3 * c.all_intermediate_vec.flatten.length + 5 := by
    unfold shuffleRank
    rw [hent.leader]
    rfl
  obtain ⟨c', hs⟩ := step_leader_some client std_sort c hW (by omega)
  obtain ⟨_, hS⟩ := step_Step client std_sort 0 c c' hs
  have hW' : 0 < c'.threads_num := by
    rw [(Step_frame client std_sort 0 c c' hS).1]
    exact hW
  rcases (ShuffleEntry_leader client std_sort c c' hent hS).1 with ⟨hi, _⟩ | ⟨gs, _, _, hr'⟩ |
    ⟨hnil, _⟩
  · have hl := hent.leader
    have hr1 : shuffleRank c' = 3 * c.all_intermediate_vec.flatten.length + 4 := by
      cases hS with
      | shuffleSkip hpc hzero =>
        exfalso
        have := hi.leader
        rw [goto_pc_self] at this
        cases this
      | shuffleReset hpc hpos =>
        rw [shuffleRank_goto]
        rfl
      | _ => exfalso; simp_all
    obtain ⟨m, hm, hpc⟩ := shuffle_loop_ends client std_sort h _ _ c' (le_of_eq hr1) hW' hi
      (by omega)
    refine ⟨m + 1, by omega, ?_⟩
    rw [run_leader_succ client std_sort c c' m hs]
    exact hpc
  · exfalso
    have h1 := hr'.posts
    have h2 := hr'.pcs 0 hW'
    have hl := hent.leader
    have hp := hent.posts
    cases hS with
    | shuffleSkip hpc hzero =>
      rw [← List.length_flatten] at hzero
      exact hne (List.eq_nil_of_length_eq_zero hzero)
    | shuffleReset hpc hpos =>
      rw [goto_pc_self] at h2
      cases h2
    | _ => simp_all
  · exact absurd hnil hne

theorem natLt_strictWeak : StrictWeak natLt := by
  refine ⟨fun a => by simp [natLt], fun a b c h1 h2 => ?_, fun a b c h1 h2 => ?_⟩
  · simp only [natLt, decide_eq_true_eq] at *
    omega
  · simp only [equivKeys, natLt, Bool.and_eq_true, Bool.not_eq_true', decide_eq_false_iff_not]
      at *
    omega

set_option maxRecDepth 1000000 in
theorem atShuffle_entry : ShuffleEntry sumClient.lt atShuffle := by
  have hv : atShuffle.all_intermediate_vec = [[(2, 2)], [(1, 4), (1, 1)]] := by decide!
  have hW : atShuffle.threads_num = 2 := by decide!
  refine ⟨by decide!, ?_, by decide!, by decide!, by decide!, by decide!, by decide!, ?_,
    by decide!⟩
  · intro tid h0 h2
    rw [hW] at h2
    have : tid = 1 := by omega
    subst this
    decide!
  · intro vec hvec
    rw [hv] at hvec
    simp only [List.mem_cons, List.mem_singleton, List.not_mem_nil, or_false] at hvec
    rcases hvec with rfl | rfl
    · exact List.pairwise_singleton _ _
    · show List.Pairwise _ _
      simp [sumClient, natLt]

/-- C22: for every job state at the call of `shuffle` (`ShuffleEntry`: the
vectors of the shared list are sorted ascending, the other workers wait), for
a strict weak ordering of the keys and fewer than `2 ^ 31` pairs, and for every
schedule of the workers from there: the shuffle-output queue always holds
well-formed groups (`GroupsOk`: every group is non-empty, its keys are
equivalent under `!(a<b) && !(b<a)`, and pairs of two different groups never
have equivalent keys), and when worker 0 has left the loop of `shuffle` and has
not posted yet the number of groups is the number of distinct keys of the
pairs. With at least one pair the steps of worker 0 alone, at most
`3 * pairs + 5`, take it to the end of the loop. -/
theorem C22_shuffle_groups_by_key (client : Client I K V O)
    (std_sort : List (K × V) → List (K × V)) (h : StrictWeak client.lt) (c : Job I K V O)
    (hent : ShuffleEntry client.lt c) (hW : 0 < c.threads_num)
    (hP : c.all_intermediate_vec.flatten.length < 2 ^ 31) :
    (∀ schedule : List Nat,
      GroupsOk client.lt (run client std_sort schedule c).shuffled_vector ∧
      (loopLeft ((run client std_sort schedule c).pc 0) = true →
        (run client std_sort schedule c).shuffled_vector.length
          = distinctKeys client.lt c.all_intermediate_vec.flatten)) ∧
    (c.all_intermediate_vec.flatten ≠ [] →
      ∃ m, m ≤ 3 * c.all_intermediate_vec.flatten.length + 5 ∧
        (run client std_sort (List.replicate m 0) c).pc 0 = Pc.readyReset) := by
  refine ⟨fun schedule => ?_, shuffle_reaches_exit client std_sort h c hent hW⟩
  have hf := FromShuffle_run client std_sort h c hent hP schedule
  refine ⟨FromShuffle_groups client _ _ hf, fun hl => ?_⟩
  have hW' : 0 < (run client std_sort schedule c).threads_num := by
    rw [(run_frame client std_sort schedule c).1]
    exact hW
  obtain ⟨hi, _⟩ := FromShuffle_loopLeft client _ _ hf hW' hl
  have hperm := hi.perm
  rw [hi.left hl, List.append_nil] at hperm
  exact groups_count client.lt h _ _ hi.groups hperm

set_option maxRecDepth 1000000 in
/-- C22 at the job `atShuffle` (vectors `[(2, 2)]` and `[(1, 4), (1, 1)]`):
after eleven rounds of both workers, worker 0 has left the loop of `shuffle`,
the queue holds the two groups `[(2, 2)]` and `[(1, 1), (1, 4)]`, and two is
the number of distinct keys. -/
theorem C22_shuffle_groups_by_key_witness :
    StrictWeak sumClient.lt ∧ ShuffleEntry sumClient.lt atShuffle ∧
    0 < atShuffle.threads_num ∧ atShuffle.all_intermediate_vec.flatten.length < 2 ^ 31 ∧
    (run sumClient (insertionSort natLt) (roundRobin 2 11) atShuffle).shuffled_vector
      = [[(2, 2)], [(1, 1), (1, 4)]] ∧
    GroupsOk sumClient.lt
      (run sumClient (insertionSort natLt) (roundRobin 2 11) atShuffle).shuffled_vector ∧
    (run sumClient (insertionSort natLt) (roundRobin 2 11) atShuffle).shuffled_vector.length
      = distinctKeys sumClient.lt atShuffle.all_intermediate_vec.flatten :=
  ⟨natLt_strictWeak, atShuffle_entry, by decide!, by decide!, by decide!,
   ((C22_shuffle_groups_by_key sumClient (insertionSort natLt) natLt_strictWeak atShuffle
      atShuffle_entry (by decide!) (by decide!)).1 (roundRobin 2 11)).1,
   ((C22_shuffle_groups_by_key sumClient (insertionSort natLt) natLt_strictWeak atShuffle
      atShuffle_entry (by decide!) (by decide!)).1 (roundRobin 2 11)).2 (by decide!)⟩

/-- C23: for every job state at the call of `shuffle` with at least one and
fewer than `2 ^ 31` pairs in sorted vectors, and a strict weak ordering of the
keys: the steps of worker 0 alone take it to the end of the loop of `shuffle`,
and in every run, when worker 0 has just left the loop, every intermediate
vector is empty, the groups of the shuffle-output queue together are a
permutation of the pairs that were in the vectors at the call, and the
processed count of the progress word equals its total count, the number of
these pairs (the two 31-bit fields hold it, and the two getters return the
same value). -/
theorem C23_shuffle_conserves_pairs (client : Client I K V O)
    (std_sort : List (K × V) → List (K × V)) (h : StrictWeak client.lt) (c : Job I K V O)
    (hent : ShuffleEntry client.lt c) (hW : 0 < c.threads_num)
    (hP : c.all_intermediate_vec.flatten.length < 2 ^ 31)
    (hne : c.all_intermediate_vec.flatten ≠ []) :
    (∃ m, m ≤ 3 * c.all_intermediate_vec.flatten.length + 5 ∧
      (run client std_sort (List.replicate m 0) c).pc 0 = Pc.readyReset) ∧
    (∀ schedule : List Nat, (run client std_sort schedule c).pc 0 = Pc.readyReset →
      (∀ vec ∈ (run client std_sort schedule c).all_intermediate_vec, vec = []) ∧
      (run client std_sort schedule c).shuffled_vector.flatten.Perm
        c.all_intermediate_vec.flatten ∧
      processedField (run client std_sort schedule c).atomic_counter
        = c.all_intermediate_vec.flatten.length ∧
      totalField (run client std_sort schedule c).atomic_counter
        = c.all_intermediate_vec.flatten.length ∧
      get_atomic_processed_pairs (run client std_sort schedule c).atomic_counter
        = get_atomic_total_num_of_pairs (run client std_sort schedule c).atomic_counter) := by
  refine ⟨shuffle_reaches_exit client std_sort h c hent hW hne, fun schedule hpc => ?_⟩
  have hf := FromShuffle_run client std_sort h c hent hP schedule
  have hW' : 0 < (run client std_sort schedule c).threads_num := by
    rw [(run_frame client std_sort schedule c).1]
    exact hW
  have hl : loopLeft ((run client std_sort schedule c).pc 0) = true := by
    rw [hpc]
    rfl
  obtain ⟨hi, hw⟩ := FromShuffle_loopLeft client _ _ hf hW' hl
  have hempty := hi.left hl
  have hperm := hi.perm
  rw [hempty, List.append_nil] at hperm
  obtain ⟨h1, _⟩ := (ShuffleWord_at _ _ _ hpc).mp hw
  rw [hperm.length_eq] at h1
  obtain ⟨_, g2, g3, g4, g5⟩ := getters_wordOf 2 c.all_intermediate_vec.flatten.length
    c.all_intermediate_vec.flatten.length hP hP
  rw [h1]
  exact ⟨List.flatten_eq_nil_iff.mp hempty, hperm, g4, g5, by rw [g2, g3]⟩

set_option maxRecDepth 1000000 in
/-- C23 at the job `atShuffle` with its three pairs: after eleven rounds of
both workers, worker 0 has just left the loop of `shuffle`, the vectors are
empty, the queue holds the three pairs, and the processed field and the total
field of the progress word both hold 3. -/
theorem C23_shuffle_conserves_pairs_witness :
    StrictWeak sumClient.lt ∧ ShuffleEntry sumClient.lt atShuffle ∧
    0 < atShuffle.threads_num ∧ atShuffle.all_intermediate_vec.flatten.length < 2 ^ 31 ∧
    atShuffle.all_intermediate_vec.flatten = [(2, 2), (1, 4), (1, 1)] ∧
    (run sumClient (insertionSort natLt) (roundRobin 2 11) atShuffle).pc 0 = Pc.readyReset ∧
    (run sumClient (insertionSort natLt) (roundRobin 2 11) atShuffle).shuffled_vector.flatten.Perm
      atShuffle.all_intermediate_vec.flatten ∧
    processedField (run sumClient (insertionSort natLt) (roundRobin 2 11) atShuffle).atomic_counter
      = atShuffle.all_intermediate_vec.flatten.length ∧
    totalField (run sumClient (insertionSort natLt) (roundRobin 2 11) atShuffle).atomic_counter
      = atShuffle.all_intermediate_vec.flatten.length :=
  have hw := (C23_shuffle_conserves_pairs sumClient (insertionSort natLt) natLt_strictWeak
    atShuffle atShuffle_entry (by decide!) (by decide!) (by decide!)).2 (roundRobin 2 11)
    (by decide!)
  ⟨natLt_strictWeak, atShuffle_entry, by decide!, by decide!, by decide!, by decide!,
   hw.2.1, hw.2.2.1, hw.2.2.2.1⟩

end Machine

section Machine
variable {I K V O : Type}

/-- From a job state with `JobInv`, every run keeps `JobInv` and the input,
and the reported stage does not go down. -/
theorem JobInv_run_from (client : Client I K V O) (std_sort : List (K × V) → List (K × V))
    (h : StrictWeak client.lt) (hsort : Sorts client.lt std_sort) (c : Job I K V O)
    (hn : c.context_input_vec.length < 2 ^ 28)
    (hP : (c.context_input_vec.flatMap client.map).length < 2 ^ 31)
    (hinv : JobInv client c) (schedule : List Nat) :
    JobInv client (run client std_sort schedule c) ∧
      c.state.stage ≤ (run client std_sort schedule c).state.stage := by
  have := run_induction client std_sort
    (fun a => JobInv client a ∧ a.context_input_vec = c.context_input_vec)
    (fun a b => a.state.stage ≤ b.state.stage)
    (fun _ => le_refl _) (fun _ _ _ h1 h2 => le_trans h1 h2)
    (fun tid a b hinv htid hS => by
      obtain ⟨hj, hin⟩ := hinv
      have hstep := JobInv_step client std_sort h hsort tid a b (by rw [hin]; exact hn)
        (by rw [hin]; exact hP) hj htid hS
      exact ⟨⟨hstep.1, by rw [(Step_frame client std_sort tid a b hS).2.1]; exact hin⟩,
        hstep.2⟩)
    schedule c ⟨hinv, rfl⟩
  exact ⟨this.1.1, this.2⟩

theorem pc_classes (p : Pc K V) :
    (p = Pc.readyPost 0 → mapPc 0 p = false ∧ reducePc 0 p = false ∧ skipPc p = false) ∧
    (pastShuffle p = true → mapPc 0 p = false ∧ inShuffle p = false) := by
  cases p <;> simp [mapPc, reducePc, skipPc, pastShuffle, inShuffle]

/-- In a job state with `JobInv`, worker 0 at its first `sem_post` is inside
the part that `ShuffleInv` and `ShuffleWord` describe. -/
theorem JobInv_at_post (client : Client I K V O) (c : Job I K V O) (hinv : JobInv client c)
    (hW : 0 < c.threads_num) (hpc : c.pc 0 = Pc.readyPost 0) :
    ∃ P, MapDone client P c ∧ ShuffleInv client.lt P c ∧ ShuffleWord P c := by
  obtain ⟨k1, k2, k3⟩ := (pc_classes (c.pc 0)).1 hpc
  rcases hinv with hm | ⟨P, hd, ⟨hs, hw⟩ | ⟨gs, _, _, hr⟩ | ⟨_, hs⟩⟩
  · rw [hm.pcs 0 hW] at k1
    cases k1
  · exact ⟨P, hd, hs, hw⟩
  · rw [hr.pcs 0 hW] at k2
    cases k2
  · rw [hs.leader] at k3
    cases k3

/-- In a job state with `JobInv`, worker 0 behind its call of `shuffle` has
posted, or `shuffle` found no pair. -/
theorem JobInv_past (client : Client I K V O) (c : Job I K V O) (hinv : JobInv client c)
    (hW : 0 < c.threads_num) (hpc : pastShuffle (c.pc 0) = true) :
    ∃ P, MapDone client P c ∧
      ((∃ gs, GroupsOk client.lt gs ∧ gs.flatten.Perm P ∧ ReduceInv client gs c) ∨
        (P = [] ∧ SkipInv c)) := by
  obtain ⟨k1, k2⟩ := (pc_classes (c.pc 0)).2 hpc
  rcases hinv with hm | ⟨P, hd, ⟨hs, hw⟩ | hr | hs⟩
  · rw [hm.pcs 0 hW] at k1
    cases k1
  · rw [hs.leader] at k2
    cases k2
  · exact ⟨P, hd, Or.inl hr⟩
  · exact ⟨P, hd, Or.inr hs⟩

theorem postsAt_past (W : Nat) (p : Pc K V) (h : pastShuffle p = true) : postsAt W p = W := by
  cases p <;> simp_all [pastShuffle, postsAt]

/-- C24 as amended: in every job state that the workers reach from
`startMapReduceJob`, for a job of at least one worker whose map phase emitted
at least one intermediate pair (input below `2 ^ 28` pairs, intermediate pairs
below `2 ^ 31`, keys in a strict weak ordering, `std_sort` sorting): when
worker 0 is about to make its first `sem_post`, the progress word has stage
REDUCE, processed 0 and total equal to the number of groups in the
shuffle-output queue (the total field holds it, and the getter returns it when
it is below `2 ^ 28`), and no post was made; and when worker 0 is behind its
call of `shuffle` the semaphore has been posted exactly `W` times. -/
theorem C24_leader_finishes_shuffle (client : Client I K V O)
    (std_sort : List (K × V) → List (K × V)) (h : StrictWeak client.lt)
    (hsort : Sorts client.lt std_sort) (input : List I) (W : Nat) (hW : 0 < W)
    (hn : input.length < 2 ^ 28) (hP : (input.flatMap client.map).length < 2 ^ 31)
    (hne : input.flatMap client.map ≠ []) (schedule : List Nat) :
    ((run client std_sort schedule (startMapReduceJob input W)).pc 0 = Pc.readyPost 0 →
      get_atomic_stage (run client std_sort schedule (startMapReduceJob input W)).atomic_counter
        = REDUCE_STAGE ∧
      get_atomic_processed_pairs
        (run client std_sort schedule (startMapReduceJob input W)).atomic_counter = 0 ∧
      totalField (run client std_sort schedule (startMapReduceJob input W)).atomic_counter
        = (run client std_sort schedule (startMapReduceJob input W)).shuffled_vector.length ∧
      ((run client std_sort schedule (startMapReduceJob input W)).shuffled_vector.length < 2 ^ 28 →
        get_atomic_total_num_of_pairs
          (run client std_sort schedule (startMapReduceJob input W)).atomic_counter
        = ((run client std_sort schedule (startMapReduceJob input W)).shuffled_vector.length
            : Int)) ∧
      (run client std_sort schedule (startMapReduceJob input W)).posts = 0) ∧
    (pastShuffle ((run client std_sort schedule (startMapReduceJob input W)).pc 0) = true →
      (run client std_sort schedule (startMapReduceJob input W)).posts = W) := by
  have hinv := JobInv_run client std_sort h hsort input W hn hP schedule
  obtain ⟨hW', hin⟩ := run_frame client std_sort schedule
    (startMapReduceJob input W : Job I K V O)
  generalize run client std_sort schedule (startMapReduceJob input W) = c at hinv hW' hin ⊢
  have hW1 : c.threads_num = W := hW'
  have hin1 : c.context_input_vec = input := hin
  have hW0 : 0 < c.threads_num := by omega
  constructor
  · intro hpc
    obtain ⟨P, hd, hs, hw⟩ := JobInv_at_post client c hinv hW0 hpc
    obtain ⟨h1, _⟩ := (ShuffleWord_at P c _ hpc).mp hw
    have hG : c.shuffled_vector.length < 2 ^ 31 := by
      have e1 := length_le_flatten_length _ (fun g hg => (hs.groups.1 g hg).1)
      have e2 := hs.perm.length_eq
      have e3 := hd.pairs.length_eq
      rw [List.length_append] at e2
      rw [hin1] at e3
      omega
    obtain ⟨g1, g2, g3, g4, g5⟩ := getters_wordOf 3 0 c.shuffled_vector.length (by norm_num) hG
    rw [h1]
    refine ⟨g1, g2, g5, fun hlt => ?_, hs.posts⟩
    rw [g3, Nat.mod_eq_of_lt hlt]
  · intro hpc
    obtain ⟨P, hd, ⟨gs, _, _, hr⟩ | ⟨hnil, _⟩⟩ := JobInv_past client c hinv hW0 hpc
    · rw [hr.posts, postsAt_past _ _ hpc, hW1]
    · exfalso
      have := hd.pairs
      rw [hnil, hin1] at this
      exact hne this.symm.eq_nil

end Machine

section Machine
variable {I K V O : Type}

/-! ### Insertion sort sorts -/

theorem insertByKey_perm (lt : K → K → Bool) (x : K × V) (l : List (K × V)) :
    (insertByKey lt x l).Perm (x :: l) := by
  induction l with
  | nil => exact List.Perm.refl _
  | cons y ys ih =>
    unfold insertByKey
    split
    · exact List.Perm.refl _
    · exact (List.Perm.cons y ih).trans (List.Perm.swap x y ys)

theorem insertByKey_sorted (lt : K → K → Bool) (h : StrictWeak lt) (x : K × V)
    (l : List (K × V)) (hs : SortedVec lt l) : SortedVec lt (insertByKey lt x l) := by
  induction l with
  | nil => exact List.pairwise_singleton _ _
  | cons y ys ih =>
    have hy := List.pairwise_cons.mp hs
    unfold insertByKey
    split
    · next hxy =>
      refine List.pairwise_cons.mpr ⟨?_, hs⟩
      intro b hb
      by_contra hc
      have hbx : lt b.1 x.1 = true := by simpa using hc
      have hby := h.2.1 b.1 x.1 y.1 hbx hxy
      rcases List.mem_cons.mp hb with hb | hb
      · rw [hb, h.1] at hby
        cases hby
      · rw [hy.1 b hb] at hby
        cases hby
    · next hxy =>
      refine List.pairwise_cons.mpr ⟨?_, ih hy.2⟩
      intro b hb
      rcases List.mem_cons.mp ((insertByKey_perm lt x ys).subset hb) with hb | hb
      · rw [hb]
        simpa using hxy
      · exact hy.1 b hb

theorem insertionSort_sorts (lt : K → K → Bool) (h : StrictWeak lt) :
    Sorts lt (insertionSort (V := V) lt) := by
  intro vec
  induction vec with
  | nil => exact ⟨List.Pairwise.nil, List.Perm.refl _⟩
  | cons x xs ih =>
    exact ⟨insertByKey_sorted lt h x _ ih.1,
      (insertByKey_perm lt x _).trans (List.Perm.cons x ih.2)⟩

set_option maxRecDepth 1000000 in
/-- C24 fails on the code. A job of one worker with the empty input: after
four steps worker 0 is behind `shuffle`, which returned at once; the progress
word still has stage MAP and no `sem_post` was made. A job of two workers on
the input `[1, 2, 4]`, where worker 1 takes the first post and reduces a group
before worker 0 makes its second post: when worker 0 is behind `shuffle`, the
word has processed count 1, and total count 2 with one group in the queue. -/
theorem C24_shuffle_step_counterexample :
    ((run sumClient (insertionSort natLt) (List.replicate 4 0) (startMapReduceJob [] 1)).pc 0
        = Pc.reduceLoop ∧
      get_atomic_stage (run sumClient (insertionSort natLt) (List.replicate 4 0)
        (startMapReduceJob [] 1)).atomic_counter = MAP_STAGE ∧
      (run sumClient (insertionSort natLt) (List.replicate 4 0) (startMapReduceJob [] 1)).posts
        = 0) ∧
    ((run sumClient (insertionSort natLt) (roundRobin 2 22 ++ [0, 1, 1, 1, 1, 1, 0, 0])
        (startMapReduceJob [1, 2, 4] 2)).pc 0 = Pc.reduceLoop ∧
      get_atomic_processed_pairs (run sumClient (insertionSort natLt)
        (roundRobin 2 22 ++ [0, 1, 1, 1, 1, 1, 0, 0])
        (startMapReduceJob [1, 2, 4] 2)).atomic_counter = 1 ∧
      get_atomic_total_num_of_pairs (run sumClient (insertionSort natLt)
        (roundRobin 2 22 ++ [0, 1, 1, 1, 1, 1, 0, 0])
        (startMapReduceJob [1, 2, 4] 2)).atomic_counter = 2 ∧
      (run sumClient (insertionSort natLt) (roundRobin 2 22 ++ [0, 1, 1, 1, 1, 1, 0, 0])
        (startMapReduceJob [1, 2, 4] 2)).shuffled_vector.length = 1) := by
  decide!

set_option maxRecDepth 1000000 in
/-- C24 as amended, at the job of `sumClient` on `[1, 2, 4]` with two
workers: after 22 rounds worker 0 is about to make its first post, the word
has stage REDUCE, processed 0 and total 2 with two groups in the queue; after
25 rounds worker 0 is behind `shuffle` and two posts were made. -/
theorem C24_leader_finishes_shuffle_witness :
    StrictWeak sumClient.lt ∧ Sorts (V := Nat) sumClient.lt (insertionSort natLt) ∧
    (0 < 2 ∧ [1, 2, 4].length < 2 ^ 28 ∧ ([1, 2, 4].flatMap sumClient.map).length < 2 ^ 31 ∧
      [1, 2, 4].flatMap sumClient.map ≠ []) ∧
    (run sumClient (insertionSort natLt) (roundRobin 2 22) (startMapReduceJob [1, 2, 4] 2)).pc 0
      = Pc.readyPost 0 ∧
    (get_atomic_stage (run sumClient (insertionSort natLt) (roundRobin 2 22)
        (startMapReduceJob [1, 2, 4] 2)).atomic_counter = REDUCE_STAGE ∧
      get_atomic_processed_pairs (run sumClient (insertionSort natLt) (roundRobin 2 22)
        (startMapReduceJob [1, 2, 4] 2)).atomic_counter = 0 ∧
      totalField (run sumClient (insertionSort natLt) (roundRobin 2 22)
        (startMapReduceJob [1, 2, 4] 2)).atomic_counter
        = (run sumClient (insertionSort natLt) (roundRobin 2 22)
            (startMapReduceJob [1, 2, 4] 2)).shuffled_vector.length) ∧
    (run sumClient (insertionSort natLt) (roundRobin 2 22)
      (startMapReduceJob [1, 2, 4] 2)).shuffled_vector.length = 2 ∧
    (run sumClient (insertionSort natLt) (roundRobin 2 25) (startMapReduceJob [1, 2, 4] 2)).posts
      = 2 :=
  have h22 := (C24_leader_finishes_shuffle sumClient (insertionSort natLt) natLt_strictWeak
    (insertionSort_sorts natLt natLt_strictWeak) [1, 2, 4] 2 (by decide) (by decide) (by decide)
    (by decide) (roundRobin 2 22)).1 (by decide!)
  ⟨natLt_strictWeak, insertionSort_sorts natLt natLt_strictWeak,
   ⟨by decide, by decide, by decide, by decide⟩, by decide!,
   ⟨h22.1, h22.2.1, h22.2.2.1⟩, by decide!,
   (C24_leader_finishes_shuffle sumClient (insertionSort natLt) natLt_strictWeak
    (insertionSort_sorts natLt natLt_strictWeak) [1, 2, 4] 2 (by decide) (by decide) (by decide)
    (by decide) (roundRobin 2 25)).2 (by decide!)⟩

end Machine

section Machine
variable {I K V O : Type}

set_option maxRecDepth 1000000 in
/-- C26 fails on the code for the stage held by the progress word. In the job
of `sumClient` on the input `[1]` with one worker, after five steps the word
has stage MAP, and after the sixth step, the `*atomic_counter = 0` of
`shuffle`, it has stage UNDEFINED, which is below MAP. -/
theorem C26_word_stage_regresses :
    get_atomic_stage (run sumClient (insertionSort natLt) (List.replicate 5 0)
      (startMapReduceJob [1] 1)).atomic_counter = MAP_STAGE ∧
    get_atomic_stage (run sumClient (insertionSort natLt) (List.replicate 5 0 ++ [0])
      (startMapReduceJob [1] 1)).atomic_counter = UNDEFINED_STAGE ∧
    UNDEFINED_STAGE < MAP_STAGE := by
  decide!

/-- C26 as amended: the stage that `getJobState` reports never regresses. It
is UNDEFINED before the statements of `startMapReduceJob` and MAP after them,
and in every run of the workers from `startMapReduceJob` (input below `2 ^ 28`
pairs, intermediate pairs below `2 ^ 31`, keys in a strict weak ordering,
`std_sort` sorting) the stage reported after a schedule `s1` is at least MAP
and at most the stage reported after any longer schedule `s1 ++ s2`, through
all steps of `shuffle` and `getReadyToReduce`. -/
theorem C26_reported_stage_monotone (client : Client I K V O)
    (std_sort : List (K × V) → List (K × V)) (h : StrictWeak client.lt)
    (hsort : Sorts client.lt std_sort) (input : List I) (W : Nat)
    (hn : input.length < 2 ^ 28) (hP : (input.flatMap client.map).length < 2 ^ 31)
    (s1 s2 : List Nat) :
    (getJobState (allocated input W : Job I K V O)).stage = UNDEFINED_STAGE ∧
    (getJobState (startMapReduceJob input W : Job I K V O)).stage = MAP_STAGE ∧
    MAP_STAGE ≤ (getJobState (run client std_sort s1 (startMapReduceJob input W))).stage ∧
    (getJobState (run client std_sort s1 (startMapReduceJob input W))).stage
      ≤ (getJobState (run client std_sort (s1 ++ s2) (startMapReduceJob input W))).stage := by
  have hstart := MapInv_start client input W (by norm_num at hn ⊢; omega)
  have hin0 : (startMapReduceJob input W : Job I K V O).context_input_vec = input := rfl
  have h1 := JobInv_run_from client std_sort h hsort (startMapReduceJob input W)
    (by rw [hin0]; exact hn) (by rw [hin0]; exact hP) (Or.inl hstart) s1
  have hin1 := (run_frame client std_sort s1 (startMapReduceJob input W : Job I K V O)).2
  have h2 := JobInv_run_from client std_sort h hsort
    (run client std_sort s1 (startMapReduceJob input W))
    (by rw [hin1, hin0]; exact hn) (by rw [hin1, hin0]; exact hP) h1.1 s2
  refine ⟨rfl, hstart.stage, ?_, ?_⟩
  · have := h1.2
    rw [hstart.stage] at this
    exact this
  · rw [run_append]
    exact h2.2

set_option maxRecDepth 1000000 in
/-- C26 as amended, at the job of `sumClient` on `[1, 2, 4]` with two
workers: the reported stage is MAP after 7 rounds and SHUFFLE after 12
rounds. -/
theorem C26_reported_stage_monotone_witness :
    StrictWeak sumClient.lt ∧ Sorts (V := Nat) sumClient.lt (insertionSort natLt) ∧
    ([1, 2, 4].length < 2 ^ 28 ∧ ([1, 2, 4].flatMap sumClient.map).length < 2 ^ 31) ∧
    (getJobState (run sumClient (insertionSort natLt) (roundRobin 2 7)
      (startMapReduceJob [1, 2, 4] 2))).stage = MAP_STAGE ∧
    (getJobState (run sumClient (insertionSort natLt) (roundRobin 2 7 ++ roundRobin 2 5)
      (startMapReduceJob [1, 2, 4] 2))).stage = SHUFFLE_STAGE ∧
    (getJobState (run sumClient (insertionSort natLt) (roundRobin 2 7)
      (startMapReduceJob [1, 2, 4] 2))).stage
      ≤ (getJobState (run sumClient (insertionSort natLt) (roundRobin 2 7 ++ roundRobin 2 5)
          (startMapReduceJob [1, 2, 4] 2))).stage :=
  ⟨natLt_strictWeak, insertionSort_sorts natLt natLt_strictWeak, ⟨by decide, by decide⟩,
   by decide!, by decide!,
   (C26_reported_stage_monotone sumClient (insertionSort natLt) natLt_strictWeak
    (insertionSort_sorts natLt natLt_strictWeak) [1, 2, 4] 2 (by decide) (by decide)
    (roundRobin 2 7) (roundRobin 2 5)).2.2.2⟩

end Machine

section Machine
variable {I K V O : Type}

/-- From the first `sem_post` of worker 0 on: a step leaves the job before
that post with the queue `gs`, or inside the part that `ReduceInv` describes
for `gs`. -/
theorem FirstPost_step (client : Client I K V O) (std_sort : List (K × V) → List (K × V))
    (P : List (K × V)) (gs : List (List (K × V))) (hG : gs.length < 2 ^ 31) (tid : Nat)
    (c c' : Job I K V O)
    (hinv : (ShuffleInv client.lt P c ∧ ShuffleWord P c ∧ c.pc 0 = Pc.readyPost 0 ∧
      c.shuffled_vector = gs) ∨ ReduceInv client gs c)
    (htid : tid < c.threads_num) (hstep : Step client std_sort tid c c') :
    (ShuffleInv client.lt P c' ∧ ShuffleWord P c' ∧ c'.pc 0 = Pc.readyPost 0 ∧
      c'.shuffled_vector = gs) ∨ ReduceInv client gs c' := by
  rcases hinv with ⟨hs, hw, hpc0, hq⟩ | hr
  · by_cases h0 : tid = 0
    · subst h0
      right
      cases hstep with
      | post i hpc hi =>
        rw [hpc0] at hpc
        cases hpc
        rw [← hq]
        exact (ReduceInv_first client P c hs hw hpc0 htid).1
      | postDone i hpc hi =>
        exact absurd htid (by
          rw [hpc0] at hpc
          cases hpc
          exact hi)
      | _ => exfalso; simp_all
    · left
      have hwt := hs.others tid (by omega) htid
      rw [Step_of_waiting client std_sort tid c c' hstep hwt h0 hs.sem]
      exact ⟨ShuffleInv_goto_other _ P c tid hs h0, ShuffleWord_goto_other P c tid _ hw h0,
        by rw [goto_pc_of_ne _ _ _ _ (Ne.symm h0)]; exact hpc0, hq⟩
  · exact Or.inr (ReduceInv_step client std_sort gs hG tid c c' hr htid hstep)

theorem heldAt_of_left (p : Pc K V) (h : leftReduce p = true) :
    heldAt p = [] ∧ addingAt p = [] := by
  cases p <;> simp_all [leftReduce, heldAt, addingAt]

theorem JobInv_no_post (client : Client I K V O) (c : Job I K V O) (hinv : JobInv client c)
    (hW : 0 < c.threads_num) (hp : c.posts = 0) : c.reduceCalls = [] := by
  rcases hinv with hm | ⟨P, _, ⟨hs, _⟩ | ⟨gs, _, _, hr⟩ | ⟨_, hs⟩⟩
  · exact hm.calls
  · exact hs.calls
  · exfalso
    have h1 := hr.posts
    have h2 := hr.pcs 0 hW
    have h3 := hr.postBound
    rw [hp] at h1
    cases hpc : c.pc 0 <;> rw [hpc] at h1 h2 <;> simp [postsAt, reducePc] at h1 h2 <;> omega
  · exact hs.calls

set_option maxRecDepth 1000000 in
set_option synthInstance.maxHeartbeats 400000 in
set_option synthInstance.maxSize 4096 in
/-- C28 fails on the code for a job whose map phase emits no intermediate
pair. In the job of one worker on the input `[7]` with a client whose `map`
emits nothing, `shuffle` finds `pairs_num == 0` and returns in front of
`getReadyToReduce`: after seven steps worker 0, the only worker, has left the
loop of `reduce`, the queue is empty, `client.reduce` was not invoked and no
`sem_post` was made, and the progress word still has stage MAP with processed
count 1 and total count 1, the input size, not stage REDUCE with the number of
groups, which is 0.
The rest of the claim holds. In a job of at least one worker (input below
`2 ^ 28` pairs, intermediate pairs below `2 ^ 31`, keys in a strict weak
ordering, `std_sort` sorting), let `c0` be a job state that the workers reach
from `startMapReduceJob` in which worker 0 is about to make its first
`sem_post`, so that `c0.shuffled_vector` is the shuffle-output queue, and let
`c` be a job state reached from `c0`. Then the groups still in the queue, the
groups popped and not yet reduced, and the groups given to `client.reduce` are
together a permutation of the queue of `c0`: `client.reduce` is invoked on
groups of that queue only and on none twice. When all workers have left the
loop of `reduce`, the queue is empty, the groups given to `client.reduce` are a
permutation of the queue of `c0`, and the progress word has stage REDUCE with
its processed count equal to its total count, the number of groups. In every
job state reached before a `sem_post` was made, `client.reduce` was not
invoked.
When the map phase has emitted at least one pair, this covers every run: in
every job state reached from `startMapReduceJob` in which all workers have
left the loop of `reduce`, the queue is empty, the groups given to
`client.reduce` are a permutation of a list `gs` of groups that holds the
intermediate pairs grouped by key, and the progress word has stage REDUCE with
processed count and total count equal to the number of groups of `gs`. -/
theorem C28_reduce_phase :
    ([(7 : Nat)].flatMap silentClient.map = [] ∧
      (∀ tid, tid < 1 → leftReduce ((run silentClient (insertionSort natLt)
        (List.replicate 7 0) (startMapReduceJob [7] 1)).pc tid) = true) ∧
      (run silentClient (insertionSort natLt) (List.replicate 7 0)
        (startMapReduceJob [7] 1)).shuffled_vector = [] ∧
      (run silentClient (insertionSort natLt) (List.replicate 7 0)
        (startMapReduceJob [7] 1)).reduceCalls = [] ∧
      (run silentClient (insertionSort natLt) (List.replicate 7 0)
        (startMapReduceJob [7] 1)).posts = 0 ∧
      get_atomic_stage (run silentClient (insertionSort natLt) (List.replicate 7 0)
        (startMapReduceJob [7] 1)).atomic_counter = MAP_STAGE ∧
      get_atomic_processed_pairs (run silentClient (insertionSort natLt) (List.replicate 7 0)
        (startMapReduceJob [7] 1)).atomic_counter = 1 ∧
      get_atomic_total_num_of_pairs (run silentClient (insertionSort natLt)
        (List.replicate 7 0) (startMapReduceJob [7] 1)).atomic_counter = 1) ∧
    (∀ (client : Client I K V O) (std_sort : List (K × V) → List (K × V)),
      StrictWeak client.lt → Sorts client.lt std_sort → ∀ (input : List I) (W : Nat),
      0 < W → input.length < 2 ^ 28 → (input.flatMap client.map).length < 2 ^ 31 →
      ∀ (s1 s2 : List Nat) (c0 c : Job I K V O),
      c0 = run client std_sort s1 (startMapReduceJob input W) →
      c0.pc 0 = Pc.readyPost 0 → c = run client std_sort s2 c0 →
      (c.shuffled_vector ++ gather W (fun tid => heldAt (c.pc tid)) ++ c.reduceCalls).Perm
        c0.shuffled_vector ∧
      ((∀ tid, tid < W → leftReduce (c.pc tid) = true) →
        c.shuffled_vector = [] ∧ c.reduceCalls.Perm c0.shuffled_vector ∧
        get_atomic_stage c.atomic_counter = REDUCE_STAGE ∧
        processedField c.atomic_counter = c0.shuffled_vector.length ∧
        totalField c.atomic_counter = c0.shuffled_vector.length ∧
        get_atomic_processed_pairs c.atomic_counter
          = get_atomic_total_num_of_pairs c.atomic_counter) ∧
      (∀ schedule : List Nat,
        (run client std_sort schedule (startMapReduceJob input W)).posts = 0 →
        (run client std_sort schedule (startMapReduceJob input W)).reduceCalls = [])) ∧
    (∀ (client : Client I K V O) (std_sort : List (K × V) → List (K × V)),
      StrictWeak client.lt → Sorts client.lt std_sort → ∀ (input : List I) (W : Nat),
      0 < W → input.length < 2 ^ 28 → (input.flatMap client.map).length < 2 ^ 31 →
      input.flatMap client.map ≠ [] → ∀ schedule : List Nat,
      (∀ tid, tid < W → leftReduce
        ((run client std_sort schedule (startMapReduceJob input W)).pc tid) = true) →
      ∃ gs : List (List (K × V)), GroupsOk client.lt gs ∧
        gs.flatten.Perm (input.flatMap client.map) ∧
        (run client std_sort schedule (startMapReduceJob input W)).shuffled_vector = [] ∧
        (run client std_sort schedule (startMapReduceJob input W)).reduceCalls.Perm gs ∧
        get_atomic_stage (run client std_sort schedule
          (startMapReduceJob input W)).atomic_counter = REDUCE_STAGE ∧
        processedField (run client std_sort schedule
          (startMapReduceJob input W)).atomic_counter = gs.length ∧
        totalField (run client std_sort schedule
          (startMapReduceJob input W)).atomic_counter = gs.length ∧
        get_atomic_processed_pairs (run client std_sort schedule
          (startMapReduceJob input W)).atomic_counter
          = get_atomic_total_num_of_pairs (run client std_sort schedule
              (startMapReduceJob input W)).atomic_counter) := by
  refine ⟨by decide!, ?_, ?_⟩
  · intro client std_sort h hsort input W hW hn hP s1 s2 c0 c hc0 hpost hc
    have hinv0 : JobInv client c0 := by
      rw [hc0]
      exact JobInv_run client std_sort h hsort input W hn hP s1
    obtain ⟨hW0, hin0⟩ := run_frame client std_sort s1 (startMapReduceJob input W : Job I K V O)
    rw [← hc0] at hW0 hin0
    have hW0' : c0.threads_num = W := hW0
    have hin0' : c0.context_input_vec = input := hin0
    obtain ⟨P, hd, hs, hw⟩ := JobInv_at_post client c0 hinv0 (by omega) hpost
    have hG : c0.shuffled_vector.length < 2 ^ 31 := by
      have e1 := length_le_flatten_length _ (fun g hg => (hs.groups.1 g hg).1)
      have e2 := hs.perm.length_eq
      have e3 := hd.pairs.length_eq
      rw [List.length_append] at e2
      rw [hin0'] at e3
      omega
    have hrun := (run_induction client std_sort
      (fun a => (ShuffleInv client.lt P a ∧ ShuffleWord P a ∧ a.pc 0 = Pc.readyPost 0 ∧
        a.shuffled_vector = c0.shuffled_vector) ∨ ReduceInv client c0.shuffled_vector a)
      (fun _ _ => True) (fun _ => trivial) (fun _ _ _ _ _ => trivial)
      (fun tid a b hinv htid hS =>
        ⟨FirstPost_step client std_sort P _ hG tid a b hinv htid hS, trivial⟩)
      s2 c0 (Or.inl ⟨hs, hw, hpost, rfl⟩)).1
    have hWc : c.threads_num = W := by
      rw [hc, (run_frame client std_sort s2 c0).1]
      exact hW0'
    rw [← hc] at hrun
    refine ⟨?_, ?_, ?_⟩
    · rcases hrun with ⟨hs', _, hpc', hq'⟩ | hr
      · have hheld : gather W (fun tid => heldAt (c.pc tid)) = [] := by
          apply gather_nil
          intro t ht
          by_cases h0 : t = 0
          · show heldAt (c.pc t) = []
            rw [h0, hpc']
            rfl
          · exact (reducePc_of_waiting t _ h0 (hs'.others t (by omega) (by omega))).2.1
        rw [hheld, hs'.calls, hq', List.append_nil, List.append_nil]
      · have := hr.groups
        rw [hWc] at this
        exact this
    · intro hall
      rcases hrun with ⟨_, _, hpc', _⟩ | hr
      · exfalso
        have := hall 0 hW
        rw [hpc'] at this
        cases this
      · have hq := hr.drained 0 (by omega) (hall 0 hW)
        have hheld : gather c.threads_num (fun tid => heldAt (c.pc tid)) = [] :=
          gather_nil _ _ (fun t ht => (heldAt_of_left _ (hall t (by omega))).1)
        have hadd : gather c.threads_num (fun tid => addingAt (c.pc tid)) = [] :=
          gather_nil _ _ (fun t ht => (heldAt_of_left _ (hall t (by omega))).2)
        have hperm := hr.groups
        rw [hq, hheld, List.nil_append, List.nil_append] at hperm
        obtain ⟨r, hr1, hr2⟩ := hr.word
        rw [hadd, List.length_nil, Nat.add_zero, hperm.length_eq] at hr2
        rw [hr2] at hr1
        obtain ⟨g1, g2, g3, g4, g5⟩ := getters_wordOf 3 c0.shuffled_vector.length
          c0.shuffled_vector.length hG hG
        rw [hr1]
        exact ⟨hq, hperm, g1, g4, g5, by rw [g2, g3]⟩
    · intro schedule hp
      have hj := JobInv_run client std_sort h hsort input W hn hP schedule
      have hWs := (run_frame client std_sort schedule
        (startMapReduceJob input W : Job I K V O)).1
      have hWs' : (run client std_sort schedule (startMapReduceJob input W)).threads_num = W := hWs
      exact JobInv_no_post client _ hj (by omega) hp
  · intro client std_sort h hsort input W hW hn hP hne schedule hall
    have hj := JobInv_run client std_sort h hsort input W hn hP schedule
    obtain ⟨hWs, hins⟩ := run_frame client std_sort schedule
      (startMapReduceJob input W : Job I K V O)
    have hWs' : (run client std_sort schedule (startMapReduceJob input W)).threads_num = W := hWs
    have hins' : (run client std_sort schedule
        (startMapReduceJob input W)).context_input_vec = input := hins
    generalize run client std_sort schedule (startMapReduceJob input W) = c at hj hWs' hins' hall ⊢
    have hl0 := hall 0 hW
    rcases hj with hm | ⟨P, hd, ⟨hs, _⟩ | ⟨gs, hg, hflat, hr⟩ | ⟨hP0, _⟩⟩
    · exfalso
      have h2 := hm.pcs 0 (by omega)
      cases hpc : c.pc 0 <;> rw [hpc] at hl0 h2 <;> simp [mapPc, leftReduce] at hl0 h2
    · exfalso
      have h2 := hs.leader
      cases hpc : c.pc 0 <;> rw [hpc] at hl0 h2 <;> simp [inShuffle, leftReduce] at hl0 h2
    · have hpairs := hd.pairs
      rw [hins'] at hpairs
      have hG : gs.length < 2 ^ 31 := by
        have e1 := length_le_flatten_length _ (fun g hg' => (hg.1 g hg').1)
        have e2 := hflat.length_eq
        have e3 := hpairs.length_eq
        omega
      have hq := hr.drained 0 (by omega) hl0
      have hheld : gather c.threads_num (fun tid => heldAt (c.pc tid)) = [] :=
        gather_nil _ _ (fun t ht => (heldAt_of_left _ (hall t (by omega))).1)
      have hadd : gather c.threads_num (fun tid => addingAt (c.pc tid)) = [] :=
        gather_nil _ _ (fun t ht => (heldAt_of_left _ (hall t (by omega))).2)
      have hperm := hr.groups
      rw [hq, hheld, List.nil_append, List.nil_append] at hperm
      obtain ⟨r, hr1, hr2⟩ := hr.word
      rw [hadd, List.length_nil, Nat.add_zero, hperm.length_eq] at hr2
      rw [hr2] at hr1
      obtain ⟨g1, g2, g3, g4, g5⟩ := getters_wordOf 3 gs.length gs.length hG hG
      rw [hr1]
      exact ⟨gs, hg, hflat.trans hpairs, hq, hperm, g1, g4, g5, by rw [g2, g3]⟩
    · exfalso
      have hpairs := hd.pairs
      rw [hins', hP0] at hpairs
      exact hne (List.Perm.nil_eq hpairs).symm

set_option maxRecDepth 1000000 in
/-- C28 at the job of `sumClient` on `[1, 2, 4]` with two workers: after 22
rounds worker 0 is about to make its first post and the queue holds the groups
`[(2, 2)]` and `[(1, 1), (1, 4)]`; after 10 more rounds both workers have left
the loop of `reduce`, the queue is empty, `client.reduce` was invoked on
`[(1, 1), (1, 4)]` and on `[(2, 2)]`, and the processed field and the total
field of the progress word hold 2. The map phase emits three pairs, and after
32 rounds from the start both workers have left the loop of `reduce`: the
groups given to `client.reduce` are a grouping by key of the three pairs. -/
theorem C28_reduce_phase_witness :
    StrictWeak sumClient.lt ∧ Sorts (V := Nat) sumClient.lt (insertionSort natLt) ∧
    (0 < 2 ∧ [1, 2, 4].length < 2 ^ 28 ∧ ([1, 2, 4].flatMap sumClient.map).length < 2 ^ 31) ∧
    (run sumClient (insertionSort natLt) (roundRobin 2 22) (startMapReduceJob [1, 2, 4] 2)).pc 0
      = Pc.readyPost 0 ∧
    (run sumClient (insertionSort natLt) (roundRobin 2 22)
      (startMapReduceJob [1, 2, 4] 2)).shuffled_vector = [[(2, 2)], [(1, 1), (1, 4)]] ∧
    (∀ tid, tid < 2 → leftReduce ((run sumClient (insertionSort natLt) (roundRobin 2 10)
      (run sumClient (insertionSort natLt) (roundRobin 2 22)
        (startMapReduceJob [1, 2, 4] 2))).pc tid) = true) ∧
    (run sumClient (insertionSort natLt) (roundRobin 2 10)
      (run sumClient (insertionSort natLt) (roundRobin 2 22)
        (startMapReduceJob [1, 2, 4] 2))).reduceCalls = [[(1, 1), (1, 4)], [(2, 2)]] ∧
    (run sumClient (insertionSort natLt) (roundRobin 2 10)
      (run sumClient (insertionSort natLt) (roundRobin 2 22)
        (startMapReduceJob [1, 2, 4] 2))).shuffled_vector = [] ∧
    processedField (run sumClient (insertionSort natLt) (roundRobin 2 10)
      (run sumClient (insertionSort natLt) (roundRobin 2 22)
        (startMapReduceJob [1, 2, 4] 2))).atomic_counter
      = (run sumClient (insertionSort natLt) (roundRobin 2 22)
          (startMapReduceJob [1, 2, 4] 2)).shuffled_vector.length ∧
    [1, 2, 4].flatMap sumClient.map ≠ [] ∧
    (∀ tid, tid < 2 → leftReduce ((run sumClient (insertionSort natLt) (roundRobin 2 32)
      (startMapReduceJob [1, 2, 4] 2)).pc tid) = true) ∧
    ∃ gs : List (List (Nat × Nat)), GroupsOk sumClient.lt gs ∧
      gs.flatten.Perm ([1, 2, 4].flatMap sumClient.map) ∧
      (run sumClient (insertionSort natLt) (roundRobin 2 32)
        (startMapReduceJob [1, 2, 4] 2)).reduceCalls.Perm gs ∧
      totalField (run sumClient (insertionSort natLt) (roundRobin 2 32)
        (startMapReduceJob [1, 2, 4] 2)).atomic_counter = gs.length :=
  have hall32 : ∀ tid, tid < 2 → leftReduce ((run sumClient (insertionSort natLt)
      (roundRobin 2 32) (startMapReduceJob [1, 2, 4] 2)).pc tid) = true := by decide!
  have hall : ∀ tid, tid < 2 → leftReduce ((run sumClient (insertionSort natLt) (roundRobin 2 10)
      (run sumClient (insertionSort natLt) (roundRobin 2 22)
        (startMapReduceJob [1, 2, 4] 2))).pc tid) = true := by decide!
  have hw := (C28_reduce_phase.2.1 sumClient (insertionSort natLt) natLt_strictWeak
    (insertionSort_sorts natLt natLt_strictWeak) [1, 2, 4] 2 (by decide) (by decide) (by decide)
    (roundRobin 2 22) (roundRobin 2 10) _ _ rfl (by decide!) rfl).2.1 hall
  ⟨natLt_strictWeak, insertionSort_sorts natLt natLt_strictWeak,
   ⟨by decide, by decide, by decide⟩, by decide!, by decide!, hall, by decide!, hw.1,
   hw.2.2.2.1, by decide, hall32,
   (C28_reduce_phase.2.2 sumClient (insertionSort natLt) natLt_strictWeak
      (insertionSort_sorts natLt natLt_strictWeak) [1, 2, 4] 2 (by decide) (by decide)
      (by decide) (by decide) (roundRobin 2 32) hall32).imp
      (fun _ hgs => ⟨hgs.1, hgs.2.1, hgs.2.2.2.1, hgs.2.2.2.2.2.2.1⟩)⟩

end Machine

section Machine
variable {I K V O : Type}

/-! ### One worker alone in the loop of `map_sort` -/

theorem step_mapLoop_claims (client : Client I K V O) (std_sort : List (K × V) → List (K × V))
    (c : Job I K V O) (tid k : Nat) (htid : tid < c.threads_num) (hpc : c.pc tid = Pc.mapLoop)
    (hget : get_atomic_processed_pairs c.atomic_counter = (k : Int))
    (hk : k < c.context_input_vec.length) :
    ∃ c', step client std_sort tid c = some c' := by
  unfold step
  rw [if_pos htid]
  simp only [hpc, hget, Int.toNat_natCast]
  rw [if_pos (by exact_mod_cast hk), List.getElem?_eq_getElem hk]
  exact ⟨_, rfl⟩

theorem step_mapUpdate_some (client : Client I K V O) (std_sort : List (K × V) → List (K × V))
    (c : Job I K V O) (tid : Nat) (htid : tid < c.threads_num) (hpc : c.pc tid = Pc.mapUpdate) :
    ∃ c', step client std_sort tid c = some c' := by
  unfold step
  rw [if_pos htid]
  simp only [hpc]
  exact ⟨_, rfl⟩

/-- One turn of the loop of `map_sort` by worker 0 when the 28-bit getter
returns an index inside the input: the call of `client.map` on that index is
recorded and the processed field grows by 1. -/
theorem solo_turn (client : Client I K V O) (std_sort : List (K × V) → List (K × V))
    (c : Job I K V O) (k : Nat) (hW : 0 < c.threads_num) (hpc : c.pc 0 = Pc.mapLoop)
    (hword : c.atomic_counter = wordOf 1 k c.context_input_vec.length)
    (hlo : 2 ^ 28 ≤ c.context_input_vec.length) (hhi : c.context_input_vec.length < 2 ^ 31)
    (hk : k + 1 < 2 ^ 31) :
    ∃ c2, run client std_sort [0, 0] c = c2 ∧ c2.threads_num = c.threads_num ∧
      c2.context_input_vec = c.context_input_vec ∧ c2.pc 0 = Pc.mapLoop ∧
      c2.atomic_counter = wordOf 1 (k + 1) c.context_input_vec.length ∧
      c2.mapCalls = c.mapCalls ++ [(0, k % 2 ^ 28)] := by
  have hget : get_atomic_processed_pairs c.atomic_counter = ((k % 2 ^ 28 : Nat) : Int) := by
    rw [hword]
    exact (getters_wordOf 1 k _ (by omega) hhi).2.1
  have hj : k % 2 ^ 28 < c.context_input_vec.length :=
    lt_of_lt_of_le (Nat.mod_lt _ (by norm_num)) hlo
  obtain ⟨c1, hs1⟩ := step_mapLoop_claims client std_sort c 0 _ hW hpc hget hj
  obtain ⟨_, hS1⟩ := step_Step client std_sort 0 c c1 hs1
  have h1 : c1.threads_num = c.threads_num ∧ c1.context_input_vec = c.context_input_vec ∧
      c1.pc 0 = Pc.mapUpdate ∧ c1.atomic_counter = wordOf 1 (k + 1) c.context_input_vec.length ∧
      c1.mapCalls = c.mapCalls ++ [(0, k % 2 ^ 28)] := by
    cases hS1 with
    | mapClaim pair w hpc' hlt hpair hw =>
      refine ⟨rfl, rfl, goto_pc_self _ _ _, ?_, ?_⟩
      · show w = _
        rw [hw, hword]
        exact set_processed_wordOf_one 1 k _ (by omega) hk hhi
      · show c.mapCalls ++ [(0, (get_atomic_processed_pairs c.atomic_counter).toNat)] = _
        rw [hget, Int.toNat_natCast]
    | mapLeave hpc' hge =>
      exfalso
      rw [hget] at hge
      exact hge (by exact_mod_cast hj)
    | _ => exfalso; simp_all
  obtain ⟨e1, e2, e3, e4, e5⟩ := h1
  obtain ⟨c2, hs2⟩ := step_mapUpdate_some client std_sort c1 0 (by rw [e1]; exact hW) e3
  obtain ⟨_, hS2⟩ := step_Step client std_sort 0 c1 c2 hs2
  refine ⟨c2, by simp only [run, hs1, hs2], ?_⟩
  cases hS2 with
  | mapUpdate st hpc' hst =>
    exact ⟨e1, e2, goto_pc_self _ _ _, e4, e5⟩
  | _ => exfalso; simp_all

/-- Worker 0 alone on an input of at least `2 ^ 28` pairs: after `k` turns of
the loop of `map_sort` it is in the loop still, and its call number `i` of
`client.map` took the input index `i % 2 ^ 28`. -/
theorem solo_map (client : Client I K V O) (std_sort : List (K × V) → List (K × V))
    (input : List I) (W : Nat) (hW : 0 < W) (hlo : 2 ^ 28 ≤ input.length)
    (hhi : input.length < 2 ^ 31) (k : Nat) (hk : k < 2 ^ 31) :
    (run client std_sort (List.replicate (2 * k) 0) (startMapReduceJob input W)).threads_num = W ∧
    (run client std_sort (List.replicate (2 * k) 0)
      (startMapReduceJob input W)).context_input_vec = input ∧
    (run client std_sort (List.replicate (2 * k) 0) (startMapReduceJob input W)).pc 0
      = Pc.mapLoop ∧
    (run client std_sort (List.replicate (2 * k) 0) (startMapReduceJob input W)).atomic_counter
      = wordOf 1 k input.length ∧
    (run client std_sort (List.replicate (2 * k) 0) (startMapReduceJob input W)).mapCalls
      = (List.range k).map (fun i => (0, i % 2 ^ 28)) := by
  induction k with
  | zero =>
    have hs := MapInv_start client input W hhi
    exact ⟨rfl, rfl, rfl, hs.word, rfl⟩
  | succ k ih =>
    obtain ⟨e1, e2, e3, e4, e5⟩ := ih (by omega)
    have hrep : List.replicate (2 * (k + 1)) 0 = List.replicate (2 * k) 0 ++ [0, 0] := by
      rw [show 2 * (k + 1) = 2 * k + 2 by ring, List.replicate_add]
      rfl
    rw [hrep, run_append]
    generalize run client std_sort (List.replicate (2 * k) 0) (startMapReduceJob input W) = c
      at e1 e2 e3 e4 e5 ⊢
    obtain ⟨c2, hc2, f1, f2, f3, f4, f5⟩ := solo_turn client std_sort c k (by rw [e1]; exact hW) e3
      (by rw [e2]; exact e4) (by rw [e2]; exact hlo) (by rw [e2]; exact hhi) hk
    rw [hc2]
    refine ⟨f1.trans e1, f2.trans e2, f3, by rw [f4, e2], ?_⟩
    rw [f5, e5, List.range_succ, List.map_append]
    rfl

end Machine

section Machine
variable {I K V O : Type}

theorem mapPc_of_later (p : Pc K V)
    (h : inShuffle p = true ∨ reducePc 0 p = true ∨ skipPc p = true) : mapPc 0 p = false := by
  cases p <;> simp_all [inShuffle, reducePc, skipPc, mapPc]

/-- C27 fails on the code for inputs of `2 ^ 28` pairs or more: the getter of
the processed count keeps 28 bits (mask `0xfffffff`), not 31. For every input
of at least `2 ^ 28` and fewer than `2 ^ 31` pairs and a job of at least one
worker, worker 0 running alone is still in the loop of `map_sort` after
`2 ^ 28 + 1` turns, and its calls number 0 and number `2 ^ 28` of `client.map`
both took the input index 0: that index is claimed twice. What holds, for
inputs of fewer than `2 ^ 28` pairs (intermediate pairs below `2 ^ 31`, keys in
a strict weak ordering, `std_sort` sorting), in every job state that the
workers reach from `startMapReduceJob`: the calls of `client.map` took the
indices 0, 1, 2, ... in this order, each once, and not more than the input
has; while a worker is in the loop of `map_sort` the progress word has stage
MAP, its processed count is the number of calls made and its total count is
the input size; and when all workers have left the loop, the calls took
exactly the indices of the input, each once, the pairs emitted are those of
the input pairs in order, and the processed count is the input size as long
as worker 0 has not called `shuffle`. -/
theorem C27_map_phase :
    (∀ (client : Client I K V O) (std_sort : List (K × V) → List (K × V)) (input : List I)
      (W : Nat), 0 < W → 2 ^ 28 ≤ input.length → input.length < 2 ^ 31 →
      (run client std_sort (List.replicate (2 * (2 ^ 28 + 1)) 0)
        (startMapReduceJob input W)).pc 0 = Pc.mapLoop ∧
      (run client std_sort (List.replicate (2 * (2 ^ 28 + 1)) 0)
        (startMapReduceJob input W)).mapCalls[0]? = some (0, 0) ∧
      (run client std_sort (List.replicate (2 * (2 ^ 28 + 1)) 0)
        (startMapReduceJob input W)).mapCalls[2 ^ 28]? = some (0, 0)) ∧
    (∀ (client : Client I K V O) (std_sort : List (K × V) → List (K × V)) (input : List I)
      (W : Nat) (schedule : List Nat), StrictWeak client.lt → Sorts client.lt std_sort →
      0 < W → input.length < 2 ^ 28 → (input.flatMap client.map).length < 2 ^ 31 →
      ((run client std_sort schedule (startMapReduceJob input W)).mapCalls.map Prod.snd
          = List.range (run client std_sort schedule (startMapReduceJob input W)).mapCalls.length ∧
        (run client std_sort schedule (startMapReduceJob input W)).mapCalls.length
          ≤ input.length) ∧
      ((∃ tid, tid < W ∧
          inLoop ((run client std_sort schedule (startMapReduceJob input W)).pc tid) = true) →
        get_atomic_stage (run client std_sort schedule
          (startMapReduceJob input W)).atomic_counter = MAP_STAGE ∧
        get_atomic_processed_pairs (run client std_sort schedule
          (startMapReduceJob input W)).atomic_counter
          = ((run client std_sort schedule (startMapReduceJob input W)).mapCalls.length : Int) ∧
        get_atomic_total_num_of_pairs (run client std_sort schedule
          (startMapReduceJob input W)).atomic_counter = (input.length : Int)) ∧
      ((∀ tid, tid < W →
          inLoop ((run client std_sort schedule (startMapReduceJob input W)).pc tid) = false) →
        (run client std_sort schedule (startMapReduceJob input W)).mapCalls.map Prod.snd
          = List.range input.length ∧
        mapped client input (run client std_sort schedule (startMapReduceJob input W)).mapCalls
          = input.flatMap client.map ∧
        (mapPc 0 ((run client std_sort schedule (startMapReduceJob input W)).pc 0) = true →
          get_atomic_processed_pairs (run client std_sort schedule
            (startMapReduceJob input W)).atomic_counter = (input.length : Int)))) := by
  constructor
  · intro client std_sort input W hW hlo hhi
    obtain ⟨_, _, e3, _, e5⟩ := solo_map client std_sort input W hW hlo hhi (2 ^ 28 + 1)
      (by norm_num)
    refine ⟨e3, ?_, ?_⟩
    · rw [e5, List.getElem?_map, List.getElem?_range (by norm_num)]
      rfl
    · rw [e5, List.getElem?_map, List.getElem?_range (by norm_num)]
      show some (0, 2 ^ 28 % 2 ^ 28) = some (0, 0)
      rw [Nat.mod_self]
  · intro client std_sort input W schedule h hsort hW hn hP
    have hinv := JobInv_run client std_sort h hsort input W hn hP schedule
    obtain ⟨hW', hin⟩ := run_frame client std_sort schedule
      (startMapReduceJob input W : Job I K V O)
    generalize run client std_sort schedule (startMapReduceJob input W) = c at hinv hW' hin ⊢
    have hW1 : c.threads_num = W := hW'
    have hin1 : c.context_input_vec = input := hin
    have hn31 : input.length < 2 ^ 31 := by norm_num at hn ⊢; omega
    rcases hinv with hm | ⟨P, hd, hl⟩
    · have hb := hm.bound
      have hword := hm.word
      rw [hin1] at hb hword
      have hk28 : c.mapCalls.length < 2 ^ 28 := by omega
      have hk31 : c.mapCalls.length < 2 ^ 31 := by omega
      refine ⟨⟨hm.indices, hb⟩, fun _ => ?_, fun hall => ?_⟩
      · rw [hword]
        exact ⟨get_atomic_stage_wordOf 1 _ _ hk31 hn31,
          get_atomic_processed_pairs_wordOf 1 _ _ hk28 hn31,
          get_atomic_total_num_of_pairs_wordOf 1 _ _ hk31 hn⟩
      · have hk := hm.left 0 (by omega) (hall 0 hW)
        rw [hin1] at hk
        have hi := hm.indices
        rw [hk] at hi
        refine ⟨hi, mapped_range client input _ hi, fun _ => ?_⟩
        rw [hword, hk]
        exact get_atomic_processed_pairs_wordOf 1 _ _ hn hn31
    · have hi := hd.indices
      rw [hin1] at hi
      have hk : c.mapCalls.length = input.length := by
        have := congrArg List.length hi
        rw [List.length_map, List.length_range] at this
        exact this
      refine ⟨⟨by rw [hk]; exact hi, le_of_eq hk⟩, fun hex => ?_, fun _ => ?_⟩
      · exfalso
        obtain ⟨tid, ht, hin'⟩ := hex
        have := (LaterInv_pc client P c hl tid (by omega)).1
        rw [hin'] at this
        cases this
      · refine ⟨hi, mapped_range client input _ hi, fun hmp => ?_⟩
        exfalso
        have hcls : inShuffle (c.pc 0) = true ∨ reducePc 0 (c.pc 0) = true
            ∨ skipPc (c.pc 0) = true := by
          rcases hl with ⟨hs, _⟩ | ⟨gs, _, _, hr⟩ | ⟨_, hs⟩
          · exact Or.inl hs.leader
          · exact Or.inr (Or.inl (hr.pcs 0 (by omega)))
          · exact Or.inr (Or.inr hs.leader)
        rw [mapPc_of_later _ hcls] at hmp
        cases hmp

set_option maxRecDepth 1000000 in
/-- C27, the part that holds, at the job of `sumClient` on `[1, 2, 4]` with
two workers: after 7 rounds all workers have left the loop of `map_sort`, the
calls of `client.map` took the indices 0, 1, 2, worker 0 the first and the
third, and the pairs emitted are `(1, 1)`, `(2, 2)`, `(1, 4)`. The failing
part at an input of `2 ^ 28` pairs: the call number `2 ^ 28` takes index
0 again. -/
theorem C27_map_phase_witness :
    (run sumClient (insertionSort natLt) (roundRobin 2 7) (startMapReduceJob [1, 2, 4] 2)).mapCalls
      = [(0, 0), (1, 1), (0, 2)] ∧
    (run sumClient (insertionSort natLt) (roundRobin 2 7)
      (startMapReduceJob [1, 2, 4] 2)).mapCalls.map Prod.snd = List.range [1, 2, 4].length ∧
    mapped sumClient [1, 2, 4] (run sumClient (insertionSort natLt) (roundRobin 2 7)
      (startMapReduceJob [1, 2, 4] 2)).mapCalls = [(1, 1), (2, 2), (1, 4)] ∧
    (run sumClient (insertionSort natLt) (List.replicate (2 * (2 ^ 28 + 1)) 0)
      (startMapReduceJob (List.replicate (2 ^ 28) 7) 1)).mapCalls[2 ^ 28]? = some (0, 0) :=
  have hw := (C27_map_phase.2 sumClient (insertionSort natLt) [1, 2, 4] 2 (roundRobin 2 7)
    natLt_strictWeak (insertionSort_sorts natLt natLt_strictWeak) (by decide) (by decide)
    (by decide)).2.2 (by decide!)
  ⟨by decide!, hw.1, hw.2.1,
   (C27_map_phase.1 sumClient (insertionSort natLt) (List.replicate (2 ^ 28) 7) 1 (by decide)
    (le_of_eq (List.length_replicate _ _).symm)
    (by rw [List.length_replicate]; norm_num)).2.2⟩

end Machine

section Machine
variable {I K V O : Type}

/-! ### Groups by key are unique up to the order of their pairs -/

theorem GroupsOk_nil_of_flatten (lt : K → K → Bool) (hs : List (List (K × V)))
    (h : GroupsOk lt hs) (hf : hs.flatten = []) : hs = [] := by
  cases hs with
  | nil => rfl
  | cons g gs =>
    exfalso
    exact (h.1 g (List.mem_cons_self _ _)).1
      (List.flatten_eq_nil_iff.mp hf g (List.mem_cons_self _ _))

/-- Taking one group out of well-formed groups: the pairs of the group are
those with a key equivalent to the key of any of its pairs. -/
theorem GroupsOk_split (lt : K → K → Bool) (l1 l2 : List (List (K × V))) (g : List (K × V))
    (a : K × V) (h : GroupsOk lt (l1 ++ g :: l2)) (ha : a ∈ g) :
    GroupsOk lt (l1 ++ l2) ∧ (∀ y ∈ g, equivKeys lt a.1 y.1 = true) ∧
      (∀ y ∈ (l1 ++ l2).flatten, equivKeys lt a.1 y.1 = false) ∧
      (l1 ++ g :: l2).flatten.Perm (g ++ (l1 ++ l2).flatten) := by
  have hpw := List.pairwise_append.mp h.2
  have hpw2 := List.pairwise_cons.mp hpw.2.1
  refine ⟨⟨?_, ?_⟩, ?_, ?_, ?_⟩
  · intro g' hg'
    apply h.1
    rcases List.mem_append.mp hg' with hg' | hg'
    · exact List.mem_append_left _ hg'
    · exact List.mem_append_right _ (List.mem_cons_of_mem _ hg')
  · exact List.pairwise_append.mpr ⟨hpw.1, hpw2.2,
      fun x hx y hy => hpw.2.2 x hx y (List.mem_cons_of_mem _ hy)⟩
  · intro y hy
    exact (h.1 g (List.mem_append_right _ (List.mem_cons_self _ _))).2 a ha y hy
  · intro y hy
    obtain ⟨g', hg', hy'⟩ := List.mem_flatten.mp hy
    rcases List.mem_append.mp hg' with hg' | hg'
    · have := hpw.2.2 g' hg' g (List.mem_cons_self _ _) y hy' a ha
      by_contra hc
      have hay : equivKeys lt a.1 y.1 = true := by simpa using hc
      rw [equivKeys_symm lt _ _ hay] at this
      cases this
    · exact hpw2.1 g' hg' a ha y hy'
  · rw [List.flatten_append, List.flatten_cons, List.flatten_append]
    have : (l1.flatten ++ (g ++ l2.flatten)).Perm ((g ++ l2.flatten) ++ l1.flatten) :=
      List.perm_append_comm
    refine this.trans ?_
    rw [List.append_assoc]
    exact List.Perm.append_left _ List.perm_append_comm

theorem filter_group (p : K × V → Bool) (g rest : List (K × V)) (hg : ∀ y ∈ g, p y = true)
    (hrest : ∀ y ∈ rest, p y = false) :
    (g ++ rest).filter p = g ∧ (g ++ rest).filter (fun y => !p y) = rest := by
  rw [List.filter_append, List.filter_append]
  have h1 : g.filter p = g := List.filter_eq_self.mpr hg
  have h2 : rest.filter p = [] := List.filter_eq_nil_iff.mpr (fun y hy => by rw [hrest y hy]; simp)
  have h3 : g.filter (fun y => !p y) = [] :=
    List.filter_eq_nil_iff.mpr (fun y hy => by rw [hg y hy]; simp)
  have h4 : rest.filter (fun y => !p y) = rest :=
    List.filter_eq_self.mpr (fun y hy => by rw [hrest y hy]; rfl)
  rw [h1, h2, h3, h4, List.append_nil, List.nil_append]
  exact ⟨rfl, rfl⟩

/-- Two lists of well-formed groups of the same pairs give the same output
pairs, up to order, under a function on groups that does not depend on the
order of the pairs in a group. -/
theorem groups_unique (lt : K → K → Bool) (f : List (K × V) → List O)
    (hf : ∀ g g' : List (K × V), g.Perm g' →
      (∀ a ∈ g, ∀ b ∈ g, equivKeys lt a.1 b.1 = true) → (f g).Perm (f g'))
    (gs hs : List (List (K × V))) (hg : GroupsOk lt gs) (hh : GroupsOk lt hs)
    (hperm : gs.flatten.Perm hs.flatten) : (gs.flatMap f).Perm (hs.flatMap f) := by
  induction gs generalizing hs with
  | nil =>
    have : hs = [] := GroupsOk_nil_of_flatten lt hs hh hperm.symm.eq_nil
    rw [this]
  | cons g gs ih =>
    obtain ⟨a, ha⟩ := List.exists_mem_of_ne_nil _ (hg.1 g (List.mem_cons_self _ _)).1
    have hamem : a ∈ hs.flatten :=
      hperm.subset (by rw [List.flatten_cons]; exact List.mem_append_left _ ha)
    obtain ⟨g', hg', hag'⟩ := List.mem_flatten.mp hamem
    obtain ⟨l1, l2, hsplit⟩ := List.append_of_mem hg'
    subst hsplit
    obtain ⟨k1, k2, k3, k4⟩ := GroupsOk_split lt [] gs g a hg ha
    obtain ⟨m1, m2, m3, m4⟩ := GroupsOk_split lt l1 l2 g' a hh hag'
    simp only [List.nil_append] at k1 k3 k4
    have hp : (g ++ gs.flatten).Perm (g' ++ (l1 ++ l2).flatten) :=
      (k4.symm.trans hperm).trans m4
    have e1 := filter_group (fun y => equivKeys lt a.1 y.1) g gs.flatten k2 k3
    have e2 := filter_group (fun y => equivKeys lt a.1 y.1) g' (l1 ++ l2).flatten m2 m3
    have hgg : g.Perm g' := by
      have := hp.filter (fun y => equivKeys lt a.1 y.1)
      rw [e1.1, e2.1] at this
      exact this
    have hrest : gs.flatten.Perm (l1 ++ l2).flatten := by
      have := hp.filter (fun y => !equivKeys lt a.1 y.1)
      rw [e1.2, e2.2] at this
      exact this
    have ih' := ih (l1 ++ l2) k1 m1 hrest
    have hfg := hf g g' hgg (hg.1 g (List.mem_cons_self _ _)).2
    have hmid : (l1 ++ g' :: l2).Perm (g' :: (l1 ++ l2)) := List.perm_middle
    rw [List.flatMap_cons]
    refine ((hfg.append ih').trans ?_).trans (hmid.flatMap_right f).symm
    rw [List.flatMap_cons]

theorem groupByKeyAux_spec (lt : K → K → Bool) (h : StrictWeak lt) (n : Nat)
    (pairs : List (K × V)) (hn : pairs.length ≤ n) :
    GroupsOk lt (groupByKeyAux lt n pairs) ∧ (groupByKeyAux lt n pairs).flatten.Perm pairs := by
  induction n generalizing pairs with
  | zero =>
    have : pairs = [] := List.eq_nil_of_length_eq_zero (by omega)
    subst this
    exact ⟨⟨by simp [groupByKeyAux], by simp [groupByKeyAux]⟩, by simp [groupByKeyAux]⟩
  | succ n ih =>
    cases pairs with
    | nil => exact ⟨⟨by simp [groupByKeyAux], by simp [groupByKeyAux]⟩, by simp [groupByKeyAux]⟩
    | cons x xs =>
      have hlen : (xs.filter (fun y => !equivKeys lt x.1 y.1)).length ≤ n := by
        have := List.length_filter_le (fun y => !equivKeys lt x.1 y.1) xs
        rw [List.length_cons] at hn
        omega
      obtain ⟨ih1, ih2⟩ := ih _ hlen
      have hfirst : ∀ a ∈ x :: xs.filter (fun y => equivKeys lt x.1 y.1),
          equivKeys lt x.1 a.1 = true := by
        intro a ha
        rcases List.mem_cons.mp ha with ha | ha
        · rw [ha]
          exact equivKeys_refl lt h x.1
        · exact (List.mem_filter.mp ha).2
      show GroupsOk lt ((x :: xs.filter (fun y => equivKeys lt x.1 y.1))
          :: groupByKeyAux lt n (xs.filter (fun y => !equivKeys lt x.1 y.1))) ∧
        ((x :: xs.filter (fun y => equivKeys lt x.1 y.1))
          :: groupByKeyAux lt n (xs.filter (fun y => !equivKeys lt x.1 y.1))).flatten.Perm
          (x :: xs)
      refine ⟨⟨?_, ?_⟩, ?_⟩
      · intro g hg
        rcases List.mem_cons.mp hg with hg | hg
        · rw [hg]
          refine ⟨List.cons_ne_nil _ _, fun a ha b hb => ?_⟩
          exact h.2.2 a.1 x.1 b.1 (equivKeys_symm lt _ _ (hfirst a ha)) (hfirst b hb)
        · exact ih1.1 g hg
      · refine List.pairwise_cons.mpr ⟨?_, ih1.2⟩
        intro g' hg' a ha b hb
        have hb' : b ∈ xs.filter (fun y => !equivKeys lt x.1 y.1) :=
          ih2.subset (List.mem_flatten.mpr ⟨g', hg', hb⟩)
        have hxb : equivKeys lt x.1 b.1 = false := by
          simpa using (List.mem_filter.mp hb').2
        by_contra hc
        have hab : equivKeys lt a.1 b.1 = true := by simpa using hc
        have := h.2.2 x.1 a.1 b.1 (hfirst a ha) hab
        rw [hxb] at this
        cases this
      · rw [List.flatten_cons, List.cons_append]
        exact List.Perm.cons x ((List.Perm.append_left _ ih2).trans
          (List.filter_append_perm _ xs))

theorem groupByKey_spec (lt : K → K → Bool) (h : StrictWeak lt) (pairs : List (K × V)) :
    GroupsOk lt (groupByKey lt pairs) ∧ (groupByKey lt pairs).flatten.Perm pairs :=
  groupByKeyAux_spec lt h pairs.length pairs (Nat.le_refl _)

theorem finished_iff (c : Job I K V O) :
    finished c = true ↔ ∀ t, t < c.threads_num → returned (c.pc t) = true := by
  unfold finished
  rw [List.all_eq_true]
  constructor
  · intro h t ht
    exact h t (List.mem_range.mpr ht)
  · intro h t ht
    exact h t (List.mem_range.mp ht)

theorem classes_of_returned (p : Pc K V) (h : returned p = true) :
    mapPc 0 p = false ∧ inShuffle p = false ∧ leftReduce p = true := by
  cases p <;> simp_all [returned, mapPc, inShuffle, leftReduce]

/-- C29 as amended: for every client whose keys are in a strict weak ordering
and whose `reduce` does not depend on the order of the pairs in a group
(`OrderBlind`), every input of fewer than `2 ^ 28` pairs with fewer than
`2 ^ 31` intermediate pairs, every number `W ≥ 1` of workers, a sorting
`std_sort` and every schedule: when the job is finished, the output vector is
a permutation of the output of the single-threaded reference run, which maps
every input pair, groups the intermediate pairs by key equivalence and reduces
each group once. -/
theorem C29_output_matches_reference (client : Client I K V O)
    (std_sort : List (K × V) → List (K × V)) (h : StrictWeak client.lt)
    (hsort : Sorts client.lt std_sort) (hred : OrderBlind client) (input : List I) (W : Nat)
    (hW : 0 < W) (hn : input.length < 2 ^ 28)
    (hP : (input.flatMap client.map).length < 2 ^ 31) (schedule : List Nat)
    (hfin : finished (run client std_sort schedule (startMapReduceJob input W)) = true) :
    (run client std_sort schedule (startMapReduceJob input W)).context_output_vec.Perm
      (referenceRun client input) := by
  have hinv := JobInv_run client std_sort h hsort input W hn hP schedule
  obtain ⟨hW', hin⟩ := run_frame client std_sort schedule
    (startMapReduceJob input W : Job I K V O)
  generalize run client std_sort schedule (startMapReduceJob input W) = c
    at hinv hW' hin hfin ⊢
  have hW1 : c.threads_num = W := hW'
  have hin1 : c.context_input_vec = input := hin
  have hret := (finished_iff c).mp hfin
  obtain ⟨k1, k2, k3⟩ := classes_of_returned _ (hret 0 (by omega))
  obtain ⟨r1, r2⟩ := groupByKey_spec client.lt h (input.flatMap client.map)
  rcases hinv with hm | ⟨P, hd, ⟨hs, _⟩ | ⟨gs, hg, hperm, hr⟩ | ⟨hnil, hs⟩⟩
  · rw [hm.pcs 0 (by omega)] at k1
    cases k1
  · rw [hs.leader] at k2
    cases k2
  · have hq := hr.drained 0 (by omega) k3
    have hheld : gather c.threads_num (fun tid => heldAt (c.pc tid)) = [] :=
      gather_nil _ _ (fun t ht =>
        (heldAt_of_left _ (classes_of_returned _ (hret t ht)).2.2).1)
    have hcalls := hr.groups
    rw [hq, hheld, List.nil_append, List.nil_append] at hcalls
    rw [hr.output]
    have hpairs := hd.pairs
    rw [hin1] at hpairs
    have e1 : (c.reduceCalls.flatMap client.reduce).Perm (gs.flatMap client.reduce) :=
      hcalls.flatMap_right client.reduce
    have e2 := groups_unique client.lt client.reduce hred gs
      (groupByKey client.lt (input.flatMap client.map)) hg r1
      ((hperm.trans hpairs).trans r2.symm)
    exact e1.trans e2
  · have hpairs := hd.pairs
    rw [hnil, hin1] at hpairs
    have hempty : input.flatMap client.map = [] := hpairs.symm.eq_nil
    rw [hs.out]
    unfold referenceRun
    rw [hempty]
    exact List.Perm.refl _

end Machine

section Machine
variable {I K V O : Type}

theorem natLt_equiv (a b : Nat) (h : equivKeys natLt a b = true) : a = b := by
  simp [equivKeys, natLt] at h
  omega

theorem sumClient_orderBlind : OrderBlind sumClient := by
  intro g g' hp hk
  cases g with
  | nil =>
    rw [hp.symm.eq_nil]
  | cons p ps =>
    cases g' with
    | nil => exact absurd hp.eq_nil (List.cons_ne_nil _ _)
    | cons q qs =>
      have hq : q ∈ p :: ps := hp.symm.subset (List.mem_cons_self _ _)
      have hkey : p.1 = q.1 := natLt_equiv _ _ (hk p (List.mem_cons_self _ _) q hq)
      have hsum : ((p :: ps).map Prod.snd).sum = ((q :: qs).map Prod.snd).sum :=
        (hp.map Prod.snd).sum_eq
      show [(p.1, ((p :: ps).map Prod.snd).sum)].Perm [(q.1, ((q :: qs).map Prod.snd).sum)]
      rw [hkey, hsum]

set_option maxRecDepth 1000000 in
/-- C29, the claim as stated fails: `firstClient` emits the first pair of each
group. On the input `[1, 4]` with two workers both intermediate pairs have the
key `1`. Under the round-robin schedule the finished job holds the output
`[(1, 1)]`, and under the schedule that lets worker 0 map both input pairs
first it holds `[(1, 4)]`, which is not a permutation of the output
`[(1, 1)]` of the reference run. -/
theorem C29_output_depends_on_schedule :
    StrictWeak firstClient.lt ∧ Sorts (V := Nat) firstClient.lt (insertionSort natLt) ∧
    finished (run firstClient (insertionSort natLt) (roundRobin 2 25)
      (startMapReduceJob [1, 4] 2)) = true ∧
    (run firstClient (insertionSort natLt) (roundRobin 2 25)
      (startMapReduceJob [1, 4] 2)).context_output_vec = [(1, 1)] ∧
    finished (run firstClient (insertionSort natLt) ([0, 0, 1, 1, 1, 1, 1, 1] ++ roundRobin 2 23)
      (startMapReduceJob [1, 4] 2)) = true ∧
    (run firstClient (insertionSort natLt) ([0, 0, 1, 1, 1, 1, 1, 1] ++ roundRobin 2 23)
      (startMapReduceJob [1, 4] 2)).context_output_vec = [(1, 4)] ∧
    referenceRun firstClient [1, 4] = [(1, 1)] ∧
    ¬ (run firstClient (insertionSort natLt) ([0, 0, 1, 1, 1, 1, 1, 1] ++ roundRobin 2 23)
      (startMapReduceJob [1, 4] 2)).context_output_vec.Perm (referenceRun firstClient [1, 4]) := by
  have e1 : (run firstClient (insertionSort natLt) ([0, 0, 1, 1, 1, 1, 1, 1] ++ roundRobin 2 23)
      (startMapReduceJob [1, 4] 2)).context_output_vec = [(1, 4)] := by decide!
  have e2 : referenceRun firstClient [1, 4] = [(1, 1)] := by decide!
  refine ⟨natLt_strictWeak, insertionSort_sorts natLt natLt_strictWeak, by decide!, by decide!,
    by decide!, e1, e2, ?_⟩
  rw [e1, e2]
  decide

set_option maxRecDepth 1000000 in
/-- C29 at `sumClient` on the input `[1, 2, 4]` with two workers under the
round-robin schedule: after 32 rounds the job is finished and the output
`[(1, 5), (2, 2)]` is the output of the reference run. -/
theorem C29_output_matches_reference_witness :
    StrictWeak sumClient.lt ∧ Sorts (V := Nat) sumClient.lt (insertionSort natLt) ∧
    OrderBlind sumClient ∧
    (0 < 2 ∧ [1, 2, 4].length < 2 ^ 28 ∧ ([1, 2, 4].flatMap sumClient.map).length < 2 ^ 31) ∧
    finished (run sumClient (insertionSort natLt) (roundRobin 2 32)
      (startMapReduceJob [1, 2, 4] 2)) = true ∧
    (run sumClient (insertionSort natLt) (roundRobin 2 32)
      (startMapReduceJob [1, 2, 4] 2)).context_output_vec = [(1, 5), (2, 2)] ∧
    referenceRun sumClient [1, 2, 4] = [(1, 5), (2, 2)] ∧
    (run sumClient (insertionSort natLt) (roundRobin 2 32)
      (startMapReduceJob [1, 2, 4] 2)).context_output_vec.Perm
      (referenceRun sumClient [1, 2, 4]) :=
  ⟨natLt_strictWeak, insertionSort_sorts natLt natLt_strictWeak, sumClient_orderBlind,
    ⟨by decide, by decide, by decide⟩, by decide!, by decide!, by decide!,
    C29_output_matches_reference sumClient (insertionSort natLt) natLt_strictWeak
      (insertionSort_sorts natLt natLt_strictWeak) sumClient_orderBlind [1, 2, 4] 2 (by decide)
      (by decide) (by decide) (roundRobin 2 32) (by decide!)⟩

end Machine

section Machine
variable {I K V O : Type}

/-! ### The reported percentage (claim C25) -/

theorem percentage_of_counts (p t : Int) :
    FloatVal.div (FloatVal.mul (FloatVal.ofInt 100) (FloatVal.ofInt p)) (FloatVal.ofInt t)
      = if t = 0 then (if p = 0 then FloatVal.nan else FloatVal.inf)
        else FloatVal.num (100 * (p : ℚ) / (t : ℚ)) := by
  unfold FloatVal.ofInt
  simp only [FloatVal.mul, FloatVal.div, Int.cast_eq_zero, Int.cast_ofNat, mul_eq_zero,
    OfNat.ofNat_ne_zero, false_or]

/-- C25 on the code. The refresh `update_stage` sets the percentage to
`100 * processed / total` for the counts that the getters read from the
progress word when the total read is not 0; when it is 0 it sets NaN (for a
processed count of 0) or an infinity, not 0 (the rounding of `float` is left
out). The job that `startMapReduceJob` returns for an empty input vector,
whatever the number of workers, reports the percentage NaN, which is not 0. -/
theorem C25_percentage_of_empty_job :
    (∀ c : Job I K V O,
      (getJobState (update_stage c)).percentage
        = if get_atomic_total_num_of_pairs c.atomic_counter = 0 then
            (if get_atomic_processed_pairs c.atomic_counter = 0 then FloatVal.nan
             else FloatVal.inf)
          else FloatVal.num (100 * (get_atomic_processed_pairs c.atomic_counter : ℚ)
            / (get_atomic_total_num_of_pairs c.atomic_counter : ℚ))) ∧
    (∀ W : Nat,
      (getJobState (startMapReduceJob ([] : List I) W : Job I K V O)).percentage
        = FloatVal.nan) ∧
    FloatVal.nan ≠ FloatVal.num 0 := by
  refine ⟨fun c => percentage_of_counts _ _, fun W => ?_, by decide⟩
  have hword : set_atomic_total_number_of_pairs (set_atomic_stage 0 MAP_STAGE)
      ((([] : List I).length : Nat) : Int) = wordOf 1 0 0 := by
    rw [set_atomic_stage_map]
    exact set_total_wordOf 1 0 0 (by omega) (by norm_num) (by norm_num)
  have hp : get_atomic_processed_pairs (wordOf 1 0 0) = 0 := by
    simpa using get_atomic_processed_pairs_wordOf 1 0 0 (by norm_num) (by norm_num)
  have ht : get_atomic_total_num_of_pairs (wordOf 1 0 0) = 0 := by
    simpa using get_atomic_total_num_of_pairs_wordOf 1 0 0 (by norm_num) (by norm_num)
  show FloatVal.div (FloatVal.mul (FloatVal.ofInt 100) (FloatVal.ofInt
      (get_atomic_processed_pairs (set_atomic_total_number_of_pairs
        (set_atomic_stage 0 MAP_STAGE) ((([] : List I).length : Nat) : Int)))))
    (FloatVal.ofInt (get_atomic_total_num_of_pairs (set_atomic_total_number_of_pairs
        (set_atomic_stage 0 MAP_STAGE) ((([] : List I).length : Nat) : Int)))) = FloatVal.nan
  rw [hword, hp, ht, percentage_of_counts]
  simp

end Machine

section Machine
variable {I K V O : Type}

/-! ### The loop of `shuffle` ends for every irreflexive ordering (claim C39) -/

/-- The key that `findMaxKey` returns is the key at the back of a vector. -/
theorem findMaxKey_back (lt : K → K → Bool) (vecs : List (List (K × V))) (curr : Option K)
    (m : K) (hr : findMaxKey lt vecs curr = some m) :
    curr = some m ∨ ∃ vec ∈ vecs, ∃ b, vec.getLast? = some b ∧ b.1 = m := by
  induction vecs generalizing curr with
  | nil =>
    simp only [findMaxKey] at hr
    exact Or.inl hr
  | cons vec rest ih =>
    unfold findMaxKey at hr
    cases hlast : vec.getLast? with
    | none =>
      rw [hlast] at hr
      rcases ih curr hr with h | ⟨v, hv, b, hb, hbm⟩
      · exact Or.inl h
      · exact Or.inr ⟨v, List.mem_cons_of_mem _ hv, b, hb, hbm⟩
    | some back =>
      rw [hlast] at hr
      have hnew : ∀ cur', findMaxKey lt rest cur' = some m →
          (cur' = some back.1 ∨ cur' = curr) →
          curr = some m ∨ ∃ v ∈ vec :: rest, ∃ b, v.getLast? = some b ∧ b.1 = m := by
        intro cur' hf hc
        rcases ih cur' hf with h | ⟨v, hv, b, hb, hbm⟩
        · rcases hc with hc | hc
          · rw [hc] at h
            exact Or.inr ⟨vec, List.mem_cons_self _ _, back, hlast, Option.some.inj h⟩
          · rw [hc] at h
            exact Or.inl h
        · exact Or.inr ⟨v, List.mem_cons_of_mem _ hv, b, hb, hbm⟩
      cases curr with
      | none => exact hnew _ hr (Or.inl rfl)
      | some c =>
        simp only at hr
        split at hr
        · exact hnew _ hr (Or.inl rfl)
        · exact hnew _ hr (Or.inr rfl)

/-- One call of `getMaxKeyFromAllVectors`, for any ordering: the pairs moved to
`temp_vector` and the pairs left are as many as there were, and a vector whose
back has a key equivalent to the given key loses a pair. -/
theorem getMaxKeyFromAllVectors_count (lt : K → K → Bool) (m : K)
    (vecs : List (List (K × V))) (temp : List (K × V)) :
    ∃ popped : List (K × V),
      (getMaxKeyFromAllVectors lt m vecs temp).2 = temp ++ popped ∧
      popped.length + (getMaxKeyFromAllVectors lt m vecs temp).1.flatten.length
        = vecs.flatten.length ∧
      (∀ vec ∈ vecs, ∀ b, vec.getLast? = some b → equivKeys lt m b.1 = true → popped ≠ []) := by
  induction vecs generalizing temp with
  | nil => exact ⟨[], by simp [getMaxKeyFromAllVectors], by simp [getMaxKeyFromAllVectors],
      by simp⟩
  | cons vec rest ih =>
    obtain ⟨kept, trailing, h1, h2, h3, h4⟩ :=
      popEquivalent_spec lt m vec.length vec temp (Nat.le_refl _)
    obtain ⟨popped, g1, g2, g3⟩ := ih (temp ++ trailing.reverse)
    have hdef : getMaxKeyFromAllVectors lt m (vec :: rest) temp
        = (kept :: (getMaxKeyFromAllVectors lt m rest (temp ++ trailing.reverse)).1,
           (getMaxKeyFromAllVectors lt m rest (temp ++ trailing.reverse)).2) := by
      simp only [getMaxKeyFromAllVectors, h2]
    rw [hdef]
    refine ⟨trailing.reverse ++ popped, ?_, ?_, ?_⟩
    · show (getMaxKeyFromAllVectors lt m rest (temp ++ trailing.reverse)).2 = _
      rw [g1, List.append_assoc]
    · show (trailing.reverse ++ popped).length
        + (kept :: (getMaxKeyFromAllVectors lt m rest (temp ++ trailing.reverse)).1).flatten.length
        = (vec :: rest).flatten.length
      rw [List.flatten_cons, List.flatten_cons, List.length_append, List.length_append,
        List.length_append, List.length_reverse]
      have : vec.length = kept.length + trailing.length := by
        rw [h1, List.length_append]
      omega
    · intro v hv b hb he
      rcases List.mem_cons.mp hv with hv | hv
      · subst hv
        intro hnil
        have htr : trailing = [] := by
          have := List.append_eq_nil.mp hnil
          simpa using this.1
        rw [htr, List.append_nil] at h1
        rw [h1] at hb
        have := h4 b hb
        rw [he] at this
        cases this
      · intro hnil
        have hp : popped = [] := (List.append_eq_nil.mp hnil).2
        exact g3 v hv b hb he hp

/-- One iteration of the loop of `shuffle` for an irreflexive ordering: the
group is not empty, and the group and the pairs left in the vectors are as
many as the pairs before. -/
theorem shuffle_iteration_removes (lt : K → K → Bool) (hirr : ∀ a, lt a a = false)
    (vecs : List (List (K × V))) (m : K) (hmax : findMaxKey lt vecs none = some m) :
    (getMaxKeyFromAllVectors lt m vecs []).2 ≠ [] ∧
    (getMaxKeyFromAllVectors lt m vecs []).2.length
      + (getMaxKeyFromAllVectors lt m vecs []).1.flatten.length = vecs.flatten.length := by
  obtain ⟨popped, g1, g2, g3⟩ := getMaxKeyFromAllVectors_count lt m vecs []
  rw [List.nil_append] at g1
  rw [g1]
  refine ⟨?_, g2⟩
  rcases findMaxKey_back lt vecs none m hmax with h | ⟨vec, hvec, b, hb, hbm⟩
  · cases h
  · refine g3 vec hvec b hb ?_
    rw [hbm]
    unfold equivKeys
    rw [hirr m]
    rfl

/-- The three steps of worker 0 that make up one iteration of the loop of
`shuffle`. -/
theorem shuffle_iteration (client : Client I K V O) (std_sort : List (K × V) → List (K × V))
    (c : Job I K V O) (hW : 0 < c.threads_num) (hpc : c.pc 0 = Pc.shuffleLoop) (m : K)
    (hmax : findMaxKey client.lt c.all_intermediate_vec none = some m) :
    (run client std_sort (List.replicate 3 0) c).threads_num = c.threads_num ∧
    (run client std_sort (List.replicate 3 0) c).pc 0 = Pc.shuffleLoop ∧
    (run client std_sort (List.replicate 3 0) c).all_intermediate_vec
      = (getMaxKeyFromAllVectors client.lt m c.all_intermediate_vec []).1 ∧
    (run client std_sort (List.replicate 3 0) c).shuffled_vector
      = c.shuffled_vector ++ [(getMaxKeyFromAllVectors client.lt m c.all_intermediate_vec []).2] := by
  obtain ⟨c1, hs1⟩ := step_leader_some client std_sort c hW
    (by unfold shuffleRank; rw [hpc]; simp [rankAt])
  obtain ⟨_, hS1⟩ := step_Step client std_sort 0 c c1 hs1
  have h1 : c1.threads_num = c.threads_num ∧
      (∃ size, c1.pc 0 = Pc.shuffleAdd size) ∧
      c1.all_intermediate_vec
        = (getMaxKeyFromAllVectors client.lt m c.all_intermediate_vec []).1 ∧
      c1.shuffled_vector = c.shuffled_vector
        ++ [(getMaxKeyFromAllVectors client.lt m c.all_intermediate_vec []).2] := by
    cases hS1 with
    | shuffleExit hpc' hmax' => rw [hmax] at hmax'; cases hmax'
    | shuffleGroup k hpc' hmax' =>
      rw [hmax] at hmax'
      cases hmax'
      exact ⟨rfl, ⟨_, goto_pc_self _ _ _⟩, rfl, rfl⟩
    | _ => exfalso; simp_all
  obtain ⟨e1, ⟨size, e2⟩, e3, e4⟩ := h1
  obtain ⟨c2, hs2⟩ := step_leader_some client std_sort c1 (by rw [e1]; exact hW)
    (by unfold shuffleRank; rw [e2]; simp [rankAt])
  obtain ⟨_, hS2⟩ := step_Step client std_sort 0 c1 c2 hs2
  have h2 : c2.threads_num = c1.threads_num ∧ c2.pc 0 = Pc.shuffleUpdate ∧
      c2.all_intermediate_vec = c1.all_intermediate_vec ∧
      c2.shuffled_vector = c1.shuffled_vector := by
    cases hS2 with
    | shuffleAdd size' w hpc' hw => exact ⟨rfl, goto_pc_self _ _ _, rfl, rfl⟩
    | _ => exfalso; simp_all
  obtain ⟨f1, f2, f3, f4⟩ := h2
  obtain ⟨c3, hs3⟩ := step_leader_some client std_sort c2 (by rw [f1, e1]; exact hW)
    (by unfold shuffleRank; rw [f2]; simp [rankAt])
  obtain ⟨_, hS3⟩ := step_Step client std_sort 0 c2 c3 hs3
  have h3 : c3.threads_num = c2.threads_num ∧ c3.pc 0 = Pc.shuffleLoop ∧
      c3.all_intermediate_vec = c2.all_intermediate_vec ∧
      c3.shuffled_vector = c2.shuffled_vector := by
    cases hS3 with
    | shuffleUpdate st hpc' hst => exact ⟨rfl, goto_pc_self _ _ _, rfl, rfl⟩
    | _ => exfalso; simp_all
  obtain ⟨k1, k2, k3, k4⟩ := h3
  have hrun : run client std_sort (List.replicate 3 0) c = c3 := by
    simp only [List.replicate, run, hs1, hs2, hs3]
  rw [hrun]
  exact ⟨k1.trans (f1.trans e1), k2, k3.trans (f3.trans e3), k4.trans (f4.trans e4)⟩

/-- The loop of `shuffle` ends after at most as many iterations as there are
pairs in the vectors. -/
theorem shuffle_loop_iterations (client : Client I K V O)
    (std_sort : List (K × V) → List (K × V)) (hirr : ∀ a, client.lt a a = false) (n : Nat)
    (c : Job I K V O) (hn : c.all_intermediate_vec.flatten.length ≤ n)
    (hW : 0 < c.threads_num) (hpc : c.pc 0 = Pc.shuffleLoop) :
    ∃ k, k ≤ c.all_intermediate_vec.flatten.length ∧
      (run client std_sort (List.replicate (3 * k + 1) 0) c).pc 0 = Pc.readyReset ∧
      (run client std_sort (List.replicate (3 * k + 1) 0) c).all_intermediate_vec.flatten = [] ∧
      (run client std_sort (List.replicate (3 * k + 1) 0) c).shuffled_vector.length
        = c.shuffled_vector.length + k := by
  induction n generalizing c with
  | zero =>
    have hnil : c.all_intermediate_vec.flatten = [] := List.eq_nil_of_length_eq_zero (by omega)
    have hmax := (findMaxKey_none client.lt c.all_intermediate_vec).mpr hnil
    obtain ⟨c1, hs1⟩ := step_leader_some client std_sort c hW
      (by unfold shuffleRank; rw [hpc]; simp [rankAt])
    obtain ⟨_, hS1⟩ := step_Step client std_sort 0 c c1 hs1
    refine ⟨0, Nat.zero_le _, ?_⟩
    have hrun : run client std_sort (List.replicate (3 * 0 + 1) 0) c = c1 := by
      simp only [List.replicate, run, hs1]
    rw [hrun]
    cases hS1 with
    | shuffleExit hpc' hmax' => exact ⟨goto_pc_self _ _ _, hnil, rfl⟩
    | shuffleGroup k hpc' hmax' => rw [hmax] at hmax'; cases hmax'
    | _ => exfalso; simp_all
  | succ n ih =>
    cases hmax : findMaxKey client.lt c.all_intermediate_vec none with
    | none =>
      have hnil := (findMaxKey_none client.lt c.all_intermediate_vec).mp hmax
      obtain ⟨c1, hs1⟩ := step_leader_some client std_sort c hW
        (by unfold shuffleRank; rw [hpc]; simp [rankAt])
      obtain ⟨_, hS1⟩ := step_Step client std_sort 0 c c1 hs1
      refine ⟨0, Nat.zero_le _, ?_⟩
      have hrun : run client std_sort (List.replicate (3 * 0 + 1) 0) c = c1 := by
        simp only [List.replicate, run, hs1]
      rw [hrun]
      cases hS1 with
      | shuffleExit hpc' hmax' => exact ⟨goto_pc_self _ _ _, hnil, rfl⟩
      | shuffleGroup k hpc' hmax' => rw [hmax] at hmax'; cases hmax'
      | _ => exfalso; simp_all
    | some m =>
      obtain ⟨i1, i2, i3, i4⟩ := shuffle_iteration client std_sort c hW hpc m hmax
      obtain ⟨r1, r2⟩ := shuffle_iteration_removes client.lt hirr c.all_intermediate_vec m hmax
      have hpos := List.length_pos.mpr r1
      have hlen : (run client std_sort (List.replicate 3 0) c).all_intermediate_vec.flatten.length
          ≤ n := by
        rw [i3]
        omega
      obtain ⟨k, hk, g1, g2, g3⟩ := ih (run client std_sort (List.replicate 3 0) c) hlen
        (by rw [i1]; exact hW) i2
      have hsplit : List.replicate (3 * (k + 1) + 1) 0
          = List.replicate 3 0 ++ List.replicate (3 * k + 1) 0 := by
        rw [← List.replicate_add]
        congr 1
        omega
      refine ⟨k + 1, ?_, ?_, ?_, ?_⟩
      · rw [i3] at hk
        omega
      · rw [hsplit, run_append]
        exact g1
      · rw [hsplit, run_append]
        exact g2
      · rw [hsplit, run_append, g3, i4, List.length_append, List.length_singleton]
        omega

end Machine

section Machine
variable {I K V O : Type}

/-- C39: for every job state in which worker 0 is at the top of the loop of
`shuffle`, whatever the intermediate vectors hold, and every irreflexive key
ordering: an iteration of the loop (three steps of worker 0, taken when
`findMaxKey` finds a key) leaves worker 0 at the top of the loop with fewer
pairs in the vectors than before, and the loop exits after `k` iterations and
the step that finds no key, for some `k` that is at most the number of pairs:
then the vectors are empty and `k` groups have been pushed. -/
theorem C39_shuffle_terminates (client : Client I K V O)
    (std_sort : List (K × V) → List (K × V)) (hirr : ∀ a, client.lt a a = false)
    (c : Job I K V O) (hW : 0 < c.threads_num) (hpc : c.pc 0 = Pc.shuffleLoop) :
    (∀ m, findMaxKey client.lt c.all_intermediate_vec none = some m →
      (run client std_sort (List.replicate 3 0) c).pc 0 = Pc.shuffleLoop ∧
      (run client std_sort (List.replicate 3 0) c).all_intermediate_vec.flatten.length
        < c.all_intermediate_vec.flatten.length) ∧
    ∃ k, k ≤ c.all_intermediate_vec.flatten.length ∧
      (run client std_sort (List.replicate (3 * k + 1) 0) c).pc 0 = Pc.readyReset ∧
      (run client std_sort (List.replicate (3 * k + 1) 0) c).all_intermediate_vec.flatten = [] ∧
      (run client std_sort (List.replicate (3 * k + 1) 0) c).shuffled_vector.length
        = c.shuffled_vector.length + k := by
  refine ⟨fun m hmax => ?_,
    shuffle_loop_iterations client std_sort hirr _ c (Nat.le_refl _) hW hpc⟩
  obtain ⟨_, i2, i3, _⟩ := shuffle_iteration client std_sort c hW hpc m hmax
  obtain ⟨r1, r2⟩ := shuffle_iteration_removes client.lt hirr c.all_intermediate_vec m hmax
  have hpos := List.length_pos.mpr r1
  refine ⟨i2, ?_⟩
  rw [i3]
  omega

set_option maxRecDepth 1000000 in
/-- C39 at the job `atGapLoop`, whose ordering is irreflexive and not
transitive on equivalent keys: the vector holds four pairs, and the loop of
`shuffle` exits after three iterations with the groups `[(5, 5)]`, `[(3, 3)]`
and `[(1, 1), (2, 2)]`. -/
theorem C39_shuffle_terminates_witness :
    (∀ a, gapClient.lt a a = false) ∧ 0 < atGapLoop.threads_num ∧
    atGapLoop.pc 0 = Pc.shuffleLoop ∧
    atGapLoop.all_intermediate_vec = [[(2, 2), (1, 1), (3, 3), (5, 5)]] ∧
    (equivKeys gapLt 1 2 = true ∧ equivKeys gapLt 2 3 = true ∧ equivKeys gapLt 1 3 = false) ∧
    (run gapClient (insertionSort gapLt) (List.replicate (3 * 3 + 1) 0) atGapLoop).pc 0
      = Pc.readyReset ∧
    (run gapClient (insertionSort gapLt) (List.replicate (3 * 3 + 1) 0) atGapLoop).shuffled_vector
      = [[(5, 5)], [(3, 3)], [(1, 1), (2, 2)]] ∧
    ∃ k, k ≤ atGapLoop.all_intermediate_vec.flatten.length ∧
      (run gapClient (insertionSort gapLt) (List.replicate (3 * k + 1) 0) atGapLoop).pc 0
        = Pc.readyReset ∧
      (run gapClient (insertionSort gapLt)
        (List.replicate (3 * k + 1) 0) atGapLoop).all_intermediate_vec.flatten = [] ∧
      (run gapClient (insertionSort gapLt)
        (List.replicate (3 * k + 1) 0) atGapLoop).shuffled_vector.length
        = atGapLoop.shuffled_vector.length + k :=
  ⟨fun a => by simp [gapClient, gapLt], by decide!, by decide!, by decide!,
    ⟨by decide, by decide, by decide⟩, by decide!, by decide!,
    (C39_shuffle_terminates gapClient (insertionSort gapLt)
      (fun a => by simp [gapClient, gapLt]) atGapLoop (by decide!) (by decide!)).2⟩

end Machine

section Machine
variable {I K V O : Type}

/-! ### The order of the keys of the groups (claim C40) -/

theorem lt_of_lt_equiv (lt : K → K → Bool) (h : StrictWeak lt) (x m a : K)
    (hxm : lt x m = true) (hma : equivKeys lt m a = true) : lt x a = true := by
  by_contra hc
  have hxa : lt x a = false := by simpa using hc
  have ham : lt a m = false := ((equivKeys_iff lt m a).mp hma).2
  have := lt_cotrans lt h x a m hxa ham
  rw [hxm] at this
  cases this

theorem held_goto (c : Job I K V O) (tid : Nat) (p q : Pc K V) (hq : c.pc tid = q)
    (hold : heldAt q = []) (hnew : heldAt p = []) :
    heldAt ((goto c tid p).pc 0) = heldAt (c.pc 0) := by
  by_cases h : tid = 0
  · subst h
    rw [goto_pc_self, hnew, hq, hold]
  · rw [goto_pc_of_ne c tid 0 p (Ne.symm h)]

theorem KeyOrder_sub (lt : K → K → Bool) (c c' : Job I K V O)
    (hv : c'.all_intermediate_vec = c.all_intermediate_vec)
    (hsub : (c'.shuffled_vector ++ poppedBy c').Sublist (c.shuffled_vector ++ poppedBy c))
    (hk : KeyOrder lt c) : KeyOrder lt c' := by
  refine ⟨List.Pairwise.sublist hsub hk.queue, ?_⟩
  intro g hg a ha x hx
  rw [hv] at hx
  exact hk.below g (hsub.subset hg) a ha x hx

theorem KeyOrder_of (lt : K → K → Bool) (c c' : Job I K V O)
    (hv : c'.all_intermediate_vec = c.all_intermediate_vec)
    (hq : c'.shuffled_vector = c.shuffled_vector) (hW : c'.threads_num = c.threads_num)
    (hcalls : c'.reduceCalls = c.reduceCalls) (hheld : heldAt (c'.pc 0) = heldAt (c.pc 0))
    (hk : KeyOrder lt c) : KeyOrder lt c' := by
  refine KeyOrder_sub lt c c' hv ?_ hk
  unfold poppedBy
  rw [hq, hW, hcalls, hheld]

theorem KeyOrder_of_empty (lt : K → K → Bool) (c' : Job I K V O)
    (hq : c'.shuffled_vector = []) (hc : c'.reduceCalls = []) (hh : heldAt (c'.pc 0) = []) :
    KeyOrder lt c' := by
  have e : c'.shuffled_vector ++ poppedBy c' = [] := by
    unfold poppedBy
    rw [hq, hc, hh]
    simp
  constructor
  · unfold Descending
    rw [e]
    exact List.Pairwise.nil
  · intro g hg
    rw [e] at hg
    cases hg

theorem JobInv_at_sort (client : Client I K V O) (c : Job I K V O) (tid : Nat)
    (hinv : JobInv client c) (htid : tid < c.threads_num) (hpc : c.pc tid = Pc.sort) :
    c.shuffled_vector = [] ∧ c.reduceCalls = [] ∧ heldAt (c.pc 0) = [] := by
  rcases hinv with hm | ⟨P, _, ⟨hs, _⟩ | ⟨gs, _, _, hr⟩ | ⟨_, hs⟩⟩
  · refine ⟨hm.queue, hm.calls, ?_⟩
    have := hm.pcs 0 (by omega)
    cases hp : c.pc 0 <;> rw [hp] at this <;> simp_all [mapPc, heldAt]
  · exfalso
    by_cases h0 : tid = 0
    · subst h0
      have := hs.leader
      rw [hpc] at this
      cases this
    · have := hs.others tid (by omega) htid
      rw [hpc] at this
      cases this
  · exfalso
    have := hr.pcs tid htid
    rw [hpc] at this
    cases this
  · exfalso
    by_cases h0 : tid = 0
    · subst h0
      have := hs.leader
      rw [hpc] at this
      cases this
    · have := hs.others tid (by omega) htid
      rw [hpc] at this
      cases this

theorem JobInv_at_shuffleLoop (client : Client I K V O) (c : Job I K V O) (tid : Nat)
    (hinv : JobInv client c) (htid : tid < c.threads_num) (hpc : c.pc tid = Pc.shuffleLoop) :
    tid = 0 ∧ (∀ vec ∈ c.all_intermediate_vec, SortedVec client.lt vec) ∧
      c.reduceCalls = [] := by
  rcases hinv with hm | ⟨P, _, ⟨hs, _⟩ | ⟨gs, _, _, hr⟩ | ⟨_, hs⟩⟩
  · exfalso
    have := hm.pcs tid htid
    rw [hpc] at this
    cases this
  · by_cases h0 : tid = 0
    · exact ⟨h0, hs.sorted, hs.calls⟩
    · exfalso
      have := hs.others tid (by omega) htid
      rw [hpc] at this
      cases this
  · exfalso
    have := hr.pcs tid htid
    rw [hpc] at this
    cases this
  · exfalso
    by_cases h0 : tid = 0
    · subst h0
      have := hs.leader
      rw [hpc] at this
      cases this
    · have := hs.others tid (by omega) htid
      rw [hpc] at this
      cases this

/-- Every step keeps the order of the keys. -/
theorem KeyOrder_step (client : Client I K V O) (std_sort : List (K × V) → List (K × V))
    (h : StrictWeak client.lt) (tid : Nat) (c c' : Job I K V O) (hinv : JobInv client c)
    (htid : tid < c.threads_num) (hk : KeyOrder client.lt c)
    (hstep : Step client std_sort tid c c') : KeyOrder client.lt c' := by
  cases hstep with
  | mapClaim pair w hpc hlt hpair hw =>
    exact KeyOrder_of _ c _ rfl rfl rfl rfl (held_goto _ tid _ _ hpc rfl rfl) hk
  | mapLeave hpc hge =>
    exact KeyOrder_of _ c _ rfl rfl rfl rfl (held_goto _ tid _ _ hpc rfl rfl) hk
  | mapUpdate st hpc hst =>
    exact KeyOrder_of _ c _ rfl rfl rfl rfl (held_goto _ tid _ _ hpc rfl rfl) hk
  | sortEmpty hpc hvec =>
    exact KeyOrder_of _ c _ rfl rfl rfl rfl (held_goto _ tid _ _ hpc rfl rfl) hk
  | sortPush hpc hvec =>
    obtain ⟨e1, e2, e3⟩ := JobInv_at_sort client c tid hinv htid hpc
    exact KeyOrder_of_empty _ _ e1 e2 ((held_goto _ tid Pc.barrier _ hpc rfl rfl).trans e3)
  | barrier hpc hall =>
    refine KeyOrder_of _ c _ rfl rfl rfl rfl (held_goto _ tid _ _ hpc rfl ?_) hk
    split <;> rfl
  | shuffleSkip hpc hzero =>
    exact KeyOrder_of _ c _ rfl rfl rfl rfl (held_goto _ tid _ _ hpc rfl rfl) hk
  | shuffleReset hpc hpos =>
    exact KeyOrder_of _ c _ rfl rfl rfl rfl (held_goto _ tid _ _ hpc rfl rfl) hk
  | shuffleSetStage pairs_num w hpc hw =>
    exact KeyOrder_of _ c _ rfl rfl rfl rfl (held_goto _ tid _ _ hpc rfl rfl) hk
  | shuffleSetTotal pairs_num w hpc hw =>
    exact KeyOrder_of _ c _ rfl rfl rfl rfl (held_goto _ tid _ _ hpc rfl rfl) hk
  | shuffleFirstUpdate st hpc hst =>
    exact KeyOrder_of _ c _ rfl rfl rfl rfl (held_goto _ tid _ _ hpc rfl rfl) hk
  | shuffleExit hpc hmax =>
    exact KeyOrder_of _ c _ rfl rfl rfl rfl (held_goto _ tid _ _ hpc rfl rfl) hk
  | shuffleGroup m hpc hmax =>
    obtain ⟨h0, hs, hcalls⟩ := JobInv_at_shuffleLoop client c tid hinv htid hpc
    subst h0
    have hmaxall := findMaxKey_max client.lt h c.all_intermediate_vec hs m hmax
    obtain ⟨popped, g1, g2, g3, g4, _, _⟩ :=
      getMaxKeyFromAllVectors_spec client.lt h m c.all_intermediate_vec [] hs hmaxall
    rw [List.nil_append] at g1
    have hpop : poppedBy c = [] := by
      unfold poppedBy
      rw [hpc, hcalls]
      simp [heldAt]
    have hq := hk.queue
    have hb := hk.below
    rw [hpop, List.append_nil] at hq hb
    have hsubP : ∀ x ∈ popped, x ∈ c.all_intermediate_vec.flatten := fun x hx =>
      g2.subset (List.mem_append_left _ hx)
    have hsubR : ∀ x ∈ (getMaxKeyFromAllVectors client.lt m c.all_intermediate_vec []).1.flatten,
        x ∈ c.all_intermediate_vec.flatten := fun x hx =>
      g2.subset (List.mem_append_right _ hx)
    have hpop' : poppedBy (goto
        { c with
          all_intermediate_vec :=
            (getMaxKeyFromAllVectors client.lt m c.all_intermediate_vec []).1,
          shuffled_vector := c.shuffled_vector
            ++ [(getMaxKeyFromAllVectors client.lt m c.all_intermediate_vec []).2] }
        0
        (Pc.shuffleAdd
          (getMaxKeyFromAllVectors client.lt m c.all_intermediate_vec []).2.length)) = [] := by
      unfold poppedBy
      rw [goto_pc_self]
      show (if c.threads_num = 1 then heldAt (Pc.shuffleAdd _) ++ c.reduceCalls.reverse
        else []) = []
      rw [hcalls]
      simp [heldAt]
    constructor
    · unfold Descending
      rw [hpop', List.append_nil]
      show List.Pairwise _ (c.shuffled_vector
        ++ [(getMaxKeyFromAllVectors client.lt m c.all_intermediate_vec []).2])
      rw [g1]
      refine List.pairwise_append.mpr ⟨hq, List.pairwise_singleton _ _, ?_⟩
      intro g hg g' hg' a ha b hb'
      rw [List.mem_singleton.mp hg'] at hb'
      exact hb g hg a ha b (hsubP b hb')
    · rw [hpop', List.append_nil]
      show ∀ g ∈ c.shuffled_vector
          ++ [(getMaxKeyFromAllVectors client.lt m c.all_intermediate_vec []).2],
        ∀ a ∈ g, ∀ x ∈ (getMaxKeyFromAllVectors client.lt m c.all_intermediate_vec []).1.flatten,
          client.lt x.1 a.1 = true
      intro g hg a ha x hx
      rcases List.mem_append.mp hg with hg | hg
      · exact hb g hg a ha x (hsubR x hx)
      · rw [List.mem_singleton.mp hg, g1] at ha
        have hxm : client.lt x.1 m = true := by
          by_contra hc
          have : equivKeys client.lt m x.1 = true :=
            (equivKeys_iff client.lt m x.1).mpr ⟨hmaxall x (hsubR x hx), by simpa using hc⟩
          rw [g4 x hx] at this
          cases this
        exact lt_of_lt_equiv client.lt h x.1 m a.1 hxm (g3 a ha)
  | shuffleAdd size w hpc hw =>
    exact KeyOrder_of _ c _ rfl rfl rfl rfl (held_goto _ tid _ _ hpc rfl rfl) hk
  | shuffleUpdate st hpc hst =>
    exact KeyOrder_of _ c _ rfl rfl rfl rfl (held_goto _ tid _ _ hpc rfl rfl) hk
  | readyReset hpc =>
    exact KeyOrder_of _ c _ rfl rfl rfl rfl (held_goto _ tid _ _ hpc rfl rfl) hk
  | readySetStage w hpc hw =>
    exact KeyOrder_of _ c _ rfl rfl rfl rfl (held_goto _ tid _ _ hpc rfl rfl) hk
  | readySetTotal w hpc hw =>
    exact KeyOrder_of _ c _ rfl rfl rfl rfl (held_goto _ tid _ _ hpc rfl rfl) hk
  | readyUpdate st hpc hst =>
    exact KeyOrder_of _ c _ rfl rfl rfl rfl (held_goto _ tid _ _ hpc rfl rfl) hk
  | post i hpc hi =>
    exact KeyOrder_of _ c _ rfl rfl rfl rfl (held_goto _ tid _ _ hpc rfl rfl) hk
  | postDone i hpc hi =>
    exact KeyOrder_of _ c _ rfl rfl rfl rfl (held_goto _ tid _ _ hpc rfl rfl) hk
  | semWait hpc hsem =>
    exact KeyOrder_of _ c _ rfl rfl rfl rfl (held_goto _ tid _ _ hpc rfl rfl) hk
  | reducePop g hpc hback =>
    refine KeyOrder_sub _ c _ rfl ?_ hk
    have hsv : c.shuffled_vector.dropLast ++ [g] = c.shuffled_vector :=
      List.dropLast_append_getLast? g hback
    by_cases hW1 : c.threads_num = 1
    · have h0 : tid = 0 := by omega
      subst h0
      have e1 : poppedBy c = c.reduceCalls.reverse := by
        unfold poppedBy
        rw [if_pos hW1, hpc]
        rfl
      have e2 : poppedBy (goto { c with shuffled_vector := c.shuffled_vector.dropLast } 0
          (Pc.reduceCall g)) = [g] ++ c.reduceCalls.reverse := by
        unfold poppedBy
        rw [goto_pc_self]
        exact if_pos hW1
      rw [e1, e2]
      show (c.shuffled_vector.dropLast ++ ([g] ++ c.reduceCalls.reverse)).Sublist _
      rw [← List.append_assoc, hsv]
    · have e1 : poppedBy c = [] := if_neg hW1
      have e2 : poppedBy (goto { c with shuffled_vector := c.shuffled_vector.dropLast } tid
          (Pc.reduceCall g)) = [] := if_neg hW1
      rw [e1, e2, List.append_nil, List.append_nil]
      show c.shuffled_vector.dropLast.Sublist c.shuffled_vector
      exact List.dropLast_sublist _
  | reduceLeave hpc hback =>
    refine KeyOrder_of _ c _ rfl rfl rfl rfl (held_goto _ tid _ _ hpc rfl ?_) hk
    split <;> rfl
  | reduceCall g hpc =>
    refine KeyOrder_sub _ c _ rfl ?_ hk
    by_cases hW1 : c.threads_num = 1
    · have h0 : tid = 0 := by omega
      subst h0
      have e1 : poppedBy c = [g] ++ c.reduceCalls.reverse := by
        unfold poppedBy
        rw [if_pos hW1, hpc]
        rfl
      have e2 : poppedBy (goto
          { c with
            context_output_vec := c.context_output_vec ++ client.reduce g,
            reduceCalls := c.reduceCalls ++ [g] } 0 Pc.reduceAdd)
          = (c.reduceCalls ++ [g]).reverse := by
        unfold poppedBy
        rw [goto_pc_self]
        show (if c.threads_num = 1 then heldAt Pc.reduceAdd ++ (c.reduceCalls ++ [g]).reverse
          else []) = _
        rw [if_pos hW1]
        rfl
      rw [e1, e2, List.reverse_append]
      exact List.Sublist.refl _
    · have e1 : poppedBy c = [] := if_neg hW1
      have e2 : poppedBy (goto
          { c with
            context_output_vec := c.context_output_vec ++ client.reduce g,
            reduceCalls := c.reduceCalls ++ [g] } tid Pc.reduceAdd) = [] := if_neg hW1
      rw [e1, e2]
      exact List.Sublist.refl _
  | reduceAdd w hpc hw =>
    exact KeyOrder_of _ c _ rfl rfl rfl rfl (held_goto _ tid _ _ hpc rfl rfl) hk
  | reduceUpdate st hpc hst =>
    exact KeyOrder_of _ c _ rfl rfl rfl rfl (held_goto _ tid _ _ hpc rfl rfl) hk
  | joinNext i hpc hi hret =>
    exact KeyOrder_of _ c _ rfl rfl rfl rfl (held_goto _ tid _ _ hpc rfl rfl) hk
  | joinDone i hpc hi =>
    exact KeyOrder_of _ c _ rfl rfl rfl rfl (held_goto _ tid _ _ hpc rfl rfl) hk

end Machine

section Machine
variable {I K V O : Type}

theorem KeyOrder_start (lt : K → K → Bool) (input : List I) (W : Nat) :
    KeyOrder lt (startMapReduceJob input W : Job I K V O) :=
  KeyOrder_of_empty lt _ rfl rfl rfl

/-- Every job state that the workers reach from `startMapReduceJob` has
`JobInv` and the order of the keys. -/
theorem KeyOrder_run (client : Client I K V O) (std_sort : List (K × V) → List (K × V))
    (h : StrictWeak client.lt) (hsort : Sorts client.lt std_sort) (input : List I) (W : Nat)
    (hn : input.length < 2 ^ 28) (hP : (input.flatMap client.map).length < 2 ^ 31)
    (schedule : List Nat) :
    JobInv client (run client std_sort schedule (startMapReduceJob input W)) ∧
      KeyOrder client.lt (run client std_sort schedule (startMapReduceJob input W)) := by
  have := run_induction client std_sort
    (fun c => (JobInv client c ∧ c.context_input_vec = input) ∧ KeyOrder client.lt c)
    (fun _ _ => True) (fun _ => trivial) (fun _ _ _ _ _ => trivial)
    (fun tid c c' hinv htid hS => by
      obtain ⟨⟨hj, hin⟩, hk⟩ := hinv
      have hstep := JobInv_step client std_sort h hsort tid c c' (by rw [hin]; exact hn)
        (by rw [hin]; exact hP) hj htid hS
      exact ⟨⟨⟨hstep.1, by rw [(Step_frame client std_sort tid c c' hS).2.1]; exact hin⟩,
        KeyOrder_step client std_sort h tid c c' hj htid hk hS⟩, trivial⟩)
    schedule (startMapReduceJob input W)
    ⟨⟨Or.inl (MapInv_start client input W (by norm_num at hn ⊢; omega)), rfl⟩,
      KeyOrder_start client.lt input W⟩
  exact ⟨this.1.1.1, this.1.2⟩

/-- C40: in every job state that the workers reach from `startMapReduceJob`
(at least one worker, input below `2 ^ 28` pairs, intermediate pairs below
`2 ^ 31`, keys in a strict weak ordering, `std_sort` sorting): when worker 0 is
at the top of the loop of `shuffle`, the key that `findMaxKey` finds is the key
of a pair still in the vectors and no pair still in the vectors has a key above
it; the groups of the shuffle-output queue, in the order in which they were
pushed, are in strictly descending key order; and in a job with a single
worker the groups given to `client.reduce`, in the order of the calls, are in
strictly ascending key order. -/
theorem C40_groups_in_descending_order (client : Client I K V O)
    (std_sort : List (K × V) → List (K × V)) (h : StrictWeak client.lt)
    (hsort : Sorts client.lt std_sort) (input : List I) (W : Nat) (hW : 0 < W)
    (hn : input.length < 2 ^ 28) (hP : (input.flatMap client.map).length < 2 ^ 31)
    (schedule : List Nat) :
    ((run client std_sort schedule (startMapReduceJob input W)).pc 0 = Pc.shuffleLoop →
      ∀ m, findMaxKey client.lt
          (run client std_sort schedule (startMapReduceJob input W)).all_intermediate_vec none
          = some m →
        (∃ x ∈ (run client std_sort schedule
            (startMapReduceJob input W)).all_intermediate_vec.flatten, x.1 = m) ∧
        ∀ x ∈ (run client std_sort schedule
            (startMapReduceJob input W)).all_intermediate_vec.flatten, client.lt m x.1 = false) ∧
    Descending client.lt (run client std_sort schedule (startMapReduceJob input W)).shuffled_vector ∧
    (W = 1 →
      Ascending client.lt (run client std_sort schedule (startMapReduceJob input W)).reduceCalls) := by
  obtain ⟨hinv, hk⟩ := KeyOrder_run client std_sort h hsort input W hn hP schedule
  obtain ⟨hW', _⟩ := run_frame client std_sort schedule
    (startMapReduceJob input W : Job I K V O)
  generalize run client std_sort schedule (startMapReduceJob input W) = c at hinv hk hW' ⊢
  have hW1 : c.threads_num = W := hW'
  refine ⟨fun hpc m hmax => ?_, ?_, fun hone => ?_⟩
  · obtain ⟨_, hs, _⟩ := JobInv_at_shuffleLoop client c 0 hinv (by omega) hpc
    refine ⟨?_, findMaxKey_max client.lt h c.all_intermediate_vec hs m hmax⟩
    rcases findMaxKey_back client.lt c.all_intermediate_vec none m hmax with hc | ⟨vec, hv, b, hb, hbm⟩
    · cases hc
    · exact ⟨b, List.mem_flatten.mpr ⟨vec, hv, mem_of_getLast_eq vec b hb⟩, hbm⟩
  · exact (List.pairwise_append.mp hk.queue).1
  · have hq := (List.pairwise_append.mp hk.queue).2.1
    have hp : poppedBy c = heldAt (c.pc 0) ++ c.reduceCalls.reverse :=
      if_pos (by omega)
    rw [hp] at hq
    have hr := (List.pairwise_append.mp hq).2.1
    have := List.pairwise_reverse.mp hr
    exact this.imp (fun hab a ha b hb => hab b hb a ha)

set_option maxRecDepth 1000000 in
/-- C40 at the job of `sumClient` on `[1, 2, 4, 3]` with one worker: after 18
steps the worker is at the top of the loop of `shuffle`, one group is pushed,
and `findMaxKey` finds the key 1 in the vector `[(0, 3), (1, 4), (1, 1)]`; after
26 steps the queue holds the groups of the keys 2, 1, 0 in this order; after
45 steps the job is finished and `client.reduce` was called on the groups of
the keys 0, 1, 2 in this order. -/
theorem C40_groups_in_descending_order_witness :
    StrictWeak sumClient.lt ∧ Sorts (V := Nat) sumClient.lt (insertionSort natLt) ∧
    (0 < 1 ∧ [1, 2, 4, 3].length < 2 ^ 28 ∧
      ([1, 2, 4, 3].flatMap sumClient.map).length < 2 ^ 31) ∧
    ((run sumClient (insertionSort natLt) (List.replicate 18 0)
        (startMapReduceJob [1, 2, 4, 3] 1)).all_intermediate_vec = [[(0, 3), (1, 4), (1, 1)]] ∧
      ∀ x ∈ (run sumClient (insertionSort natLt) (List.replicate 18 0)
        (startMapReduceJob [1, 2, 4, 3] 1)).all_intermediate_vec.flatten,
        sumClient.lt 1 x.1 = false) ∧
    ((run sumClient (insertionSort natLt) (List.replicate 26 0)
        (startMapReduceJob [1, 2, 4, 3] 1)).shuffled_vector
        = [[(2, 2)], [(1, 1), (1, 4)], [(0, 3)]] ∧
      Descending sumClient.lt (run sumClient (insertionSort natLt) (List.replicate 26 0)
        (startMapReduceJob [1, 2, 4, 3] 1)).shuffled_vector) ∧
    (finished (run sumClient (insertionSort natLt) (List.replicate 45 0)
        (startMapReduceJob [1, 2, 4, 3] 1)) = true ∧
      (run sumClient (insertionSort natLt) (List.replicate 45 0)
        (startMapReduceJob [1, 2, 4, 3] 1)).reduceCalls
        = [[(0, 3)], [(1, 1), (1, 4)], [(2, 2)]] ∧
      Ascending sumClient.lt (run sumClient (insertionSort natLt) (List.replicate 45 0)
        (startMapReduceJob [1, 2, 4, 3] 1)).reduceCalls) :=
  ⟨natLt_strictWeak, insertionSort_sorts natLt natLt_strictWeak,
    ⟨by decide, by decide, by decide⟩,
    ⟨by decide!,
      ((C40_groups_in_descending_order sumClient (insertionSort natLt) natLt_strictWeak
        (insertionSort_sorts natLt natLt_strictWeak) [1, 2, 4, 3] 1 (by decide) (by decide)
        (by decide) (List.replicate 18 0)).1 (by decide!) 1 (by decide!)).2⟩,
    ⟨by decide!,
      (C40_groups_in_descending_order sumClient (insertionSort natLt) natLt_strictWeak
        (insertionSort_sorts natLt natLt_strictWeak) [1, 2, 4, 3] 1 (by decide) (by decide)
        (by decide) (List.replicate 26 0)).2.1⟩,
    ⟨by decide!, by decide!,
      (C40_groups_in_descending_order sumClient (insertionSort natLt) natLt_strictWeak
        (insertionSort_sorts natLt natLt_strictWeak) [1, 2, 4, 3] 1 (by decide) (by decide)
        (by decide) (List.replicate 45 0)).2.2 rfl⟩⟩

end Machine

end MapReduce
